import Mathlib

/-!
# Smart pointers: control blocks, SharedPtr, WeakPtr

A shallow embedding of the shared/weak pointer pair of the repository
(`src/weak/shared.h`, `src/weak/weak.h`, `src/shared-from-this/sw_fwd.h`,
`src/shared-from-this/shared.h`, `src/shared-from-this/weak.h`), followed by
the intrusive pointer (`src/intrusive/intrusive.h`, names under `Intrusive`),
the unique-ownership pointer (`src/unique/unique.h`,
`src/unique/compressed_pair.h`) and the single-counter SharedPtr
(`src/shared/shared.h`, names under `Shared`).

* The heap of control blocks is a list of slots; the index of a slot is the
  address of the block, a slot holding `none` is a block that was deleted.
  `new` always takes a fresh slot.
* A handle is the pair `(block_, ptr_)` of the C++ class; the element type is
  erased, so a converting constructor only differs from the plain one by name.
  Whether a conversion between related element types compiles is kept apart,
  in `Elem.convertible` and `SharedPtr.ctor_move_conv_from`.
* Counters are `size_t`: arithmetic is modulo `SIZE_MOD`.
* An operation returns `none` when the C++ code has undefined behaviour
  (a member call through a null `block_`, or through a deleted block).
* Calls of `ObjectDestructor` and `delete block_` are recorded in a log.
* Objects whose class derives from `EnableSharedFromThis` are kept, by address,
  next to the heap of blocks (`Heap`); the operations that touch their
  `weak_this_` have the suffix `_esft`.
-/

namespace SmartPointers

/-! ## Data model -/

/-- Number of values of `size_t` (a 64-bit target is assumed). -/
def SIZE_MOD : Nat := 2 ^ 64

/-- An object pointer: `nullptr`, the address of an object allocated by the
caller, or the address of the in-place storage of a `ControlBlock2`. -/
inductive Ptr where
  | null
  | obj (a : Nat)
  | storage (b : Nat)
deriving DecidableEq

/-- The two concrete control blocks of `sw_fwd.h`: `ControlBlock1` wraps a
pointer obtained elsewhere, `ControlBlock2` holds the object in place. -/
inductive BlockKind where
  | ControlBlock1 (ptr_ : Ptr)
  | ControlBlock2
deriving DecidableEq

/-- The class `BaseBlock` of `sw_fwd.h` together with the variant it is the
base of. Both counters start at 0. -/
structure BaseBlock where
  counter_shared_ : Nat
  counter_weak_ : Nat
  kind : BlockKind
deriving DecidableEq

/-- What the log records: a call of `ObjectDestructor` on block `b` (with the
object it destroys) and a `delete` of block `b`. -/
inductive Event where
  | ObjectDestructor (b : Nat) (object : Ptr)
  | deleteBlock (b : Nat)
deriving DecidableEq

/-- The heap of control blocks and the log of destructions. -/
structure Mem where
  blocks : List (Option BaseBlock)
  log : List Event
deriving DecidableEq

/-- The class `SharedPtr<T>`: `block_` (`none` is `nullptr`) and `ptr_`. -/
structure SharedPtr where
  block_ : Option Nat
  ptr_ : Ptr
deriving DecidableEq

/-- The class `WeakPtr<T>`: `block_` (`none` is `nullptr`) and `ptr_`. -/
structure WeakPtr where
  block_ : Option Nat
  ptr_ : Ptr
deriving DecidableEq

/-- The only exception of the library. -/
inductive Exn where
  | BadWeakPtr
deriving DecidableEq

/-- Result of an operation that may throw: a value and the heap after it, an
exception together with the heap at the moment of the throw, or undefined
behaviour. -/
inductive Outcome (α : Type) where
  | ok (val : α) (m : Mem)
  | thrown (e : Exn) (m : Mem)
  | undefined
deriving DecidableEq

/-! ## BaseBlock -/

/-- `BaseBlock::IncShared`: `++counter_shared_`. -/
def BaseBlock.IncShared (b : BaseBlock) : BaseBlock :=
  { b with counter_shared_ := (b.counter_shared_ + 1) % SIZE_MOD }

/-- `BaseBlock::DecShared`: `--counter_shared_`, that is the counter minus one
modulo `SIZE_MOD` (0 wraps to `SIZE_MOD - 1`). -/
def BaseBlock.DecShared (b : BaseBlock) : BaseBlock :=
  { b with counter_shared_ := (SIZE_MOD - 1 + b.counter_shared_) % SIZE_MOD }

/-- `BaseBlock::IncWeak`: `++counter_weak_`. -/
def BaseBlock.IncWeak (b : BaseBlock) : BaseBlock :=
  { b with counter_weak_ := (b.counter_weak_ + 1) % SIZE_MOD }

/-- `BaseBlock::DecWeak`: `--counter_weak_`, that is the counter minus one
modulo `SIZE_MOD`. -/
def BaseBlock.DecWeak (b : BaseBlock) : BaseBlock :=
  { b with counter_weak_ := (SIZE_MOD - 1 + b.counter_weak_) % SIZE_MOD }

/-- `BaseBlock::GetShared`. -/
def BaseBlock.GetShared (b : BaseBlock) : Nat := b.counter_shared_

/-- `BaseBlock::GetWeak`. -/
def BaseBlock.GetWeak (b : BaseBlock) : Nat := b.counter_weak_

/-- The object a block destroys in `ObjectDestructor`: `ptr_` for a
`ControlBlock1` (`delete ptr_`), the in-place storage for a `ControlBlock2`
(`Get()->~T()`). -/
def BaseBlock.object (blk : BaseBlock) (b : Nat) : Ptr :=
  match blk.kind with
  | .ControlBlock1 p => p
  | .ControlBlock2 => .storage b

/-! ## Member calls through a `BaseBlock*` -/

/-- The block at address `b`, when it is allocated. -/
def Mem.block (m : Mem) (b : Nat) : Option BaseBlock := m.blocks.getD b none

/-- Read through `block_`: undefined for `nullptr` and for a deleted block. -/
def Mem.deref (m : Mem) (block_ : Option Nat) : Option BaseBlock :=
  match block_ with
  | none => none
  | some b => m.block b

/-- A mutating member call `block_->f()`. -/
def Mem.call (m : Mem) (block_ : Option Nat) (f : BaseBlock → BaseBlock) : Option Mem :=
  match block_ with
  | none => none
  | some b =>
    match m.block b with
    | none => none
    | some blk => some { m with blocks := m.blocks.set b (some (f blk)) }

/-- The call `block_->IncShared()`. -/
def Mem.IncShared (m : Mem) (block_ : Option Nat) : Option Mem := m.call block_ BaseBlock.IncShared

/-- The call `block_->DecShared()`. -/
def Mem.DecShared (m : Mem) (block_ : Option Nat) : Option Mem := m.call block_ BaseBlock.DecShared

/-- The call `block_->IncWeak()`. -/
def Mem.IncWeak (m : Mem) (block_ : Option Nat) : Option Mem := m.call block_ BaseBlock.IncWeak

/-- The call `block_->DecWeak()`. -/
def Mem.DecWeak (m : Mem) (block_ : Option Nat) : Option Mem := m.call block_ BaseBlock.DecWeak

/-- The call `block_->GetShared()`. -/
def Mem.GetShared (m : Mem) (block_ : Option Nat) : Option Nat :=
  (m.deref block_).map BaseBlock.GetShared

/-- The call `block_->GetWeak()`. -/
def Mem.GetWeak (m : Mem) (block_ : Option Nat) : Option Nat :=
  (m.deref block_).map BaseBlock.GetWeak

/-- The virtual call `block_->ObjectDestructor()`; the counters are not
touched, the call is logged. -/
def Mem.ObjectDestructor (m : Mem) (block_ : Option Nat) : Option Mem :=
  match block_ with
  | none => none
  | some b =>
    match m.block b with
    | none => none
    | some blk => some { m with log := m.log ++ [Event.ObjectDestructor b (blk.object b)] }

/-- The statement `delete block_`: the slot becomes free, the deletion is
logged. -/
def Mem.delete (m : Mem) (block_ : Option Nat) : Option Mem :=
  match block_ with
  | none => some m
  | some b =>
    match m.block b with
    | none => none
    | some _ => some { blocks := m.blocks.set b none, log := m.log ++ [Event.deleteBlock b] }

/-- The expression `new ControlBlockN<T>(...)`: a fresh block with both
counters 0; returns its address. -/
def Mem.new (m : Mem) (kind : BlockKind) : Nat × Mem :=
  (m.blocks.length, { m with blocks := m.blocks ++ [some ⟨0, 0, kind⟩] })

/-! ## SharedPtr (`src/weak/shared.h`; `src/shared-from-this/shared.h` for an
element type without the self-reference capability) -/

/-- `SharedPtr::Get`. -/
def SharedPtr.Get (self : SharedPtr) : Ptr := self.ptr_

/-- `SharedPtr::operator bool`: `Get() != nullptr`. -/
def SharedPtr.toBool (self : SharedPtr) : Bool := self.Get != Ptr.null

/-- `SharedPtr::UseCount`: 0 when `!*this`, else `block_->GetShared()`. -/
def SharedPtr.UseCount (m : Mem) (self : SharedPtr) : Option Nat :=
  if !self.toBool then some 0 else m.GetShared self.block_

/-- `SharedPtr()`: both members keep their initialisers. -/
def SharedPtr.ctor_default : SharedPtr := ⟨none, Ptr.null⟩

/-- `SharedPtr(std::nullptr_t)`. -/
def SharedPtr.ctor_nullptr : SharedPtr := ⟨none, Ptr.null⟩

/-- `SharedPtr(T* ptr)` and `SharedPtr(Y* ptr)`: a new `ControlBlock1`,
`IncShared`, store the pointer. -/
def SharedPtr.ctor_ptr (m : Mem) (ptr : Ptr) : Option (SharedPtr × Mem) :=
  let (b, m1) := m.new (BlockKind.ControlBlock1 ptr)
  (m1.IncShared (some b)).map fun m2 => (⟨some b, ptr⟩, m2)

/-- `SharedPtr(const SharedPtr& other)`. -/
def SharedPtr.ctor_copy (m : Mem) (other : SharedPtr) : Option (SharedPtr × Mem) :=
  let self : SharedPtr := ⟨other.block_, other.ptr_⟩
  if self.toBool then (m.IncShared self.block_).map fun m1 => (self, m1)
  else some (self, m)

/-- `SharedPtr::Swap`: returns the new `*this` and the new `other`. -/
def SharedPtr.Swap (self other : SharedPtr) : SharedPtr × SharedPtr :=
  (⟨other.block_, other.ptr_⟩, ⟨self.block_, self.ptr_⟩)

/-- `SharedPtr(SharedPtr&& other)`: `Swap(other)` on a default-initialised
`*this`; returns the new handle and what is left in `other`. -/
def SharedPtr.ctor_move (other : SharedPtr) : SharedPtr × SharedPtr :=
  SharedPtr.Swap ⟨none, Ptr.null⟩ other

/-- `SharedPtr(const SharedPtr<Y>& other)`. -/
def SharedPtr.ctor_copy_conv (m : Mem) (other : SharedPtr) : Option (SharedPtr × Mem) :=
  let self : SharedPtr := ⟨other.block_, other.ptr_⟩
  if self.toBool then (m.IncShared self.block_).map fun m1 => (self, m1)
  else some (self, m)

/-- `SharedPtr(SharedPtr<Y>&& other)`: returns the new handle and what is left
in `other`. -/
def SharedPtr.ctor_move_conv (other : SharedPtr) : SharedPtr × SharedPtr :=
  (⟨other.block_, other.ptr_⟩, ⟨none, Ptr.null⟩)

/-- The aliasing constructor `SharedPtr(const SharedPtr<Y>& other, T* ptr)`. -/
def SharedPtr.ctor_alias (m : Mem) (other : SharedPtr) (ptr : Ptr) : Option (SharedPtr × Mem) :=
  let self : SharedPtr := ⟨other.block_, ptr⟩
  if self.toBool then (m.IncShared self.block_).map fun m1 => (self, m1)
  else some (self, m)

/-- `SharedPtr::~SharedPtr`. -/
def SharedPtr.dtor (m : Mem) (self : SharedPtr) : Option Mem :=
  if !self.toBool then some m
  else
    match m.DecShared self.block_ with
    | none => none
    | some m1 =>
      match m1.GetShared self.block_ with
      | none => none
      | some s =>
        if s = 0 then
          match m1.GetWeak self.block_ with
          | none => none
          | some w =>
            if w = 0 then
              match m1.ObjectDestructor self.block_ with
              | none => none
              | some m2 => m2.delete self.block_
            else
              m1.ObjectDestructor self.block_
        else
          some m1

/-- `operator=(const SharedPtr&)`, also for `SharedPtr<Y>`:
`SharedPtr<T>(other).Swap(*this)`, then the temporary dies. -/
def SharedPtr.assign_copy (m : Mem) (self other : SharedPtr) : Option (SharedPtr × Mem) :=
  match SharedPtr.ctor_copy m other with
  | none => none
  | some (tmp, m1) =>
    let r := SharedPtr.Swap tmp self
    (SharedPtr.dtor m1 r.1).map fun m2 => (r.2, m2)

/-- `operator=(SharedPtr&&)`, also for `SharedPtr<Y>`, for `other` an object
different from `*this`: returns the new `*this`, what is left in `other`, and
the heap. -/
def SharedPtr.assign_move (m : Mem) (self other : SharedPtr) :
    Option (SharedPtr × SharedPtr × Mem) :=
  let t := SharedPtr.ctor_move other
  let r := SharedPtr.Swap t.1 self
  (SharedPtr.dtor m r.1).map fun m1 => (r.2, t.2, m1)

/-- `operator=(SharedPtr&&)` when `other` is `*this` itself: the temporary
takes the pair and leaves `*this` empty, the swap gives it back. -/
def SharedPtr.assign_move_self (m : Mem) (self : SharedPtr) : Option (SharedPtr × Mem) :=
  let t := SharedPtr.ctor_move self
  let r := SharedPtr.Swap t.1 t.2
  (SharedPtr.dtor m r.1).map fun m1 => (r.2, m1)

/-- `SharedPtr::Reset()`: `SharedPtr<T>().Swap(*this)`. -/
def SharedPtr.Reset (m : Mem) (self : SharedPtr) : Option (SharedPtr × Mem) :=
  let r := SharedPtr.Swap SharedPtr.ctor_default self
  (SharedPtr.dtor m r.1).map fun m1 => (r.2, m1)

/-- `SharedPtr::Reset(T* ptr)` and `Reset(Y* ptr)`:
`SharedPtr<T>(ptr).Swap(*this)`. -/
def SharedPtr.Reset_ptr (m : Mem) (self : SharedPtr) (ptr : Ptr) : Option (SharedPtr × Mem) :=
  match SharedPtr.ctor_ptr m ptr with
  | none => none
  | some (tmp, m1) =>
    let r := SharedPtr.Swap tmp self
    (SharedPtr.dtor m1 r.1).map fun m2 => (r.2, m2)

/-- `operator==` of `src/shared-from-this/shared.h`. -/
def SharedPtr.eq (left right : SharedPtr) : Bool := left.Get = right.Get

/-- `MakeShared<T>(args...)`: one `ControlBlock2`, `IncShared`, the pointer is
`block->Get()`. -/
def MakeShared (m : Mem) : Option (SharedPtr × Mem) :=
  let (b, m1) := m.new BlockKind.ControlBlock2
  (m1.IncShared (some b)).map fun m2 => (⟨some b, Ptr.storage b⟩, m2)

/-! ## WeakPtr (`src/weak/weak.h`, `src/shared-from-this/weak.h`) -/

/-- `WeakPtr()`. -/
def WeakPtr.ctor_default : WeakPtr := ⟨none, Ptr.null⟩

/-- `WeakPtr(const WeakPtr& other)`, also for `WeakPtr<Y>`. -/
def WeakPtr.ctor_copy (m : Mem) (other : WeakPtr) : Option (WeakPtr × Mem) :=
  let self : WeakPtr := ⟨other.block_, other.ptr_⟩
  if self.block_ ≠ none then (m.IncWeak self.block_).map fun m1 => (self, m1)
  else some (self, m)

/-- `WeakPtr::Swap`: returns the new `*this` and the new `other`. -/
def WeakPtr.Swap (self other : WeakPtr) : WeakPtr × WeakPtr :=
  (⟨other.block_, other.ptr_⟩, ⟨self.block_, self.ptr_⟩)

/-- `WeakPtr(WeakPtr&& other)`: `Swap(other)` on a default-initialised
`*this`. -/
def WeakPtr.ctor_move (other : WeakPtr) : WeakPtr × WeakPtr :=
  WeakPtr.Swap ⟨none, Ptr.null⟩ other

/-- `WeakPtr(WeakPtr<Y>&& other)` of `src/shared-from-this/weak.h`. -/
def WeakPtr.ctor_move_conv (other : WeakPtr) : WeakPtr × WeakPtr :=
  (⟨other.block_, other.ptr_⟩, ⟨none, Ptr.null⟩)

/-- `WeakPtr(const SharedPtr<T>& other)`, also for `SharedPtr<Y>`. -/
def WeakPtr.ctor_shared (m : Mem) (other : SharedPtr) : Option (WeakPtr × Mem) :=
  let self : WeakPtr := ⟨other.block_, other.ptr_⟩
  if self.block_ ≠ none then (m.IncWeak self.block_).map fun m1 => (self, m1)
  else some (self, m)

/-- `WeakPtr::~WeakPtr`. -/
def WeakPtr.dtor (m : Mem) (self : WeakPtr) : Option Mem :=
  if self.block_ = none then some m
  else
    match m.DecWeak self.block_ with
    | none => none
    | some m1 =>
      match m1.GetShared self.block_, m1.GetWeak self.block_ with
      | some s, some w => if s = 0 ∧ w = 0 then m1.delete self.block_ else some m1
      | _, _ => none

/-- `WeakPtr::operator=(const WeakPtr&)`. -/
def WeakPtr.assign_copy (m : Mem) (self other : WeakPtr) : Option (WeakPtr × Mem) :=
  match WeakPtr.ctor_copy m other with
  | none => none
  | some (tmp, m1) =>
    let r := WeakPtr.Swap tmp self
    (WeakPtr.dtor m1 r.1).map fun m2 => (r.2, m2)

/-- `WeakPtr::operator=(WeakPtr&&)` for `other` an object different from
`*this`. -/
def WeakPtr.assign_move (m : Mem) (self other : WeakPtr) :
    Option (WeakPtr × WeakPtr × Mem) :=
  let t := WeakPtr.ctor_move other
  let r := WeakPtr.Swap t.1 self
  (WeakPtr.dtor m r.1).map fun m1 => (r.2, t.2, m1)

/-- `WeakPtr::operator=(WeakPtr&&)` when `other` is `*this` itself. -/
def WeakPtr.assign_move_self (m : Mem) (self : WeakPtr) : Option (WeakPtr × Mem) :=
  let t := WeakPtr.ctor_move self
  let r := WeakPtr.Swap t.1 t.2
  (WeakPtr.dtor m r.1).map fun m1 => (r.2, m1)

/-- `WeakPtr::Reset`: `WeakPtr().Swap(*this)`. -/
def WeakPtr.Reset (m : Mem) (self : WeakPtr) : Option (WeakPtr × Mem) :=
  let r := WeakPtr.Swap WeakPtr.ctor_default self
  (WeakPtr.dtor m r.1).map fun m1 => (r.2, m1)

/-- `WeakPtr::UseCount`: 0 for a null `block_`, else `block_->GetShared()`. -/
def WeakPtr.UseCount (m : Mem) (self : WeakPtr) : Option Nat :=
  if self.block_ = none then some 0 else m.GetShared self.block_

/-- `WeakPtr::Expired`: `UseCount() == 0`. -/
def WeakPtr.Expired (m : Mem) (self : WeakPtr) : Option Bool :=
  (self.UseCount m).map fun c => decide (c = 0)

/-- The promoting constructor `SharedPtr(const WeakPtr<T>& other)`. -/
def SharedPtr.ctor_weak (m : Mem) (other : WeakPtr) : Outcome SharedPtr :=
  match other.Expired m with
  | none => Outcome.undefined
  | some true => Outcome.thrown Exn.BadWeakPtr m
  | some false =>
    let self : SharedPtr := ⟨other.block_, other.ptr_⟩
    if self.block_ ≠ none then
      match m.IncShared self.block_ with
      | none => Outcome.undefined
      | some m1 => Outcome.ok self m1
    else Outcome.ok self m

/-- `WeakPtr::Lock`: `Expired() ? SharedPtr<T>() : SharedPtr<T>(*this)`. -/
def WeakPtr.Lock (m : Mem) (self : WeakPtr) : Outcome SharedPtr :=
  match self.Expired m with
  | none => Outcome.undefined
  | some true => Outcome.ok SharedPtr.ctor_default m
  | some false => SharedPtr.ctor_weak m self

/-! ## EnableSharedFromThis (`src/shared-from-this/shared.h`) -/

/-- The class `EnableSharedFromThis<T>`: the base sub-object of an object with
the self-reference capability; its only member is `weak_this_`. -/
structure EnableSharedFromThis where
  weak_this_ : WeakPtr
deriving DecidableEq

/-- The state of the base sub-object right after the object was constructed
and before any `SharedPtr` took it: `weak_this_` is default-initialised. -/
def EnableSharedFromThis.fresh : EnableSharedFromThis := ⟨WeakPtr.ctor_default⟩

/-- `EnableSharedFromThis::SharedFromThis`: `return weak_this_.Lock();`. -/
def EnableSharedFromThis.SharedFromThis (m : Mem) (self : EnableSharedFromThis) :
    Outcome SharedPtr :=
  self.weak_this_.Lock m

/-! ## Programs over handles

A program state is the heap together with the handle variables of the
program. A variable is a slot; a slot holding `none` is a variable whose
destructor has run. A program is a list of operations, each naming the slots
it works on; a constructor puts the new handle in a fresh slot at the end. -/

/-- The heap and the handle variables. -/
structure State where
  mem : Mem
  shared : List (Option SharedPtr)
  weak : List (Option WeakPtr)
deriving DecidableEq

/-- The state of a program that has not created anything yet. -/
def State.init : State := ⟨⟨[], []⟩, [], []⟩

/-- The live `SharedPtr` in slot `i`. -/
def State.sharedAt (s : State) (i : Nat) : Option SharedPtr := s.shared.getD i none

/-- The live `WeakPtr` in slot `i`. -/
def State.weakAt (s : State) (i : Nat) : Option WeakPtr := s.weak.getD i none

/-- The public operations of `SharedPtr` and `WeakPtr`. -/
inductive Op where
  | shared_default
  | shared_nullptr
  | shared_ptr (p : Ptr)
  | make_shared
  | shared_copy (j : Nat)
  | shared_move (j : Nat)
  | shared_copy_conv (j : Nat)
  | shared_move_conv (j : Nat)
  | shared_alias (j : Nat) (p : Ptr)
  | shared_weak (w : Nat)
  | shared_assign_copy (i j : Nat)
  | shared_assign_move (i j : Nat)
  | shared_reset (i : Nat)
  | shared_reset_ptr (i : Nat) (p : Ptr)
  | shared_swap (i j : Nat)
  | shared_dtor (i : Nat)
  | weak_default
  | weak_copy (j : Nat)
  | weak_move (j : Nat)
  | weak_move_conv (j : Nat)
  | weak_shared (j : Nat)
  | weak_assign_copy (i j : Nat)
  | weak_assign_move (i j : Nat)
  | weak_reset (i : Nat)
  | weak_swap (i j : Nat)
  | weak_dtor (i : Nat)
  | weak_lock (w : Nat)
deriving DecidableEq

/-- Put a newly constructed `SharedPtr` in a fresh slot. -/
def State.pushShared (s : State) (h : SharedPtr) (m : Mem) : State :=
  ⟨m, s.shared ++ [some h], s.weak⟩

/-- Put a newly constructed `WeakPtr` in a fresh slot. -/
def State.pushWeak (s : State) (h : WeakPtr) (m : Mem) : State :=
  ⟨m, s.shared, s.weak ++ [some h]⟩

/-- One operation. The result is `none` when the operation names a slot that
holds no live handle or when the C++ code has undefined behaviour. A
`BadWeakPtr` thrown by the promoting constructor is caught by the program: no
handle is created and the heap is the one at the throw. -/
def step (s : State) : Op → Option State
  | .shared_default => some (s.pushShared SharedPtr.ctor_default s.mem)
  | .shared_nullptr => some (s.pushShared SharedPtr.ctor_nullptr s.mem)
  | .shared_ptr p =>
    match SharedPtr.ctor_ptr s.mem p with
    | none => none
    | some (h, m1) => some (s.pushShared h m1)
  | .make_shared =>
    match MakeShared s.mem with
    | none => none
    | some (h, m1) => some (s.pushShared h m1)
  | .shared_copy j =>
    match s.sharedAt j with
    | none => none
    | some other =>
      match SharedPtr.ctor_copy s.mem other with
      | none => none
      | some (h, m1) => some (s.pushShared h m1)
  | .shared_move j =>
    match s.sharedAt j with
    | none => none
    | some other =>
      let r := SharedPtr.ctor_move other
      some ⟨s.mem, s.shared.set j (some r.2) ++ [some r.1], s.weak⟩
  | .shared_copy_conv j =>
    match s.sharedAt j with
    | none => none
    | some other =>
      match SharedPtr.ctor_copy_conv s.mem other with
      | none => none
      | some (h, m1) => some (s.pushShared h m1)
  | .shared_move_conv j =>
    match s.sharedAt j with
    | none => none
    | some other =>
      let r := SharedPtr.ctor_move_conv other
      some ⟨s.mem, s.shared.set j (some r.2) ++ [some r.1], s.weak⟩
  | .shared_alias j p =>
    match s.sharedAt j with
    | none => none
    | some other =>
      match SharedPtr.ctor_alias s.mem other p with
      | none => none
      | some (h, m1) => some (s.pushShared h m1)
  | .shared_weak w =>
    match s.weakAt w with
    | none => none
    | some other =>
      match SharedPtr.ctor_weak s.mem other with
      | .undefined => none
      | .thrown _ m1 => some ⟨m1, s.shared, s.weak⟩
      | .ok h m1 => some (s.pushShared h m1)
  | .shared_assign_copy i j =>
    match s.sharedAt i, s.sharedAt j with
    | some self, some other =>
      match SharedPtr.assign_copy s.mem self other with
      | none => none
      | some (self1, m1) => some ⟨m1, s.shared.set i (some self1), s.weak⟩
    | _, _ => none
  | .shared_assign_move i j =>
    match s.sharedAt i, s.sharedAt j with
    | some self, some other =>
      if i = j then
        match SharedPtr.assign_move_self s.mem self with
        | none => none
        | some (self1, m1) => some ⟨m1, s.shared.set i (some self1), s.weak⟩
      else
        match SharedPtr.assign_move s.mem self other with
        | none => none
        | some (self1, other1, m1) =>
          some ⟨m1, (s.shared.set j (some other1)).set i (some self1), s.weak⟩
    | _, _ => none
  | .shared_reset i =>
    match s.sharedAt i with
    | none => none
    | some self =>
      match SharedPtr.Reset s.mem self with
      | none => none
      | some (self1, m1) => some ⟨m1, s.shared.set i (some self1), s.weak⟩
  | .shared_reset_ptr i p =>
    match s.sharedAt i with
    | none => none
    | some self =>
      match SharedPtr.Reset_ptr s.mem self p with
      | none => none
      | some (self1, m1) => some ⟨m1, s.shared.set i (some self1), s.weak⟩
  | .shared_swap i j =>
    match s.sharedAt i, s.sharedAt j with
    | some self, some other =>
      let r := SharedPtr.Swap self other
      some ⟨s.mem, (s.shared.set i (some r.1)).set j (some r.2), s.weak⟩
    | _, _ => none
  | .shared_dtor i =>
    match s.sharedAt i with
    | none => none
    | some self =>
      match SharedPtr.dtor s.mem self with
      | none => none
      | some m1 => some ⟨m1, s.shared.set i none, s.weak⟩
  | .weak_default => some (s.pushWeak WeakPtr.ctor_default s.mem)
  | .weak_copy j =>
    match s.weakAt j with
    | none => none
    | some other =>
      match WeakPtr.ctor_copy s.mem other with
      | none => none
      | some (h, m1) => some (s.pushWeak h m1)
  | .weak_move j =>
    match s.weakAt j with
    | none => none
    | some other =>
      let r := WeakPtr.ctor_move other
      some ⟨s.mem, s.shared, s.weak.set j (some r.2) ++ [some r.1]⟩
  | .weak_move_conv j =>
    match s.weakAt j with
    | none => none
    | some other =>
      let r := WeakPtr.ctor_move_conv other
      some ⟨s.mem, s.shared, s.weak.set j (some r.2) ++ [some r.1]⟩
  | .weak_shared j =>
    match s.sharedAt j with
    | none => none
    | some other =>
      match WeakPtr.ctor_shared s.mem other with
      | none => none
      | some (h, m1) => some (s.pushWeak h m1)
  | .weak_assign_copy i j =>
    match s.weakAt i, s.weakAt j with
    | some self, some other =>
      match WeakPtr.assign_copy s.mem self other with
      | none => none
      | some (self1, m1) => some ⟨m1, s.shared, s.weak.set i (some self1)⟩
    | _, _ => none
  | .weak_assign_move i j =>
    match s.weakAt i, s.weakAt j with
    | some self, some other =>
      if i = j then
        match WeakPtr.assign_move_self s.mem self with
        | none => none
        | some (self1, m1) => some ⟨m1, s.shared, s.weak.set i (some self1)⟩
      else
        match WeakPtr.assign_move s.mem self other with
        | none => none
        | some (self1, other1, m1) =>
          some ⟨m1, s.shared, (s.weak.set j (some other1)).set i (some self1)⟩
    | _, _ => none
  | .weak_reset i =>
    match s.weakAt i with
    | none => none
    | some self =>
      match WeakPtr.Reset s.mem self with
      | none => none
      | some (self1, m1) => some ⟨m1, s.shared, s.weak.set i (some self1)⟩
  | .weak_swap i j =>
    match s.weakAt i, s.weakAt j with
    | some self, some other =>
      let r := WeakPtr.Swap self other
      some ⟨s.mem, s.shared, (s.weak.set i (some r.1)).set j (some r.2)⟩
    | _, _ => none
  | .weak_dtor i =>
    match s.weakAt i with
    | none => none
    | some self =>
      match WeakPtr.dtor s.mem self with
      | none => none
      | some m1 => some ⟨m1, s.shared, s.weak.set i none⟩
  | .weak_lock w =>
    match s.weakAt w with
    | none => none
    | some self =>
      match WeakPtr.Lock s.mem self with
      | .undefined => none
      | .thrown _ m1 => some ⟨m1, s.shared, s.weak⟩
      | .ok h m1 => some (s.pushShared h m1)

/-- Run a program from a state. -/
def run : List Op → State → Option State
  | [], s => some s
  | op :: ops, s =>
    match step s op with
    | none => none
    | some s1 => run ops s1

/-- The `ObjectDestructor` calls on block `b` recorded in a log. -/
def destructions (lg : List Event) (b : Nat) : List Event :=
  lg.filter fun e => match e with
    | .ObjectDestructor b1 _ => decide (b1 = b)
    | .deleteBlock _ => false

/-- The `delete` statements on block `b` recorded in a log. -/
def deletions (lg : List Event) (b : Nat) : List Event :=
  lg.filter fun e => match e with
    | .ObjectDestructor _ _ => false
    | .deleteBlock b1 => decide (b1 = b)

/-! ## Objects with the self-reference capability

`src/shared-from-this/shared.h` for an element type that derives from
`EnableSharedFromThis`: the constructors end with `ptr_->weak_this_ = *this;`,
and the destructor of the object destroys its member `weak_this_`. -/

/-- The heap of control blocks together with the live objects that have the
capability: `objects p` is the `EnableSharedFromThis` base of the object at
address `p`, `none` when no such object lives there. -/
structure Heap where
  mem : Mem
  objects : Ptr → Option EnableSharedFromThis

/-- The heap after the base sub-object at `p` got the state `o` (`none`: the
object is gone). -/
def Heap.setObject (m : Mem) (objects : Ptr → Option EnableSharedFromThis) (p : Ptr)
    (o : Option EnableSharedFromThis) : Heap :=
  ⟨m, fun q => if q = p then o else objects q⟩

/-- The statement `ptr_->weak_this_ = *this;`: a temporary `WeakPtr<T>(*this)`
is move-assigned to the member, then the temporary dies. Undefined when
`ptr_` is null or points to no live object with the capability. -/
def SharedPtr.install (h : Heap) (self : SharedPtr) : Option Heap :=
  if self.ptr_ = Ptr.null then none
  else
    match h.objects self.ptr_ with
    | none => none
    | some o =>
      match WeakPtr.ctor_shared h.mem self with
      | none => none
      | some (tmp, m1) =>
        match WeakPtr.assign_move m1 o.weak_this_ tmp with
        | none => none
        | some (wt, tmp1, m2) =>
          (WeakPtr.dtor m2 tmp1).map fun m3 =>
            Heap.setObject m3 h.objects self.ptr_ (some ⟨wt⟩)

/-- `SharedPtr(T* ptr)` and `SharedPtr(Y* ptr)` for a pointee with the
capability. -/
def SharedPtr.ctor_ptr_esft (h : Heap) (ptr : Ptr) : Option (SharedPtr × Heap) :=
  match SharedPtr.ctor_ptr h.mem ptr with
  | none => none
  | some (self, m1) => (SharedPtr.install ⟨m1, h.objects⟩ self).map fun h1 => (self, h1)

/-- `MakeShared<T>(args...)` for `T` with the capability: `new ControlBlock2`
constructs the object in the storage of the block, with a default-initialised
`weak_this_`; then `IncShared`, the pointer, and
`shared.ptr_->weak_this_ = shared;`. The local `shared` is returned in place;
when `return shared;` runs the move constructor instead, the result is the
same (`MakeShared_esft_return_by_move`). -/
def MakeShared_esft (h : Heap) : Option (SharedPtr × Heap) :=
  match MakeShared h.mem with
  | none => none
  | some (shared, m1) =>
    (SharedPtr.install
      (Heap.setObject m1 h.objects shared.ptr_ (some EnableSharedFromThis.fresh)) shared).map
      fun h1 => (shared, h1)

/-- `SharedPtr(SharedPtr&& other)` for a pointee with the capability:
`Swap(other)`, then `ptr_->weak_this_ = *this;`. Returns the new handle, what
is left in `other`, and the heap. -/
def SharedPtr.ctor_move_esft (h : Heap) (other : SharedPtr) :
    Option (SharedPtr × SharedPtr × Heap) :=
  let r := SharedPtr.ctor_move other
  (SharedPtr.install h r.1).map fun h1 => (r.1, r.2, h1)

/-- The virtual call `block_->ObjectDestructor()` on a heap with objects:
`delete ptr_` or `Get()->~T()` runs the destructor of the object; for an
object with the capability this destroys its `weak_this_` (`~WeakPtr`). -/
def Heap.ObjectDestructor (h : Heap) (block_ : Option Nat) : Option Heap :=
  match block_ with
  | none => none
  | some b =>
    match h.mem.block b with
    | none => none
    | some blk =>
      let m1 : Mem := ⟨h.mem.blocks, h.mem.log ++ [Event.ObjectDestructor b (blk.object b)]⟩
      match h.objects (blk.object b) with
      | none => some ⟨m1, h.objects⟩
      | some o =>
        (WeakPtr.dtor m1 o.weak_this_).map fun m2 =>
          Heap.setObject m2 h.objects (blk.object b) none

/-- `SharedPtr::~SharedPtr` on a heap with objects. -/
def SharedPtr.dtor_esft (h : Heap) (self : SharedPtr) : Option Heap :=
  if !self.toBool then some h
  else
    match h.mem.DecShared self.block_ with
    | none => none
    | some m1 =>
      match m1.GetShared self.block_ with
      | none => none
      | some s =>
        if s = 0 then
          match m1.GetWeak self.block_ with
          | none => none
          | some w =>
            if w = 0 then
              match Heap.ObjectDestructor ⟨m1, h.objects⟩ self.block_ with
              | none => none
              | some h2 => (h2.mem.delete self.block_).map fun m3 => ⟨m3, h2.objects⟩
            else
              Heap.ObjectDestructor ⟨m1, h.objects⟩ self.block_
        else
          some ⟨m1, h.objects⟩

/-- `SharedPtr(const SharedPtr& other)` for a pointee with the capability: the
copy, then `ptr_->weak_this_ = *this;`, with no test of `ptr_`. -/
def SharedPtr.ctor_copy_esft (h : Heap) (other : SharedPtr) : Option (SharedPtr × Heap) :=
  match SharedPtr.ctor_copy h.mem other with
  | none => none
  | some (self, m1) => (SharedPtr.install ⟨m1, h.objects⟩ self).map fun h1 => (self, h1)

/-- `SharedPtr(const SharedPtr<Y>& other)` for `Y` with the capability. -/
def SharedPtr.ctor_copy_conv_esft (h : Heap) (other : SharedPtr) : Option (SharedPtr × Heap) :=
  match SharedPtr.ctor_copy_conv h.mem other with
  | none => none
  | some (self, m1) => (SharedPtr.install ⟨m1, h.objects⟩ self).map fun h1 => (self, h1)

/-- `SharedPtr(SharedPtr<Y>&& other)` for `Y` with the capability. Returns the
new handle, what is left in `other`, and the heap. -/
def SharedPtr.ctor_move_conv_esft (h : Heap) (other : SharedPtr) :
    Option (SharedPtr × SharedPtr × Heap) :=
  let r := SharedPtr.ctor_move_conv other
  (SharedPtr.install h r.1).map fun h1 => (r.1, r.2, h1)

/-- `operator=(const SharedPtr&)` for a pointee with the capability:
`SharedPtr<T>(other).Swap(*this)`, then the temporary dies. -/
def SharedPtr.assign_copy_esft (h : Heap) (self other : SharedPtr) :
    Option (SharedPtr × Heap) :=
  match SharedPtr.ctor_copy_esft h other with
  | none => none
  | some (tmp, h1) =>
    let r := SharedPtr.Swap tmp self
    (SharedPtr.dtor_esft h1 r.1).map fun h2 => (r.2, h2)

/-- `operator=(SharedPtr&&)` for a pointee with the capability, for `other` an
object different from `*this`. Returns the new `*this`, what is left in
`other`, and the heap. -/
def SharedPtr.assign_move_esft (h : Heap) (self other : SharedPtr) :
    Option (SharedPtr × SharedPtr × Heap) :=
  match SharedPtr.ctor_move_esft h other with
  | none => none
  | some (tmp, other1, h1) =>
    let r := SharedPtr.Swap tmp self
    (SharedPtr.dtor_esft h1 r.1).map fun h2 => (r.2, other1, h2)

/-- 1 when the handle is non-empty (`operator bool`) and its `block_` is `k`,
else 0. -/
def SharedPtr.owns (h : SharedPtr) (k : Option Nat) : Nat :=
  if h.toBool = true ∧ h.block_ = k then 1 else 0

/-- The same for a slot: a dead slot owns nothing. -/
def slotOwns : Option SharedPtr → Option Nat → Nat
  | none, _ => 0
  | some h, k => h.owns k

/-- Number of live non-empty handles among the slots whose `block_` is `k`. -/
def owners : List (Option SharedPtr) → Option Nat → Nat
  | [], _ => 0
  | x :: xs, k => slotOwns x k + owners xs k

/-- The counting invariant of a heap `m` against a count `c` of owning handles
per block reference, after at most `n` operations: no strong count exceeds
`n`; no owning handle has a null `block_`; a block with an owning handle is
allocated and its strong count is at least the number of its owners. -/
def Good (n : Nat) (m : Mem) (c : Option Nat → Nat) : Prop :=
  (∀ b blk, m.block b = some blk → blk.counter_shared_ ≤ n) ∧
  c none = 0 ∧
  (∀ b, 0 < c (some b) → ∃ blk, m.block b = some blk ∧ c (some b) ≤ blk.counter_shared_)

/-- The counting invariant of a program state. -/
def State.good (n : Nat) (s : State) : Prop := Good n s.mem (owners s.shared)

/-- What one operation preserves: the invariant holds after the operation, and
there is no `ObjectDestructor` call on a block that still has an owner. -/
def StepOk (n : Nat) (s s2 : State) : Prop :=
  s2.good (n + 1) ∧
    ∀ b, 0 < owners s2.shared (some b) → destructions s2.mem.log b = destructions s.mem.log b

/-! ## The intrusive pointer (`src/intrusive/intrusive.h`)

The object carries its own counter: an object of a class derived from
`RefCounted` is a slot of a heap of objects, the index of the slot is the
address of the object, a slot holding `none` is an object that was deleted. -/

/-- The class `SimpleCounter`: `count_` starts at 0. -/
structure SimpleCounter where
  count_ : Nat
deriving DecidableEq

/-- `SimpleCounter::IncRef`: `return ++count_;`, the counter after the call
and the value returned. -/
def SimpleCounter.IncRef (c : SimpleCounter) : SimpleCounter × Nat :=
  (⟨(c.count_ + 1) % SIZE_MOD⟩, (c.count_ + 1) % SIZE_MOD)

/-- `SimpleCounter::DecRef`: `return --count_;`. -/
def SimpleCounter.DecRef (c : SimpleCounter) : SimpleCounter × Nat :=
  (⟨(SIZE_MOD - 1 + c.count_) % SIZE_MOD⟩, (SIZE_MOD - 1 + c.count_) % SIZE_MOD)

/-- `SimpleCounter::RefCount`. -/
def SimpleCounter.RefCount (c : SimpleCounter) : Nat := c.count_

/-- The base sub-object `RefCounted<Derived, SimpleCounter, Deleter>` of an
object: its only member is `counter_`. -/
structure RefCounted where
  counter_ : SimpleCounter
deriving DecidableEq

/-- What the log of the intrusive heap records: a call of `Deleter::Destroy`
on the object at address `object`, with the value `RefCount()` reports on that
object when the call is made. -/
inductive Intrusive.Event where
  | Destroy (object : Nat) (count : Nat)
deriving DecidableEq

/-- The heap of reference-counted objects and the log of `Destroy` calls. -/
structure Intrusive.Mem where
  objects : List (Option RefCounted)
  log : List Intrusive.Event
deriving DecidableEq

/-- The object at address `a`, when it is alive. -/
def Intrusive.Mem.object (m : Intrusive.Mem) (a : Nat) : Option RefCounted :=
  m.objects.getD a none

/-- A deleter: the static member `Deleter::Destroy(T* object)` as a function of
the heap and the address it receives; `none` is undefined behaviour. -/
@[reducible] def Intrusive.Deleter : Type := Intrusive.Mem → Nat → Option Intrusive.Mem

/-- `DefaultDelete::Destroy`: `delete object;`. -/
def DefaultDelete.Destroy : Intrusive.Deleter := fun m object =>
  match m.object object with
  | none => none
  | some _ => some { m with objects := m.objects.set object none }

/-- The call `this->IncRef()` of `RefCounted`: `counter_.IncRef();`. Undefined
through a null pointer or a pointer to a deleted object. -/
def RefCounted.IncRef (m : Intrusive.Mem) (this : Option Nat) : Option Intrusive.Mem :=
  match this with
  | none => none
  | some a =>
    match m.object a with
    | none => none
    | some o => some { m with objects := m.objects.set a (some ⟨o.counter_.IncRef.1⟩) }

/-- The call `this->RefCount()` of `RefCounted`. -/
def RefCounted.RefCount (m : Intrusive.Mem) (this : Option Nat) : Option Nat :=
  match this with
  | none => none
  | some a => (m.object a).map fun o => o.counter_.RefCount

/-- The call `this->DecRef()` of `RefCounted`: when `RefCount() <= 1` the
object is handed to `Deleter::Destroy` and the function returns, the counter
is not touched; otherwise `counter_.DecRef()`. The call of `Destroy` is
logged together with the count the object reports at that moment. -/
def RefCounted.DecRef (Destroy : Intrusive.Deleter) (m : Intrusive.Mem) (this : Option Nat) :
    Option Intrusive.Mem :=
  match this with
  | none => none
  | some a =>
    match m.object a with
    | none => none
    | some o =>
      if o.counter_.RefCount ≤ 1 then
        Destroy ⟨m.objects, m.log ++ [Intrusive.Event.Destroy a o.counter_.RefCount]⟩ a
      else
        some { m with objects := m.objects.set a (some ⟨o.counter_.DecRef.1⟩) }

/-- The class `IntrusivePtr<T>`: `ptr_` (`none` is `nullptr`). -/
structure IntrusivePtr where
  ptr_ : Option Nat
deriving DecidableEq

/-- `IntrusivePtr::Get`. -/
def IntrusivePtr.Get (self : IntrusivePtr) : Option Nat := self.ptr_

/-- `IntrusivePtr::UseCount`: 0 when `Get() == nullptr`, else
`ptr_->RefCount()`. -/
def IntrusivePtr.UseCount (m : Intrusive.Mem) (self : IntrusivePtr) : Option Nat :=
  if self.Get = none then some 0 else RefCounted.RefCount m self.ptr_

/-- `IntrusivePtr::operator bool`: `UseCount() != 0`. -/
def IntrusivePtr.toBool (m : Intrusive.Mem) (self : IntrusivePtr) : Option Bool :=
  (self.UseCount m).map fun c => decide (c ≠ 0)

/-- `IntrusivePtr()`. -/
def IntrusivePtr.ctor_default : IntrusivePtr := ⟨none⟩

/-- `IntrusivePtr(std::nullptr_t)`. -/
def IntrusivePtr.ctor_nullptr : IntrusivePtr := ⟨none⟩

/-- `IntrusivePtr(T* ptr)`: `ptr_ = ptr; ptr_->IncRef();`, with no test of
`ptr`. -/
def IntrusivePtr.ctor_ptr (m : Intrusive.Mem) (ptr : Option Nat) :
    Option (IntrusivePtr × Intrusive.Mem) :=
  let self : IntrusivePtr := ⟨ptr⟩
  (RefCounted.IncRef m self.ptr_).map fun m1 => (self, m1)

/-- `IntrusivePtr(const IntrusivePtr& other)`. -/
def IntrusivePtr.ctor_copy (m : Intrusive.Mem) (other : IntrusivePtr) :
    Option (IntrusivePtr × Intrusive.Mem) :=
  let self : IntrusivePtr := ⟨other.ptr_⟩
  match self.toBool m with
  | none => none
  | some true => (RefCounted.IncRef m self.ptr_).map fun m1 => (self, m1)
  | some false => some (self, m)

/-- `IntrusivePtr(const IntrusivePtr<Y>& other)`. -/
def IntrusivePtr.ctor_copy_conv (m : Intrusive.Mem) (other : IntrusivePtr) :
    Option (IntrusivePtr × Intrusive.Mem) :=
  let self : IntrusivePtr := ⟨other.ptr_⟩
  match self.toBool m with
  | none => none
  | some true => (RefCounted.IncRef m self.ptr_).map fun m1 => (self, m1)
  | some false => some (self, m)

/-- `IntrusivePtr(IntrusivePtr&& other)`: returns the new handle and what is
left in `other`. -/
def IntrusivePtr.ctor_move (other : IntrusivePtr) : IntrusivePtr × IntrusivePtr :=
  (⟨other.ptr_⟩, ⟨none⟩)

/-- `IntrusivePtr(IntrusivePtr<Y>&& other)`. -/
def IntrusivePtr.ctor_move_conv (other : IntrusivePtr) : IntrusivePtr × IntrusivePtr :=
  (⟨other.ptr_⟩, ⟨none⟩)

/-- `IntrusivePtr::Swap`: returns the new `*this` and the new `other`. -/
def IntrusivePtr.Swap (self other : IntrusivePtr) : IntrusivePtr × IntrusivePtr :=
  (⟨other.ptr_⟩, ⟨self.ptr_⟩)

/-- `IntrusivePtr::~IntrusivePtr`: nothing for a null `ptr_`, else
`ptr_->DecRef()`. -/
def IntrusivePtr.dtor (Destroy : Intrusive.Deleter) (m : Intrusive.Mem) (self : IntrusivePtr) :
    Option Intrusive.Mem :=
  if self.ptr_ = none then some m else RefCounted.DecRef Destroy m self.ptr_

/-- `operator=(const IntrusivePtr&)`, also for `IntrusivePtr<Y>`:
`IntrusivePtr<T>(other).Swap(*this)`, then the temporary dies. -/
def IntrusivePtr.assign_copy (Destroy : Intrusive.Deleter) (m : Intrusive.Mem)
    (self other : IntrusivePtr) : Option (IntrusivePtr × Intrusive.Mem) :=
  match IntrusivePtr.ctor_copy m other with
  | none => none
  | some (tmp, m1) =>
    let r := IntrusivePtr.Swap tmp self
    (IntrusivePtr.dtor Destroy m1 r.1).map fun m2 => (r.2, m2)

/-- `operator=(IntrusivePtr&&)`, also for `IntrusivePtr<Y>`, for `other` an
object different from `*this`: returns the new `*this`, what is left in
`other`, and the heap. -/
def IntrusivePtr.assign_move (Destroy : Intrusive.Deleter) (m : Intrusive.Mem)
    (self other : IntrusivePtr) : Option (IntrusivePtr × IntrusivePtr × Intrusive.Mem) :=
  let t := IntrusivePtr.ctor_move other
  let r := IntrusivePtr.Swap t.1 self
  (IntrusivePtr.dtor Destroy m r.1).map fun m1 => (r.2, t.2, m1)

/-- `operator=(IntrusivePtr&&)` when `other` is `*this` itself. -/
def IntrusivePtr.assign_move_self (Destroy : Intrusive.Deleter) (m : Intrusive.Mem)
    (self : IntrusivePtr) : Option (IntrusivePtr × Intrusive.Mem) :=
  let t := IntrusivePtr.ctor_move self
  let r := IntrusivePtr.Swap t.1 t.2
  (IntrusivePtr.dtor Destroy m r.1).map fun m1 => (r.2, m1)

/-- `IntrusivePtr::Reset()`: `IntrusivePtr<T>().Swap(*this)`. -/
def IntrusivePtr.Reset (Destroy : Intrusive.Deleter) (m : Intrusive.Mem) (self : IntrusivePtr) :
    Option (IntrusivePtr × Intrusive.Mem) :=
  let r := IntrusivePtr.Swap IntrusivePtr.ctor_default self
  (IntrusivePtr.dtor Destroy m r.1).map fun m1 => (r.2, m1)

/-- `IntrusivePtr::Reset(T* ptr)`: `IntrusivePtr<T>(ptr).Swap(*this)`. -/
def IntrusivePtr.Reset_ptr (Destroy : Intrusive.Deleter) (m : Intrusive.Mem)
    (self : IntrusivePtr) (ptr : Option Nat) : Option (IntrusivePtr × Intrusive.Mem) :=
  match IntrusivePtr.ctor_ptr m ptr with
  | none => none
  | some (tmp, m1) =>
    let r := IntrusivePtr.Swap tmp self
    (IntrusivePtr.dtor Destroy m1 r.1).map fun m2 => (r.2, m2)

/-- `MakeIntrusive<T>(args...)`: `new T(...)` takes a fresh slot, the counter
of the new object is 0; then `intrusive.ptr_->IncRef()`. -/
def MakeIntrusive (m : Intrusive.Mem) : Option (IntrusivePtr × Intrusive.Mem) :=
  let intrusive : IntrusivePtr := ⟨some m.objects.length⟩
  (RefCounted.IncRef { m with objects := m.objects ++ [some ⟨⟨0⟩⟩] } intrusive.ptr_).map
    fun m1 => (intrusive, m1)

/-! ## Programs over intrusive handles

Objects of a class derived from `SimpleRefCounted<T>` (the deleter is
`DefaultDelete`), created by `MakeIntrusive`, and the `IntrusivePtr`
variables of a program. -/

/-- The heap of objects and the handle variables; a slot holding `none` is a
variable whose destructor has run. -/
structure Intrusive.State where
  mem : Intrusive.Mem
  handles : List (Option IntrusivePtr)
deriving DecidableEq

/-- The state of a program that has not created anything yet. -/
def Intrusive.State.init : Intrusive.State := ⟨⟨[], []⟩, []⟩

/-- The live handle in slot `i`. -/
def Intrusive.State.handleAt (s : Intrusive.State) (i : Nat) : Option IntrusivePtr :=
  s.handles.getD i none

/-- Put a newly constructed handle in a fresh slot. -/
def Intrusive.State.push (s : Intrusive.State) (h : IntrusivePtr) (m : Intrusive.Mem) :
    Intrusive.State :=
  ⟨m, s.handles ++ [some h]⟩

/-- The public operations of `IntrusivePtr`, and `MakeIntrusive`. -/
inductive Intrusive.Op where
  | make_intrusive
  | ctor_default
  | ctor_nullptr
  | ctor_ptr (p : Option Nat)
  | copy (j : Nat)
  | move (j : Nat)
  | copy_conv (j : Nat)
  | move_conv (j : Nat)
  | assign_copy (i j : Nat)
  | assign_move (i j : Nat)
  | reset (i : Nat)
  | reset_ptr (i : Nat) (p : Option Nat)
  | swap (i j : Nat)
  | dtor (i : Nat)
deriving DecidableEq

/-- One operation. The result is `none` when the operation names a slot that
holds no live handle or when the C++ code has undefined behaviour. -/
def Intrusive.step (s : Intrusive.State) : Intrusive.Op → Option Intrusive.State
  | .make_intrusive =>
    match MakeIntrusive s.mem with
    | none => none
    | some (h, m1) => some (s.push h m1)
  | .ctor_default => some (s.push IntrusivePtr.ctor_default s.mem)
  | .ctor_nullptr => some (s.push IntrusivePtr.ctor_nullptr s.mem)
  | .ctor_ptr p =>
    match IntrusivePtr.ctor_ptr s.mem p with
    | none => none
    | some (h, m1) => some (s.push h m1)
  | .copy j =>
    match s.handleAt j with
    | none => none
    | some other =>
      match IntrusivePtr.ctor_copy s.mem other with
      | none => none
      | some (h, m1) => some (s.push h m1)
  | .move j =>
    match s.handleAt j with
    | none => none
    | some other =>
      let r := IntrusivePtr.ctor_move other
      some ⟨s.mem, s.handles.set j (some r.2) ++ [some r.1]⟩
  | .copy_conv j =>
    match s.handleAt j with
    | none => none
    | some other =>
      match IntrusivePtr.ctor_copy_conv s.mem other with
      | none => none
      | some (h, m1) => some (s.push h m1)
  | .move_conv j =>
    match s.handleAt j with
    | none => none
    | some other =>
      let r := IntrusivePtr.ctor_move_conv other
      some ⟨s.mem, s.handles.set j (some r.2) ++ [some r.1]⟩
  | .assign_copy i j =>
    match s.handleAt i, s.handleAt j with
    | some self, some other =>
      match IntrusivePtr.assign_copy DefaultDelete.Destroy s.mem self other with
      | none => none
      | some (self1, m1) => some ⟨m1, s.handles.set i (some self1)⟩
    | _, _ => none
  | .assign_move i j =>
    match s.handleAt i, s.handleAt j with
    | some self, some other =>
      if i = j then
        match IntrusivePtr.assign_move_self DefaultDelete.Destroy s.mem self with
        | none => none
        | some (self1, m1) => some ⟨m1, s.handles.set i (some self1)⟩
      else
        match IntrusivePtr.assign_move DefaultDelete.Destroy s.mem self other with
        | none => none
        | some (self1, other1, m1) =>
          some ⟨m1, (s.handles.set j (some other1)).set i (some self1)⟩
    | _, _ => none
  | .reset i =>
    match s.handleAt i with
    | none => none
    | some self =>
      match IntrusivePtr.Reset DefaultDelete.Destroy s.mem self with
      | none => none
      | some (self1, m1) => some ⟨m1, s.handles.set i (some self1)⟩
  | .reset_ptr i p =>
    match s.handleAt i with
    | none => none
    | some self =>
      match IntrusivePtr.Reset_ptr DefaultDelete.Destroy s.mem self p with
      | none => none
      | some (self1, m1) => some ⟨m1, s.handles.set i (some self1)⟩
  | .swap i j =>
    match s.handleAt i, s.handleAt j with
    | some self, some other =>
      let r := IntrusivePtr.Swap self other
      some ⟨s.mem, (s.handles.set i (some r.1)).set j (some r.2)⟩
    | _, _ => none
  | .dtor i =>
    match s.handleAt i with
    | none => none
    | some self =>
      match IntrusivePtr.dtor DefaultDelete.Destroy s.mem self with
      | none => none
      | some m1 => some ⟨m1, s.handles.set i none⟩

/-- Run a program from a state. -/
def Intrusive.run : List Intrusive.Op → Intrusive.State → Option Intrusive.State
  | [], s => some s
  | op :: ops, s =>
    match Intrusive.step s op with
    | none => none
    | some s1 => Intrusive.run ops s1

/-- Number of live slots whose handle satisfies `f`, the sum of `f` over the
live slots. -/
def tally {α : Type} (f : α → Nat) : List (Option α) → Nat
  | [] => 0
  | none :: xs => tally f xs
  | some h :: xs => f h + tally f xs

/-- 1 when the handle points to the object at `a`, else 0. -/
def IntrusivePtr.refers (a : Nat) (h : IntrusivePtr) : Nat :=
  if h.ptr_ = some a then 1 else 0

/-- Number of live handles of a state that point to the object at `a`. -/
def Intrusive.State.refs (s : Intrusive.State) (a : Nat) : Nat :=
  tally (IntrusivePtr.refers a) s.handles

/-- Number of `Destroy` calls on the object at `a` recorded in a log. -/
def Intrusive.destroys (lg : List Intrusive.Event) (a : Nat) : Nat :=
  (lg.filter fun e => match e with
    | .Destroy a1 _ => decide (a1 = a)).length

/-- The counting invariant of an intrusive heap `m` against a count `c` of
handles per object: no count exceeds `n`; a live object has at least one
handle, its counter is the number of its handles and it was never handed to
`Destroy`; a deleted object has no handle and was handed to `Destroy` once; an
address never allocated has no handle and no `Destroy` call. -/
def Intrusive.Good (n : Nat) (m : Intrusive.Mem) (c : Nat → Nat) : Prop :=
  (∀ a, c a ≤ n) ∧
  (∀ a o, m.object a = some o →
    o.counter_.RefCount = c a ∧ 1 ≤ c a ∧ Intrusive.destroys m.log a = 0) ∧
  (∀ a, m.object a = none →
    c a = 0 ∧ Intrusive.destroys m.log a = if a < m.objects.length then 1 else 0)

/-- The counting invariant of a program state. -/
def Intrusive.State.good (n : Nat) (s : Intrusive.State) : Prop :=
  Intrusive.Good n s.mem s.refs

/-- A heap `m1` with handle count `d` that follows a heap `m` with handle
count `c`: the invariant holds for `m1` and `d`, and the objects handed to
`Destroy` in between are those that had a handle and have none any more. -/
def Intrusive.Next (n : Nat) (m : Intrusive.Mem) (c : Nat → Nat) (m1 : Intrusive.Mem)
    (d : Nat → Nat) : Prop :=
  Intrusive.Good n m1 d ∧
    ∀ x, Intrusive.destroys m1.log x =
      Intrusive.destroys m.log x + if 1 ≤ c x ∧ d x = 0 then 1 else 0

/-- What one operation preserves. -/
def Intrusive.StepOk (n : Nat) (s s2 : Intrusive.State) : Prop :=
  Intrusive.Next (n + 1) s.mem s.refs s2.mem s2.refs

/-- A raw pointer that points to a live object. -/
def Intrusive.Mem.alive (m : Intrusive.Mem) (p : Option Nat) : Bool :=
  match p with
  | none => false
  | some a => (m.object a).isSome

/-- An operation that a program may perform in state `s`: the variables it
names are alive, and a raw pointer it passes points to a live object. -/
def Intrusive.Op.ok (s : Intrusive.State) : Intrusive.Op → Bool
  | .make_intrusive => true
  | .ctor_default => true
  | .ctor_nullptr => true
  | .ctor_ptr p => s.mem.alive p
  | .copy j => (s.handleAt j).isSome
  | .move j => (s.handleAt j).isSome
  | .copy_conv j => (s.handleAt j).isSome
  | .move_conv j => (s.handleAt j).isSome
  | .assign_copy i j => (s.handleAt i).isSome && (s.handleAt j).isSome
  | .assign_move i j => (s.handleAt i).isSome && (s.handleAt j).isSome
  | .reset i => (s.handleAt i).isSome
  | .reset_ptr i p => (s.handleAt i).isSome && s.mem.alive p
  | .swap i j => (s.handleAt i).isSome && (s.handleAt j).isSome
  | .dtor i => (s.handleAt i).isSome

/-! ## The unique-ownership pointer (`src/unique/unique.h`,
`src/unique/compressed_pair.h`)

The primary template and the specialisation for arrays have the same members
and the same code; they differ in the default deleter only. A deleter is a
value of a type `Deleter`; calling it is recorded in a log. -/

/-- The class `CompressedPair<F, S>`: the two elements (whether an element is
stored as a member or as a base class changes the layout only). -/
structure CompressedPair (F S : Type) where
  first : F
  second : S
deriving DecidableEq

/-- `CompressedPair::GetFirst`. -/
def CompressedPair.GetFirst {F S : Type} (p : CompressedPair F S) : F := p.first

/-- `CompressedPair::GetSecond`. -/
def CompressedPair.GetSecond {F S : Type} (p : CompressedPair F S) : S := p.second

/-- The default deleter `Slug<T>` (and `Slug<T[]>`): a class without members;
its call operator is `delete ptr` (`delete[] ptr`). -/
structure Slug where
deriving DecidableEq

/-- A call `deleter(ptr)` of a deleter on a pointer (`none` is `nullptr`). -/
structure Unique.Call (Deleter : Type) where
  deleter : Deleter
  ptr : Option Nat
deriving DecidableEq

/-- The class `UniquePtr<T, Deleter>`: `data_` holds the pointer and the
deleter. -/
structure UniquePtr (Deleter : Type) where
  data_ : CompressedPair (Option Nat) Deleter
deriving DecidableEq

/-- `UniquePtr::Get`. -/
def UniquePtr.Get {Deleter : Type} (self : UniquePtr Deleter) : Option Nat :=
  self.data_.GetFirst

/-- `UniquePtr::GetDeleter`. -/
def UniquePtr.GetDeleter {Deleter : Type} (self : UniquePtr Deleter) : Deleter :=
  self.data_.GetSecond

/-- `UniquePtr::operator bool`: `Get() != nullptr`. -/
def UniquePtr.toBool {Deleter : Type} (self : UniquePtr Deleter) : Bool :=
  self.Get != none

/-- `UniquePtr(T* ptr = nullptr)`: the pointer and `Deleter()`, the
default-constructed deleter `dflt`. -/
def UniquePtr.ctor_ptr {Deleter : Type} (dflt : Deleter) (ptr : Option Nat) :
    UniquePtr Deleter :=
  ⟨⟨ptr, dflt⟩⟩

/-- `UniquePtr(T* ptr, Deleter deleter)`. -/
def UniquePtr.ctor_ptr_deleter {Deleter : Type} (ptr : Option Nat) (deleter : Deleter) :
    UniquePtr Deleter :=
  ⟨⟨ptr, deleter⟩⟩

/-- `UniquePtr::Release`: returns the pointer and leaves `nullptr` in
`*this`; no deleter is called. Returns the pointer, the new `*this` and the
log. -/
def UniquePtr.Release {Deleter : Type} (lg : List (Unique.Call Deleter))
    (self : UniquePtr Deleter) : Option Nat × UniquePtr Deleter × List (Unique.Call Deleter) :=
  let ptr := self.Get
  (ptr, ⟨⟨none, self.data_.second⟩⟩, lg)

/-- `UniquePtr(UniquePtr&& other)`: the pointer is `other.Release()`, the
deleter is the one of `other` (a deleter is taken to be unchanged by being
moved from). Returns the new handle, what is left in `other`, and the log. -/
def UniquePtr.ctor_move {Deleter : Type} (lg : List (Unique.Call Deleter))
    (other : UniquePtr Deleter) :
    UniquePtr Deleter × UniquePtr Deleter × List (Unique.Call Deleter) :=
  let r := UniquePtr.Release lg other
  (⟨⟨r.1, r.2.1.GetDeleter⟩⟩, r.2.1, r.2.2)

/-- `UniquePtr(UniquePtr<U, E>&& other)`, with the conversion of the deleter
`E → Deleter` written out as `conv`. -/
def UniquePtr.ctor_move_conv {Deleter E : Type} (conv : E → Deleter)
    (lg : List (Unique.Call E)) (other : UniquePtr E) :
    UniquePtr Deleter × UniquePtr E × List (Unique.Call E) :=
  let r := UniquePtr.Release lg other
  (⟨⟨r.1, conv r.2.1.GetDeleter⟩⟩, r.2.1, r.2.2)

/-- `UniquePtr::Reset(T* ptr = nullptr)`: stores `ptr`, then calls the deleter
on the old pointer, whatever it is. -/
def UniquePtr.Reset {Deleter : Type} (lg : List (Unique.Call Deleter))
    (self : UniquePtr Deleter) (ptr : Option Nat) :
    UniquePtr Deleter × List (Unique.Call Deleter) :=
  let old := self.Get
  let self1 : UniquePtr Deleter := ⟨⟨ptr, self.data_.second⟩⟩
  (self1, lg ++ [⟨self1.GetDeleter, old⟩])

/-- `UniquePtr::~UniquePtr`: `GetDeleter()(Get());`. -/
def UniquePtr.dtor {Deleter : Type} (lg : List (Unique.Call Deleter))
    (self : UniquePtr Deleter) : List (Unique.Call Deleter) :=
  lg ++ [⟨self.GetDeleter, self.Get⟩]

/-- `operator=(UniquePtr&& other)` for `other` an object different from
`*this`: `Reset(other.Release())`, then the deleter of `other` is taken.
Returns the new `*this`, what is left in `other`, and the log. -/
def UniquePtr.assign_move {Deleter : Type} (lg : List (Unique.Call Deleter))
    (self other : UniquePtr Deleter) :
    UniquePtr Deleter × UniquePtr Deleter × List (Unique.Call Deleter) :=
  let r := UniquePtr.Release lg other
  let s := UniquePtr.Reset r.2.2 self r.1
  (⟨⟨s.1.Get, r.2.1.GetDeleter⟩⟩, r.2.1, s.2)

/-- `operator=(std::nullptr_t)`: `Reset()`. -/
def UniquePtr.assign_nullptr {Deleter : Type} (lg : List (Unique.Call Deleter))
    (self : UniquePtr Deleter) : UniquePtr Deleter × List (Unique.Call Deleter) :=
  UniquePtr.Reset lg self none

/-- `UniquePtr::Swap`: returns the new `*this` and the new `other`. -/
def UniquePtr.Swap {Deleter : Type} (self other : UniquePtr Deleter) :
    UniquePtr Deleter × UniquePtr Deleter :=
  (⟨⟨other.data_.first, other.data_.second⟩⟩, ⟨⟨self.data_.first, self.data_.second⟩⟩)

/-- Number of deleter calls on the object at address `a` recorded in a log. -/
def Unique.calls {Deleter : Type} (lg : List (Unique.Call Deleter)) (a : Nat) : Nat :=
  (lg.filter fun c => decide (c.ptr = some a)).length

/-! ## The single-counter SharedPtr (`src/shared/shared.h`)

The first version of the shared pointer: a control block has one counter,
which starts at 1, and the destructor of the block destroys the object. The
definitions have the names of `src/shared/shared.h` under the prefix
`Shared`. -/

/-- The class `BaseBlock` of `src/shared/shared.h` together with the variant
it is the base of; `counter_` starts at 1. -/
structure Shared.BaseBlock where
  counter_ : Nat
  kind : BlockKind
deriving DecidableEq

/-- `BaseBlock::operator++`: `return ++counter_;`, the block after the call. -/
def Shared.BaseBlock.increment (b : Shared.BaseBlock) : Shared.BaseBlock :=
  { b with counter_ := (b.counter_ + 1) % SIZE_MOD }

/-- `BaseBlock::operator--`: `return --counter_;`, the block after the call. -/
def Shared.BaseBlock.decrement (b : Shared.BaseBlock) : Shared.BaseBlock :=
  { b with counter_ := (SIZE_MOD - 1 + b.counter_) % SIZE_MOD }

/-- `BaseBlock::GetCount`. -/
def Shared.BaseBlock.GetCount (b : Shared.BaseBlock) : Nat := b.counter_

/-- The object the destructor of a block destroys: `delete ptr_` in
`~ControlBlock1`, `Get()->~T()` in `~ControlBlock2`. -/
def Shared.BaseBlock.object (blk : Shared.BaseBlock) (b : Nat) : Ptr :=
  match blk.kind with
  | .ControlBlock1 p => p
  | .ControlBlock2 => .storage b

/-- What the log records: `delete block_` on block `b`, whose destructor
destroys `object`. -/
inductive Shared.Event where
  | deleteBlock (b : Nat) (object : Ptr)
deriving DecidableEq

/-- The heap of control blocks and the log of deletions. -/
structure Shared.Mem where
  blocks : List (Option Shared.BaseBlock)
  log : List Shared.Event
deriving DecidableEq

/-- The block at address `b`, when it is allocated. -/
def Shared.Mem.block (m : Shared.Mem) (b : Nat) : Option Shared.BaseBlock :=
  m.blocks.getD b none

/-- A mutating member call through `block_`: undefined for `nullptr` and for a
deleted block. -/
def Shared.Mem.call (m : Shared.Mem) (block_ : Option Nat)
    (f : Shared.BaseBlock → Shared.BaseBlock) : Option Shared.Mem :=
  match block_ with
  | none => none
  | some b =>
    match m.block b with
    | none => none
    | some blk => some { m with blocks := m.blocks.set b (some (f blk)) }

/-- The call `block_->GetCount()`. -/
def Shared.Mem.GetCount (m : Shared.Mem) (block_ : Option Nat) : Option Nat :=
  match block_ with
  | none => none
  | some b => (m.block b).map Shared.BaseBlock.GetCount

/-- The statement `delete block_`: the destructor of the block destroys the
object, the slot becomes free, the deletion is logged. -/
def Shared.Mem.delete (m : Shared.Mem) (block_ : Option Nat) : Option Shared.Mem :=
  match block_ with
  | none => some m
  | some b =>
    match m.block b with
    | none => none
    | some blk =>
      some { blocks := m.blocks.set b none,
             log := m.log ++ [Shared.Event.deleteBlock b (blk.object b)] }

/-- The expression `new ControlBlockN<T>(...)`: a fresh block with counter 1;
returns its address. -/
def Shared.Mem.new (m : Shared.Mem) (kind : BlockKind) : Nat × Shared.Mem :=
  (m.blocks.length, { m with blocks := m.blocks ++ [some ⟨1, kind⟩] })

/-- The class `SharedPtr<T>` of `src/shared/shared.h`: `block_` and `ptr_`. -/
structure Shared.SharedPtr where
  block_ : Option Nat
  ptr_ : Ptr
deriving DecidableEq

/-- `SharedPtr::Get`. -/
def Shared.SharedPtr.Get (self : Shared.SharedPtr) : Ptr := self.ptr_

/-- `SharedPtr::operator bool`: `Get() != nullptr`. -/
def Shared.SharedPtr.toBool (self : Shared.SharedPtr) : Bool := self.Get != Ptr.null

/-- `SharedPtr::UseCount`: 0 when `!*this`, else `block_->GetCount()`. -/
def Shared.SharedPtr.UseCount (m : Shared.Mem) (self : Shared.SharedPtr) : Option Nat :=
  if !self.toBool then some 0 else m.GetCount self.block_

/-- `SharedPtr()`. -/
def Shared.SharedPtr.ctor_default : Shared.SharedPtr := ⟨none, Ptr.null⟩

/-- `SharedPtr(std::nullptr_t)`. -/
def Shared.SharedPtr.ctor_nullptr : Shared.SharedPtr := ⟨none, Ptr.null⟩

/-- `SharedPtr(T* ptr)` and `SharedPtr(Y* ptr)`: a new `ControlBlock1`, store
the pointer. -/
def Shared.SharedPtr.ctor_ptr (m : Shared.Mem) (ptr : Ptr) :
    Option (Shared.SharedPtr × Shared.Mem) :=
  let r := m.new (BlockKind.ControlBlock1 ptr)
  some (⟨some r.1, ptr⟩, r.2)

/-- `SharedPtr(const SharedPtr& other)`. -/
def Shared.SharedPtr.ctor_copy (m : Shared.Mem) (other : Shared.SharedPtr) :
    Option (Shared.SharedPtr × Shared.Mem) :=
  let self : Shared.SharedPtr := ⟨other.block_, other.ptr_⟩
  if self.toBool then
    (m.call self.block_ Shared.BaseBlock.increment).map fun m1 => (self, m1)
  else some (self, m)

/-- `SharedPtr::Swap`: returns the new `*this` and the new `other`. -/
def Shared.SharedPtr.Swap (self other : Shared.SharedPtr) :
    Shared.SharedPtr × Shared.SharedPtr :=
  (⟨other.block_, other.ptr_⟩, ⟨self.block_, self.ptr_⟩)

/-- `SharedPtr(SharedPtr&& other)`: `Swap(other)` on a default-initialised
`*this`. -/
def Shared.SharedPtr.ctor_move (other : Shared.SharedPtr) :
    Shared.SharedPtr × Shared.SharedPtr :=
  Shared.SharedPtr.Swap ⟨none, Ptr.null⟩ other

/-- `SharedPtr(const SharedPtr<Y>& other)`. -/
def Shared.SharedPtr.ctor_copy_conv (m : Shared.Mem) (other : Shared.SharedPtr) :
    Option (Shared.SharedPtr × Shared.Mem) :=
  let self : Shared.SharedPtr := ⟨other.block_, other.ptr_⟩
  if self.toBool then
    (m.call self.block_ Shared.BaseBlock.increment).map fun m1 => (self, m1)
  else some (self, m)

/-- `SharedPtr(SharedPtr<Y>&& other)`. -/
def Shared.SharedPtr.ctor_move_conv (other : Shared.SharedPtr) :
    Shared.SharedPtr × Shared.SharedPtr :=
  (⟨other.block_, other.ptr_⟩, ⟨none, Ptr.null⟩)

/-- The aliasing constructor `SharedPtr(const SharedPtr<Y>& other, T* ptr)`. -/
def Shared.SharedPtr.ctor_alias (m : Shared.Mem) (other : Shared.SharedPtr) (ptr : Ptr) :
    Option (Shared.SharedPtr × Shared.Mem) :=
  let self : Shared.SharedPtr := ⟨other.block_, ptr⟩
  if self.toBool then
    (m.call self.block_ Shared.BaseBlock.increment).map fun m1 => (self, m1)
  else some (self, m)

/-- `SharedPtr::~SharedPtr`: when `*this`, decrement, and `delete block_` when
the count is 0. -/
def Shared.SharedPtr.dtor (m : Shared.Mem) (self : Shared.SharedPtr) : Option Shared.Mem :=
  if self.toBool then
    match m.call self.block_ Shared.BaseBlock.decrement with
    | none => none
    | some m1 =>
      match m1.GetCount self.block_ with
      | none => none
      | some c => if c = 0 then m1.delete self.block_ else some m1
  else some m

/-- `operator=(const SharedPtr&)`, also for `SharedPtr<Y>`. -/
def Shared.SharedPtr.assign_copy (m : Shared.Mem) (self other : Shared.SharedPtr) :
    Option (Shared.SharedPtr × Shared.Mem) :=
  match Shared.SharedPtr.ctor_copy m other with
  | none => none
  | some (tmp, m1) =>
    let r := Shared.SharedPtr.Swap tmp self
    (Shared.SharedPtr.dtor m1 r.1).map fun m2 => (r.2, m2)

/-- `operator=(SharedPtr&&)`, also for `SharedPtr<Y>`, for `other` an object
different from `*this`. -/
def Shared.SharedPtr.assign_move (m : Shared.Mem) (self other : Shared.SharedPtr) :
    Option (Shared.SharedPtr × Shared.SharedPtr × Shared.Mem) :=
  let t := Shared.SharedPtr.ctor_move other
  let r := Shared.SharedPtr.Swap t.1 self
  (Shared.SharedPtr.dtor m r.1).map fun m1 => (r.2, t.2, m1)

/-- `operator=(SharedPtr&&)` when `other` is `*this` itself. -/
def Shared.SharedPtr.assign_move_self (m : Shared.Mem) (self : Shared.SharedPtr) :
    Option (Shared.SharedPtr × Shared.Mem) :=
  let t := Shared.SharedPtr.ctor_move self
  let r := Shared.SharedPtr.Swap t.1 t.2
  (Shared.SharedPtr.dtor m r.1).map fun m1 => (r.2, m1)

/-- `SharedPtr::Reset()`. -/
def Shared.SharedPtr.Reset (m : Shared.Mem) (self : Shared.SharedPtr) :
    Option (Shared.SharedPtr × Shared.Mem) :=
  let r := Shared.SharedPtr.Swap Shared.SharedPtr.ctor_default self
  (Shared.SharedPtr.dtor m r.1).map fun m1 => (r.2, m1)

/-- `SharedPtr::Reset(T* ptr)` and `Reset(Y* ptr)`. -/
def Shared.SharedPtr.Reset_ptr (m : Shared.Mem) (self : Shared.SharedPtr) (ptr : Ptr) :
    Option (Shared.SharedPtr × Shared.Mem) :=
  match Shared.SharedPtr.ctor_ptr m ptr with
  | none => none
  | some (tmp, m1) =>
    let r := Shared.SharedPtr.Swap tmp self
    (Shared.SharedPtr.dtor m1 r.1).map fun m2 => (r.2, m2)

/-- `MakeShared<T>(args...)` of `src/shared/shared.h`: one `ControlBlock2`,
the pointer is `block->Get()`. -/
def Shared.MakeShared (m : Shared.Mem) : Option (Shared.SharedPtr × Shared.Mem) :=
  let r := m.new BlockKind.ControlBlock2
  some (⟨some r.1, Ptr.storage r.1⟩, r.2)

/-- The heap and the handle variables of a program over `src/shared/shared.h`. -/
structure Shared.State where
  mem : Shared.Mem
  shared : List (Option Shared.SharedPtr)
deriving DecidableEq

/-- The state of a program that has not created anything yet. -/
def Shared.State.init : Shared.State := ⟨⟨[], []⟩, []⟩

/-- The live handle in slot `i`. -/
def Shared.State.sharedAt (s : Shared.State) (i : Nat) : Option Shared.SharedPtr :=
  s.shared.getD i none

/-- Put a newly constructed handle in a fresh slot. -/
def Shared.State.pushShared (s : Shared.State) (h : Shared.SharedPtr) (m : Shared.Mem) :
    Shared.State :=
  ⟨m, s.shared ++ [some h]⟩

/-- The operations of `SharedPtr` that both versions define. -/
inductive Shared.Op where
  | shared_default
  | shared_nullptr
  | shared_ptr (p : Ptr)
  | make_shared
  | shared_copy (j : Nat)
  | shared_move (j : Nat)
  | shared_copy_conv (j : Nat)
  | shared_move_conv (j : Nat)
  | shared_alias (j : Nat) (p : Ptr)
  | shared_assign_copy (i j : Nat)
  | shared_assign_move (i j : Nat)
  | shared_reset (i : Nat)
  | shared_reset_ptr (i : Nat) (p : Ptr)
  | shared_swap (i j : Nat)
  | shared_dtor (i : Nat)
deriving DecidableEq

/-- One operation on the single-counter version. -/
def Shared.step (s : Shared.State) : Shared.Op → Option Shared.State
  | .shared_default => some (s.pushShared Shared.SharedPtr.ctor_default s.mem)
  | .shared_nullptr => some (s.pushShared Shared.SharedPtr.ctor_nullptr s.mem)
  | .shared_ptr p =>
    match Shared.SharedPtr.ctor_ptr s.mem p with
    | none => none
    | some (h, m1) => some (s.pushShared h m1)
  | .make_shared =>
    match Shared.MakeShared s.mem with
    | none => none
    | some (h, m1) => some (s.pushShared h m1)
  | .shared_copy j =>
    match s.sharedAt j with
    | none => none
    | some other =>
      match Shared.SharedPtr.ctor_copy s.mem other with
      | none => none
      | some (h, m1) => some (s.pushShared h m1)
  | .shared_move j =>
    match s.sharedAt j with
    | none => none
    | some other =>
      let r := Shared.SharedPtr.ctor_move other
      some ⟨s.mem, s.shared.set j (some r.2) ++ [some r.1]⟩
  | .shared_copy_conv j =>
    match s.sharedAt j with
    | none => none
    | some other =>
      match Shared.SharedPtr.ctor_copy_conv s.mem other with
      | none => none
      | some (h, m1) => some (s.pushShared h m1)
  | .shared_move_conv j =>
    match s.sharedAt j with
    | none => none
    | some other =>
      let r := Shared.SharedPtr.ctor_move_conv other
      some ⟨s.mem, s.shared.set j (some r.2) ++ [some r.1]⟩
  | .shared_alias j p =>
    match s.sharedAt j with
    | none => none
    | some other =>
      match Shared.SharedPtr.ctor_alias s.mem other p with
      | none => none
      | some (h, m1) => some (s.pushShared h m1)
  | .shared_assign_copy i j =>
    match s.sharedAt i, s.sharedAt j with
    | some self, some other =>
      match Shared.SharedPtr.assign_copy s.mem self other with
      | none => none
      | some (self1, m1) => some ⟨m1, s.shared.set i (some self1)⟩
    | _, _ => none
  | .shared_assign_move i j =>
    match s.sharedAt i, s.sharedAt j with
    | some self, some other =>
      if i = j then
        match Shared.SharedPtr.assign_move_self s.mem self with
        | none => none
        | some (self1, m1) => some ⟨m1, s.shared.set i (some self1)⟩
      else
        match Shared.SharedPtr.assign_move s.mem self other with
        | none => none
        | some (self1, other1, m1) =>
          some ⟨m1, (s.shared.set j (some other1)).set i (some self1)⟩
    | _, _ => none
  | .shared_reset i =>
    match s.sharedAt i with
    | none => none
    | some self =>
      match Shared.SharedPtr.Reset s.mem self with
      | none => none
      | some (self1, m1) => some ⟨m1, s.shared.set i (some self1)⟩
  | .shared_reset_ptr i p =>
    match s.sharedAt i with
    | none => none
    | some self =>
      match Shared.SharedPtr.Reset_ptr s.mem self p with
      | none => none
      | some (self1, m1) => some ⟨m1, s.shared.set i (some self1)⟩
  | .shared_swap i j =>
    match s.sharedAt i, s.sharedAt j with
    | some self, some other =>
      let r := Shared.SharedPtr.Swap self other
      some ⟨s.mem, (s.shared.set i (some r.1)).set j (some r.2)⟩
    | _, _ => none
  | .shared_dtor i =>
    match s.sharedAt i with
    | none => none
    | some self =>
      match Shared.SharedPtr.dtor s.mem self with
      | none => none
      | some m1 => some ⟨m1, s.shared.set i none⟩

/-- Run a program on the single-counter version. -/
def Shared.run : List Shared.Op → Shared.State → Option Shared.State
  | [], s => some s
  | op :: ops, s =>
    match Shared.step s op with
    | none => none
    | some s1 => Shared.run ops s1

/-- The same operation on the strong/weak version. -/
def Op.ofShared : Shared.Op → Op
  | .shared_default => Op.shared_default
  | .shared_nullptr => Op.shared_nullptr
  | .shared_ptr p => Op.shared_ptr p
  | .make_shared => Op.make_shared
  | .shared_copy j => Op.shared_copy j
  | .shared_move j => Op.shared_move j
  | .shared_copy_conv j => Op.shared_copy_conv j
  | .shared_move_conv j => Op.shared_move_conv j
  | .shared_alias j p => Op.shared_alias j p
  | .shared_assign_copy i j => Op.shared_assign_copy i j
  | .shared_assign_move i j => Op.shared_assign_move i j
  | .shared_reset i => Op.shared_reset i
  | .shared_reset_ptr i p => Op.shared_reset_ptr i p
  | .shared_swap i j => Op.shared_swap i j
  | .shared_dtor i => Op.shared_dtor i

/-- What a program observes of a state of the single-counter version: for
every variable, dead or with its `Get()` and `UseCount()`; and the objects
destroyed so far, in order. -/
def Shared.State.observe (s : Shared.State) :
    List (Option (Ptr × Option Nat)) × List Ptr :=
  (s.shared.map (Option.map fun h => (h.Get, h.UseCount s.mem)),
    s.mem.log.map fun e => match e with
      | .deleteBlock _ object => object)

/-- What a program observes of a state of the strong/weak version. -/
def State.observe (s : State) : List (Option (Ptr × Option Nat)) × List Ptr :=
  (s.shared.map (Option.map fun h => (h.Get, h.UseCount s.mem)),
    s.mem.log.filterMap fun e => match e with
      | .ObjectDestructor _ object => some object
      | .deleteBlock _ => none)

/-- The block of the single-counter version that corresponds to a block of
the strong/weak version without weak references. -/
def BaseBlock.single (blk : BaseBlock) : Shared.BaseBlock := ⟨blk.counter_shared_, blk.kind⟩

/-- The event of the single-counter version that corresponds to an event of
the strong/weak version: `ObjectDestructor` followed by `delete block_` is the
one `delete block_` whose destructor destroys the object. -/
def Event.single : Event → Option Shared.Event
  | .ObjectDestructor b object => some (Shared.Event.deleteBlock b object)
  | .deleteBlock _ => none

/-- The heap of the single-counter version that corresponds to a heap of the
strong/weak version. -/
def Mem.single (m : Mem) : Shared.Mem :=
  ⟨m.blocks.map (Option.map BaseBlock.single), m.log.filterMap Event.single⟩

/-- The handle of the single-counter version with the same members. -/
def SharedPtr.single (h : SharedPtr) : Shared.SharedPtr := ⟨h.block_, h.ptr_⟩

/-- The state of the single-counter version that corresponds to a state of the
strong/weak version. -/
def State.single (s : State) : Shared.State :=
  ⟨s.mem.single, s.shared.map (Option.map SharedPtr.single)⟩

/-- A heap of the strong/weak version in which every weak count is 0. -/
def Mem.noWeak (m : Mem) : Prop :=
  ∀ b blk, m.block b = some blk → blk.counter_weak_ = 0

/-- A state of the strong/weak version in which no `WeakPtr` was ever made:
there is no weak variable and every weak count is 0. -/
def State.noWeak (s : State) : Prop :=
  s.weak = [] ∧ s.mem.noWeak

/-! ## Counting the handles of a control block -/

/-- 1 when the block reference of the handle is block `b`, else 0. -/
def SharedPtr.refersTo (b : Nat) (h : SharedPtr) : Nat :=
  if h.block_ = some b then 1 else 0

/-- 1 when the block reference of the weak handle is block `b`, else 0. -/
def WeakPtr.refersTo (b : Nat) (w : WeakPtr) : Nat :=
  if w.block_ = some b then 1 else 0

/-- Number of live SharedPtr variables whose block reference is block `b`. -/
def State.strongRefs (s : State) (b : Nat) : Nat :=
  tally (SharedPtr.refersTo b) s.shared

/-- Number of live WeakPtr variables whose block reference is block `b`. -/
def State.weakRefs (s : State) (b : Nat) : Nat :=
  tally (WeakPtr.refersTo b) s.weak

/-- The strong count of block `b`, 0 when the block is not allocated. -/
def Mem.strongVal (m : Mem) (b : Nat) : Nat :=
  ((m.block b).map BaseBlock.GetShared).getD 0

/-- The weak count of block `b`, 0 when the block is not allocated. -/
def Mem.weakVal (m : Mem) (b : Nat) : Nat :=
  ((m.block b).map BaseBlock.GetWeak).getD 0

/-- 1 when the handle has a null pointer together with a block reference,
else 0. -/
def SharedPtr.unsound (h : SharedPtr) : Nat :=
  if h.ptr_ = Ptr.null ∧ h.block_ ≠ none then 1 else 0

/-- 1 when the weak handle has a null pointer together with a block reference,
else 0. -/
def WeakPtr.unsound (w : WeakPtr) : Nat :=
  if w.ptr_ = Ptr.null ∧ w.block_ ≠ none then 1 else 0

/-- An operation that passes no null raw pointer: the pointer given to
`SharedPtr(T*)`, to `Reset(T*)` and to the aliasing constructor is not
`nullptr`. -/
def Op.nonnull : Op → Bool
  | .shared_ptr p => p != Ptr.null
  | .shared_alias _ p => p != Ptr.null
  | .shared_reset_ptr _ p => p != Ptr.null
  | _ => true

/-- The values `v` of a counter, block by block, are the handle counts `c`,
and no count exceeds `n`. -/
def Counted (n : Nat) (v c : Nat → Nat) : Prop :=
  (∀ b, c b ≤ n) ∧ ∀ b, v b = c b

/-- The weak counts of a state are exact: the weak count of every allocated
block is the number of live WeakPtr variables that refer to it, and no
WeakPtr refers to a block that is not allocated. -/
def State.exactWeak (n : Nat) (s : State) : Prop :=
  Counted n s.mem.weakVal s.weakRefs

/-- The strong counts of a state are exact, and no handle has a null pointer
together with a block reference. -/
def State.exactStrong (n : Nat) (s : State) : Prop :=
  tally SharedPtr.unsound s.shared = 0 ∧ tally WeakPtr.unsound s.weak = 0 ∧
    Counted n s.mem.strongVal s.strongRefs

/-! ## Basic facts about the heap -/

theorem Mem.block_lt {m : Mem} {b : Nat} {blk : BaseBlock} (h : m.block b = some blk) :
    b < m.blocks.length := by
  unfold Mem.block at h
  rw [List.getD_eq_getElem?_getD] at h
  by_contra hlt
  rw [List.getElem?_eq_none (Nat.le_of_not_lt hlt)] at h
  simp at h

theorem Mem.block_set (m : Mem) (b b2 : Nat) (x : Option BaseBlock) (lg : List Event)
    (hb : b < m.blocks.length) :
    (Mem.mk (m.blocks.set b x) lg).block b2 = if b = b2 then x else m.block b2 := by
  unfold Mem.block
  simp only [List.getD_eq_getElem?_getD, List.getElem?_set, hb, if_true]
  split <;> simp

theorem Mem.block_log (m : Mem) (b : Nat) (lg : List Event) :
    (Mem.mk m.blocks lg).block b = m.block b := rfl

theorem Mem.block_new (m : Mem) (kind : BlockKind) (b : Nat) :
    (m.new kind).2.block b =
      if b = m.blocks.length then some ⟨0, 0, kind⟩ else m.block b := by
  unfold Mem.block Mem.new
  simp only [List.getD_eq_getElem?_getD, List.getElem?_append]
  by_cases h1 : b < m.blocks.length
  · have : b ≠ m.blocks.length := Nat.ne_of_lt h1
    simp [h1, this]
  · by_cases h2 : b = m.blocks.length
    · subst h2; simp
    · have h3 : m.blocks.length < b := by omega
      have h4 : b - m.blocks.length ≠ 0 := by omega
      have h5 : m.blocks.length ≤ b := by omega
      simp [h1, h2, List.getElem?_eq_none h5]
      cases hk : b - m.blocks.length with
      | zero => exact absurd hk h4
      | succ k => simp

theorem Mem.block_length_none (m : Mem) : m.block m.blocks.length = none := by
  unfold Mem.block
  rw [List.getD_eq_getElem?_getD, List.getElem?_eq_none (Nat.le_refl _)]
  rfl

theorem Mem.call_some {m : Mem} {b : Nat} {blk : BaseBlock} (f : BaseBlock → BaseBlock)
    (h : m.block b = some blk) :
    m.call (some b) f = some (Mem.mk (m.blocks.set b (some (f blk))) m.log) := by
  simp [Mem.call, h]

theorem Mem.GetShared_some {m : Mem} {b : Nat} {blk : BaseBlock} (h : m.block b = some blk) :
    m.GetShared (some b) = some blk.counter_shared_ := by
  simp [Mem.GetShared, Mem.deref, h, BaseBlock.GetShared]

theorem Mem.GetWeak_some {m : Mem} {b : Nat} {blk : BaseBlock} (h : m.block b = some blk) :
    m.GetWeak (some b) = some blk.counter_weak_ := by
  simp [Mem.GetWeak, Mem.deref, h, BaseBlock.GetWeak]

/-! ## Expired and the promoting constructor, case by case -/

theorem WeakPtr.Expired_none (m : Mem) (p : Ptr) : WeakPtr.Expired m ⟨none, p⟩ = some true := by
  simp [WeakPtr.Expired, WeakPtr.UseCount]

theorem WeakPtr.Expired_some {m : Mem} {b : Nat} {blk : BaseBlock} (p : Ptr)
    (h : m.block b = some blk) :
    WeakPtr.Expired m ⟨some b, p⟩ = some (decide (blk.counter_shared_ = 0)) := by
  simp [WeakPtr.Expired, WeakPtr.UseCount, Mem.GetShared_some h]

theorem SharedPtr.ctor_weak_none (m : Mem) (p : Ptr) :
    SharedPtr.ctor_weak m ⟨none, p⟩ = Outcome.thrown Exn.BadWeakPtr m := by
  simp [SharedPtr.ctor_weak, WeakPtr.Expired_none]

theorem SharedPtr.ctor_weak_zero {m : Mem} {b : Nat} {blk : BaseBlock} (p : Ptr)
    (h : m.block b = some blk) (h0 : blk.counter_shared_ = 0) :
    SharedPtr.ctor_weak m ⟨some b, p⟩ = Outcome.thrown Exn.BadWeakPtr m := by
  simp [SharedPtr.ctor_weak, WeakPtr.Expired_some p h, h0]

theorem SharedPtr.ctor_weak_pos {m : Mem} {b : Nat} {blk : BaseBlock} (p : Ptr)
    (h : m.block b = some blk) (h0 : blk.counter_shared_ ≠ 0) :
    SharedPtr.ctor_weak m ⟨some b, p⟩ =
      Outcome.ok ⟨some b, p⟩ (Mem.mk (m.blocks.set b (some blk.IncShared)) m.log) := by
  simp [SharedPtr.ctor_weak, WeakPtr.Expired_some p h, h0, Mem.IncShared, Mem.call_some _ h]

/-! ## What each operation computes on an allocated block -/

theorem SharedPtr.toBool_iff (h : SharedPtr) : h.toBool = true ↔ h.ptr_ ≠ Ptr.null := by
  simp [SharedPtr.toBool, SharedPtr.Get]

theorem SharedPtr.toBool_false_iff (h : SharedPtr) : h.toBool = false ↔ h.ptr_ = Ptr.null := by
  simp [SharedPtr.toBool, SharedPtr.Get]

theorem SharedPtr.dtor_null (m : Mem) (bl : Option Nat) :
    SharedPtr.dtor m ⟨bl, Ptr.null⟩ = some m := by
  simp [SharedPtr.dtor, SharedPtr.toBool, SharedPtr.Get]

theorem Mem.block_set_self {m : Mem} {b : Nat} {blk : BaseBlock} (x : Option BaseBlock)
    (lg : List Event) (h : m.block b = some blk) :
    (Mem.mk (m.blocks.set b x) lg).block b = x := by
  rw [Mem.block_set _ _ _ _ _ (Mem.block_lt h)]; simp

theorem SharedPtr.dtor_eq {m : Mem} {b : Nat} {blk : BaseBlock} {p : Ptr}
    (hp : p ≠ Ptr.null) (h : m.block b = some blk) :
    SharedPtr.dtor m ⟨some b, p⟩ =
      if blk.DecShared.counter_shared_ = 0 then
        if blk.DecShared.counter_weak_ = 0 then
          some (Mem.mk (m.blocks.set b none)
            (m.log ++ [Event.ObjectDestructor b (blk.DecShared.object b), Event.deleteBlock b]))
        else
          some (Mem.mk (m.blocks.set b (some blk.DecShared))
            (m.log ++ [Event.ObjectDestructor b (blk.DecShared.object b)]))
      else some (Mem.mk (m.blocks.set b (some blk.DecShared)) m.log) := by
  have h1 : (Mem.mk (m.blocks.set b (some blk.DecShared)) m.log).block b = some blk.DecShared :=
    Mem.block_set_self _ _ h
  have hb : (SharedPtr.mk (some b) p).toBool = true := by
    simp [SharedPtr.toBool, SharedPtr.Get, hp]
  unfold SharedPtr.dtor
  rw [hb]
  simp only [Bool.not_true, Bool.false_eq_true, if_false, Mem.DecShared]
  rw [Mem.call_some _ h]
  simp only [Mem.GetShared_some h1, Mem.GetWeak_some h1]
  by_cases hs : blk.DecShared.counter_shared_ = 0
  · by_cases hw : blk.DecShared.counter_weak_ = 0
    · have h2 : (Mem.mk (m.blocks.set b (some blk.DecShared))
          (m.log ++ [Event.ObjectDestructor b (blk.DecShared.object b)])).block b
          = some blk.DecShared := h1
      simp [hs, hw, Mem.ObjectDestructor, h1, Mem.delete, h2]
    · simp [hs, hw, Mem.ObjectDestructor, h1]
  · simp [hs]
theorem SharedPtr.ctor_copy_null (m : Mem) (bl : Option Nat) :
    SharedPtr.ctor_copy m ⟨bl, Ptr.null⟩ = some (⟨bl, Ptr.null⟩, m) := by
  simp [SharedPtr.ctor_copy, SharedPtr.toBool, SharedPtr.Get]

theorem SharedPtr.ctor_copy_eq {m : Mem} {b : Nat} {blk : BaseBlock} {p : Ptr}
    (hp : p ≠ Ptr.null) (h : m.block b = some blk) :
    SharedPtr.ctor_copy m ⟨some b, p⟩ =
      some (⟨some b, p⟩, Mem.mk (m.blocks.set b (some blk.IncShared)) m.log) := by
  simp [SharedPtr.ctor_copy, SharedPtr.toBool, SharedPtr.Get, hp, Mem.IncShared,
    Mem.call_some _ h]

theorem SharedPtr.ctor_copy_conv_eq_ctor_copy (m : Mem) (other : SharedPtr) :
    SharedPtr.ctor_copy_conv m other = SharedPtr.ctor_copy m other := rfl

theorem SharedPtr.ctor_alias_null (m : Mem) (other : SharedPtr) :
    SharedPtr.ctor_alias m other Ptr.null = some (⟨other.block_, Ptr.null⟩, m) := by
  simp [SharedPtr.ctor_alias, SharedPtr.toBool, SharedPtr.Get]

theorem SharedPtr.ctor_alias_eq {m : Mem} {b : Nat} {blk : BaseBlock} {p : Ptr} (q : Ptr)
    (hp : p ≠ Ptr.null) (h : m.block b = some blk) :
    SharedPtr.ctor_alias m ⟨some b, q⟩ p =
      some (⟨some b, p⟩, Mem.mk (m.blocks.set b (some blk.IncShared)) m.log) := by
  simp [SharedPtr.ctor_alias, SharedPtr.toBool, SharedPtr.Get, hp, Mem.IncShared,
    Mem.call_some _ h]

theorem Mem.new_call (m : Mem) (kind : BlockKind) (f : BaseBlock → BaseBlock) :
    (m.new kind).2.call (some (m.new kind).1) f =
      some (Mem.mk (m.blocks ++ [some (f ⟨0, 0, kind⟩)]) m.log) := by
  have h : (m.new kind).2.block (m.new kind).1 = some ⟨0, 0, kind⟩ := by
    rw [Mem.block_new]; simp [Mem.new]
  rw [Mem.call_some _ h]
  simp [Mem.new]

theorem BaseBlock.IncShared_fresh (kind : BlockKind) :
    BaseBlock.IncShared ⟨0, 0, kind⟩ = ⟨1, 0, kind⟩ := by
  simp [BaseBlock.IncShared, SIZE_MOD]

theorem SharedPtr.ctor_ptr_eq (m : Mem) (p : Ptr) :
    SharedPtr.ctor_ptr m p =
      some (⟨some m.blocks.length, p⟩,
        Mem.mk (m.blocks ++ [some ⟨1, 0, BlockKind.ControlBlock1 p⟩]) m.log) := by
  have h := Mem.new_call m (BlockKind.ControlBlock1 p) BaseBlock.IncShared
  rw [BaseBlock.IncShared_fresh] at h
  simp only [SharedPtr.ctor_ptr, Mem.IncShared]
  rw [h]
  rfl

theorem MakeShared_eq (m : Mem) :
    MakeShared m =
      some (⟨some m.blocks.length, Ptr.storage m.blocks.length⟩,
        Mem.mk (m.blocks ++ [some ⟨1, 0, BlockKind.ControlBlock2⟩]) m.log) := by
  have h := Mem.new_call m BlockKind.ControlBlock2 BaseBlock.IncShared
  rw [BaseBlock.IncShared_fresh] at h
  simp only [MakeShared, Mem.IncShared]
  rw [h]
  rfl

theorem WeakPtr.ctor_shared_none (m : Mem) (p : Ptr) :
    WeakPtr.ctor_shared m ⟨none, p⟩ = some (⟨none, p⟩, m) := by
  simp [WeakPtr.ctor_shared]

theorem WeakPtr.ctor_shared_eq {m : Mem} {b : Nat} {blk : BaseBlock} (p : Ptr)
    (h : m.block b = some blk) :
    WeakPtr.ctor_shared m ⟨some b, p⟩ =
      some (⟨some b, p⟩, Mem.mk (m.blocks.set b (some blk.IncWeak)) m.log) := by
  simp [WeakPtr.ctor_shared, Mem.IncWeak, Mem.call_some _ h]

theorem WeakPtr.weak_ctor_copy_none (m : Mem) (p : Ptr) :
    WeakPtr.ctor_copy m ⟨none, p⟩ = some (⟨none, p⟩, m) := by
  simp [WeakPtr.ctor_copy]

theorem WeakPtr.weak_ctor_copy_eq {m : Mem} {b : Nat} {blk : BaseBlock} (p : Ptr)
    (h : m.block b = some blk) :
    WeakPtr.ctor_copy m ⟨some b, p⟩ =
      some (⟨some b, p⟩, Mem.mk (m.blocks.set b (some blk.IncWeak)) m.log) := by
  simp [WeakPtr.ctor_copy, Mem.IncWeak, Mem.call_some _ h]

theorem WeakPtr.weak_dtor_none (m : Mem) (p : Ptr) : WeakPtr.dtor m ⟨none, p⟩ = some m := by
  simp [WeakPtr.dtor]

theorem WeakPtr.weak_dtor_eq {m : Mem} {b : Nat} {blk : BaseBlock} (p : Ptr)
    (h : m.block b = some blk) :
    WeakPtr.dtor m ⟨some b, p⟩ =
      if blk.DecWeak.counter_shared_ = 0 ∧ blk.DecWeak.counter_weak_ = 0 then
        some (Mem.mk (m.blocks.set b none) (m.log ++ [Event.deleteBlock b]))
      else some (Mem.mk (m.blocks.set b (some blk.DecWeak)) m.log) := by
  have h1 : (Mem.mk (m.blocks.set b (some blk.DecWeak)) m.log).block b = some blk.DecWeak :=
    Mem.block_set_self _ _ h
  unfold WeakPtr.dtor
  simp only [reduceCtorEq, if_false, Mem.DecWeak]
  rw [Mem.call_some _ h]
  simp only [Mem.GetShared_some h1, Mem.GetWeak_some h1]
  by_cases hz : blk.DecWeak.counter_shared_ = 0 ∧ blk.DecWeak.counter_weak_ = 0
  · simp [hz, Mem.delete, h1]
  · simp [hz]

theorem WeakPtr.Lock_none (m : Mem) (p : Ptr) :
    WeakPtr.Lock m ⟨none, p⟩ = Outcome.ok ⟨none, Ptr.null⟩ m := by
  simp [WeakPtr.Lock, WeakPtr.Expired_none, SharedPtr.ctor_default]

theorem WeakPtr.Lock_zero {m : Mem} {b : Nat} {blk : BaseBlock} (p : Ptr)
    (h : m.block b = some blk) (h0 : blk.counter_shared_ = 0) :
    WeakPtr.Lock m ⟨some b, p⟩ = Outcome.ok ⟨none, Ptr.null⟩ m := by
  simp [WeakPtr.Lock, WeakPtr.Expired_some p h, h0, SharedPtr.ctor_default]

theorem WeakPtr.Lock_pos {m : Mem} {b : Nat} {blk : BaseBlock} (p : Ptr)
    (h : m.block b = some blk) (h0 : blk.counter_shared_ ≠ 0) :
    WeakPtr.Lock m ⟨some b, p⟩ =
      Outcome.ok ⟨some b, p⟩ (Mem.mk (m.blocks.set b (some blk.IncShared)) m.log) := by
  simp [WeakPtr.Lock, WeakPtr.Expired_some p h, h0, SharedPtr.ctor_weak_pos p h h0]

theorem Mem.block_append_self (bl : List (Option BaseBlock)) (x : Option BaseBlock)
    (lg : List Event) : (Mem.mk (bl ++ [x]) lg).block bl.length = x := by
  simp [Mem.block, List.getD_eq_getElem?_getD]

/-! ## The counting invariant: heap updates -/

theorem Mem.call_inv {m m1 : Mem} {bl : Option Nat} {f : BaseBlock → BaseBlock}
    (h : m.call bl f = some m1) :
    ∃ b blk, bl = some b ∧ m.block b = some blk ∧
      m1 = Mem.mk (m.blocks.set b (some (f blk))) m.log := by
  cases bl with
  | none => simp [Mem.call] at h
  | some b =>
    cases hb : m.block b with
    | none => simp [Mem.call, hb] at h
    | some blk =>
      rw [Mem.call_some f hb] at h
      cases h
      exact ⟨b, blk, rfl, hb, rfl⟩

theorem Mem.block_append (bl : List (Option BaseBlock)) (x : Option BaseBlock)
    (lg lg2 : List Event) (b : Nat) :
    (Mem.mk (bl ++ [x]) lg).block b = if b = bl.length then x else (Mem.mk bl lg2).block b := by
  unfold Mem.block
  simp only [List.getD_eq_getElem?_getD, List.getElem?_append]
  by_cases h1 : b < bl.length
  · have : b ≠ bl.length := Nat.ne_of_lt h1
    simp [h1, this]
  · by_cases h2 : b = bl.length
    · subst h2; simp
    · have h4 : b - bl.length ≠ 0 := by omega
      have h5 : bl.length ≤ b := by omega
      simp [h1, h2, List.getElem?_eq_none h5]
      cases hk : b - bl.length with
      | zero => exact absurd hk h4
      | succ k => simp

theorem Good.update {n n2 : Nat} {m : Mem} {c d : Option Nat → Nat} {b : Nat}
    {blk blk2 : BaseBlock} (lg : List Event) (hg : Good n m c) (hb : m.block b = some blk)
    (hn : n ≤ n2) (hs : blk2.counter_shared_ ≤ n2) (hc : d (some b) ≤ blk2.counter_shared_)
    (hk : ∀ k, k ≠ some b → d k = c k) :
    Good n2 (Mem.mk (m.blocks.set b (some blk2)) lg) d := by
  obtain ⟨g1, g2, g3⟩ := hg
  have hlt := Mem.block_lt hb
  refine ⟨?_, ?_, ?_⟩
  · intro b2 x hx
    rw [Mem.block_set _ _ _ _ _ hlt] at hx
    by_cases e : b = b2
    · simp [e] at hx; rw [← hx]; exact hs
    · simp [e] at hx; exact Nat.le_trans (g1 b2 x hx) hn
  · rw [hk none (by simp)]; exact g2
  · intro b2 hpos
    rw [Mem.block_set _ _ _ _ _ hlt]
    by_cases e : b = b2
    · subst e; exact ⟨blk2, by simp, hc⟩
    · have hne : (some b2 : Option Nat) ≠ some b := by
        intro h; cases h; exact e rfl
      rw [hk _ hne] at hpos ⊢
      simpa [e] using g3 b2 hpos

theorem Good.remove {n : Nat} {m : Mem} {c d : Option Nat → Nat} {b : Nat}
    {blk : BaseBlock} (lg : List Event) (hg : Good n m c) (hb : m.block b = some blk)
    (hc : d (some b) = 0) (hk : ∀ k, k ≠ some b → d k = c k) :
    Good n (Mem.mk (m.blocks.set b none) lg) d := by
  obtain ⟨g1, g2, g3⟩ := hg
  have hlt := Mem.block_lt hb
  refine ⟨?_, ?_, ?_⟩
  · intro b2 x hx
    rw [Mem.block_set _ _ _ _ _ hlt] at hx
    by_cases e : b = b2
    · simp [e] at hx
    · simp [e] at hx; exact g1 b2 x hx
  · rw [hk none (by simp)]; exact g2
  · intro b2 hpos
    rw [Mem.block_set _ _ _ _ _ hlt]
    by_cases e : b = b2
    · subst e; omega
    · have hne : (some b2 : Option Nat) ≠ some b := by
        intro h; cases h; exact e rfl
      rw [hk _ hne] at hpos ⊢
      simpa [e] using g3 b2 hpos

theorem Good.fresh {n n2 : Nat} {m : Mem} {c d : Option Nat → Nat} {blk2 : BaseBlock}
    (lg : List Event) (hg : Good n m c) (hn : n ≤ n2) (hs : blk2.counter_shared_ ≤ n2)
    (hc : d (some m.blocks.length) ≤ blk2.counter_shared_)
    (hk : ∀ k, k ≠ some m.blocks.length → d k = c k) :
    Good n2 (Mem.mk (m.blocks ++ [some blk2]) lg) d := by
  obtain ⟨g1, g2, g3⟩ := hg
  have hnew : ∀ b2, (Mem.mk (m.blocks ++ [some blk2]) lg).block b2
      = if b2 = m.blocks.length then some blk2 else m.block b2 :=
    fun b2 => Mem.block_append m.blocks (some blk2) lg m.log b2
  refine ⟨?_, ?_, ?_⟩
  · intro b2 x hx
    rw [hnew] at hx
    by_cases e : b2 = m.blocks.length
    · simp [e] at hx; rw [← hx]; exact hs
    · simp [e] at hx; exact Nat.le_trans (g1 b2 x hx) hn
  · rw [hk none (by simp)]; exact g2
  · intro b2 hpos
    rw [hnew]
    by_cases e : b2 = m.blocks.length
    · subst e; exact ⟨blk2, by simp, hc⟩
    · have hne : (some b2 : Option Nat) ≠ some m.blocks.length := by
        intro h; cases h; exact e rfl
      rw [hk _ hne] at hpos ⊢
      simpa [e] using g3 b2 hpos

theorem Good.congr {n n2 : Nat} {m : Mem} {c d : Option Nat → Nat} (lg : List Event)
    (hg : Good n m c) (hn : n ≤ n2) (hk : ∀ k, d k = c k) :
    Good n2 (Mem.mk m.blocks lg) d := by
  obtain ⟨g1, g2, g3⟩ := hg
  refine ⟨fun b2 x hx => Nat.le_trans (g1 b2 x hx) hn, by rw [hk]; exact g2, ?_⟩
  intro b2 hpos
  rw [hk] at hpos ⊢
  exact g3 b2 hpos

theorem Good.unallocated {n : Nat} {m : Mem} {c : Option Nat → Nat} (hg : Good n m c)
    {b : Nat} (hb : m.block b = none) : c (some b) = 0 := by
  by_contra h
  obtain ⟨blk, hblk, _⟩ := hg.2.2 b (Nat.pos_of_ne_zero h)
  rw [hb] at hblk
  cases hblk
/-! ## The counting invariant: one constructor or destructor -/

theorem SharedPtr.owns_null (bl k : Option Nat) : (SharedPtr.mk bl Ptr.null).owns k = 0 := by
  simp [SharedPtr.owns, SharedPtr.toBool, SharedPtr.Get]

theorem SharedPtr.owns_self {b : Nat} {p : Ptr} (hp : p ≠ Ptr.null) :
    (SharedPtr.mk (some b) p).owns (some b) = 1 := by
  simp [SharedPtr.owns, SharedPtr.toBool, SharedPtr.Get, hp]

theorem SharedPtr.owns_other {bl k : Option Nat} (p : Ptr) (hk : k ≠ bl) :
    (SharedPtr.mk bl p).owns k = 0 := by
  simp [SharedPtr.owns, Ne.symm hk]

theorem SharedPtr.owns_le_one (h : SharedPtr) (k : Option Nat) : h.owns k ≤ 1 := by
  unfold SharedPtr.owns; split <;> omega

theorem BaseBlock.IncShared_val {blk : BaseBlock} {n : Nat} (h1 : blk.counter_shared_ ≤ n)
    (h2 : n + 1 < SIZE_MOD) : blk.IncShared.counter_shared_ = blk.counter_shared_ + 1 := by
  simp only [BaseBlock.IncShared]
  exact Nat.mod_eq_of_lt (by omega)

theorem BaseBlock.DecShared_val {blk : BaseBlock} {n : Nat} (h0 : 1 ≤ blk.counter_shared_)
    (h1 : blk.counter_shared_ ≤ n) (h2 : n < SIZE_MOD) :
    blk.DecShared.counter_shared_ = blk.counter_shared_ - 1 := by
  simp only [BaseBlock.DecShared]
  have e : SIZE_MOD - 1 + blk.counter_shared_ = (blk.counter_shared_ - 1) + SIZE_MOD := by
    omega
  rw [e, Nat.add_mod_right]
  exact Nat.mod_eq_of_lt (by omega)

/-- Adding a handle with `IncShared` on its block keeps the invariant. -/
theorem Good.inc {n : Nat} {m : Mem} {c d : Option Nat → Nat} {b : Nat} {blk : BaseBlock}
    {p : Ptr} (hg : Good n m c) (hn : n + 1 < SIZE_MOD) (hb : m.block b = some blk)
    (hk : ∀ k, d k = c k + (SharedPtr.mk (some b) p).owns k) :
    Good (n + 1) (Mem.mk (m.blocks.set b (some blk.IncShared)) m.log) d := by
  have hv := BaseBlock.IncShared_val (hg.1 b blk hb) hn
  refine Good.update m.log hg hb (Nat.le_succ n) ?_ ?_ ?_
  · rw [hv]; exact Nat.succ_le_succ (hg.1 b blk hb)
  · rw [hv, hk]
    have h1 := SharedPtr.owns_le_one ⟨some b, p⟩ (some b)
    by_cases h0 : c (some b) = 0
    · omega
    · obtain ⟨blk1, e1, e2⟩ := hg.2.2 b (Nat.pos_of_ne_zero h0)
      rw [hb] at e1; cases e1
      omega
  · intro k hne
    rw [hk, SharedPtr.owns_other p hne]; rfl

theorem Good.after_ctor_copy {n : Nat} {m m1 : Mem} {c d : Option Nat → Nat} {other h : SharedPtr}
    (hg : Good n m c) (hn : n + 1 < SIZE_MOD)
    (hop : SharedPtr.ctor_copy m other = some (h, m1))
    (hk : ∀ k, d k = c k + h.owns k) :
    Good (n + 1) m1 d ∧ m1.log = m.log := by
  obtain ⟨ob, op⟩ := other
  by_cases hp : op = Ptr.null
  · subst hp
    rw [SharedPtr.ctor_copy_null] at hop
    cases hop
    exact ⟨Good.congr m.log hg (Nat.le_succ n)
      (fun k => by rw [hk, SharedPtr.owns_null]; rfl), rfl⟩
  · have hb : (SharedPtr.mk ob op).toBool = true := by
      simp [SharedPtr.toBool, SharedPtr.Get, hp]
    simp only [SharedPtr.ctor_copy, hb, if_true, Option.map_eq_some', Prod.mk.injEq] at hop
    obtain ⟨mm, hcall, rfl, rfl⟩ := hop
    obtain ⟨b, blk, rfl, hblk, rfl⟩ := Mem.call_inv hcall
    exact ⟨Good.inc hg hn hblk hk, rfl⟩

theorem Good.after_ctor_alias {n : Nat} {m m1 : Mem} {c d : Option Nat → Nat} {other h : SharedPtr}
    {p : Ptr} (hg : Good n m c) (hn : n + 1 < SIZE_MOD)
    (hop : SharedPtr.ctor_alias m other p = some (h, m1))
    (hk : ∀ k, d k = c k + h.owns k) :
    Good (n + 1) m1 d ∧ m1.log = m.log := by
  by_cases hp : p = Ptr.null
  · subst hp
    rw [SharedPtr.ctor_alias_null] at hop
    cases hop
    exact ⟨Good.congr m.log hg (Nat.le_succ n)
      (fun k => by rw [hk, SharedPtr.owns_null]; rfl), rfl⟩
  · have hb : (SharedPtr.mk other.block_ p).toBool = true := by
      simp [SharedPtr.toBool, SharedPtr.Get, hp]
    simp only [SharedPtr.ctor_alias, hb, if_true, Option.map_eq_some', Prod.mk.injEq] at hop
    obtain ⟨mm, hcall, rfl, rfl⟩ := hop
    obtain ⟨b, blk, hbe, hblk, rfl⟩ := Mem.call_inv hcall
    have hbe2 : other.block_ = some b := hbe
    rw [hbe2] at hk
    exact ⟨Good.inc hg hn hblk hk, rfl⟩

theorem Good.after_ctor_new {n : Nat} {m : Mem} {c d : Option Nat → Nat} (kind : BlockKind)
    (p : Ptr) (hg : Good n m c)
    (hk : ∀ k, d k = c k + (SharedPtr.mk (some m.blocks.length) p).owns k) :
    Good (n + 1) (Mem.mk (m.blocks ++ [some ⟨1, 0, kind⟩]) m.log) d := by
  refine Good.fresh m.log hg (Nat.le_succ n) (Nat.succ_le_succ (Nat.zero_le n)) ?_ ?_
  · rw [hk, Good.unallocated hg (Mem.block_length_none m)]
    have := SharedPtr.owns_le_one ⟨some m.blocks.length, p⟩ (some m.blocks.length)
    simpa using this
  · intro k hne
    rw [hk, SharedPtr.owns_other p hne]; rfl

theorem Good.after_ctor_weak {n : Nat} {m m1 : Mem} {c d : Option Nat → Nat} {w : WeakPtr}
    {h : SharedPtr} (hg : Good n m c) (hn : n + 1 < SIZE_MOD)
    (hop : SharedPtr.ctor_weak m w = Outcome.ok h m1)
    (hk : ∀ k, d k = c k + h.owns k) :
    Good (n + 1) m1 d ∧ m1.log = m.log := by
  obtain ⟨wb, wp⟩ := w
  cases wb with
  | none => rw [SharedPtr.ctor_weak_none] at hop; cases hop
  | some b =>
    cases hblk : m.block b with
    | none =>
      simp [SharedPtr.ctor_weak, WeakPtr.Expired, WeakPtr.UseCount, Mem.GetShared, Mem.deref,
        hblk] at hop
    | some blk =>
      by_cases h0 : blk.counter_shared_ = 0
      · rw [SharedPtr.ctor_weak_zero wp hblk h0] at hop; cases hop
      · rw [SharedPtr.ctor_weak_pos wp hblk h0] at hop
        cases hop
        exact ⟨Good.inc hg hn hblk hk, rfl⟩

theorem SharedPtr.ctor_weak_thrown {m m1 : Mem} {w : WeakPtr} {e : Exn}
    (hop : SharedPtr.ctor_weak m w = Outcome.thrown e m1) : m1 = m := by
  unfold SharedPtr.ctor_weak at hop
  split at hop
  · cases hop
  · cases hop; rfl
  · dsimp only at hop
    split at hop
    · split at hop <;> cases hop
    · cases hop

theorem Good.after_Lock {n : Nat} {m m1 : Mem} {c d : Option Nat → Nat} {w : WeakPtr}
    {h : SharedPtr} (hg : Good n m c) (hn : n + 1 < SIZE_MOD)
    (hop : WeakPtr.Lock m w = Outcome.ok h m1)
    (hk : ∀ k, d k = c k + h.owns k) :
    Good (n + 1) m1 d ∧ m1.log = m.log := by
  unfold WeakPtr.Lock at hop
  split at hop
  · cases hop
  · cases hop
    exact ⟨Good.congr m.log hg (Nat.le_succ n)
      (fun k => by rw [hk]; simp [SharedPtr.ctor_default, SharedPtr.owns_null]), rfl⟩
  · exact Good.after_ctor_weak hg hn hop hk

theorem WeakPtr.Lock_thrown {m m1 : Mem} {w : WeakPtr} {e : Exn}
    (hop : WeakPtr.Lock m w = Outcome.thrown e m1) : m1 = m := by
  unfold WeakPtr.Lock at hop
  split at hop
  · cases hop
  · cases hop
  · exact SharedPtr.ctor_weak_thrown hop

theorem destructions_append_delete (lg : List Event) (b b2 : Nat) :
    destructions (lg ++ [Event.deleteBlock b]) b2 = destructions lg b2 := by
  simp [destructions, List.filter_append]

theorem destructions_append_ne (lg : List Event) {b b2 : Nat} (x : Ptr) (h : b ≠ b2) :
    destructions (lg ++ [Event.ObjectDestructor b x]) b2 = destructions lg b2 := by
  simp [destructions, List.filter_append, h]

theorem destructions_append_two_ne (lg : List Event) {b b2 : Nat} (x : Ptr) (h : b ≠ b2) :
    destructions (lg ++ [Event.ObjectDestructor b x, Event.deleteBlock b]) b2
      = destructions lg b2 := by
  simp [destructions, List.filter_append, h]

/-- Rewriting a block without changing its strong count keeps the invariant. -/
theorem Good.same_strong {n : Nat} {m : Mem} {c : Option Nat → Nat} {b : Nat}
    {blk blk2 : BaseBlock} (lg : List Event) (hg : Good n m c) (hb : m.block b = some blk)
    (he : blk2.counter_shared_ = blk.counter_shared_) :
    Good n (Mem.mk (m.blocks.set b (some blk2)) lg) c := by
  refine Good.update lg hg hb (Nat.le_refl n) ?_ ?_ (fun _ _ => rfl)
  · rw [he]; exact hg.1 b blk hb
  · rw [he]
    by_cases h0 : c (some b) = 0
    · omega
    · obtain ⟨blk1, e1, e2⟩ := hg.2.2 b (Nat.pos_of_ne_zero h0)
      rw [hb] at e1; cases e1
      exact e2

/-- The destructor of a counted handle keeps the invariant for the remaining
handles, and it calls `ObjectDestructor` only on a block that has no owner
left. -/
theorem Good.after_dtor {n : Nat} {m m1 : Mem} {c d : Option Nat → Nat} {h : SharedPtr}
    (hg : Good n m c) (hn : n < SIZE_MOD) (hk : ∀ k, c k = d k + h.owns k)
    (hop : SharedPtr.dtor m h = some m1) :
    Good n m1 d ∧ ∀ b, 0 < d (some b) → destructions m1.log b = destructions m.log b := by
  obtain ⟨hb, hp⟩ := h
  by_cases hnull : hp = Ptr.null
  · subst hnull
    rw [SharedPtr.dtor_null] at hop
    cases hop
    exact ⟨Good.congr m.log hg (Nat.le_refl n)
      (fun k => by rw [hk, SharedPtr.owns_null]; rfl), fun _ _ => rfl⟩
  · cases hb with
    | none =>
      have := hk none
      rw [hg.2.1] at this
      simp [SharedPtr.owns, SharedPtr.toBool, SharedPtr.Get, hnull] at this
    | some b =>
      have hcb : c (some b) = d (some b) + 1 := by
        rw [hk, SharedPtr.owns_self hnull]
      obtain ⟨blk, hblk, hle⟩ := hg.2.2 b (by omega)
      have hbound := hg.1 b blk hblk
      have hv := BaseBlock.DecShared_val (n := n) (by omega) hbound hn
      have hother : ∀ k, k ≠ some b → d k = c k := by
        intro k hne
        rw [hk, SharedPtr.owns_other hp hne]; rfl
      rw [SharedPtr.dtor_eq hnull hblk] at hop
      by_cases hs : blk.DecShared.counter_shared_ = 0
      · have hc0 : d (some b) = 0 := by omega
        have hlog : ∀ b2, 0 < d (some b2) → b ≠ b2 := by
          intro b2 hpos e; subst e; omega
        by_cases hw : blk.DecShared.counter_weak_ = 0
        · simp only [hs, hw, if_true] at hop
          cases hop
          exact ⟨Good.remove _ hg hblk hc0 hother,
            fun b2 hpos => destructions_append_two_ne _ _ (hlog b2 hpos)⟩
        · simp only [hs, hw, if_true, if_false] at hop
          cases hop
          refine ⟨Good.update _ hg hblk (Nat.le_refl n) (by omega) (by omega) hother,
            fun b2 hpos => destructions_append_ne _ _ (hlog b2 hpos)⟩
      · simp only [hs, if_false] at hop
        cases hop
        exact ⟨Good.update _ hg hblk (Nat.le_refl n) (by omega) (by omega) hother,
          fun _ _ => rfl⟩

theorem BaseBlock.IncWeak_shared (blk : BaseBlock) :
    blk.IncWeak.counter_shared_ = blk.counter_shared_ := rfl

theorem BaseBlock.DecWeak_shared (blk : BaseBlock) :
    blk.DecWeak.counter_shared_ = blk.counter_shared_ := by
  simp only [BaseBlock.DecWeak]

theorem Good.after_weak_ctor_copy {n : Nat} {m m1 : Mem} {c : Option Nat → Nat}
    {other h : WeakPtr} (hg : Good n m c) (hop : WeakPtr.ctor_copy m other = some (h, m1)) :
    Good n m1 c ∧ m1.log = m.log := by
  obtain ⟨ob, op⟩ := other
  cases ob with
  | none =>
    rw [WeakPtr.weak_ctor_copy_none] at hop
    cases hop
    exact ⟨hg, rfl⟩
  | some b =>
    simp only [WeakPtr.ctor_copy, ne_eq, reduceCtorEq, not_false_eq_true, if_true,
      Option.map_eq_some', Prod.mk.injEq] at hop
    obtain ⟨mm, hcall, rfl, rfl⟩ := hop
    obtain ⟨b2, blk, hbe, hblk, rfl⟩ := Mem.call_inv hcall
    exact ⟨Good.same_strong _ hg hblk (BaseBlock.IncWeak_shared blk), rfl⟩

theorem Good.after_weak_ctor_shared {n : Nat} {m m1 : Mem} {c : Option Nat → Nat}
    {other : SharedPtr} {h : WeakPtr} (hg : Good n m c)
    (hop : WeakPtr.ctor_shared m other = some (h, m1)) :
    Good n m1 c ∧ m1.log = m.log :=
  @Good.after_weak_ctor_copy n m m1 c ⟨other.block_, other.ptr_⟩ h hg hop

theorem Good.after_weak_dtor {n : Nat} {m m1 : Mem} {c : Option Nat → Nat} {w : WeakPtr}
    (hg : Good n m c) (hop : WeakPtr.dtor m w = some m1) :
    Good n m1 c ∧ ∀ b, destructions m1.log b = destructions m.log b := by
  obtain ⟨wb, wp⟩ := w
  cases wb with
  | none =>
    rw [WeakPtr.weak_dtor_none] at hop
    cases hop
    exact ⟨hg, fun _ => rfl⟩
  | some b =>
    cases hblk : m.block b with
    | none => simp [WeakPtr.dtor, Mem.DecWeak, Mem.call, hblk] at hop
    | some blk =>
      rw [WeakPtr.weak_dtor_eq wp hblk] at hop
      by_cases hz : blk.DecWeak.counter_shared_ = 0 ∧ blk.DecWeak.counter_weak_ = 0
      · simp only [hz, and_self, if_true] at hop
        cases hop
        refine ⟨Good.remove _ hg hblk ?_ (fun _ _ => rfl),
          fun b2 => destructions_append_delete _ _ _⟩
        by_contra h0
        obtain ⟨blk1, e1, e2⟩ := hg.2.2 b (Nat.pos_of_ne_zero h0)
        rw [hblk] at e1; cases e1
        have := hz.1
        rw [BaseBlock.DecWeak_shared] at this
        omega
      · simp only [hz, if_false] at hop
        cases hop
        exact ⟨Good.same_strong _ hg hblk (BaseBlock.DecWeak_shared blk), fun _ => rfl⟩

/-! ## The counting invariant: assignment and Reset -/

theorem Good.after_assign_copy {n : Nat} {m m2 : Mem} {c a d : Option Nat → Nat}
    {self other self1 : SharedPtr} (hg : Good n m c) (hn : n + 1 < SIZE_MOD)
    (hk : ∀ k, c k = a k + self.owns k)
    (hop : SharedPtr.assign_copy m self other = some (self1, m2))
    (hk2 : ∀ k, d k = a k + self1.owns k) :
    Good (n + 1) m2 d ∧ ∀ b, 0 < d (some b) → destructions m2.log b = destructions m.log b := by
  unfold SharedPtr.assign_copy at hop
  cases hc : SharedPtr.ctor_copy m other with
  | none => simp [hc] at hop
  | some r =>
    obtain ⟨tmp, m1⟩ := r
    simp only [hc, SharedPtr.Swap, Option.map_eq_some', Prod.mk.injEq] at hop
    obtain ⟨mm, hd, hs, rfl⟩ := hop
    obtain ⟨g1, l1⟩ := Good.after_ctor_copy (d := fun k => c k + tmp.owns k) hg hn hc
      (fun _ => rfl)
    have hs2 : self1 = tmp := by cases tmp; exact hs.symm
    have hd2 : SharedPtr.dtor m1 self = some mm := by cases self; exact hd
    obtain ⟨g2, l2⟩ := Good.after_dtor (d := d) g1 (by omega)
      (fun k => by simp only [hk2, hk, hs2]; omega) hd2
    exact ⟨g2, fun b hb => by rw [l2 b hb, l1]⟩

theorem Good.after_assign_move {n : Nat} {m m1 : Mem} {c a d : Option Nat → Nat}
    {self other self1 other1 : SharedPtr} (hg : Good n m c) (hn : n < SIZE_MOD)
    (hk : ∀ k, c k = a k + self.owns k + other.owns k)
    (hop : SharedPtr.assign_move m self other = some (self1, other1, m1))
    (hk2 : ∀ k, d k = a k + self1.owns k + other1.owns k) :
    Good n m1 d ∧ ∀ b, 0 < d (some b) → destructions m1.log b = destructions m.log b := by
  simp only [SharedPtr.assign_move, SharedPtr.ctor_move, SharedPtr.Swap, Option.map_eq_some',
    Prod.mk.injEq] at hop
  obtain ⟨mm, hd, hs, ho, rfl⟩ := hop
  have hs2 : self1 = other := by cases other; exact hs.symm
  have hd2 : SharedPtr.dtor m self = some mm := by cases self; exact hd
  subst ho
  exact Good.after_dtor (d := d) hg hn
    (fun k => by simp only [hk2, hk, hs2, SharedPtr.owns_null]; omega) hd2

theorem SharedPtr.assign_move_self_eq {m m1 : Mem} {self self1 : SharedPtr}
    (hop : SharedPtr.assign_move_self m self = some (self1, m1)) :
    self1 = self ∧ m1 = m := by
  simp only [SharedPtr.assign_move_self, SharedPtr.ctor_move, SharedPtr.Swap,
    SharedPtr.dtor_null, Option.map_some', Option.some.injEq, Prod.mk.injEq] at hop
  obtain ⟨hs, rfl⟩ := hop
  exact ⟨by cases self; exact hs.symm, rfl⟩

theorem Good.after_Reset {n : Nat} {m m1 : Mem} {c a d : Option Nat → Nat}
    {self self1 : SharedPtr} (hg : Good n m c) (hn : n < SIZE_MOD)
    (hk : ∀ k, c k = a k + self.owns k)
    (hop : SharedPtr.Reset m self = some (self1, m1))
    (hk2 : ∀ k, d k = a k + self1.owns k) :
    Good n m1 d ∧ ∀ b, 0 < d (some b) → destructions m1.log b = destructions m.log b := by
  simp only [SharedPtr.Reset, SharedPtr.ctor_default, SharedPtr.Swap, Option.map_eq_some',
    Prod.mk.injEq] at hop
  obtain ⟨mm, hd, hs, rfl⟩ := hop
  have hd2 : SharedPtr.dtor m self = some mm := by cases self; exact hd
  subst hs
  exact Good.after_dtor (d := d) hg hn
    (fun k => by simp only [hk2, hk, SharedPtr.owns_null]; omega) hd2

theorem Good.after_Reset_ptr {n : Nat} {m m2 : Mem} {c a d : Option Nat → Nat}
    {self self1 : SharedPtr} {p : Ptr} (hg : Good n m c) (hn : n + 1 < SIZE_MOD)
    (hk : ∀ k, c k = a k + self.owns k)
    (hop : SharedPtr.Reset_ptr m self p = some (self1, m2))
    (hk2 : ∀ k, d k = a k + self1.owns k) :
    Good (n + 1) m2 d ∧ ∀ b, 0 < d (some b) → destructions m2.log b = destructions m.log b := by
  simp only [SharedPtr.Reset_ptr, SharedPtr.ctor_ptr_eq, SharedPtr.Swap, Option.map_eq_some',
    Prod.mk.injEq] at hop
  obtain ⟨mm, hd, hs, rfl⟩ := hop
  have hd2 : SharedPtr.dtor (Mem.mk (m.blocks ++ [some ⟨1, 0, BlockKind.ControlBlock1 p⟩]) m.log)
      self = some mm := by cases self; exact hd
  have g1 := Good.after_ctor_new (d := fun k => c k + (SharedPtr.mk (some m.blocks.length) p).owns k)
    (BlockKind.ControlBlock1 p) p hg (fun _ => rfl)
  subst hs
  obtain ⟨g2, l2⟩ := Good.after_dtor (d := d) g1 (by omega)
    (fun k => by simp only [hk2, hk]; omega) hd2
  exact ⟨g2, fun b hb => by rw [l2 b hb]⟩

theorem Good.after_weak_assign_copy {n : Nat} {m m2 : Mem} {c : Option Nat → Nat}
    {self other self1 : WeakPtr} (hg : Good n m c)
    (hop : WeakPtr.assign_copy m self other = some (self1, m2)) :
    Good n m2 c ∧ ∀ b, destructions m2.log b = destructions m.log b := by
  unfold WeakPtr.assign_copy at hop
  cases hc : WeakPtr.ctor_copy m other with
  | none => simp [hc] at hop
  | some r =>
    obtain ⟨tmp, m1⟩ := r
    simp only [hc, WeakPtr.Swap, Option.map_eq_some', Prod.mk.injEq] at hop
    obtain ⟨mm, hd, _, rfl⟩ := hop
    obtain ⟨g1, l1⟩ := Good.after_weak_ctor_copy hg hc
    obtain ⟨g2, l2⟩ := Good.after_weak_dtor g1 hd
    exact ⟨g2, fun b => by rw [l2 b, l1]⟩

theorem Good.after_weak_assign_move {n : Nat} {m m1 : Mem} {c : Option Nat → Nat}
    {self other self1 other1 : WeakPtr} (hg : Good n m c)
    (hop : WeakPtr.assign_move m self other = some (self1, other1, m1)) :
    Good n m1 c ∧ ∀ b, destructions m1.log b = destructions m.log b := by
  simp only [WeakPtr.assign_move, WeakPtr.ctor_move, WeakPtr.Swap, Option.map_eq_some',
    Prod.mk.injEq] at hop
  obtain ⟨mm, hd, _, _, rfl⟩ := hop
  exact Good.after_weak_dtor hg hd

theorem Good.after_weak_assign_move_self {n : Nat} {m m1 : Mem} {c : Option Nat → Nat}
    {self self1 : WeakPtr} (hg : Good n m c)
    (hop : WeakPtr.assign_move_self m self = some (self1, m1)) :
    Good n m1 c ∧ ∀ b, destructions m1.log b = destructions m.log b := by
  simp only [WeakPtr.assign_move_self, WeakPtr.ctor_move, WeakPtr.Swap, Option.map_eq_some',
    Prod.mk.injEq] at hop
  obtain ⟨mm, hd, _, rfl⟩ := hop
  exact Good.after_weak_dtor hg hd

theorem Good.after_weak_Reset {n : Nat} {m m1 : Mem} {c : Option Nat → Nat}
    {self self1 : WeakPtr} (hg : Good n m c)
    (hop : WeakPtr.Reset m self = some (self1, m1)) :
    Good n m1 c ∧ ∀ b, destructions m1.log b = destructions m.log b := by
  simp only [WeakPtr.Reset, WeakPtr.ctor_default, WeakPtr.Swap, Option.map_eq_some',
    Prod.mk.injEq] at hop
  obtain ⟨mm, hd, _, rfl⟩ := hop
  exact Good.after_weak_dtor hg hd

/-! ## The counting invariant: the slots -/

theorem owners_append (l : List (Option SharedPtr)) (x : Option SharedPtr) (k : Option Nat) :
    owners (l ++ [x]) k = owners l k + slotOwns x k := by
  induction l with
  | nil => simp [owners]
  | cons y ys ih =>
    show slotOwns y k + owners (ys ++ [x]) k = slotOwns y k + owners ys k + slotOwns x k
    rw [ih]; omega

theorem owners_set (l : List (Option SharedPtr)) (i : Nat) (x : Option SharedPtr)
    (k : Option Nat) (hi : i < l.length) :
    owners (l.set i x) k + slotOwns (l.getD i none) k = owners l k + slotOwns x k := by
  induction l generalizing i with
  | nil => simp at hi
  | cons y ys ih =>
    cases i with
    | zero => simp only [List.set_cons_zero, owners, List.getD_cons_zero]; omega
    | succ j =>
      have hj : j < ys.length := by simpa using hi
      have := ih j hj
      simp only [List.set_cons_succ, owners, List.getD_cons_succ]
      omega

theorem getD_lt {α : Type} {l : List (Option α)} {i : Nat} {x : α}
    (h : l.getD i none = some x) : i < l.length := by
  rw [List.getD_eq_getElem?_getD] at h
  by_contra hlt
  rw [List.getElem?_eq_none (Nat.le_of_not_lt hlt)] at h
  simp at h

theorem getD_set {α : Type} (l : List (Option α)) (i j : Nat) (x : Option α)
    (hi : i < l.length) :
    (l.set i x).getD j none = if i = j then x else l.getD j none := by
  simp only [List.getD_eq_getElem?_getD, List.getElem?_set, hi, if_true]
  split <;> simp

theorem getD_append_left {α : Type} (l : List (Option α)) (x : Option α) (j : Nat)
    (hj : j < l.length) : (l ++ [x]).getD j none = l.getD j none := by
  simp only [List.getD_eq_getElem?_getD, List.getElem?_append_left hj]

theorem getD_append_length {α : Type} (l : List (Option α)) (x : Option α) :
    (l ++ [x]).getD l.length none = x := by
  simp [List.getD_eq_getElem?_getD]

theorem slotOwns_some (h : SharedPtr) (k : Option Nat) : slotOwns (some h) k = h.owns k := rfl

theorem slotOwns_none (k : Option Nat) : slotOwns none k = 0 := rfl

/-- A live non-empty handle is counted among the owners of its block. -/
theorem owners_pos {l : List (Option SharedPtr)} {i : Nat} {h : SharedPtr}
    (hi : l.getD i none = some h) (hb : h.toBool = true) : 0 < owners l h.block_ := by
  have h1 := owners_set l i none h.block_ (getD_lt hi)
  rw [hi, slotOwns_some, slotOwns_none] at h1
  have h2 : h.owns h.block_ = 1 := by simp [SharedPtr.owns, hb]
  omega

/-- Replacing the handle in a live slot: the owners without the old handle. -/
theorem owners_replace {l : List (Option SharedPtr)} {i : Nat} {old : SharedPtr}
    (hi : l.getD i none = some old) (x : Option SharedPtr) (k : Option Nat) :
    owners l k = owners (l.set i none) k + old.owns k ∧
    owners (l.set i x) k = owners (l.set i none) k + slotOwns x k := by
  have hlt := getD_lt hi
  have h1 := owners_set l i none k hlt
  have h2 := owners_set l i x k hlt
  rw [hi, slotOwns_some, slotOwns_none] at h1
  rw [hi, slotOwns_some] at h2
  omega

theorem SharedPtr.eta (h : SharedPtr) : SharedPtr.mk h.block_ h.ptr_ = h := rfl

/-- Appending a handle to the slots. -/
theorem State.good_push {n : Nat} {s : State} {h : SharedPtr} {m1 : Mem}
    (hg : Good n m1 (fun k => owners s.shared k + h.owns k)) :
    (s.pushShared h m1).good n := by
  have e : owners (s.shared ++ [some h]) = fun k => owners s.shared k + h.owns k :=
    funext fun k => by rw [owners_append, slotOwns_some]
  unfold State.good State.pushShared
  simp only
  rw [e]
  exact hg

theorem Good.mono {n n2 : Nat} {m : Mem} {c : Option Nat → Nat} (hg : Good n m c)
    (hn : n ≤ n2) : Good n2 m c :=
  Good.congr m.log hg hn (fun _ => rfl)

/-! ## The counting invariant: one operation of a program -/

theorem step_good_construct {n : Nat} {s s2 : State} {op : Op} (hg : s.good n)
    (hn : n + 1 < SIZE_MOD) (hstep : step s op = some s2)
    (hop : op = Op.shared_default ∨ op = Op.shared_nullptr ∨ (∃ p, op = Op.shared_ptr p) ∨
      op = Op.make_shared ∨ (∃ j, op = Op.shared_copy j) ∨ (∃ j, op = Op.shared_copy_conv j) ∨
      (∃ j p, op = Op.shared_alias j p) ∨ (∃ w, op = Op.shared_weak w) ∨
      (∃ w, op = Op.weak_lock w)) :
    StepOk n s s2 := by
  have hempty : Good (n + 1) s.mem (fun k => owners s.shared k + (SharedPtr.mk none Ptr.null).owns k) :=
    Good.congr s.mem.log hg (Nat.le_succ n) (fun k => by rw [SharedPtr.owns_null]; rfl)
  rcases hop with rfl | rfl | ⟨p, rfl⟩ | rfl | ⟨j, rfl⟩ | ⟨j, rfl⟩ | ⟨j, p, rfl⟩ | ⟨w, rfl⟩ |
    ⟨w, rfl⟩
  · simp only [step, Option.some.injEq] at hstep
    subst hstep
    exact ⟨State.good_push hempty, fun _ _ => rfl⟩
  · simp only [step, Option.some.injEq] at hstep
    subst hstep
    exact ⟨State.good_push hempty, fun _ _ => rfl⟩
  · simp only [step, SharedPtr.ctor_ptr_eq, Option.some.injEq] at hstep
    subst hstep
    exact ⟨State.good_push (Good.after_ctor_new _ p hg (fun _ => rfl)), fun _ _ => rfl⟩
  · simp only [step, MakeShared_eq, Option.some.injEq] at hstep
    subst hstep
    exact ⟨State.good_push (Good.after_ctor_new _ _ hg (fun _ => rfl)), fun _ _ => rfl⟩
  · cases ho : s.sharedAt j with
    | none => simp [step, ho] at hstep
    | some other =>
      cases hc : SharedPtr.ctor_copy s.mem other with
      | none => simp [step, ho, hc] at hstep
      | some r =>
        obtain ⟨h, m1⟩ := r
        simp only [step, ho, hc, Option.some.injEq] at hstep
        subst hstep
        obtain ⟨g, l⟩ := Good.after_ctor_copy hg hn hc (fun _ => rfl)
        exact ⟨State.good_push g, fun b _ => by
          show destructions m1.log b = _
          rw [l]⟩
  · cases ho : s.sharedAt j with
    | none => simp [step, ho] at hstep
    | some other =>
      cases hc : SharedPtr.ctor_copy_conv s.mem other with
      | none => simp [step, ho, hc] at hstep
      | some r =>
        obtain ⟨h, m1⟩ := r
        simp only [step, ho, hc, Option.some.injEq] at hstep
        subst hstep
        obtain ⟨g, l⟩ := Good.after_ctor_copy hg hn hc (fun _ => rfl)
        exact ⟨State.good_push g, fun b _ => by
          show destructions m1.log b = _
          rw [l]⟩
  · cases ho : s.sharedAt j with
    | none => simp [step, ho] at hstep
    | some other =>
      cases hc : SharedPtr.ctor_alias s.mem other p with
      | none => simp [step, ho, hc] at hstep
      | some r =>
        obtain ⟨h, m1⟩ := r
        simp only [step, ho, hc, Option.some.injEq] at hstep
        subst hstep
        obtain ⟨g, l⟩ := Good.after_ctor_alias hg hn hc (fun _ => rfl)
        exact ⟨State.good_push g, fun b _ => by
          show destructions m1.log b = _
          rw [l]⟩
  · cases ho : s.weakAt w with
    | none => simp [step, ho] at hstep
    | some other =>
      cases hc : SharedPtr.ctor_weak s.mem other with
      | undefined => simp [step, ho, hc] at hstep
      | thrown e m1 =>
        simp only [step, ho, hc, Option.some.injEq] at hstep
        subst hstep
        have hm := SharedPtr.ctor_weak_thrown hc
        subst hm
        exact ⟨Good.mono hg (Nat.le_succ n), fun _ _ => rfl⟩
      | ok h m1 =>
        simp only [step, ho, hc, Option.some.injEq] at hstep
        subst hstep
        obtain ⟨g, l⟩ := Good.after_ctor_weak hg hn hc (fun _ => rfl)
        exact ⟨State.good_push g, fun b _ => by
          show destructions m1.log b = _
          rw [l]⟩
  · cases ho : s.weakAt w with
    | none => simp [step, ho] at hstep
    | some other =>
      cases hc : WeakPtr.Lock s.mem other with
      | undefined => simp [step, ho, hc] at hstep
      | thrown e m1 =>
        simp only [step, ho, hc, Option.some.injEq] at hstep
        subst hstep
        have hm := WeakPtr.Lock_thrown hc
        subst hm
        exact ⟨Good.mono hg (Nat.le_succ n), fun _ _ => rfl⟩
      | ok h m1 =>
        simp only [step, ho, hc, Option.some.injEq] at hstep
        subst hstep
        obtain ⟨g, l⟩ := Good.after_Lock hg hn hc (fun _ => rfl)
        exact ⟨State.good_push g, fun b _ => by
          show destructions m1.log b = _
          rw [l]⟩

theorem step_good_move {n : Nat} {s s2 : State} {op : Op} (hg : s.good n)
    (hstep : step s op = some s2)
    (hop : (∃ j, op = Op.shared_move j) ∨ (∃ j, op = Op.shared_move_conv j) ∨
      (∃ i j, op = Op.shared_swap i j)) :
    StepOk n s s2 := by
  have hmove : ∀ j other, s.sharedAt j = some other →
      owners (s.shared.set j (some ⟨none, Ptr.null⟩) ++ [some ⟨other.block_, other.ptr_⟩])
        = owners s.shared := by
    intro j other ho
    funext k
    have h1 := (owners_replace ho (some ⟨none, Ptr.null⟩) k)
    rw [slotOwns_some, SharedPtr.owns_null] at h1
    rw [owners_append, slotOwns_some, SharedPtr.eta]
    omega
  rcases hop with ⟨j, rfl⟩ | ⟨j, rfl⟩ | ⟨i, j, rfl⟩
  · cases ho : s.sharedAt j with
    | none => simp [step, ho] at hstep
    | some other =>
      simp only [step, ho, SharedPtr.ctor_move, SharedPtr.Swap, Option.some.injEq] at hstep
      subst hstep
      unfold StepOk State.good
      simp only [hmove j other ho]
      exact ⟨Good.mono hg (Nat.le_succ n), fun _ _ => trivial⟩
  · cases ho : s.sharedAt j with
    | none => simp [step, ho] at hstep
    | some other =>
      simp only [step, ho, SharedPtr.ctor_move_conv, Option.some.injEq] at hstep
      subst hstep
      unfold StepOk State.good
      simp only [hmove j other ho]
      exact ⟨Good.mono hg (Nat.le_succ n), fun _ _ => trivial⟩
  · cases hs : s.sharedAt i with
    | none => simp [step, hs] at hstep
    | some self =>
      cases ho : s.sharedAt j with
      | none => simp [step, hs, ho] at hstep
      | some other =>
        simp only [step, hs, ho, SharedPtr.Swap, Option.some.injEq, SharedPtr.eta] at hstep
        subst hstep
        have hi := getD_lt hs
        have hj := getD_lt ho
        have e : owners ((s.shared.set i (some other)).set j (some self)) = owners s.shared := by
          funext k
          have h1 := owners_set s.shared i (some other) k hi
          have h2 := owners_set (s.shared.set i (some other)) j (some self) k
            (by rw [List.length_set]; exact hj)
          rw [getD_set _ _ _ _ hi] at h2
          have hs2 : s.shared.getD i none = some self := hs
          have ho2 : s.shared.getD j none = some other := ho
          rw [hs2] at h1
          by_cases hij : i = j
          · subst hij
            rw [hs2] at ho2
            cases ho2
            simp only [if_true] at h2
            omega
          · simp only [hij, if_false] at h2
            rw [ho2] at h2
            omega
        unfold StepOk State.good
        simp only [e]
        exact ⟨Good.mono hg (Nat.le_succ n), fun _ _ => trivial⟩

theorem step_good_modify {n : Nat} {s s2 : State} {op : Op} (hg : s.good n)
    (hn : n + 1 < SIZE_MOD) (hstep : step s op = some s2)
    (hop : (∃ i j, op = Op.shared_assign_copy i j) ∨ (∃ i j, op = Op.shared_assign_move i j) ∨
      (∃ i, op = Op.shared_reset i) ∨ (∃ i p, op = Op.shared_reset_ptr i p) ∨
      (∃ i, op = Op.shared_dtor i)) :
    StepOk n s s2 := by
  rcases hop with ⟨i, j, rfl⟩ | ⟨i, j, rfl⟩ | ⟨i, rfl⟩ | ⟨i, p, rfl⟩ | ⟨i, rfl⟩
  · cases hs : s.sharedAt i with
    | none => simp [step, hs] at hstep
    | some self =>
      cases ho : s.sharedAt j with
      | none => simp [step, hs, ho] at hstep
      | some other =>
        cases hc : SharedPtr.assign_copy s.mem self other with
        | none => simp [step, hs, ho, hc] at hstep
        | some r =>
          obtain ⟨self1, m1⟩ := r
          simp only [step, hs, ho, hc, Option.some.injEq] at hstep
          subst hstep
          exact Good.after_assign_copy (a := owners (s.shared.set i none)) hg hn
            (fun k => (owners_replace hs none k).1) hc
            (fun k => (owners_replace hs (some self1) k).2)
  · cases hs : s.sharedAt i with
    | none => simp [step, hs] at hstep
    | some self =>
      cases ho : s.sharedAt j with
      | none => simp [step, hs, ho] at hstep
      | some other =>
        by_cases hij : i = j
        · subst hij
          cases hc : SharedPtr.assign_move_self s.mem self with
          | none => simp [step, hs, hc] at hstep
          | some r =>
            obtain ⟨self1, m1⟩ := r
            simp only [step, hs, hc, if_true, Option.some.injEq] at hstep
            subst hstep
            obtain ⟨rfl, rfl⟩ := SharedPtr.assign_move_self_eq hc
            have e : owners (s.shared.set i (some self1)) = owners s.shared := by
              funext k
              have := owners_replace hs (some self1) k
              rw [slotOwns_some] at this
              omega
            unfold StepOk State.good
            simp only [e]
            exact ⟨Good.mono hg (Nat.le_succ n), fun _ _ => trivial⟩
        · cases hc : SharedPtr.assign_move s.mem self other with
          | none => simp [step, hs, ho, hc, hij] at hstep
          | some r =>
            obtain ⟨self1, other1, m1⟩ := r
            simp only [step, hs, ho, hc, hij, if_false, Option.some.injEq] at hstep
            subst hstep
            have hj := getD_lt ho
            have hs3 : ∀ x, (s.shared.set j x).getD i none = some self := by
              intro x
              rw [getD_set _ _ _ _ hj]
              simp only [Ne.symm hij, if_false]
              exact hs
            obtain ⟨g, l⟩ := Good.after_assign_move
              (a := owners ((s.shared.set j none).set i none))
              (d := owners ((s.shared.set j (some other1)).set i (some self1)))
              hg (by omega)
              (fun k => by
                have h1 := (owners_replace ho none k).1
                have h2 := (owners_replace (hs3 none) none k).1
                omega) hc
              (fun k => by
                have h2 := (owners_replace (hs3 (some other1)) (some self1) k).2
                have ho2 : (s.shared.set i none).getD j none = some other := by
                  rw [getD_set _ _ _ _ (getD_lt hs)]
                  simp only [hij, if_false]
                  exact ho
                have h3 := (owners_replace ho2 (some other1) k).2
                have e1 : (s.shared.set j (some other1)).set i none
                    = (s.shared.set i none).set j (some other1) :=
                  List.set_comm _ _ _ (Ne.symm hij)
                have e2 : (s.shared.set j none).set i none
                    = (s.shared.set i none).set j none :=
                  List.set_comm _ _ _ (Ne.symm hij)
                rw [e1] at h2
                rw [e2]
                simp only [slotOwns_some] at h2 h3
                omega)
            exact ⟨Good.mono g (Nat.le_succ n), l⟩
  · cases hs : s.sharedAt i with
    | none => simp [step, hs] at hstep
    | some self =>
      cases hc : SharedPtr.Reset s.mem self with
      | none => simp [step, hs, hc] at hstep
      | some r =>
        obtain ⟨self1, m1⟩ := r
        simp only [step, hs, hc, Option.some.injEq] at hstep
        subst hstep
        obtain ⟨g, l⟩ := Good.after_Reset (a := owners (s.shared.set i none))
          (d := owners (s.shared.set i (some self1))) hg (by omega)
          (fun k => (owners_replace hs none k).1) hc
          (fun k => (owners_replace hs (some self1) k).2)
        exact ⟨Good.mono g (Nat.le_succ n), l⟩
  · cases hs : s.sharedAt i with
    | none => simp [step, hs] at hstep
    | some self =>
      cases hc : SharedPtr.Reset_ptr s.mem self p with
      | none => simp [step, hs, hc] at hstep
      | some r =>
        obtain ⟨self1, m1⟩ := r
        simp only [step, hs, hc, Option.some.injEq] at hstep
        subst hstep
        exact Good.after_Reset_ptr (a := owners (s.shared.set i none)) hg hn
          (fun k => (owners_replace hs none k).1) hc
          (fun k => (owners_replace hs (some self1) k).2)
  · cases hs : s.sharedAt i with
    | none => simp [step, hs] at hstep
    | some self =>
      cases hc : SharedPtr.dtor s.mem self with
      | none => simp [step, hs, hc] at hstep
      | some m1 =>
        simp only [step, hs, hc, Option.some.injEq] at hstep
        subst hstep
        obtain ⟨g, l⟩ := Good.after_dtor (d := owners (s.shared.set i none)) hg (by omega)
          (fun k => (owners_replace hs none k).1) hc
        exact ⟨Good.mono g (Nat.le_succ n), l⟩

theorem step_good_weak {n : Nat} {s s2 : State} {op : Op} (hg : s.good n)
    (hstep : step s op = some s2)
    (hop : op = Op.weak_default ∨ (∃ j, op = Op.weak_copy j) ∨ (∃ j, op = Op.weak_move j) ∨
      (∃ j, op = Op.weak_move_conv j) ∨ (∃ j, op = Op.weak_shared j) ∨
      (∃ i j, op = Op.weak_assign_copy i j) ∨ (∃ i j, op = Op.weak_assign_move i j) ∨
      (∃ i, op = Op.weak_reset i) ∨ (∃ i j, op = Op.weak_swap i j) ∨
      (∃ i, op = Op.weak_dtor i)) :
    StepOk n s s2 := by
  have key : ∀ (m1 : Mem) (wk : List (Option WeakPtr)), Good n m1 (owners s.shared) →
      (∀ b, destructions m1.log b = destructions s.mem.log b) →
      StepOk n s ⟨m1, s.shared, wk⟩ :=
    fun m1 wk g l => ⟨Good.mono g (Nat.le_succ n), fun b _ => l b⟩
  rcases hop with rfl | ⟨j, rfl⟩ | ⟨j, rfl⟩ | ⟨j, rfl⟩ | ⟨j, rfl⟩ | ⟨i, j, rfl⟩ | ⟨i, j, rfl⟩ |
    ⟨i, rfl⟩ | ⟨i, j, rfl⟩ | ⟨i, rfl⟩
  · simp only [step, Option.some.injEq] at hstep
    subst hstep
    exact key _ _ hg (fun _ => rfl)
  · cases ho : s.weakAt j with
    | none => simp [step, ho] at hstep
    | some other =>
      cases hc : WeakPtr.ctor_copy s.mem other with
      | none => simp [step, ho, hc] at hstep
      | some r =>
        obtain ⟨h, m1⟩ := r
        simp only [step, ho, hc, Option.some.injEq] at hstep
        subst hstep
        obtain ⟨g, l⟩ := Good.after_weak_ctor_copy hg hc
        exact key _ _ g (fun b => by rw [l])
  · cases ho : s.weakAt j with
    | none => simp [step, ho] at hstep
    | some other =>
      simp only [step, ho, Option.some.injEq] at hstep
      subst hstep
      exact key _ _ hg (fun _ => rfl)
  · cases ho : s.weakAt j with
    | none => simp [step, ho] at hstep
    | some other =>
      simp only [step, ho, Option.some.injEq] at hstep
      subst hstep
      exact key _ _ hg (fun _ => rfl)
  · cases ho : s.sharedAt j with
    | none => simp [step, ho] at hstep
    | some other =>
      cases hc : WeakPtr.ctor_shared s.mem other with
      | none => simp [step, ho, hc] at hstep
      | some r =>
        obtain ⟨h, m1⟩ := r
        simp only [step, ho, hc, Option.some.injEq] at hstep
        subst hstep
        obtain ⟨g, l⟩ := Good.after_weak_ctor_shared hg hc
        exact key _ _ g (fun b => by rw [l])
  · cases hs : s.weakAt i with
    | none => simp [step, hs] at hstep
    | some self =>
      cases ho : s.weakAt j with
      | none => simp [step, hs, ho] at hstep
      | some other =>
        cases hc : WeakPtr.assign_copy s.mem self other with
        | none => simp [step, hs, ho, hc] at hstep
        | some r =>
          obtain ⟨self1, m1⟩ := r
          simp only [step, hs, ho, hc, Option.some.injEq] at hstep
          subst hstep
          obtain ⟨g, l⟩ := Good.after_weak_assign_copy hg hc
          exact key _ _ g l
  · cases hs : s.weakAt i with
    | none => simp [step, hs] at hstep
    | some self =>
      cases ho : s.weakAt j with
      | none => simp [step, hs, ho] at hstep
      | some other =>
        by_cases hij : i = j
        · subst hij
          cases hc : WeakPtr.assign_move_self s.mem self with
          | none => simp [step, hs, hc] at hstep
          | some r =>
            obtain ⟨self1, m1⟩ := r
            simp only [step, hs, hc, if_true, Option.some.injEq] at hstep
            subst hstep
            obtain ⟨g, l⟩ := Good.after_weak_assign_move_self hg hc
            exact key _ _ g l
        · cases hc : WeakPtr.assign_move s.mem self other with
          | none => simp [step, hs, ho, hc, hij] at hstep
          | some r =>
            obtain ⟨self1, other1, m1⟩ := r
            simp only [step, hs, ho, hc, hij, if_false, Option.some.injEq] at hstep
            subst hstep
            obtain ⟨g, l⟩ := Good.after_weak_assign_move hg hc
            exact key _ _ g l
  · cases hs : s.weakAt i with
    | none => simp [step, hs] at hstep
    | some self =>
      cases hc : WeakPtr.Reset s.mem self with
      | none => simp [step, hs, hc] at hstep
      | some r =>
        obtain ⟨self1, m1⟩ := r
        simp only [step, hs, hc, Option.some.injEq] at hstep
        subst hstep
        obtain ⟨g, l⟩ := Good.after_weak_Reset hg hc
        exact key _ _ g l
  · cases hs : s.weakAt i with
    | none => simp [step, hs] at hstep
    | some self =>
      cases ho : s.weakAt j with
      | none => simp [step, hs, ho] at hstep
      | some other =>
        simp only [step, hs, ho, Option.some.injEq] at hstep
        subst hstep
        exact key _ _ hg (fun _ => rfl)
  · cases hs : s.weakAt i with
    | none => simp [step, hs] at hstep
    | some self =>
      cases hc : WeakPtr.dtor s.mem self with
      | none => simp [step, hs, hc] at hstep
      | some m1 =>
        simp only [step, hs, hc, Option.some.injEq] at hstep
        subst hstep
        obtain ⟨g, l⟩ := Good.after_weak_dtor hg hc
        exact key _ _ g l

/-- Every operation of a program keeps the counting invariant, and calls
`ObjectDestructor` only on blocks that have no owner afterwards. -/
theorem step_good {n : Nat} {s s2 : State} (op : Op) (hg : s.good n) (hn : n + 1 < SIZE_MOD)
    (hstep : step s op = some s2) : StepOk n s s2 := by
  cases op with
  | shared_default => exact step_good_construct hg hn hstep (by simp)
  | shared_nullptr => exact step_good_construct hg hn hstep (by simp)
  | shared_ptr p => exact step_good_construct hg hn hstep (by simp)
  | make_shared => exact step_good_construct hg hn hstep (by simp)
  | shared_copy j => exact step_good_construct hg hn hstep (by simp)
  | shared_move j => exact step_good_move hg hstep (by simp)
  | shared_copy_conv j => exact step_good_construct hg hn hstep (by simp)
  | shared_move_conv j => exact step_good_move hg hstep (by simp)
  | shared_alias j p => exact step_good_construct hg hn hstep (by simp)
  | shared_weak w => exact step_good_construct hg hn hstep (by simp)
  | shared_assign_copy i j => exact step_good_modify hg hn hstep (by simp)
  | shared_assign_move i j => exact step_good_modify hg hn hstep (by simp)
  | shared_reset i => exact step_good_modify hg hn hstep (by simp)
  | shared_reset_ptr i p => exact step_good_modify hg hn hstep (by simp)
  | shared_swap i j => exact step_good_move hg hstep (by simp)
  | shared_dtor i => exact step_good_modify hg hn hstep (by simp)
  | weak_default => exact step_good_weak hg hstep (by simp)
  | weak_copy j => exact step_good_weak hg hstep (by simp)
  | weak_move j => exact step_good_weak hg hstep (by simp)
  | weak_move_conv j => exact step_good_weak hg hstep (by simp)
  | weak_shared j => exact step_good_weak hg hstep (by simp)
  | weak_assign_copy i j => exact step_good_weak hg hstep (by simp)
  | weak_assign_move i j => exact step_good_weak hg hstep (by simp)
  | weak_reset i => exact step_good_weak hg hstep (by simp)
  | weak_swap i j => exact step_good_weak hg hstep (by simp)
  | weak_dtor i => exact step_good_weak hg hstep (by simp)
  | weak_lock w => exact step_good_construct hg hn hstep (by simp)

theorem State.init_good : State.init.good 0 := by
  refine ⟨?_, rfl, ?_⟩
  · intro b blk h
    simp [State.init, Mem.block] at h
  · intro b h
    simp [State.init, owners] at h

/-- The counting invariant holds after every program that runs without
undefined behaviour and is shorter than `SIZE_MOD`. -/
theorem run_good {n : Nat} (ops : List Op) {s s2 : State} (hg : s.good n)
    (hn : n + ops.length < SIZE_MOD) (hrun : run ops s = some s2) :
    s2.good (n + ops.length) := by
  induction ops generalizing n s with
  | nil =>
    simp only [run, Option.some.injEq] at hrun
    subst hrun
    exact hg
  | cons op rest ih =>
    simp only [List.length_cons] at hn ⊢
    cases hs : step s op with
    | none => simp [run, hs] at hrun
    | some s1 =>
      simp only [run, hs] at hrun
      have h1 := (step_good op hg (by omega) hs).1
      have h2 := ih h1 (by omega) hrun
      have e : n + (rest.length + 1) = n + 1 + rest.length := by omega
      rw [e]
      exact h2

/-! ## The aliasing constructor with a non-null pointer -/

/-- The aliasing constructor with a non-null pointer, in a reachable state and
from a non-empty `other`: the new handle has the pointer `p` and the block of
`other`, the strong count grows by one, nothing else changes; and no later
operation after which the aliasing handle is still in its slot calls
`ObjectDestructor` on the block. -/
theorem alias_nonnull_keeps_object_alive (ops : List Op) (s : State) (j : Nat)
    (other : SharedPtr) (p : Ptr)
    (hrun : run ops State.init = some s) (hlen : ops.length + 1 < SIZE_MOD)
    (hj : s.sharedAt j = some other) (ho : other.toBool = true) (hp : p ≠ Ptr.null) :
    ∃ b blk s1, other.block_ = some b ∧ s.mem.block b = some blk ∧
      step s (Op.shared_alias j p) = some s1 ∧
      s1.sharedAt s.shared.length = some ⟨some b, p⟩ ∧
      s1.mem.block b = some ⟨blk.counter_shared_ + 1, blk.counter_weak_, blk.kind⟩ ∧
      (∀ b2, b2 ≠ b → s1.mem.block b2 = s.mem.block b2) ∧
      s1.mem.log = s.mem.log ∧
      ∀ (post : List Op) (s2 : State) (op : Op) (s3 : State),
        run post s1 = some s2 → ops.length + 1 + post.length + 1 < SIZE_MOD →
        step s2 op = some s3 → s3.sharedAt s.shared.length = some ⟨some b, p⟩ →
        destructions s3.mem.log b = destructions s2.mem.log b := by
  have hg := run_good (n := 0) ops State.init_good (by omega) hrun
  rw [Nat.zero_add] at hg
  have hpos := owners_pos hj ho
  obtain ⟨ob, op0⟩ := other
  cases ob with
  | none =>
    rw [hg.2.1] at hpos
    exact absurd hpos (Nat.lt_irrefl 0)
  | some b =>
    obtain ⟨blk, hblk, _⟩ := hg.2.2 b hpos
    have hal := SharedPtr.ctor_alias_eq op0 hp hblk
    have hv := BaseBlock.IncShared_val (hg.1 b blk hblk) hlen
    have hstep : step s (Op.shared_alias j p) = some (s.pushShared ⟨some b, p⟩
        (Mem.mk (s.mem.blocks.set b (some blk.IncShared)) s.mem.log)) := by
      simp only [step, hj, hal]
    have hg1 := (step_good _ hg hlen hstep).1
    refine ⟨b, blk, _, rfl, hblk, hstep, ?_, ?_, ?_, rfl, ?_⟩
    · exact getD_append_length _ _
    · show (Mem.mk (s.mem.blocks.set b (some blk.IncShared)) s.mem.log).block b = _
      rw [Mem.block_set_self _ _ hblk, ← hv]
      rfl
    · intro b2 hne
      show (Mem.mk (s.mem.blocks.set b (some blk.IncShared)) s.mem.log).block b2 = _
      rw [Mem.block_set _ _ _ _ _ (Mem.block_lt hblk)]
      simp [Ne.symm hne]
    · intro post s2 op s3 hpost hlen2 hop hslot
      have hg2 := run_good post hg1 (by omega) hpost
      have hok := step_good op hg2 (by omega) hop
      have hb : (SharedPtr.mk (some b) p).toBool = true := (SharedPtr.toBool_iff _).2 hp
      exact hok.2 b (owners_pos hslot hb)

/-! ## C4: the promoting constructor -/

/-- C4: for a WeakPtr `w` whose block, if any, is allocated, the promoting
constructor `SharedPtr(w)` throws `BadWeakPtr` exactly when `w` is empty or
the strong count of its block is 0; a throw leaves the heap as it was; on
success the new handle has the block and the pointer of `w`, the strong count
of the block went through `++` once (it is one greater unless `size_t`
wraps), and the weak count, the other blocks and the log are unchanged. -/
theorem C4_promote (m : Mem) (w : WeakPtr)
    (hw : ∀ b, w.block_ = some b → ∃ blk, m.block b = some blk) :
    ((∃ m1, SharedPtr.ctor_weak m w = Outcome.thrown Exn.BadWeakPtr m1) ↔
        (w.block_ = none ∨
          ∃ b blk, w.block_ = some b ∧ m.block b = some blk ∧ blk.counter_shared_ = 0)) ∧
    (∀ e m1, SharedPtr.ctor_weak m w = Outcome.thrown e m1 → e = Exn.BadWeakPtr ∧ m1 = m) ∧
    (∀ b blk, w.block_ = some b → m.block b = some blk → blk.counter_shared_ ≠ 0 →
        ∃ m1, SharedPtr.ctor_weak m w = Outcome.ok ⟨some b, w.ptr_⟩ m1 ∧
          m1.block b =
            some ⟨(blk.counter_shared_ + 1) % SIZE_MOD, blk.counter_weak_, blk.kind⟩ ∧
          (blk.counter_shared_ + 1 < SIZE_MOD →
            m1.GetShared (some b) = some (blk.counter_shared_ + 1)) ∧
          (∀ b2, b2 ≠ b → m1.block b2 = m.block b2) ∧ m1.log = m.log) := by
  obtain ⟨wb, wp⟩ := w
  cases wb with
  | none =>
    refine ⟨?_, ?_, ?_⟩
    · rw [SharedPtr.ctor_weak_none]; simp
    · intro e m1 h
      rw [SharedPtr.ctor_weak_none] at h
      cases h; exact ⟨rfl, rfl⟩
    · intro b blk hb; cases hb
  | some b =>
    obtain ⟨blk, hblk⟩ := hw b rfl
    by_cases h0 : blk.counter_shared_ = 0
    · refine ⟨?_, ?_, ?_⟩
      · rw [SharedPtr.ctor_weak_zero wp hblk h0]
        simp [hblk, h0]
      · intro e m1 h
        rw [SharedPtr.ctor_weak_zero wp hblk h0] at h
        cases h; exact ⟨rfl, rfl⟩
      · intro b2 blk2 hb hblk2 hne
        cases hb
        rw [hblk] at hblk2; cases hblk2
        exact absurd h0 hne
    · refine ⟨?_, ?_, ?_⟩
      · rw [SharedPtr.ctor_weak_pos wp hblk h0]
        simp [hblk, h0]
      · intro e m1 h
        rw [SharedPtr.ctor_weak_pos wp hblk h0] at h
        cases h
      · intro b2 blk2 hb hblk2 _
        cases hb
        rw [hblk] at hblk2; cases hblk2
        refine ⟨_, SharedPtr.ctor_weak_pos wp hblk h0, ?_, ?_, ?_, rfl⟩
        · rw [Mem.block_set _ _ _ _ _ (Mem.block_lt hblk)]
          simp [BaseBlock.IncShared]
        · intro hlt
          have hb2 : (Mem.mk (m.blocks.set b (some blk.IncShared)) m.log).block b
              = some blk.IncShared := by
            rw [Mem.block_set _ _ _ _ _ (Mem.block_lt hblk)]; simp
          rw [Mem.GetShared_some hb2]
          simp [BaseBlock.IncShared, Nat.mod_eq_of_lt hlt]
        · intro b2 hne
          rw [Mem.block_set _ _ _ _ _ (Mem.block_lt hblk)]
          simp [Ne.symm hne]

/-- Witness for C4: promotion from a WeakPtr on a block with strong count 1. -/
theorem C4_promote_witness :
    ∃ m1, SharedPtr.ctor_weak ⟨[some ⟨1, 1, BlockKind.ControlBlock2⟩], []⟩ ⟨some 0, Ptr.storage 0⟩
        = Outcome.ok ⟨some 0, Ptr.storage 0⟩ m1 ∧
      m1.block 0 = some ⟨2, 1, BlockKind.ControlBlock2⟩ := by
  have h := (C4_promote ⟨[some ⟨1, 1, BlockKind.ControlBlock2⟩], []⟩ ⟨some 0, Ptr.storage 0⟩
    (by intro b hb; cases hb; exact ⟨_, rfl⟩)).2.2 0 ⟨1, 1, BlockKind.ControlBlock2⟩ rfl rfl
    (by decide)
  obtain ⟨m1, h1, h2, _⟩ := h
  exact ⟨m1, h1, h2⟩

/-! ## C10: copy construction -/

/-- What the copy constructors do on a handle that tests non-empty or has no
block: for a SharedPtr `s` whose block is allocated when its pointer is
non-null, the copy constructor and the converting copy constructor return a
handle with the block and the pointer of `s`; when `s` is non-empty the strong
count of the block went through `++` once (one greater unless `size_t` wraps),
its weak count, the other blocks and the log are unchanged; when `s` is empty
the result is empty and the heap is unchanged. -/
theorem copy_of_tested_handle (m : Mem) (s : SharedPtr)
    (hs : s.ptr_ ≠ Ptr.null → ∃ b blk, s.block_ = some b ∧ m.block b = some blk) :
    ∃ h m1, SharedPtr.ctor_copy m s = some (h, m1) ∧
      SharedPtr.ctor_copy_conv m s = some (h, m1) ∧
      h.block_ = s.block_ ∧ h.ptr_ = s.ptr_ ∧
      (s.toBool = true → ∃ b blk, s.block_ = some b ∧ m.block b = some blk ∧
          m1.block b =
            some ⟨(blk.counter_shared_ + 1) % SIZE_MOD, blk.counter_weak_, blk.kind⟩ ∧
          (blk.counter_shared_ + 1 < SIZE_MOD →
            m1.GetShared (some b) = some (blk.counter_shared_ + 1)) ∧
          m1.GetWeak (some b) = m.GetWeak (some b) ∧
          (∀ b2, b2 ≠ b → m1.block b2 = m.block b2) ∧ m1.log = m.log) ∧
      (s.toBool = false → h.toBool = false ∧ m1 = m) := by
  obtain ⟨sb, sp⟩ := s
  by_cases hp : sp = Ptr.null
  · subst hp
    refine ⟨⟨sb, Ptr.null⟩, m, SharedPtr.ctor_copy_null m sb, SharedPtr.ctor_copy_null m sb,
      rfl, rfl, ?_, ?_⟩
    · intro h; simp [SharedPtr.toBool, SharedPtr.Get] at h
    · intro _; exact ⟨by simp [SharedPtr.toBool, SharedPtr.Get], rfl⟩
  · obtain ⟨b, blk, hb, hblk⟩ := hs hp
    simp only at hb
    subst hb
    have hset : (Mem.mk (m.blocks.set b (some blk.IncShared)) m.log).block b
        = some blk.IncShared := Mem.block_set_self _ _ hblk
    refine ⟨⟨some b, sp⟩, _, SharedPtr.ctor_copy_eq hp hblk, SharedPtr.ctor_copy_eq hp hblk,
      rfl, rfl, ?_, ?_⟩
    · intro _
      refine ⟨b, blk, rfl, hblk, ?_, ?_, ?_, ?_, rfl⟩
      · rw [hset]; rfl
      · intro hlt
        rw [Mem.GetShared_some hset]
        simp [BaseBlock.IncShared, Nat.mod_eq_of_lt hlt]
      · rw [Mem.GetWeak_some hset, Mem.GetWeak_some hblk]; rfl
      · intro b2 hne
        rw [Mem.block_set _ _ _ _ _ (Mem.block_lt hblk)]
        simp [Ne.symm hne]
    · intro h; simp [SharedPtr.toBool, SharedPtr.Get, hp] at h

/-- Copying the only owner of a block. -/
theorem copy_of_tested_handle_example :
    ∃ h m1, SharedPtr.ctor_copy ⟨[some ⟨1, 0, BlockKind.ControlBlock2⟩], []⟩
        ⟨some 0, Ptr.storage 0⟩ = some (h, m1) ∧
      h.block_ = some 0 ∧ h.ptr_ = Ptr.storage 0 := by
  obtain ⟨h, m1, h1, _, h3, h4, _⟩ :=
    copy_of_tested_handle ⟨[some ⟨1, 0, BlockKind.ControlBlock2⟩], []⟩ ⟨some 0, Ptr.storage 0⟩
      (fun _ => ⟨0, _, rfl, rfl⟩)
  exact ⟨h, m1, h1, h3, h4⟩

/-- C10 fails on a handle that holds a block and a null pointer. After
`T* p = nullptr; SharedPtr<T> a(p);` the handle `a` references block 0, which
`SharedPtr(T*)` counted: the strong count is 1. The copy constructor and the
converting copy constructor return a handle on the same block and leave the
strong count at 1, because they test `*this`, that is the pointer, before
`IncShared`; this holds on every heap for every such handle. The sibling
paths count the same pair: `WeakPtr<T> w(a); SharedPtr<T> c(w);` takes the
strong count from 1 to 2. -/
theorem C10_copy_of_null_pointer_owner_not_counted :
    run [Op.shared_ptr Ptr.null] State.init =
      some ⟨⟨[some ⟨1, 0, BlockKind.ControlBlock1 Ptr.null⟩], []⟩,
        [some ⟨some 0, Ptr.null⟩], []⟩ ∧
    Mem.GetShared ⟨[some ⟨1, 0, BlockKind.ControlBlock1 Ptr.null⟩], []⟩ (some 0) = some 1 ∧
    (∀ (m : Mem) (b : Nat),
      SharedPtr.ctor_copy m ⟨some b, Ptr.null⟩ = some (⟨some b, Ptr.null⟩, m) ∧
      SharedPtr.ctor_copy_conv m ⟨some b, Ptr.null⟩ = some (⟨some b, Ptr.null⟩, m)) ∧
    WeakPtr.ctor_shared ⟨[some ⟨1, 0, BlockKind.ControlBlock1 Ptr.null⟩], []⟩
        ⟨some 0, Ptr.null⟩ =
      some (⟨some 0, Ptr.null⟩, ⟨[some ⟨1, 1, BlockKind.ControlBlock1 Ptr.null⟩], []⟩) ∧
    SharedPtr.ctor_weak ⟨[some ⟨1, 1, BlockKind.ControlBlock1 Ptr.null⟩], []⟩
        ⟨some 0, Ptr.null⟩ =
      Outcome.ok ⟨some 0, Ptr.null⟩ ⟨[some ⟨2, 1, BlockKind.ControlBlock1 Ptr.null⟩], []⟩ := by
  refine ⟨by decide, by decide, fun m b => ?_, by decide, by decide⟩
  exact ⟨SharedPtr.ctor_copy_null m (some b), SharedPtr.ctor_copy_null m (some b)⟩

/-! ## C3: Lock -/

/-- C3: for every WeakPtr `w` whose block, if any, is allocated, `Lock()`
returns a handle and never throws. The handle holds a control block exactly
when `Expired()` was false just before the call. In that case it has the block
and the pointer of `w`, the strong count of the block went through `++` once,
so that the block and `w.UseCount()` report the old count plus one (unless
`size_t` wraps), and nothing else changed. Otherwise it is the default handle
and the heap is unchanged. The handle tests `true` (`operator bool`, which
reads the pointer) exactly when, in addition, the pointer of `w` is not null. -/
theorem C3_lock (m : Mem) (w : WeakPtr)
    (hw : ∀ b, w.block_ = some b → ∃ blk, m.block b = some blk) :
    ∃ h m1, WeakPtr.Lock m w = Outcome.ok h m1 ∧
      (h.block_ ≠ none ↔ w.Expired m = some false) ∧
      (h.block_ ≠ none → h.block_ = w.block_ ∧ h.ptr_ = w.ptr_ ∧
        ∃ b blk, w.block_ = some b ∧ m.block b = some blk ∧
          m1.block b =
            some ⟨(blk.counter_shared_ + 1) % SIZE_MOD, blk.counter_weak_, blk.kind⟩ ∧
          (blk.counter_shared_ + 1 < SIZE_MOD →
            m1.GetShared (some b) = some (blk.counter_shared_ + 1) ∧
            w.UseCount m1 = some (blk.counter_shared_ + 1)) ∧
          (∀ b2, b2 ≠ b → m1.block b2 = m.block b2) ∧ m1.log = m.log) ∧
      (h.block_ = none → h = SharedPtr.ctor_default ∧ m1 = m) ∧
      (h.toBool = true ↔ w.Expired m = some false ∧ w.ptr_ ≠ Ptr.null) := by
  obtain ⟨wb, wp⟩ := w
  cases wb with
  | none =>
    refine ⟨_, _, WeakPtr.Lock_none m wp, ?_, ?_, ?_, ?_⟩
    · simp [WeakPtr.Expired_none]
    · intro h; exact absurd rfl h
    · intro _; exact ⟨rfl, rfl⟩
    · simp [SharedPtr.toBool, SharedPtr.Get, WeakPtr.Expired_none]
  | some b =>
    obtain ⟨blk, hblk⟩ := hw b rfl
    by_cases h0 : blk.counter_shared_ = 0
    · refine ⟨_, _, WeakPtr.Lock_zero wp hblk h0, ?_, ?_, ?_, ?_⟩
      · simp [WeakPtr.Expired_some wp hblk, h0]
      · intro h; exact absurd rfl h
      · intro _; exact ⟨rfl, rfl⟩
      · simp [SharedPtr.toBool, SharedPtr.Get, WeakPtr.Expired_some wp hblk, h0]
    · have hset : (Mem.mk (m.blocks.set b (some blk.IncShared)) m.log).block b
          = some blk.IncShared := Mem.block_set_self _ _ hblk
      refine ⟨_, _, WeakPtr.Lock_pos wp hblk h0, ?_, ?_, ?_, ?_⟩
      · simp [WeakPtr.Expired_some wp hblk, h0]
      · intro _
        refine ⟨rfl, rfl, b, blk, rfl, hblk, ?_, ?_, ?_, rfl⟩
        · rw [hset]; rfl
        · intro hlt
          have hv : blk.IncShared.counter_shared_ = blk.counter_shared_ + 1 := by
            simp [BaseBlock.IncShared, Nat.mod_eq_of_lt hlt]
          refine ⟨?_, ?_⟩
          · rw [Mem.GetShared_some hset, hv]
          · simp only [WeakPtr.UseCount, reduceCtorEq, if_false]
            rw [Mem.GetShared_some hset, hv]
        · intro b2 hne2
          rw [Mem.block_set _ _ _ _ _ (Mem.block_lt hblk)]
          simp [Ne.symm hne2]
      · intro h; simp at h
      · simp [SharedPtr.toBool, SharedPtr.Get, WeakPtr.Expired_some wp hblk, h0]

/-- Witness for C3: Lock on a live WeakPtr whose pointer is null, as after
`T* p = nullptr; SharedPtr<T> a(p); WeakPtr<T> w(a);`. The handle returned
holds block 0 and the strong count goes from 1 to 2. -/
theorem C3_lock_witness :
    ∃ h m1, WeakPtr.Lock ⟨[some ⟨1, 1, BlockKind.ControlBlock1 Ptr.null⟩], []⟩
        ⟨some 0, Ptr.null⟩ = Outcome.ok h m1 ∧
      (h.block_ ≠ none ↔
        WeakPtr.Expired ⟨[some ⟨1, 1, BlockKind.ControlBlock1 Ptr.null⟩], []⟩
          ⟨some 0, Ptr.null⟩ = some false) ∧
      (h.block_ ≠ none → h.block_ = some 0 ∧ h.ptr_ = Ptr.null ∧
        m1.GetShared (some 0) = some 2) := by
  obtain ⟨h, m1, h1, h2, h3, _⟩ :=
    C3_lock ⟨[some ⟨1, 1, BlockKind.ControlBlock1 Ptr.null⟩], []⟩ ⟨some 0, Ptr.null⟩
      (by intro b hb; cases hb; exact ⟨_, rfl⟩)
  refine ⟨h, m1, h1, h2, fun hne => ?_⟩
  obtain ⟨e1, e2, b, blk, hb, hblk, _, hc, _⟩ := h3 hne
  have hb0 : b = 0 := by cases hb; rfl
  subst hb0
  have hblk2 : blk = ⟨1, 1, BlockKind.ControlBlock1 Ptr.null⟩ := by
    have : (Mem.mk [some ⟨1, 1, BlockKind.ControlBlock1 Ptr.null⟩] []).block 0
      = some ⟨1, 1, BlockKind.ControlBlock1 Ptr.null⟩ := rfl
    rw [this] at hblk
    cases hblk; rfl
  subst hblk2
  exact ⟨e1, e2, (hc (by decide)).1⟩

/-! ## C5: SharedFromThis on an object no SharedPtr has owned -/

/-- C5 fails as stated: on an object whose `weak_this_` is still
default-initialised, `SharedFromThis()` returns the empty handle; no
`BadWeakPtr` is thrown. -/
theorem C5_shared_from_this_counterexample :
    EnableSharedFromThis.SharedFromThis ⟨[], []⟩ EnableSharedFromThis.fresh
      = Outcome.ok ⟨none, Ptr.null⟩ ⟨[], []⟩ ∧
    ¬ ∃ m1, EnableSharedFromThis.SharedFromThis ⟨[], []⟩ EnableSharedFromThis.fresh
      = Outcome.thrown Exn.BadWeakPtr m1 := by
  refine ⟨by decide, ?_⟩
  rintro ⟨m1, h⟩
  have h2 : EnableSharedFromThis.SharedFromThis ⟨[], []⟩ EnableSharedFromThis.fresh
      = Outcome.ok ⟨none, Ptr.null⟩ ⟨[], []⟩ := by decide
  rw [h2] at h
  cases h

/-- C5, amended: on an object that no SharedPtr has ever owned,
`SharedFromThis()` returns the default (empty, null) SharedPtr and leaves the
heap unchanged, whatever the heap holds; it neither throws nor has undefined
behaviour. -/
theorem C5_shared_from_this_never_owned (m : Mem) :
    EnableSharedFromThis.SharedFromThis m EnableSharedFromThis.fresh
      = Outcome.ok SharedPtr.ctor_default m ∧
    SharedPtr.ctor_default.toBool = false ∧
    SharedPtr.ctor_default.Get = Ptr.null ∧
    SharedPtr.ctor_default.block_ = none ∧
    (∀ e m1, EnableSharedFromThis.SharedFromThis m EnableSharedFromThis.fresh
      ≠ Outcome.thrown e m1) := by
  have h : EnableSharedFromThis.SharedFromThis m EnableSharedFromThis.fresh
      = Outcome.ok SharedPtr.ctor_default m := by
    simp [EnableSharedFromThis.SharedFromThis, EnableSharedFromThis.fresh,
      WeakPtr.ctor_default, WeakPtr.Lock_none, SharedPtr.ctor_default]
  refine ⟨h, rfl, rfl, rfl, ?_⟩
  intro e m1 hc
  rw [h] at hc
  cases hc

/-! ## C8: MakeShared, WeakPtr, destroy, Lock, destroy -/

/-- C8: from any heap `m`, with `b` the address of the new block:
`A = MakeShared<X>()` gives strong 1, weak 0; `WeakPtr w(A)` gives strong 1,
weak 1; destroying `A` calls `ObjectDestructor` once, on the object in the
storage of `b`, and leaves the block allocated with strong 0, weak 1;
`w.Lock()` returns the empty SharedPtr and leaves the heap as it is;
destroying `w` deletes the block (and destroys nothing more). -/
theorem C8_make_shared_weak_trace (m : Mem) :
    ∃ A m1 w m2 m3 m4,
      MakeShared m = some (A, m1) ∧
      A = ⟨some m.blocks.length, Ptr.storage m.blocks.length⟩ ∧
      m1.block m.blocks.length = some ⟨1, 0, BlockKind.ControlBlock2⟩ ∧
      A.UseCount m1 = some 1 ∧
      WeakPtr.ctor_shared m1 A = some (w, m2) ∧
      w = ⟨some m.blocks.length, Ptr.storage m.blocks.length⟩ ∧
      m2.block m.blocks.length = some ⟨1, 1, BlockKind.ControlBlock2⟩ ∧
      w.UseCount m2 = some 1 ∧
      SharedPtr.dtor m2 A = some m3 ∧
      m3.block m.blocks.length = some ⟨0, 1, BlockKind.ControlBlock2⟩ ∧
      m3.log = m.log ++
        [Event.ObjectDestructor m.blocks.length (Ptr.storage m.blocks.length)] ∧
      w.Expired m3 = some true ∧
      WeakPtr.Lock m3 w = Outcome.ok SharedPtr.ctor_default m3 ∧
      WeakPtr.dtor m3 w = some m4 ∧
      m4.block m.blocks.length = none ∧
      m4.log = m3.log ++ [Event.deleteBlock m.blocks.length] := by
  have hp : Ptr.storage m.blocks.length ≠ Ptr.null := by intro h; cases h
  have e1 : BaseBlock.IncWeak ⟨1, 0, BlockKind.ControlBlock2⟩
      = ⟨1, 1, BlockKind.ControlBlock2⟩ := by simp [BaseBlock.IncWeak, SIZE_MOD]
  have e2 : BaseBlock.DecShared ⟨1, 1, BlockKind.ControlBlock2⟩
      = ⟨0, 1, BlockKind.ControlBlock2⟩ := by simp [BaseBlock.DecShared, SIZE_MOD]
  have e3 : BaseBlock.DecWeak ⟨0, 1, BlockKind.ControlBlock2⟩
      = ⟨0, 0, BlockKind.ControlBlock2⟩ := by simp [BaseBlock.DecWeak, SIZE_MOD]
  have h1 : (Mem.mk (m.blocks ++ [some ⟨1, 0, BlockKind.ControlBlock2⟩]) m.log).block
      m.blocks.length = some ⟨1, 0, BlockKind.ControlBlock2⟩ := Mem.block_append_self _ _ _
  have d := WeakPtr.ctor_shared_eq (Ptr.storage m.blocks.length) h1
  rw [e1] at d
  have h2 := Mem.block_set_self (some (⟨1, 1, BlockKind.ControlBlock2⟩ : BaseBlock)) m.log h1
  have c3 := SharedPtr.dtor_eq hp h2
  rw [e2] at c3
  simp only [if_true, one_ne_zero, if_false] at c3
  have h3 := Mem.block_set_self (some (⟨0, 1, BlockKind.ControlBlock2⟩ : BaseBlock))
    (m.log ++ [Event.ObjectDestructor m.blocks.length
      (BaseBlock.object ⟨0, 1, BlockKind.ControlBlock2⟩ m.blocks.length)]) h2
  have c5 := WeakPtr.weak_dtor_eq (Ptr.storage m.blocks.length) h3
  rw [e3] at c5
  simp only [and_self, if_true] at c5
  refine ⟨_, _, _, _, _, _, MakeShared_eq m, rfl, h1, ?_, d, rfl, h2, ?_, c3, h3, rfl, ?_,
    WeakPtr.Lock_zero _ h3 rfl, c5, ?_, rfl⟩
  · simp [SharedPtr.UseCount, SharedPtr.toBool, SharedPtr.Get, Mem.GetShared_some h1]
  · unfold WeakPtr.UseCount
    rw [if_neg (by simp)]
    exact Mem.GetShared_some h2
  · rw [WeakPtr.Expired_some _ h3]; rfl
  · exact Mem.block_set_self none _ h3

/-! ## C7: the pointer of a handle and its block -/

/-- C7 fails as stated: after `SharedPtr<T> a(p)` with `p == nullptr` the
handle `a` has a null pointer, yet its block reference is non-null and the
strong count of the block is 1; the same holds for the handle made by the
aliasing constructor with a null pointer. -/
theorem C7_pointer_iff_block_counterexample :
    run [Op.shared_ptr Ptr.null] State.init =
      some ⟨⟨[some ⟨1, 0, BlockKind.ControlBlock1 Ptr.null⟩], []⟩,
        [some ⟨some 0, Ptr.null⟩], []⟩ ∧
    run [Op.shared_ptr (Ptr.obj 1), Op.shared_alias 0 Ptr.null] State.init =
      some ⟨⟨[some ⟨1, 0, BlockKind.ControlBlock1 (Ptr.obj 1)⟩], []⟩,
        [some ⟨some 0, Ptr.obj 1⟩, some ⟨some 0, Ptr.null⟩], []⟩ ∧
    ¬ ((SharedPtr.mk (some 0) Ptr.null).ptr_ ≠ Ptr.null ↔
        ∃ b blk, (SharedPtr.mk (some 0) Ptr.null).block_ = some b ∧
          (Mem.mk [some ⟨1, 0, BlockKind.ControlBlock1 Ptr.null⟩] []).block b = some blk ∧
          1 ≤ blk.counter_shared_) := by
  refine ⟨by decide, by decide, ?_⟩
  intro h
  exact h.2 ⟨0, ⟨1, 0, BlockKind.ControlBlock1 Ptr.null⟩, rfl, rfl, Nat.le_refl 1⟩ rfl

/-! ## C1, C2, C9, C6: handles with a null pointer and a non-null block -/

/-- C1, the code at the failing inputs. First program: `a(p)`, `al(a, nullptr)`
(aliasing, no increment), `w(a)`, destroy `a` (strong 1 to 0, first
`ObjectDestructor`), `x(al, q)` (strong 0 to 1 on the dead block), destroy `x`
(strong 1 to 0, second `ObjectDestructor` on the same object). Second program:
`a(p)`, `al(a, nullptr)`, `w(al)`, `l = w.Lock()` (strong 2, `l` has a null
pointer), then every handle is destroyed: the strong count stays 1 and
`ObjectDestructor` is never called. -/
theorem C1_object_destructor_twice_or_never :
    run [Op.shared_ptr (Ptr.obj 1), Op.shared_alias 0 Ptr.null, Op.weak_shared 0,
        Op.shared_dtor 0, Op.shared_alias 1 (Ptr.obj 2), Op.shared_dtor 2] State.init =
      some ⟨⟨[some ⟨0, 1, BlockKind.ControlBlock1 (Ptr.obj 1)⟩],
          [Event.ObjectDestructor 0 (Ptr.obj 1), Event.ObjectDestructor 0 (Ptr.obj 1)]⟩,
        [none, some ⟨some 0, Ptr.null⟩, none], [some ⟨some 0, Ptr.obj 1⟩]⟩ ∧
    run [Op.shared_ptr (Ptr.obj 1), Op.shared_alias 0 Ptr.null, Op.weak_shared 1,
        Op.weak_lock 0, Op.shared_dtor 2, Op.weak_dtor 0, Op.shared_dtor 1,
        Op.shared_dtor 0] State.init =
      some ⟨⟨[some ⟨1, 0, BlockKind.ControlBlock1 (Ptr.obj 1)⟩], []⟩,
        [none, none, none], [none]⟩ := by
  decide

/-- C2, the code at the failing input: `SharedPtr<T> a(p)` with `p == nullptr`
allocates a block with strong count 1; the destructor of `a` returns at once
because `a` tests empty; afterwards no handle is left, the block is still
allocated with strong count 1, and nothing was deleted. -/
theorem C2_block_never_deleted :
    ∃ s, run [Op.shared_ptr Ptr.null, Op.shared_dtor 0] State.init = some s ∧
      s.shared = [none] ∧ s.weak = [] ∧
      s.mem.block 0 = some ⟨1, 0, BlockKind.ControlBlock1 Ptr.null⟩ ∧
      deletions s.mem.log 0 = [] :=
  ⟨⟨⟨[some ⟨1, 0, BlockKind.ControlBlock1 Ptr.null⟩], []⟩, [none], []⟩,
    by decide, rfl, rfl, by decide, by decide⟩

/-- C9, the code at the failing inputs. After `a(p)`, `al(a, nullptr)`, `w(a)`
and the destruction of `a` the strong count of the block is 0 and the object
is destroyed; the aliasing constructor `x(al, q)` then raises the strong count
to 1. And after `a(p)`, `al(a, nullptr)` and the destruction of `a` the block
is deleted, while `WeakPtr w(al)` still calls `IncWeak` through the dangling
`block_` of `al` (undefined behaviour, no result). -/
theorem C9_strong_count_revived :
    run [Op.shared_ptr (Ptr.obj 1), Op.shared_alias 0 Ptr.null, Op.weak_shared 0,
        Op.shared_dtor 0] State.init =
      some ⟨⟨[some ⟨0, 1, BlockKind.ControlBlock1 (Ptr.obj 1)⟩],
          [Event.ObjectDestructor 0 (Ptr.obj 1)]⟩,
        [none, some ⟨some 0, Ptr.null⟩], [some ⟨some 0, Ptr.obj 1⟩]⟩ ∧
    run [Op.shared_ptr (Ptr.obj 1), Op.shared_alias 0 Ptr.null, Op.weak_shared 0,
        Op.shared_dtor 0, Op.shared_alias 1 (Ptr.obj 2)] State.init =
      some ⟨⟨[some ⟨1, 1, BlockKind.ControlBlock1 (Ptr.obj 1)⟩],
          [Event.ObjectDestructor 0 (Ptr.obj 1)]⟩,
        [none, some ⟨some 0, Ptr.null⟩, some ⟨some 0, Ptr.obj 2⟩],
        [some ⟨some 0, Ptr.obj 1⟩]⟩ ∧
    run [Op.shared_ptr (Ptr.obj 1), Op.shared_alias 0 Ptr.null, Op.shared_dtor 0] State.init =
      some ⟨⟨[none], [Event.ObjectDestructor 0 (Ptr.obj 1), Event.deleteBlock 0]⟩,
        [none, some ⟨some 0, Ptr.null⟩], []⟩ ∧
    WeakPtr.ctor_shared ⟨[none], [Event.ObjectDestructor 0 (Ptr.obj 1), Event.deleteBlock 0]⟩
      ⟨some 0, Ptr.null⟩ = none ∧
    Mem.IncWeak ⟨[none], [Event.ObjectDestructor 0 (Ptr.obj 1), Event.deleteBlock 0]⟩ (some 0)
      = none := by
  decide

/-- C6, the code at the failing input: for `other` the only owner of a block
(strong count 1) and `p == nullptr`, the aliasing constructor returns a handle
on the block of `other` and leaves the heap untouched, the strong count is
still 1; destroying `other` then calls `ObjectDestructor` and deletes the block
while the aliasing handle is alive. -/
theorem C6_alias_null_takes_no_ownership :
    SharedPtr.ctor_alias ⟨[some ⟨1, 0, BlockKind.ControlBlock1 (Ptr.obj 1)⟩], []⟩
        ⟨some 0, Ptr.obj 1⟩ Ptr.null =
      some (⟨some 0, Ptr.null⟩, ⟨[some ⟨1, 0, BlockKind.ControlBlock1 (Ptr.obj 1)⟩], []⟩) ∧
    run [Op.shared_ptr (Ptr.obj 1), Op.shared_alias 0 Ptr.null, Op.shared_dtor 0] State.init =
      some ⟨⟨[none], [Event.ObjectDestructor 0 (Ptr.obj 1), Event.deleteBlock 0]⟩,
        [none, some ⟨some 0, Ptr.null⟩], []⟩ := by
  decide

/-! ## C11: move construction -/

/-- C11: for a live SharedPtr `s` in slot `j` of any program state, the move
constructor and the converting move constructor give a new handle that holds
exactly the pair `(block_, ptr_)` of `s`; the source is left with a null
pointer, no block reference and `UseCount() == 0`; the heap (every strong and
weak count, and the log) is the same as before. -/
theorem C11_move (st : State) (j : Nat) (s : SharedPtr) (hj : st.sharedAt j = some s) :
    (SharedPtr.ctor_move s).1 = s ∧ (SharedPtr.ctor_move_conv s).1 = s ∧
    (SharedPtr.ctor_move s).2 = ⟨none, Ptr.null⟩ ∧
    (SharedPtr.ctor_move_conv s).2 = ⟨none, Ptr.null⟩ ∧
    (SharedPtr.mk none Ptr.null).Get = Ptr.null ∧
    (∀ m, (SharedPtr.mk none Ptr.null).UseCount m = some 0) ∧
    (∃ st2, step st (Op.shared_move j) = some st2 ∧ st2.mem = st.mem ∧
      st2.sharedAt j = some ⟨none, Ptr.null⟩ ∧ st2.sharedAt st.shared.length = some s) ∧
    (∃ st2, step st (Op.shared_move_conv j) = some st2 ∧ st2.mem = st.mem ∧
      st2.sharedAt j = some ⟨none, Ptr.null⟩ ∧ st2.sharedAt st.shared.length = some s) := by
  have hlt := getD_lt hj
  have h1 : (st.shared.set j (some (SharedPtr.mk none Ptr.null)) ++ [some s]).getD j none
      = some ⟨none, Ptr.null⟩ := by
    rw [getD_append_left _ _ _ (by rw [List.length_set]; exact hlt), getD_set _ _ _ _ hlt]
    simp
  have h2 : (st.shared.set j (some (SharedPtr.mk none Ptr.null)) ++ [some s]).getD
      st.shared.length none = some s := by
    have := getD_append_length (st.shared.set j (some (SharedPtr.mk none Ptr.null))) (some s)
    rw [List.length_set] at this
    exact this
  refine ⟨rfl, rfl, rfl, rfl, rfl, fun m => by simp [SharedPtr.UseCount, SharedPtr.toBool,
    SharedPtr.Get], ?_, ?_⟩
  · exact ⟨⟨st.mem, st.shared.set j (some ⟨none, Ptr.null⟩) ++ [some s], st.weak⟩,
      by simp only [step, hj, SharedPtr.ctor_move, SharedPtr.Swap], rfl, h1, h2⟩
  · exact ⟨⟨st.mem, st.shared.set j (some ⟨none, Ptr.null⟩) ++ [some s], st.weak⟩,
      by simp only [step, hj, SharedPtr.ctor_move_conv], rfl, h1, h2⟩

/-- Witness for C11: moving from the only owner of a block. -/
theorem C11_move_witness :
    ∃ st2, step ⟨⟨[some ⟨1, 0, BlockKind.ControlBlock2⟩], []⟩, [some ⟨some 0, Ptr.storage 0⟩], []⟩
        (Op.shared_move 0) = some st2 ∧
      st2.mem = ⟨[some ⟨1, 0, BlockKind.ControlBlock2⟩], []⟩ ∧
      st2.sharedAt 0 = some ⟨none, Ptr.null⟩ ∧ st2.sharedAt 1 = some ⟨some 0, Ptr.storage 0⟩ :=
  (C11_move ⟨⟨[some ⟨1, 0, BlockKind.ControlBlock2⟩], []⟩, [some ⟨some 0, Ptr.storage 0⟩], []⟩
    0 ⟨some 0, Ptr.storage 0⟩ (by decide)).2.2.2.2.2.2.1

/-! ## C15: UseCount and Expired of a WeakPtr -/

/-- C15: for a WeakPtr `w` whose block, if any, is allocated: `Expired()` is
true exactly when `w` has no block or the strong count of its block is 0;
`UseCount()` is 0 when `w` has no block and the strong count of the block
otherwise. Both queries are functions of the heap that return a value and no
new heap: they change nothing. -/
theorem C15_weak_queries (m : Mem) (w : WeakPtr)
    (hw : ∀ b, w.block_ = some b → ∃ blk, m.block b = some blk) :
    (w.Expired m = some true ↔
      (w.block_ = none ∨
        ∃ b blk, w.block_ = some b ∧ m.block b = some blk ∧ blk.counter_shared_ = 0)) ∧
    (w.Expired m = some true ∨ w.Expired m = some false) ∧
    (w.block_ = none → w.UseCount m = some 0) ∧
    (∀ b blk, w.block_ = some b → m.block b = some blk →
      w.UseCount m = some blk.counter_shared_) := by
  obtain ⟨wb, wp⟩ := w
  cases wb with
  | none =>
    refine ⟨by simp [WeakPtr.Expired_none], Or.inl (WeakPtr.Expired_none m wp),
      fun _ => by simp [WeakPtr.UseCount], fun b blk hb => by cases hb⟩
  | some b =>
    obtain ⟨blk, hblk⟩ := hw b rfl
    refine ⟨?_, ?_, (fun h => by cases h), ?_⟩
    · rw [WeakPtr.Expired_some wp hblk]
      simp [hblk]
    · rw [WeakPtr.Expired_some wp hblk]
      by_cases h0 : blk.counter_shared_ = 0 <;> simp [h0]
    · intro b2 blk2 hb hblk2
      cases hb
      rw [hblk] at hblk2; cases hblk2
      simp [WeakPtr.UseCount, Mem.GetShared_some hblk]

/-- Witness for C15: a WeakPtr on a block with strong count 2. -/
theorem C15_weak_queries_witness :
    WeakPtr.UseCount ⟨[some ⟨2, 1, BlockKind.ControlBlock2⟩], []⟩ ⟨some 0, Ptr.storage 0⟩
      = some 2 :=
  (C15_weak_queries ⟨[some ⟨2, 1, BlockKind.ControlBlock2⟩], []⟩ ⟨some 0, Ptr.storage 0⟩
    (by intro b hb; cases hb; exact ⟨_, rfl⟩)).2.2.2 0 ⟨2, 1, BlockKind.ControlBlock2⟩ rfl rfl

/-! ## C20: equality -/

/-- C20: `a == b` is true exactly when `a.Get()` and `b.Get()` are the same
pointer, whatever the blocks; a handle made by the aliasing constructor from
`other` with a pointer different from `other.Get()` has the block of `other`
and compares unequal to it. -/
theorem C20_equality (a b : SharedPtr) (m : Mem) (other : SharedPtr) (p : Ptr) :
    (SharedPtr.eq a b = true ↔ a.Get = b.Get) ∧
    (SharedPtr.eq a b = false ↔ a.Get ≠ b.Get) ∧
    (p ≠ other.Get → ∀ h m1, SharedPtr.ctor_alias m other p = some (h, m1) →
      h.block_ = other.block_ ∧ SharedPtr.eq h other = false) := by
  refine ⟨by simp [SharedPtr.eq], by simp [SharedPtr.eq], ?_⟩
  intro hne h m1 hop
  have hh : h = ⟨other.block_, p⟩ := by
    unfold SharedPtr.ctor_alias at hop
    dsimp only at hop
    split at hop
    · simp only [Option.map_eq_some', Prod.mk.injEq] at hop
      obtain ⟨_, _, e, _⟩ := hop
      exact e.symm
    · simp only [Option.some.injEq, Prod.mk.injEq] at hop
      exact hop.1.symm
  subst hh
  exact ⟨rfl, by simpa [SharedPtr.eq, SharedPtr.Get] using hne⟩

/-- Witness for C20: an aliasing handle on the block of `other` with another
pointer. -/
theorem C20_equality_witness :
    (SharedPtr.mk (some 0) (Ptr.obj 2)).block_ = (SharedPtr.mk (some 0) (Ptr.obj 1)).block_ ∧
    SharedPtr.eq ⟨some 0, Ptr.obj 2⟩ ⟨some 0, Ptr.obj 1⟩ = false :=
  (C20_equality ⟨none, Ptr.null⟩ ⟨none, Ptr.null⟩
    ⟨[some ⟨1, 0, BlockKind.ControlBlock1 (Ptr.obj 1)⟩], []⟩ ⟨some 0, Ptr.obj 1⟩ (Ptr.obj 2)).2.2
    (by decide) ⟨some 0, Ptr.obj 2⟩ ⟨[some ⟨2, 0, BlockKind.ControlBlock1 (Ptr.obj 1)⟩], []⟩
    (by decide)

/-! ## C13: construction from a raw pointer, MakeShared -/

/-- C13 fails at a null raw pointer. `T* p = nullptr; SharedPtr<T> a(p);`
creates block 0 with strong count 1 and weak count 0 and stores the null
pointer, and `a.UseCount()` is 0, not 1: `SharedPtr::UseCount` tests `*this`,
that is the pointer, before it reads the block. `WeakPtr<T> w(a)` holds the
same pair and `w.UseCount()` is 1: `WeakPtr::UseCount` tests the block. The
destructor of `a` has the same test and releases nothing, so the block keeps
strong count 1. -/
theorem C13_null_pointer_owner_reports_zero :
    SharedPtr.ctor_ptr ⟨[], []⟩ Ptr.null =
      some (⟨some 0, Ptr.null⟩, ⟨[some ⟨1, 0, BlockKind.ControlBlock1 Ptr.null⟩], []⟩) ∧
    Mem.GetShared ⟨[some ⟨1, 0, BlockKind.ControlBlock1 Ptr.null⟩], []⟩ (some 0) = some 1 ∧
    SharedPtr.UseCount ⟨[some ⟨1, 0, BlockKind.ControlBlock1 Ptr.null⟩], []⟩ ⟨some 0, Ptr.null⟩
      = some 0 ∧
    WeakPtr.ctor_shared ⟨[some ⟨1, 0, BlockKind.ControlBlock1 Ptr.null⟩], []⟩
        ⟨some 0, Ptr.null⟩ =
      some (⟨some 0, Ptr.null⟩, ⟨[some ⟨1, 1, BlockKind.ControlBlock1 Ptr.null⟩], []⟩) ∧
    WeakPtr.UseCount ⟨[some ⟨1, 1, BlockKind.ControlBlock1 Ptr.null⟩], []⟩ ⟨some 0, Ptr.null⟩
      = some 1 ∧
    SharedPtr.dtor ⟨[some ⟨1, 0, BlockKind.ControlBlock1 Ptr.null⟩], []⟩ ⟨some 0, Ptr.null⟩ =
      some ⟨[some ⟨1, 0, BlockKind.ControlBlock1 Ptr.null⟩], []⟩ := by
  refine ⟨by decide, by decide, by decide, by decide, by decide, by decide⟩

/-- Construction on every heap `m` and for every raw pointer `p`:
`SharedPtr(p)` creates a block at a fresh address, a `ControlBlock1` for `p`
with strong count 1 and weak count 0, leaves the other blocks and the log as
they are, and stores `p` (`Get() == p`); when `p` is non-null the handle
reports `UseCount() == 1`. `MakeShared` creates a fresh `ControlBlock2` with
strong count 1 and weak count 0, its handle points to the storage of that
block and reports `UseCount() == 1`. -/
theorem construct_from_pointer (m : Mem) (p : Ptr) :
    (∃ h m1, SharedPtr.ctor_ptr m p = some (h, m1) ∧
      h.block_ = some m.blocks.length ∧ m.block m.blocks.length = none ∧
      m1.block m.blocks.length = some ⟨1, 0, BlockKind.ControlBlock1 p⟩ ∧
      (∀ b, b ≠ m.blocks.length → m1.block b = m.block b) ∧ m1.log = m.log ∧
      h.Get = p ∧ (p ≠ Ptr.null → h.UseCount m1 = some 1)) ∧
    (∃ h m1, MakeShared m = some (h, m1) ∧
      h.block_ = some m.blocks.length ∧ m.block m.blocks.length = none ∧
      m1.block m.blocks.length = some ⟨1, 0, BlockKind.ControlBlock2⟩ ∧
      (∀ b, b ≠ m.blocks.length → m1.block b = m.block b) ∧ m1.log = m.log ∧
      h.Get = Ptr.storage m.blocks.length ∧
      (BaseBlock.mk 1 0 BlockKind.ControlBlock2).object m.blocks.length = h.Get ∧
      h.UseCount m1 = some 1) := by
  have hother : ∀ (x : Option BaseBlock) (b : Nat), b ≠ m.blocks.length →
      (Mem.mk (m.blocks ++ [x]) m.log).block b = m.block b := by
    intro x b hb
    rw [Mem.block_append m.blocks x m.log m.log b]
    simp [hb]
  constructor
  · have h1 := Mem.block_append_self m.blocks (some ⟨1, 0, BlockKind.ControlBlock1 p⟩) m.log
    refine ⟨_, _, SharedPtr.ctor_ptr_eq m p, rfl, Mem.block_length_none m, h1, hother _, rfl,
      rfl, ?_⟩
    intro hp
    simp [SharedPtr.UseCount, SharedPtr.toBool, SharedPtr.Get, hp, Mem.GetShared_some h1]
  · have h1 := Mem.block_append_self m.blocks (some ⟨1, 0, BlockKind.ControlBlock2⟩) m.log
    refine ⟨_, _, MakeShared_eq m, rfl, Mem.block_length_none m, h1, hother _, rfl, rfl, rfl,
      ?_⟩
    simp [SharedPtr.UseCount, SharedPtr.toBool, SharedPtr.Get, Mem.GetShared_some h1]

/-- A non-null raw pointer on the empty heap. -/
theorem construct_from_pointer_example :
    ∃ h m1, SharedPtr.ctor_ptr ⟨[], []⟩ (Ptr.obj 1) = some (h, m1) ∧ h.UseCount m1 = some 1 := by
  obtain ⟨h, m1, h1, _, _, _, _, _, _, h8⟩ := (construct_from_pointer ⟨[], []⟩ (Ptr.obj 1)).1
  exact ⟨h, m1, h1, h8 (by decide)⟩

/-! ## C14: Reset -/

theorem Mem.block_append_lt {m : Mem} {b : Nat} {blk : BaseBlock} (x : Option BaseBlock)
    (h : m.block b = some blk) : (Mem.mk (m.blocks ++ [x]) m.log).block b = some blk := by
  rw [Mem.block_append m.blocks x m.log m.log b]
  have hne : b ≠ m.blocks.length := Nat.ne_of_lt (Mem.block_lt h)
  simp only [hne, if_false]
  exact h

/-- The destructor does not see a block created at a fresh address. -/
theorem SharedPtr.dtor_append {m m1 : Mem} {h : SharedPtr} (x : Option BaseBlock)
    (hh : h.ptr_ ≠ Ptr.null → ∃ b blk, h.block_ = some b ∧ m.block b = some blk)
    (hd : SharedPtr.dtor m h = some m1) :
    SharedPtr.dtor (Mem.mk (m.blocks ++ [x]) m.log) h = some (Mem.mk (m1.blocks ++ [x]) m1.log) := by
  obtain ⟨hb, hp⟩ := h
  by_cases hnull : hp = Ptr.null
  · subst hnull
    rw [SharedPtr.dtor_null] at hd ⊢
    cases hd
    rfl
  · obtain ⟨b, blk, e, hblk⟩ := hh hnull
    have e2 : hb = some b := e
    subst e2
    have hlt := Mem.block_lt hblk
    rw [SharedPtr.dtor_eq hnull hblk] at hd
    rw [SharedPtr.dtor_eq hnull (Mem.block_append_lt x hblk)]
    have hset : ∀ y, (m.blocks ++ [x]).set b y = m.blocks.set b y ++ [x] := by
      intro y
      rw [List.set_append]
      simp [hlt]
    by_cases hs : blk.DecShared.counter_shared_ = 0
    · by_cases hw : blk.DecShared.counter_weak_ = 0
      · simp only [hs, hw, if_true] at hd ⊢
        cases hd
        simp only [hset]
      · simp only [hs, hw, if_true, if_false] at hd ⊢
        cases hd
        simp only [hset]
    · simp only [hs, if_false] at hd ⊢
      cases hd
      simp only [hset]

/-- C14 fails at a null raw pointer. `T* p = nullptr; h.Reset(p);` on an empty
`h` runs `Reset(T*)`: it leaves `h` on the new block 0 with strong count 1, and
`h.UseCount()` is 0, not 1, because `SharedPtr::UseCount` tests the pointer
before it reads the block; `WeakPtr<T> w(h)` holds the same pair and
`w.UseCount()` is 1. A later `h.Reset()` or the destructor of `h` has the same
test and releases nothing: the block keeps strong count 1 and is not freed,
so `Reset()` is not the release of `h`'s ownership here. -/
theorem C14_reset_to_null_pointer_reports_zero :
    SharedPtr.Reset_ptr ⟨[], []⟩ ⟨none, Ptr.null⟩ Ptr.null =
      some (⟨some 0, Ptr.null⟩, ⟨[some ⟨1, 0, BlockKind.ControlBlock1 Ptr.null⟩], []⟩) ∧
    Mem.GetShared ⟨[some ⟨1, 0, BlockKind.ControlBlock1 Ptr.null⟩], []⟩ (some 0) = some 1 ∧
    SharedPtr.UseCount ⟨[some ⟨1, 0, BlockKind.ControlBlock1 Ptr.null⟩], []⟩ ⟨some 0, Ptr.null⟩
      = some 0 ∧
    WeakPtr.ctor_shared ⟨[some ⟨1, 0, BlockKind.ControlBlock1 Ptr.null⟩], []⟩
        ⟨some 0, Ptr.null⟩ =
      some (⟨some 0, Ptr.null⟩, ⟨[some ⟨1, 1, BlockKind.ControlBlock1 Ptr.null⟩], []⟩) ∧
    WeakPtr.UseCount ⟨[some ⟨1, 1, BlockKind.ControlBlock1 Ptr.null⟩], []⟩ ⟨some 0, Ptr.null⟩
      = some 1 ∧
    SharedPtr.Reset ⟨[some ⟨1, 0, BlockKind.ControlBlock1 Ptr.null⟩], []⟩ ⟨some 0, Ptr.null⟩ =
      some (⟨none, Ptr.null⟩, ⟨[some ⟨1, 0, BlockKind.ControlBlock1 Ptr.null⟩], []⟩) ∧
    SharedPtr.dtor ⟨[some ⟨1, 0, BlockKind.ControlBlock1 Ptr.null⟩], []⟩ ⟨some 0, Ptr.null⟩ =
      some ⟨[some ⟨1, 0, BlockKind.ControlBlock1 Ptr.null⟩], []⟩ := by
  refine ⟨by decide, by decide, by decide, by decide, by decide, by decide, by decide⟩

/-- Reset as a release: for a SharedPtr `h` whose block is allocated when its
pointer is non-null, with `m1` the heap that the destructor of `h` leaves:
`h.Reset()` leaves exactly `m1` and makes `h` the empty handle; `h.Reset(p)`
leaves `m1` plus one new `ControlBlock1` for `p` at a fresh address, with
strong count 1 and weak count 0, and makes `h` the handle on that block with
`Get() == p`; the new block is not the old block of `h`; when `p` is non-null
`h` reports `UseCount() == 1`. -/
theorem reset_releases_as_destructor (m : Mem) (h : SharedPtr) (p : Ptr)
    (hh : h.ptr_ ≠ Ptr.null → ∃ b blk, h.block_ = some b ∧ m.block b = some blk) :
    ∃ m1, SharedPtr.dtor m h = some m1 ∧
      SharedPtr.Reset m h = some (⟨none, Ptr.null⟩, m1) ∧
      SharedPtr.Reset_ptr m h p =
        some (⟨some m.blocks.length, p⟩,
          ⟨m1.blocks ++ [some ⟨1, 0, BlockKind.ControlBlock1 p⟩], m1.log⟩) ∧
      m1.blocks.length = m.blocks.length ∧
      (h.ptr_ ≠ Ptr.null → h.block_ ≠ some m.blocks.length) ∧
      (SharedPtr.mk (some m.blocks.length) p).Get = p ∧
      (p ≠ Ptr.null →
        (SharedPtr.mk (some m.blocks.length) p).UseCount
          ⟨m1.blocks ++ [some ⟨1, 0, BlockKind.ControlBlock1 p⟩], m1.log⟩ = some 1) := by
  have hex : ∃ m1, SharedPtr.dtor m h = some m1 ∧ m1.blocks.length = m.blocks.length := by
    obtain ⟨hb, hp⟩ := h
    by_cases hnull : hp = Ptr.null
    · subst hnull
      exact ⟨m, SharedPtr.dtor_null m hb, rfl⟩
    · obtain ⟨b, blk, e, hblk⟩ := hh hnull
      have e2 : hb = some b := e
      subst e2
      rw [SharedPtr.dtor_eq hnull hblk]
      by_cases hs : blk.DecShared.counter_shared_ = 0
      · by_cases hw : blk.DecShared.counter_weak_ = 0
        · simp only [hs, hw, if_true]
          exact ⟨_, rfl, List.length_set _ _ _⟩
        · simp only [hs, hw, if_true, if_false]
          exact ⟨_, rfl, List.length_set _ _ _⟩
      · simp only [hs, if_false]
        exact ⟨_, rfl, List.length_set _ _ _⟩
  obtain ⟨m1, hd, hlen⟩ := hex
  have hd2 := SharedPtr.dtor_append (some ⟨1, 0, BlockKind.ControlBlock1 p⟩) hh hd
  refine ⟨m1, hd, ?_, ?_, hlen, ?_, rfl, ?_⟩
  · simp only [SharedPtr.Reset, SharedPtr.ctor_default, SharedPtr.Swap, SharedPtr.eta, hd,
      Option.map_some']
  · simp only [SharedPtr.Reset_ptr, SharedPtr.ctor_ptr_eq, SharedPtr.Swap, SharedPtr.eta, hd2,
      Option.map_some']
  · intro hnull e
    obtain ⟨b, blk, e2, hblk⟩ := hh hnull
    rw [e] at e2
    cases e2
    rw [Mem.block_length_none] at hblk
    cases hblk
  · intro hp
    have hb : (Mem.mk (m1.blocks ++ [some ⟨1, 0, BlockKind.ControlBlock1 p⟩]) m1.log).block
        m.blocks.length = some ⟨1, 0, BlockKind.ControlBlock1 p⟩ := by
      rw [← hlen]
      exact Mem.block_append_self _ _ _
    simp [SharedPtr.UseCount, SharedPtr.toBool, SharedPtr.Get, hp, Mem.GetShared_some hb]

/-- Reset of the only owner of a block. -/
theorem reset_releases_as_destructor_example :
    ∃ m1, SharedPtr.dtor ⟨[some ⟨1, 0, BlockKind.ControlBlock1 (Ptr.obj 1)⟩], []⟩
        ⟨some 0, Ptr.obj 1⟩ = some m1 ∧
      SharedPtr.Reset ⟨[some ⟨1, 0, BlockKind.ControlBlock1 (Ptr.obj 1)⟩], []⟩
        ⟨some 0, Ptr.obj 1⟩ = some (⟨none, Ptr.null⟩, m1) := by
  obtain ⟨m1, h1, h2, _⟩ := reset_releases_as_destructor ⟨[some ⟨1, 0, BlockKind.ControlBlock1 (Ptr.obj 1)⟩], []⟩
    ⟨some 0, Ptr.obj 1⟩ (Ptr.obj 2) (fun _ => ⟨0, _, rfl, rfl⟩)
  exact ⟨m1, h1, h2⟩

/-! ## C12: constructing a WeakPtr -/

theorem destructions_append_self (lg : List Event) (b : Nat) (x : Ptr) :
    destructions (lg ++ [Event.ObjectDestructor b x]) b
      = destructions lg b ++ [Event.ObjectDestructor b x] := by
  simp [destructions, List.filter_append]

theorem destructions_append_two_self (lg : List Event) (b : Nat) (x : Ptr) :
    destructions (lg ++ [Event.ObjectDestructor b x, Event.deleteBlock b]) b
      = destructions lg b ++ [Event.ObjectDestructor b x] := by
  simp [destructions, List.filter_append]

theorem BaseBlock.DecShared_one {blk : BaseBlock} (h : blk.counter_shared_ = 1) :
    blk.DecShared.counter_shared_ = 0 := by
  have hv := BaseBlock.DecShared_val (n := 1) (by omega) (Nat.le_of_eq h) (by decide)
  rw [hv, h]

/-- Destroying the only owner of a block calls `ObjectDestructor` on it,
whatever the weak count is. -/
theorem SharedPtr.dtor_last_owner {m : Mem} {b : Nat} {blk : BaseBlock} {p : Ptr}
    (hp : p ≠ Ptr.null) (hblk : m.block b = some blk) (h1 : blk.counter_shared_ = 1) :
    ∃ m1, SharedPtr.dtor m ⟨some b, p⟩ = some m1 ∧
      destructions m1.log b = destructions m.log b ++ [Event.ObjectDestructor b (blk.object b)] := by
  have hs := BaseBlock.DecShared_one h1
  have hobj : blk.DecShared.object b = blk.object b := rfl
  rw [SharedPtr.dtor_eq hp hblk]
  by_cases hw : blk.DecShared.counter_weak_ = 0
  · simp only [hs, hw, if_true]
    exact ⟨_, rfl, by rw [hobj]; exact destructions_append_two_self _ _ _⟩
  · simp only [hs, hw, if_true, if_false]
    exact ⟨_, rfl, by rw [hobj]; exact destructions_append_self _ _ _⟩

/-- Any number `k` of WeakPtr handles made from an owner leave the strong
count and the log as they are. -/
theorem run_weak_shared_replicate (k : Nat) (st : State) (j b : Nat) (blk : BaseBlock) (p : Ptr)
    (hj : st.sharedAt j = some ⟨some b, p⟩) (hblk : st.mem.block b = some blk) :
    ∃ st2 blk2, run (List.replicate k (Op.weak_shared j)) st = some st2 ∧
      st2.shared = st.shared ∧
      st2.weak = st.weak ++ List.replicate k (some ⟨some b, p⟩) ∧
      st2.mem.block b = some blk2 ∧ blk2.counter_shared_ = blk.counter_shared_ ∧
      blk2.kind = blk.kind ∧ st2.mem.log = st.mem.log := by
  induction k generalizing st blk with
  | zero =>
    exact ⟨st, blk, rfl, rfl, by simp, hblk, rfl, rfl, rfl⟩
  | succ k ih =>
    have hstep : step st (Op.weak_shared j) = some (st.pushWeak ⟨some b, p⟩
        (Mem.mk (st.mem.blocks.set b (some blk.IncWeak)) st.mem.log)) := by
      simp only [step, hj, WeakPtr.ctor_shared_eq p hblk]
    have hblk1 : (st.pushWeak ⟨some b, p⟩
        (Mem.mk (st.mem.blocks.set b (some blk.IncWeak)) st.mem.log)).mem.block b
        = some blk.IncWeak := Mem.block_set_self _ _ hblk
    obtain ⟨st2, blk2, h1, h2, h3, h5, h6, h7, h8⟩ :=
      ih (st.pushWeak ⟨some b, p⟩ (Mem.mk (st.mem.blocks.set b (some blk.IncWeak)) st.mem.log))
        blk.IncWeak hj hblk1
    refine ⟨st2, blk2, ?_, h2, ?_, h5, h6, h7, h8⟩
    · simp only [List.replicate_succ, run, hstep]
      exact h1
    · rw [h3]
      simp [State.pushWeak, List.replicate_succ]

/-- C12: for a source, SharedPtr or WeakPtr, with block reference `bl` and
pointer `p`, whose block is allocated when `bl` is non-null: the WeakPtr
constructors from a SharedPtr and from a WeakPtr (same type or converting)
return the handle `(bl, p)`. When `bl` is a block, its weak count went through
`++` once (one greater unless `size_t` wraps), its strong count, the other
blocks and the log are unchanged; when `bl` is null the heap is unchanged.
Consequently: after any number `k` of WeakPtr handles were made from the only
owner of a block, destroying that owner calls `ObjectDestructor` on the
block. -/
theorem C12_weak_construction (m : Mem) (bl : Option Nat) (p : Ptr)
    (hbl : ∀ b, bl = some b → ∃ blk, m.block b = some blk) :
    (∃ m1, WeakPtr.ctor_shared m ⟨bl, p⟩ = some (⟨bl, p⟩, m1) ∧
      WeakPtr.ctor_copy m ⟨bl, p⟩ = some (⟨bl, p⟩, m1) ∧
      (bl = none → m1 = m) ∧
      (∀ b blk, bl = some b → m.block b = some blk →
        m1.block b =
          some ⟨blk.counter_shared_, (blk.counter_weak_ + 1) % SIZE_MOD, blk.kind⟩ ∧
        (blk.counter_weak_ + 1 < SIZE_MOD → m1.GetWeak (some b) = some (blk.counter_weak_ + 1)) ∧
        m1.GetShared (some b) = m.GetShared (some b) ∧
        (∀ b2, b2 ≠ b → m1.block b2 = m.block b2) ∧ m1.log = m.log)) ∧
    (∀ (k : Nat) (st : State) (j b : Nat) (blk : BaseBlock) (q : Ptr),
      st.sharedAt j = some ⟨some b, q⟩ → q ≠ Ptr.null → st.mem.block b = some blk →
      blk.counter_shared_ = 1 →
      ∃ st2 st3, run (List.replicate k (Op.weak_shared j)) st = some st2 ∧
        st2.weak = st.weak ++ List.replicate k (some ⟨some b, q⟩) ∧
        step st2 (Op.shared_dtor j) = some st3 ∧
        destructions st3.mem.log b =
          destructions st.mem.log b ++ [Event.ObjectDestructor b (blk.object b)]) := by
  constructor
  · cases bl with
    | none =>
      exact ⟨m, WeakPtr.ctor_shared_none m p, WeakPtr.weak_ctor_copy_none m p, fun _ => rfl,
        fun b blk hb => by cases hb⟩
    | some b =>
      obtain ⟨blk, hblk⟩ := hbl b rfl
      have hset : (Mem.mk (m.blocks.set b (some blk.IncWeak)) m.log).block b
          = some blk.IncWeak := Mem.block_set_self _ _ hblk
      refine ⟨_, WeakPtr.ctor_shared_eq p hblk, WeakPtr.weak_ctor_copy_eq p hblk,
        (fun h => by cases h), ?_⟩
      intro b2 blk2 hb hblk2
      cases hb
      rw [hblk] at hblk2; cases hblk2
      refine ⟨?_, ?_, ?_, ?_, rfl⟩
      · rw [hset]; rfl
      · intro hlt
        rw [Mem.GetWeak_some hset]
        simp [BaseBlock.IncWeak, Nat.mod_eq_of_lt hlt]
      · rw [Mem.GetShared_some hset, Mem.GetShared_some hblk]; rfl
      · intro b2 hne
        rw [Mem.block_set _ _ _ _ _ (Mem.block_lt hblk)]
        simp [Ne.symm hne]
  · intro k st j b blk q hj hq hblk h1
    obtain ⟨st2, blk2, r1, r2, r3, r4, r5, r6, r7⟩ :=
      run_weak_shared_replicate k st j b blk q hj hblk
    have hj2 : st2.sharedAt j = some ⟨some b, q⟩ := by
      unfold State.sharedAt at hj ⊢
      rw [r2]; exact hj
    obtain ⟨m3, d1, d2⟩ := SharedPtr.dtor_last_owner hq r4 (by rw [r5]; exact h1)
    refine ⟨st2, ⟨m3, st2.shared.set j none, st2.weak⟩, r1, r3, ?_, ?_⟩
    · simp only [step, hj2, d1]
    · show destructions m3.log b = _
      rw [d2, r7]
      have : blk2.object b = blk.object b := by
        simp only [BaseBlock.object, r6]
      rw [this]

/-- Witness for C12: a WeakPtr made from a live block, and three WeakPtr
handles on a block whose only owner is then destroyed. -/
theorem C12_weak_construction_witness :
    (∃ m1, WeakPtr.ctor_copy ⟨[some ⟨1, 0, BlockKind.ControlBlock2⟩], []⟩
        ⟨some 0, Ptr.storage 0⟩ = some (⟨some 0, Ptr.storage 0⟩, m1) ∧
      m1.block 0 = some ⟨1, 1, BlockKind.ControlBlock2⟩) ∧
    (∃ st2 st3, run (List.replicate 3 (Op.weak_shared 0))
        ⟨⟨[some ⟨1, 0, BlockKind.ControlBlock2⟩], []⟩, [some ⟨some 0, Ptr.storage 0⟩], []⟩
          = some st2 ∧
      st2.weak = [] ++ List.replicate 3 (some ⟨some 0, Ptr.storage 0⟩) ∧
      step st2 (Op.shared_dtor 0) = some st3 ∧
      destructions st3.mem.log 0 =
        destructions [] 0 ++ [Event.ObjectDestructor 0
          ((BaseBlock.mk 1 0 BlockKind.ControlBlock2).object 0)]) := by
  have h := C12_weak_construction ⟨[some ⟨1, 0, BlockKind.ControlBlock2⟩], []⟩ (some 0)
    (Ptr.storage 0) (by intro b hb; cases hb; exact ⟨_, rfl⟩)
  obtain ⟨⟨m1, _, h2, _, h4⟩, h5⟩ := h
  exact ⟨⟨m1, h2, (h4 0 ⟨1, 0, BlockKind.ControlBlock2⟩ rfl rfl).1⟩,
    h5 3 ⟨⟨[some ⟨1, 0, BlockKind.ControlBlock2⟩], []⟩, [some ⟨some 0, Ptr.storage 0⟩], []⟩
      0 0 ⟨1, 0, BlockKind.ControlBlock2⟩ (Ptr.storage 0) (by decide) (by decide) (by decide)
      (by decide)⟩

/-! ## Objects with the self-reference capability: first owner, last owner -/

/-- Installing `weak_this_` in an object whose `weak_this_` is still
default-initialised: the weak count of the block goes up by one `IncWeak`, the
member becomes the pair of the handle. -/
theorem SharedPtr.install_fresh {m : Mem} {objects : Ptr → Option EnableSharedFromThis}
    {b : Nat} {blk : BaseBlock} {p : Ptr} (hp : p ≠ Ptr.null)
    (hobj : objects p = some EnableSharedFromThis.fresh) (hblk : m.block b = some blk) :
    SharedPtr.install ⟨m, objects⟩ ⟨some b, p⟩ =
      some (Heap.setObject (Mem.mk (m.blocks.set b (some blk.IncWeak)) m.log) objects p
        (some ⟨⟨some b, p⟩⟩)) := by
  simp only [SharedPtr.install, hp, if_false, hobj, WeakPtr.ctor_shared_eq p hblk,
    EnableSharedFromThis.fresh, WeakPtr.ctor_default, WeakPtr.assign_move, WeakPtr.ctor_move,
    WeakPtr.Swap, WeakPtr.weak_dtor_none, Option.map_some']

/-- The destructor of the only owner of a block whose object has the
capability and whose only weak handle is the `weak_this_` of that object: one
`ObjectDestructor`, inside it the destructor of `weak_this_` deletes the
block; the object is gone. -/
theorem SharedPtr.dtor_esft_last {h : Heap} {b : Nat} {kind : BlockKind} {q r : Ptr}
    (hq : q ≠ Ptr.null) (hblk : h.mem.block b = some ⟨1, 1, kind⟩)
    (hobj : h.objects ((BaseBlock.mk 1 1 kind).object b) = some ⟨⟨some b, r⟩⟩) :
    SharedPtr.dtor_esft h ⟨some b, q⟩ =
      some (Heap.setObject
        (Mem.mk (h.mem.blocks.set b none)
          (h.mem.log ++ [Event.ObjectDestructor b ((BaseBlock.mk 1 1 kind).object b),
            Event.deleteBlock b]))
        h.objects ((BaseBlock.mk 1 1 kind).object b) none) := by
  have e1 : BaseBlock.DecShared ⟨1, 1, kind⟩ = ⟨0, 1, kind⟩ := by
    simp [BaseBlock.DecShared, SIZE_MOD]
  have e2 : BaseBlock.DecWeak ⟨0, 1, kind⟩ = ⟨0, 0, kind⟩ := by
    simp [BaseBlock.DecWeak, SIZE_MOD]
  have hobj2 : (BaseBlock.mk 0 1 kind).object b = (BaseBlock.mk 1 1 kind).object b := rfl
  have hb : (SharedPtr.mk (some b) q).toBool = true := (SharedPtr.toBool_iff _).2 hq
  have h1 : (Mem.mk (h.mem.blocks.set b (some ⟨0, 1, kind⟩)) h.mem.log).block b
      = some ⟨0, 1, kind⟩ := Mem.block_set_self _ _ hblk
  have h2 : (Mem.mk (h.mem.blocks.set b (some ⟨0, 1, kind⟩))
      (h.mem.log ++ [Event.ObjectDestructor b ((BaseBlock.mk 1 1 kind).object b)])).block b
      = some ⟨0, 1, kind⟩ := h1
  have hd := WeakPtr.weak_dtor_eq r h2
  rw [e2] at hd
  simp only [and_self, if_true] at hd
  unfold SharedPtr.dtor_esft
  rw [hb]
  simp only [Bool.not_true, Bool.false_eq_true, if_false, Mem.DecShared]
  rw [Mem.call_some _ hblk, e1]
  simp only [Mem.GetShared_some h1, Mem.GetWeak_some h1, if_true, one_ne_zero, if_false,
    Heap.ObjectDestructor, h1, hobj2, hobj, hd, Option.map_some', List.set_set,
    List.append_assoc, List.singleton_append]

theorem SharedPtr.ctor_ptr_esft_fresh (h : Heap) (p : Ptr) (hp : p ≠ Ptr.null)
    (hobj : h.objects p = some EnableSharedFromThis.fresh) :
    SharedPtr.ctor_ptr_esft h p =
      some (⟨some h.mem.blocks.length, p⟩,
        Heap.setObject
          (Mem.mk (h.mem.blocks ++ [some ⟨1, 1, BlockKind.ControlBlock1 p⟩]) h.mem.log)
          h.objects p (some ⟨⟨some h.mem.blocks.length, p⟩⟩)) := by
  have hblk := Mem.block_append_self h.mem.blocks
    (some ⟨1, 0, BlockKind.ControlBlock1 p⟩) h.mem.log
  have e1 : BaseBlock.IncWeak ⟨1, 0, BlockKind.ControlBlock1 p⟩
      = ⟨1, 1, BlockKind.ControlBlock1 p⟩ := by simp [BaseBlock.IncWeak, SIZE_MOD]
  simp only [SharedPtr.ctor_ptr_esft, SharedPtr.ctor_ptr_eq,
    SharedPtr.install_fresh hp hobj hblk, Option.map_some', e1]
  simp

theorem MakeShared_esft_eq (h : Heap) :
    MakeShared_esft h =
      some (⟨some h.mem.blocks.length, Ptr.storage h.mem.blocks.length⟩,
        Heap.setObject
          (Mem.mk (h.mem.blocks ++ [some ⟨1, 1, BlockKind.ControlBlock2⟩]) h.mem.log)
          (Heap.setObject
            (Mem.mk (h.mem.blocks ++ [some ⟨1, 0, BlockKind.ControlBlock2⟩]) h.mem.log)
            h.objects (Ptr.storage h.mem.blocks.length)
            (some EnableSharedFromThis.fresh)).objects
          (Ptr.storage h.mem.blocks.length)
          (some ⟨⟨some h.mem.blocks.length, Ptr.storage h.mem.blocks.length⟩⟩)) := by
  have hp : Ptr.storage h.mem.blocks.length ≠ Ptr.null := by intro e; cases e
  have hblk := Mem.block_append_self h.mem.blocks (some ⟨1, 0, BlockKind.ControlBlock2⟩)
    h.mem.log
  have e1 : BaseBlock.IncWeak ⟨1, 0, BlockKind.ControlBlock2⟩
      = ⟨1, 1, BlockKind.ControlBlock2⟩ := by simp [BaseBlock.IncWeak, SIZE_MOD]
  have hobj : (Heap.setObject
      (Mem.mk (h.mem.blocks ++ [some ⟨1, 0, BlockKind.ControlBlock2⟩]) h.mem.log)
      h.objects (Ptr.storage h.mem.blocks.length) (some EnableSharedFromThis.fresh)).objects
      (Ptr.storage h.mem.blocks.length) = some EnableSharedFromThis.fresh := by
    simp [Heap.setObject]
  have hi := SharedPtr.install_fresh hp hobj hblk
  rw [e1] at hi
  simp only [MakeShared_esft, MakeShared_eq]
  have hh : Heap.setObject
      (Mem.mk (h.mem.blocks ++ [some ⟨1, 0, BlockKind.ControlBlock2⟩]) h.mem.log)
      h.objects (Ptr.storage h.mem.blocks.length) (some EnableSharedFromThis.fresh)
      = ⟨Mem.mk (h.mem.blocks ++ [some ⟨1, 0, BlockKind.ControlBlock2⟩]) h.mem.log,
        (Heap.setObject
          (Mem.mk (h.mem.blocks ++ [some ⟨1, 0, BlockKind.ControlBlock2⟩]) h.mem.log)
          h.objects (Ptr.storage h.mem.blocks.length)
          (some EnableSharedFromThis.fresh)).objects⟩ := rfl
  rw [hh, hi]
  simp

theorem Heap.setObject_self (m : Mem) (objects : Ptr → Option EnableSharedFromThis) (p : Ptr)
    (o : Option EnableSharedFromThis) : (Heap.setObject m objects p o).objects p = o := by
  simp [Heap.setObject]

theorem Heap.setObject_mem (m : Mem) (objects : Ptr → Option EnableSharedFromThis) (p : Ptr)
    (o : Option EnableSharedFromThis) : (Heap.setObject m objects p o).mem = m := rfl

theorem BaseBlock.DecWeak_eq {blk : BaseBlock} (h0 : 1 ≤ blk.counter_weak_)
    (h2 : blk.counter_weak_ < SIZE_MOD) :
    blk.DecWeak = ⟨blk.counter_shared_, blk.counter_weak_ - 1, blk.kind⟩ := by
  have e : SIZE_MOD - 1 + blk.counter_weak_ = (blk.counter_weak_ - 1) + SIZE_MOD := by
    omega
  have e3 : (SIZE_MOD - 1 + blk.counter_weak_) % SIZE_MOD = blk.counter_weak_ - 1 := by
    rw [e, Nat.add_mod_right]
    exact Nat.mod_eq_of_lt (by omega)
  simp only [BaseBlock.DecWeak, e3]

theorem set_getD_self {α : Type} (l : List (Option α)) (i : Nat) (x : α)
    (h : l.getD i none = some x) : l.set i (some x) = l := by
  induction l generalizing i with
  | nil => rfl
  | cons y ys ih =>
    cases i with
    | zero =>
      simp only [List.getD_cons_zero] at h
      simp [h]
    | succ k =>
      simp only [List.getD_cons_succ] at h
      simp [ih k h]

/-- Installing `weak_this_` again from a handle on the block that `weak_this_`
already refers to, with strong count 1 and weak count 1: the temporary raises
the weak count to 2, the old member lowers it to 1 again, nothing is
deleted. -/
theorem SharedPtr.install_again {m : Mem} {objects : Ptr → Option EnableSharedFromThis}
    {b : Nat} {kind : BlockKind} {p r : Ptr} (hp : p ≠ Ptr.null)
    (hobj : objects p = some ⟨⟨some b, r⟩⟩) (hblk : m.block b = some ⟨1, 1, kind⟩) :
    SharedPtr.install ⟨m, objects⟩ ⟨some b, p⟩ =
      some (Heap.setObject m objects p (some ⟨⟨some b, p⟩⟩)) := by
  have e1 : BaseBlock.IncWeak ⟨1, 1, kind⟩ = ⟨1, 2, kind⟩ := by
    simp [BaseBlock.IncWeak, SIZE_MOD]
  have e2 : BaseBlock.DecWeak ⟨1, 2, kind⟩ = ⟨1, 1, kind⟩ :=
    @BaseBlock.DecWeak_eq ⟨1, 2, kind⟩ (show 1 ≤ 2 by decide) (show 2 < SIZE_MOD by decide)
  have h1 : (Mem.mk (m.blocks.set b (some ⟨1, 2, kind⟩)) m.log).block b = some ⟨1, 2, kind⟩ :=
    Mem.block_set_self _ _ hblk
  have hd := WeakPtr.weak_dtor_eq r h1
  rw [e2] at hd
  simp only [one_ne_zero, false_and, if_false, List.set_set] at hd
  rw [set_getD_self m.blocks b ⟨1, 1, kind⟩ hblk] at hd
  simp only [SharedPtr.install, hp, if_false, hobj, WeakPtr.ctor_shared_eq p hblk, e1,
    WeakPtr.assign_move, WeakPtr.ctor_move, WeakPtr.Swap, hd, WeakPtr.weak_dtor_none,
    Option.map_some']

/-- The move constructor for a pointee with the capability, from the last owner
of a block whose `weak_this_` already refers to that block: the pair moves,
the source is left empty, the heap is unchanged (the member `weak_this_` is
assigned the pair it may already hold). -/
theorem SharedPtr.ctor_move_esft_same_block (g : Heap) {b : Nat} {kind : BlockKind}
    {p r : Ptr} (hp : p ≠ Ptr.null) (hobj : g.objects p = some ⟨⟨some b, r⟩⟩)
    (hblk : g.mem.block b = some ⟨1, 1, kind⟩) :
    SharedPtr.ctor_move_esft g ⟨some b, p⟩ =
      some (⟨some b, p⟩, ⟨none, Ptr.null⟩,
        Heap.setObject g.mem g.objects p (some ⟨⟨some b, p⟩⟩)) := by
  have hi := SharedPtr.install_again hp hobj hblk
  simp only [SharedPtr.ctor_move_esft, SharedPtr.ctor_move, SharedPtr.Swap]
  exact congrArg (Option.map _) hi

/-- When `return shared;` of `MakeShared` runs the move constructor, the handle
is the one of `MakeShared_esft`, the local is left empty, and the heap is the
one of `MakeShared_esft` with `weak_this_` assigned the value it has. -/
theorem MakeShared_esft_return_by_move (h : Heap) :
    ∃ A h1, MakeShared_esft h = some (A, h1) ∧
      SharedPtr.ctor_move_esft h1 A =
        some (A, ⟨none, Ptr.null⟩, Heap.setObject h1.mem h1.objects A.ptr_ (h1.objects A.ptr_)) := by
  have hq : Ptr.storage h.mem.blocks.length ≠ Ptr.null := by intro e; cases e
  refine ⟨_, _, MakeShared_esft_eq h, ?_⟩
  rw [Heap.setObject_self]
  exact SharedPtr.ctor_move_esft_same_block _ hq (Heap.setObject_self _ _ _ _)
    (Mem.block_append_self h.mem.blocks (some (BaseBlock.mk 1 1 BlockKind.ControlBlock2))
      h.mem.log)

/-! ## C16: SharedFromThis after the first owner -/

/-- C16: on a heap where the object at the non-null address `p` has the
capability and a default-initialised `weak_this_`, `SharedPtr(p)` makes the
block `b` and installs `weak_this_ = (b, p)` when the strong count is already
1; `weak_this_` is not expired, and `SharedFromThis()` returns the non-empty
handle `(b, p)`, the pair of the external handle, with the strong count now
2, which both handles report as `UseCount()`. `MakeShared` does the same for
the object it constructs in the storage of its block. -/
theorem C16_shared_from_this_owned (h : Heap) (p : Ptr) (hp : p ≠ Ptr.null)
    (hobj : h.objects p = some EnableSharedFromThis.fresh) :
    (∃ A h1 o r m2, SharedPtr.ctor_ptr_esft h p = some (A, h1) ∧
      A = ⟨some h.mem.blocks.length, p⟩ ∧
      h1.mem.block h.mem.blocks.length = some ⟨1, 1, BlockKind.ControlBlock1 p⟩ ∧
      h1.objects p = some o ∧ o.weak_this_ = ⟨A.block_, A.ptr_⟩ ∧
      o.weak_this_.Expired h1.mem = some false ∧
      o.SharedFromThis h1.mem = Outcome.ok r m2 ∧
      r.toBool = true ∧ r.block_ = A.block_ ∧ r.Get = A.Get ∧
      m2.block h.mem.blocks.length = some ⟨2, 1, BlockKind.ControlBlock1 p⟩ ∧
      r.UseCount m2 = some 2 ∧ A.UseCount m2 = some 2) ∧
    (∃ A h1 o r m2, MakeShared_esft h = some (A, h1) ∧
      A = ⟨some h.mem.blocks.length, Ptr.storage h.mem.blocks.length⟩ ∧
      h1.mem.block h.mem.blocks.length = some ⟨1, 1, BlockKind.ControlBlock2⟩ ∧
      h1.objects A.ptr_ = some o ∧ o.weak_this_ = ⟨A.block_, A.ptr_⟩ ∧
      o.weak_this_.Expired h1.mem = some false ∧
      o.SharedFromThis h1.mem = Outcome.ok r m2 ∧
      r.toBool = true ∧ r.block_ = A.block_ ∧ r.Get = A.Get ∧
      m2.block h.mem.blocks.length = some ⟨2, 1, BlockKind.ControlBlock2⟩ ∧
      r.UseCount m2 = some 2 ∧ A.UseCount m2 = some 2) := by
  have key : ∀ (kind : BlockKind) (q : Ptr), q ≠ Ptr.null →
      ∃ r m2, (EnableSharedFromThis.mk ⟨some h.mem.blocks.length, q⟩).weak_this_.Expired
          (Mem.mk (h.mem.blocks ++ [some ⟨1, 1, kind⟩]) h.mem.log) = some false ∧
        (EnableSharedFromThis.mk ⟨some h.mem.blocks.length, q⟩).SharedFromThis
          (Mem.mk (h.mem.blocks ++ [some ⟨1, 1, kind⟩]) h.mem.log) = Outcome.ok r m2 ∧
        r.toBool = true ∧ r.block_ = some h.mem.blocks.length ∧ r.Get = q ∧
        m2.block h.mem.blocks.length = some ⟨2, 1, kind⟩ ∧
        r.UseCount m2 = some 2 ∧
        (SharedPtr.mk (some h.mem.blocks.length) q).UseCount m2 = some 2 := by
    intro kind q hq
    have hblk := Mem.block_append_self h.mem.blocks (some ⟨1, 1, kind⟩) h.mem.log
    have e1 : BaseBlock.IncShared ⟨1, 1, kind⟩ = ⟨2, 1, kind⟩ := by
      simp [BaseBlock.IncShared, SIZE_MOD]
    have hl := WeakPtr.Lock_pos q hblk (show (BaseBlock.mk 1 1 kind).counter_shared_ ≠ 0 from
      Nat.one_ne_zero)
    rw [e1] at hl
    have hb2 := Mem.block_set_self (some (⟨2, 1, kind⟩ : BaseBlock)) h.mem.log hblk
    have hu : (SharedPtr.mk (some h.mem.blocks.length) q).UseCount
        (Mem.mk ((h.mem.blocks ++ [some (BaseBlock.mk 1 1 kind)]).set h.mem.blocks.length
          (some (BaseBlock.mk 2 1 kind))) h.mem.log) = some 2 := by
      unfold SharedPtr.UseCount
      rw [(SharedPtr.toBool_iff _).2 hq]
      simp only [Bool.not_true, Bool.false_eq_true, if_false]
      exact Mem.GetShared_some hb2
    refine ⟨_, _, ?_, hl, (SharedPtr.toBool_iff _).2 hq, rfl, rfl, hb2, hu, hu⟩
    rw [WeakPtr.Expired_some q hblk]
    rfl
  constructor
  · obtain ⟨r, m2, k1, k2, k3, k4, k5, k6, k7, k8⟩ := key (BlockKind.ControlBlock1 p) p hp
    exact ⟨_, _, _, r, m2, SharedPtr.ctor_ptr_esft_fresh h p hp hobj, rfl,
      Mem.block_append_self _ _ _, Heap.setObject_self _ _ _ _, rfl, k1, k2, k3, k4, k5, k6,
      k7, k8⟩
  · obtain ⟨r, m2, k1, k2, k3, k4, k5, k6, k7, k8⟩ :=
      key BlockKind.ControlBlock2 (Ptr.storage h.mem.blocks.length) (by intro e; cases e)
    exact ⟨_, _, _, r, m2, MakeShared_esft_eq h, rfl,
      Mem.block_append_self _ _ _, Heap.setObject_self _ _ _ _, rfl, k1, k2, k3, k4, k5, k6,
      k7, k8⟩

/-- Witness for C16: an object at address 1 on the empty heap. -/
theorem C16_shared_from_this_owned_witness :
    ∃ A h1, SharedPtr.ctor_ptr_esft
        ⟨⟨[], []⟩, fun q => if q = Ptr.obj 1 then some EnableSharedFromThis.fresh else none⟩
        (Ptr.obj 1) = some (A, h1) ∧ A = ⟨some 0, Ptr.obj 1⟩ := by
  obtain ⟨⟨A, h1, _, _, _, k1, k2, _⟩, _⟩ := C16_shared_from_this_owned
    ⟨⟨[], []⟩, fun q => if q = Ptr.obj 1 then some EnableSharedFromThis.fresh else none⟩
    (Ptr.obj 1) (by decide) (by simp)
  exact ⟨A, h1, k1, k2⟩

/-! ## C17: WeakFromThis -/

/-- C18: on a heap where the object at the non-null address `p` has the
capability and a default-initialised `weak_this_`: after `SharedPtr(p)` the
block has strong count 1 and weak count 1 and the handle reports
`UseCount() == 1`; destroying that handle, with no other handle around, calls
`ObjectDestructor` once and, inside it, deletes the block once: the log grows
by exactly these two calls, the block is freed, the object is gone and the
other blocks are untouched. The same holds for `MakeShared` and the object in
the storage of its block. More generally, on any heap, destroying the last
owner (strong count 1) of a block whose only weak handle is the `weak_this_`
of its object (weak count 1) does exactly that. -/
theorem C18_embedded_weak_does_not_own (h : Heap) (p : Ptr) (hp : p ≠ Ptr.null)
    (hobj : h.objects p = some EnableSharedFromThis.fresh) :
    (∃ A h1 h2, SharedPtr.ctor_ptr_esft h p = some (A, h1) ∧
      h1.mem.block h.mem.blocks.length = some ⟨1, 1, BlockKind.ControlBlock1 p⟩ ∧
      A.UseCount h1.mem = some 1 ∧
      SharedPtr.dtor_esft h1 A = some h2 ∧
      h2.mem.log = h.mem.log ++
        [Event.ObjectDestructor h.mem.blocks.length p, Event.deleteBlock h.mem.blocks.length] ∧
      h2.mem.block h.mem.blocks.length = none ∧ h2.objects p = none ∧
      (∀ b, b ≠ h.mem.blocks.length → h2.mem.block b = h.mem.block b)) ∧
    (∃ A h1 h2, MakeShared_esft h = some (A, h1) ∧
      h1.mem.block h.mem.blocks.length = some ⟨1, 1, BlockKind.ControlBlock2⟩ ∧
      A.UseCount h1.mem = some 1 ∧
      SharedPtr.dtor_esft h1 A = some h2 ∧
      h2.mem.log = h.mem.log ++
        [Event.ObjectDestructor h.mem.blocks.length (Ptr.storage h.mem.blocks.length),
          Event.deleteBlock h.mem.blocks.length] ∧
      h2.mem.block h.mem.blocks.length = none ∧
      h2.objects (Ptr.storage h.mem.blocks.length) = none ∧
      (∀ b, b ≠ h.mem.blocks.length → h2.mem.block b = h.mem.block b)) ∧
    (∀ (g : Heap) (b : Nat) (kind : BlockKind) (q r : Ptr), q ≠ Ptr.null →
      g.mem.block b = some ⟨1, 1, kind⟩ →
      g.objects ((BaseBlock.mk 1 1 kind).object b) = some ⟨⟨some b, r⟩⟩ →
      ∃ g2, SharedPtr.dtor_esft g ⟨some b, q⟩ = some g2 ∧
        g2.mem.log = g.mem.log ++
          [Event.ObjectDestructor b ((BaseBlock.mk 1 1 kind).object b), Event.deleteBlock b] ∧
        g2.mem.block b = none ∧ g2.objects ((BaseBlock.mk 1 1 kind).object b) = none) := by
  have huse : ∀ (kind : BlockKind) (q : Ptr), q ≠ Ptr.null →
      (SharedPtr.mk (some h.mem.blocks.length) q).UseCount
        (Mem.mk (h.mem.blocks ++ [some (BaseBlock.mk 1 1 kind)]) h.mem.log) = some 1 := by
    intro kind q hq
    unfold SharedPtr.UseCount
    rw [(SharedPtr.toBool_iff _).2 hq]
    simp only [Bool.not_true, Bool.false_eq_true, if_false]
    exact Mem.GetShared_some (Mem.block_append_self _ _ _)
  have hfree : ∀ (kind : BlockKind) (lg : List Event),
      (Mem.mk ((h.mem.blocks ++ [some (BaseBlock.mk 1 1 kind)]).set h.mem.blocks.length none)
        lg).block h.mem.blocks.length = none := by
    intro kind lg
    exact Mem.block_set_self none lg
      (Mem.block_append_self h.mem.blocks (some (BaseBlock.mk 1 1 kind)) h.mem.log)
  have hrest : ∀ (kind : BlockKind) (lg : List Event) (b : Nat), b ≠ h.mem.blocks.length →
      (Mem.mk ((h.mem.blocks ++ [some (BaseBlock.mk 1 1 kind)]).set h.mem.blocks.length none)
        lg).block b = h.mem.block b := by
    intro kind lg b hb
    have hlt : h.mem.blocks.length < (h.mem.blocks ++ [some (BaseBlock.mk 1 1 kind)]).length := by
      simp
    have := Mem.block_set (Mem.mk (h.mem.blocks ++ [some (BaseBlock.mk 1 1 kind)]) h.mem.log)
      h.mem.blocks.length b none lg hlt
    rw [this, Mem.block_append h.mem.blocks _ h.mem.log h.mem.log b]
    simp [hb, Ne.symm hb]
  refine ⟨?_, ?_, ?_⟩
  · have hb1 : (Heap.setObject
        (Mem.mk (h.mem.blocks ++ [some (BaseBlock.mk 1 1 (BlockKind.ControlBlock1 p))])
          h.mem.log)
        h.objects p (some ⟨⟨some h.mem.blocks.length, p⟩⟩)).mem.block h.mem.blocks.length
        = some (BaseBlock.mk 1 1 (BlockKind.ControlBlock1 p)) := Mem.block_append_self _ _ _
    have hd := SharedPtr.dtor_esft_last (q := p) (r := p) hp hb1 (Heap.setObject_self _ _ _ _)
    exact ⟨_, _, _, SharedPtr.ctor_ptr_esft_fresh h p hp hobj, Mem.block_append_self _ _ _,
      huse _ p hp, hd, rfl, hfree _ _, Heap.setObject_self _ _ _ _, hrest _ _⟩
  · have hq : Ptr.storage h.mem.blocks.length ≠ Ptr.null := by intro e; cases e
    have hb1 : (Heap.setObject
        (Mem.mk (h.mem.blocks ++ [some (BaseBlock.mk 1 1 BlockKind.ControlBlock2)]) h.mem.log)
        (Heap.setObject
          (Mem.mk (h.mem.blocks ++ [some ⟨1, 0, BlockKind.ControlBlock2⟩]) h.mem.log)
          h.objects (Ptr.storage h.mem.blocks.length)
          (some EnableSharedFromThis.fresh)).objects
        (Ptr.storage h.mem.blocks.length)
        (some ⟨⟨some h.mem.blocks.length, Ptr.storage h.mem.blocks.length⟩⟩)).mem.block
        h.mem.blocks.length = some (BaseBlock.mk 1 1 BlockKind.ControlBlock2) :=
      Mem.block_append_self _ _ _
    have hd := SharedPtr.dtor_esft_last (q := Ptr.storage h.mem.blocks.length)
      (r := Ptr.storage h.mem.blocks.length) hq hb1 (Heap.setObject_self _ _ _ _)
    exact ⟨_, _, _, MakeShared_esft_eq h, Mem.block_append_self _ _ _,
      huse _ _ hq, hd, rfl, hfree _ _, Heap.setObject_self _ _ _ _, hrest _ _⟩
  · intro g b kind q r hq hblk hg
    exact ⟨_, SharedPtr.dtor_esft_last hq hblk hg, rfl, Mem.block_set_self none _ hblk,
      Heap.setObject_self _ _ _ _⟩

/-- Witness for C18: an object at address 1 on the empty heap. -/
theorem C18_embedded_weak_does_not_own_witness :
    ∃ A h1 h2, SharedPtr.ctor_ptr_esft
        ⟨⟨[], []⟩, fun q => if q = Ptr.obj 1 then some EnableSharedFromThis.fresh else none⟩
        (Ptr.obj 1) = some (A, h1) ∧
      SharedPtr.dtor_esft h1 A = some h2 ∧
      h2.mem.log = [Event.ObjectDestructor 0 (Ptr.obj 1), Event.deleteBlock 0] ∧
      h2.mem.block 0 = none := by
  obtain ⟨⟨A, h1, h2, k1, _, _, k4, k5, k6, _⟩, _, _⟩ := C18_embedded_weak_does_not_own
    ⟨⟨[], []⟩, fun q => if q = Ptr.obj 1 then some EnableSharedFromThis.fresh else none⟩
    (Ptr.obj 1) (by decide) (by simp)
  exact ⟨A, h1, h2, k1, k4, k5, k6⟩

/-! ## C19: converting by move and back -/

/-- What a slot adds to a tally. -/
theorem tally_append {α : Type} (f : α → Nat) (l : List (Option α)) (h : α) :
    tally f (l ++ [some h]) = tally f l + f h := by
  induction l with
  | nil => simp [tally]
  | cons y ys ih =>
    cases y with
    | none => simpa [tally] using ih
    | some z =>
      show f z + tally f (ys ++ [some h]) = f z + tally f ys + f h
      rw [ih]; omega

theorem tally_set_none {α : Type} (f : α → Nat) {l : List (Option α)} {i : Nat} {old : α}
    (hi : l.getD i none = some old) : tally f l = tally f (l.set i none) + f old := by
  induction l generalizing i with
  | nil => simp at hi
  | cons y ys ih =>
    cases i with
    | zero =>
      simp only [List.getD_cons_zero] at hi
      subst hi
      simp only [List.set_cons_zero, tally]; omega
    | succ j =>
      simp only [List.getD_cons_succ] at hi
      have := ih hi
      cases y with
      | none => simpa [tally] using this
      | some z => simp only [List.set_cons_succ, tally]; omega

theorem tally_set_some {α : Type} (f : α → Nat) {l : List (Option α)} {i : Nat} {old : α}
    (hi : l.getD i none = some old) (x : α) :
    tally f (l.set i (some x)) = tally f (l.set i none) + f x := by
  induction l generalizing i with
  | nil => simp at hi
  | cons y ys ih =>
    cases i with
    | zero => simp only [List.set_cons_zero, tally]; omega
    | succ j =>
      simp only [List.getD_cons_succ] at hi
      have := ih hi
      cases y with
      | none => simpa [tally] using this
      | some z => simp only [List.set_cons_succ, tally]; omega

/-! ## The intrusive pointer: heap facts -/

theorem Intrusive.Mem.object_lt {m : Intrusive.Mem} {a : Nat} {o : RefCounted}
    (h : m.object a = some o) : a < m.objects.length := getD_lt h

theorem Intrusive.Mem.object_set (m : Intrusive.Mem) (a x : Nat) (v : Option RefCounted)
    (lg : List Intrusive.Event) (ha : a < m.objects.length) :
    (Intrusive.Mem.mk (m.objects.set a v) lg).object x = if a = x then v else m.object x :=
  getD_set m.objects a x v ha

theorem Intrusive.destroys_append (lg : List Intrusive.Event) (a x k : Nat) :
    Intrusive.destroys (lg ++ [Intrusive.Event.Destroy a k]) x =
      Intrusive.destroys lg x + if a = x then 1 else 0 := by
  unfold Intrusive.destroys
  rw [List.filter_append, List.length_append]
  by_cases h : a = x <;> simp [List.filter, h]

theorem SimpleCounter.IncRef_val {c : SimpleCounter} {n : Nat} (h1 : c.count_ ≤ n)
    (hn : n + 1 < SIZE_MOD) : c.IncRef.1 = ⟨c.count_ + 1⟩ := by
  simp only [SimpleCounter.IncRef]
  rw [Nat.mod_eq_of_lt (by omega)]

theorem SimpleCounter.DecRef_val {c : SimpleCounter} {n : Nat} (h0 : 1 ≤ c.count_)
    (h1 : c.count_ ≤ n) (hn : n < SIZE_MOD) : c.DecRef.1 = ⟨c.count_ - 1⟩ := by
  have e : SIZE_MOD - 1 + c.count_ = (c.count_ - 1) + SIZE_MOD := by omega
  simp only [SimpleCounter.DecRef]
  rw [e, Nat.add_mod_right, Nat.mod_eq_of_lt (by omega)]

theorem RefCounted.IncRef_eq {m : Intrusive.Mem} {a : Nat} {o : RefCounted}
    (h : m.object a = some o) :
    RefCounted.IncRef m (some a) =
      some ⟨m.objects.set a (some ⟨o.counter_.IncRef.1⟩), m.log⟩ := by
  simp [RefCounted.IncRef, h]

theorem RefCounted.IncRef_some {m m1 : Intrusive.Mem} {p : Option Nat}
    (h : RefCounted.IncRef m p = some m1) :
    ∃ a o, p = some a ∧ m.object a = some o := by
  cases p with
  | none => simp [RefCounted.IncRef] at h
  | some a =>
    cases ho : m.object a with
    | none => simp [RefCounted.IncRef, ho] at h
    | some o => exact ⟨a, o, rfl, ho⟩

/-! ## The intrusive pointer: the counting invariant -/

theorem Intrusive.Good.inc_ref {n : Nat} {m : Intrusive.Mem} {c d : Nat → Nat} {a : Nat}
    {o : RefCounted} (hg : Intrusive.Good n m c) (hn : n + 1 < SIZE_MOD)
    (ho : m.object a = some o) (hd : ∀ x, d x = c x + if x = a then 1 else 0) :
    Intrusive.Good (n + 1)
      ⟨m.objects.set a (some ⟨o.counter_.IncRef.1⟩), m.log⟩ d := by
  obtain ⟨g1, g2, g3⟩ := hg
  have hlt := Intrusive.Mem.object_lt ho
  have hoa := g2 a o ho
  have hv : o.counter_.IncRef.1 = ⟨o.counter_.count_ + 1⟩ :=
    SimpleCounter.IncRef_val (n := n) (by have := g1 a; simp only [SimpleCounter.RefCount] at hoa; omega) hn
  refine ⟨fun x => ?_, fun x o2 hx => ?_, fun x hx => ?_⟩
  · have := g1 x; rw [hd]; split <;> omega
  · rw [Intrusive.Mem.object_set m a x _ m.log hlt] at hx
    by_cases hax : a = x
    · subst hax
      simp only [if_true, Option.some.injEq] at hx
      subst hx
      rw [hv, hd]
      simp only [SimpleCounter.RefCount, if_true] at hoa ⊢
      omega
    · simp only [hax, if_false] at hx
      have := g2 x o2 hx
      rw [hd, if_neg (fun e => hax e.symm)]
      simpa using this
  · rw [Intrusive.Mem.object_set m a x _ m.log hlt] at hx
    by_cases hax : a = x
    · simp [hax] at hx
    · simp only [hax, if_false] at hx
      have := g3 x hx
      rw [hd, if_neg (fun e => hax e.symm)]
      simpa using this

theorem Intrusive.Good.dec {n : Nat} {m m1 : Intrusive.Mem} {c d : Nat → Nat} {a : Nat}
    (hg : Intrusive.Good n m c) (hn : n < SIZE_MOD)
    (hop : RefCounted.DecRef DefaultDelete.Destroy m (some a) = some m1)
    (hd : ∀ x, c x = d x + if x = a then 1 else 0) :
    Intrusive.Good n m1 d ∧
      ∀ x, Intrusive.destroys m1.log x =
        Intrusive.destroys m.log x + if 1 ≤ c x ∧ d x = 0 then 1 else 0 := by
  obtain ⟨g1, g2, g3⟩ := hg
  cases ho : m.object a with
  | none => simp [RefCounted.DecRef, ho] at hop
  | some o =>
    have hlt := Intrusive.Mem.object_lt ho
    obtain ⟨hc, h1, hz⟩ := g2 a o ho
    have hda := hd a
    simp only [if_true] at hda
    simp only [RefCounted.DecRef, ho] at hop
    by_cases hle : o.counter_.RefCount ≤ 1
    · have ho2 : (Intrusive.Mem.mk m.objects
          (m.log ++ [Intrusive.Event.Destroy a o.counter_.RefCount])).object a = some o := ho
      simp only [hle, if_true, DefaultDelete.Destroy, ho2, Option.some.injEq] at hop
      subst hop
      have hd0 : d a = 0 := by omega
      refine ⟨⟨fun x => ?_, fun x o2 hx => ?_, fun x hx => ?_⟩, fun x => ?_⟩
      · have := g1 x; have := hd x; omega
      · rw [Intrusive.Mem.object_set m a x _ _ hlt] at hx
        by_cases hax : a = x
        · simp [hax] at hx
        · simp only [hax, if_false] at hx
          obtain ⟨e1, e2, e3⟩ := g2 x o2 hx
          have := hd x
          rw [if_neg (fun e => hax e.symm)] at this
          refine ⟨by omega, by omega, ?_⟩
          simp only [Intrusive.destroys_append, hax, if_false]
          omega
      · simp only [Intrusive.destroys_append, List.length_set]
        by_cases hax : a = x
        · subst hax
          simp only [if_true, hlt, hz]
          exact ⟨hd0, trivial⟩
        · rw [Intrusive.Mem.object_set m a x _ _ hlt] at hx
          simp only [hax, if_false] at hx
          obtain ⟨e1, e2⟩ := g3 x hx
          have := hd x
          rw [if_neg (fun e => hax e.symm)] at this
          exact ⟨by omega, by simpa [hax] using e2⟩
      · simp only [Intrusive.destroys_append]
        by_cases hax : a = x
        · subst hax
          simp only [if_true, h1, hd0, and_self]
        · have := hd x
          rw [if_neg (fun e => hax e.symm)] at this
          have hne : ¬ (1 ≤ c x ∧ d x = 0) := by omega
          simp only [hax, if_false, hne]
    · have hv : o.counter_.DecRef.1 = ⟨o.counter_.count_ - 1⟩ :=
        SimpleCounter.DecRef_val (n := n)
          (by simp only [SimpleCounter.RefCount] at hle; omega)
          (by have := g1 a; simp only [SimpleCounter.RefCount] at hc; omega) hn
      simp only [hle, if_false, Option.some.injEq] at hop
      subst hop
      simp only [SimpleCounter.RefCount] at hle hc
      refine ⟨⟨fun x => ?_, fun x o2 hx => ?_, fun x hx => ?_⟩, fun x => ?_⟩
      · have := g1 x; have := hd x; omega
      · rw [Intrusive.Mem.object_set m a x _ _ hlt] at hx
        by_cases hax : a = x
        · subst hax
          simp only [if_true, Option.some.injEq] at hx
          subst hx
          rw [hv]
          simp only [SimpleCounter.RefCount]
          exact ⟨by omega, by omega, hz⟩
        · simp only [hax, if_false] at hx
          obtain ⟨e1, e2, e3⟩ := g2 x o2 hx
          have := hd x
          rw [if_neg (fun e => hax e.symm)] at this
          exact ⟨by omega, by omega, e3⟩
      · rw [Intrusive.Mem.object_set m a x _ _ hlt] at hx
        by_cases hax : a = x
        · simp [hax] at hx
        · simp only [hax, if_false] at hx
          obtain ⟨e1, e2⟩ := g3 x hx
          have := hd x
          rw [if_neg (fun e => hax e.symm)] at this
          exact ⟨by omega, by simpa using e2⟩
      · have hne : ¬ (1 ≤ c x ∧ d x = 0) := by
          have := hd x
          by_cases hax : x = a
          · subst hax; omega
          · rw [if_neg hax] at this; omega
        simp only [hne, if_false, Nat.add_zero]

theorem IntrusivePtr.refers_null (a : Nat) : IntrusivePtr.refers a ⟨none⟩ = 0 := by
  simp [IntrusivePtr.refers]

theorem IntrusivePtr.refers_some (a x : Nat) :
    IntrusivePtr.refers x ⟨some a⟩ = if x = a then 1 else 0 := by
  simp only [IntrusivePtr.refers, Option.some.injEq]
  by_cases h : a = x
  · simp [h]
  · have h2 : ¬ x = a := fun e => h e.symm
    simp [h, h2]

theorem Intrusive.Good.after_ctor_ptr {n : Nat} {m m1 : Intrusive.Mem} {c d : Nat → Nat}
    {p : Option Nat} {h : IntrusivePtr} (hg : Intrusive.Good n m c) (hn : n + 1 < SIZE_MOD)
    (hop : IntrusivePtr.ctor_ptr m p = some (h, m1))
    (hd : ∀ x, d x = c x + h.refers x) :
    Intrusive.Good (n + 1) m1 d ∧ m1.log = m.log := by
  simp only [IntrusivePtr.ctor_ptr, Option.map_eq_some', Prod.mk.injEq] at hop
  obtain ⟨mm, hi, rfl, rfl⟩ := hop
  obtain ⟨a, o, rfl, ho⟩ := RefCounted.IncRef_some hi
  rw [RefCounted.IncRef_eq ho, Option.some.injEq] at hi
  subst hi
  exact ⟨Intrusive.Good.inc_ref hg hn ho (fun x => by rw [hd, IntrusivePtr.refers_some]), rfl⟩

theorem Intrusive.Good.after_copy {n : Nat} {m m1 : Intrusive.Mem} {c d : Nat → Nat}
    {other h : IntrusivePtr} (hg : Intrusive.Good n m c) (hn : n + 1 < SIZE_MOD)
    (hop : IntrusivePtr.ctor_copy m other = some (h, m1))
    (hd : ∀ x, d x = c x + h.refers x) :
    Intrusive.Good (n + 1) m1 d ∧ m1.log = m.log ∧ h = other := by
  obtain ⟨p⟩ := other
  cases p with
  | none =>
    simp only [IntrusivePtr.ctor_copy, IntrusivePtr.toBool, IntrusivePtr.UseCount,
      IntrusivePtr.Get, if_true, Option.map_some', ne_eq, not_true_eq_false, decide_False,
      Option.some.injEq, Prod.mk.injEq] at hop
    obtain ⟨rfl, rfl⟩ := hop
    refine ⟨⟨fun x => ?_, fun x o hx => ?_, fun x hx => ?_⟩, rfl, rfl⟩
    · have := hg.1 x; rw [hd, IntrusivePtr.refers_null]; omega
    · rw [hd, IntrusivePtr.refers_null]; exact hg.2.1 x o hx
    · rw [hd, IntrusivePtr.refers_null]; exact hg.2.2 x hx
  | some a =>
    cases ho : m.object a with
    | none =>
      simp [IntrusivePtr.ctor_copy, IntrusivePtr.toBool, IntrusivePtr.UseCount,
        IntrusivePtr.Get, RefCounted.RefCount, ho] at hop
    | some o =>
      obtain ⟨hc, h1, _⟩ := hg.2.1 a o ho
      have hne : o.counter_.RefCount ≠ 0 := by omega
      simp only [IntrusivePtr.ctor_copy, IntrusivePtr.toBool, IntrusivePtr.UseCount,
        IntrusivePtr.Get, RefCounted.RefCount, ho, Option.map_some', ne_eq, hne,
        not_false_eq_true, decide_True, RefCounted.IncRef_eq ho, Option.some.injEq,
        Prod.mk.injEq, if_false, reduceCtorEq] at hop
      obtain ⟨rfl, rfl⟩ := hop
      exact ⟨Intrusive.Good.inc_ref hg hn ho (fun x => by rw [hd, IntrusivePtr.refers_some]),
        rfl, rfl⟩

theorem IntrusivePtr.copy_conv_eq_copy (m : Intrusive.Mem) (other : IntrusivePtr) :
    IntrusivePtr.ctor_copy_conv m other = IntrusivePtr.ctor_copy m other := rfl

theorem Intrusive.Good.after_destructor {n : Nat} {m m1 : Intrusive.Mem} {c d : Nat → Nat}
    {h : IntrusivePtr} (hg : Intrusive.Good n m c) (hn : n < SIZE_MOD)
    (hop : IntrusivePtr.dtor DefaultDelete.Destroy m h = some m1)
    (hd : ∀ x, c x = d x + h.refers x) :
    Intrusive.Good n m1 d ∧
      ∀ x, Intrusive.destroys m1.log x =
        Intrusive.destroys m.log x + if 1 ≤ c x ∧ d x = 0 then 1 else 0 := by
  obtain ⟨p⟩ := h
  cases p with
  | none =>
    simp only [IntrusivePtr.dtor, if_true, Option.some.injEq] at hop
    subst hop
    have e : ∀ x, c x = d x := fun x => by rw [hd, IntrusivePtr.refers_null]; rfl
    refine ⟨⟨fun x => ?_, fun x o hx => ?_, fun x hx => ?_⟩, fun x => ?_⟩
    · rw [← e]; exact hg.1 x
    · rw [← e]; exact hg.2.1 x o hx
    · rw [← e]; exact hg.2.2 x hx
    · have hne : ¬ (1 ≤ c x ∧ d x = 0) := by have := e x; omega
      simp only [hne, if_false, Nat.add_zero]
  | some a =>
    simp only [IntrusivePtr.dtor, reduceCtorEq, if_false] at hop
    exact Intrusive.Good.dec hg hn hop (fun x => by rw [hd, IntrusivePtr.refers_some])

theorem MakeIntrusive_eq (m : Intrusive.Mem) :
    MakeIntrusive m =
      some (⟨some m.objects.length⟩, ⟨m.objects ++ [some ⟨⟨1⟩⟩], m.log⟩) := by
  have h : (Intrusive.Mem.mk (m.objects ++ [some ⟨⟨0⟩⟩]) m.log).object m.objects.length =
      some ⟨⟨0⟩⟩ := getD_append_length _ _
  have e : SimpleCounter.IncRef ⟨0⟩ = (⟨1⟩, 1) := by decide
  simp only [MakeIntrusive, RefCounted.IncRef_eq h, Option.map_some', e]
  simp

theorem Intrusive.Good.after_MakeIntrusive {n : Nat} {m : Intrusive.Mem} {c d : Nat → Nat}
    (hg : Intrusive.Good n m c)
    (hd : ∀ x, d x = c x + (IntrusivePtr.mk (some m.objects.length)).refers x) :
    Intrusive.Good (n + 1) ⟨m.objects ++ [some ⟨⟨1⟩⟩], m.log⟩ d := by
  obtain ⟨g1, g2, g3⟩ := hg
  have hnone : m.object m.objects.length = none := by
    simp [Intrusive.Mem.object, List.getD_eq_getElem?_getD]
  have hobj : ∀ x, (Intrusive.Mem.mk (m.objects ++ [some ⟨⟨1⟩⟩]) m.log).object x =
      if x = m.objects.length then some ⟨⟨1⟩⟩ else m.object x := by
    intro x
    by_cases hx : x = m.objects.length
    · subst hx; simp only [if_true]; exact getD_append_length _ _
    · simp only [hx, if_false]
      by_cases hlt : x < m.objects.length
      · exact getD_append_left _ _ _ hlt
      · simp only [Intrusive.Mem.object, List.getD_eq_getElem?_getD]
        rw [List.getElem?_eq_none (by simp; omega), List.getElem?_eq_none (by omega)]
  refine ⟨fun x => ?_, fun x o hx => ?_, fun x hx => ?_⟩
  · have := g1 x; rw [hd, IntrusivePtr.refers_some]; split <;> omega
  · rw [hobj] at hx
    rw [hd, IntrusivePtr.refers_some]
    by_cases hxl : x = m.objects.length
    · subst hxl
      simp only [if_true, Option.some.injEq] at hx
      subst hx
      obtain ⟨e1, e2⟩ := g3 _ hnone
      simp only [lt_self_iff_false, if_false] at e2
      simp only [SimpleCounter.RefCount, if_true]
      exact ⟨by omega, by omega, e2⟩
    · simp only [hxl, if_false] at hx ⊢
      exact g2 x o hx
  · rw [hobj] at hx
    rw [hd, IntrusivePtr.refers_some]
    by_cases hxl : x = m.objects.length
    · simp [hxl] at hx
    · simp only [hxl, if_false] at hx ⊢
      obtain ⟨e1, e2⟩ := g3 x hx
      refine ⟨e1, ?_⟩
      simp only [List.length_append, List.length_singleton]
      rw [e2]
      by_cases hlt : x < m.objects.length
      · simp [hlt, Nat.lt_succ_of_lt hlt]
      · have : ¬ x < m.objects.length + 1 := by omega
        simp [hlt, this]

theorem Intrusive.Good.bound_le {n n2 : Nat} {m : Intrusive.Mem} {c : Nat → Nat}
    (hg : Intrusive.Good n m c) (hn : n ≤ n2) : Intrusive.Good n2 m c :=
  ⟨fun a => Nat.le_trans (hg.1 a) hn, hg.2.1, hg.2.2⟩

theorem Intrusive.Good.count_congr {n : Nat} {m : Intrusive.Mem} {c d : Nat → Nat}
    (hg : Intrusive.Good n m c) (h : ∀ x, d x = c x) : Intrusive.Good n m d := by
  have e : d = c := funext h
  rw [e]; exact hg

theorem Intrusive.Next.of_log_eq {n : Nat} {m m1 : Intrusive.Mem} {c d : Nat → Nat}
    (hg : Intrusive.Good n m1 d) (hl : m1.log = m.log) (hle : ∀ x, c x ≤ d x) :
    Intrusive.Next n m c m1 d := by
  refine ⟨hg, fun x => ?_⟩
  have hne : ¬ (1 ≤ c x ∧ d x = 0) := by have := hle x; omega
  simp only [hl, hne, if_false, Nat.add_zero]

theorem Intrusive.Next.next_bound_le {n n2 : Nat} {m m1 : Intrusive.Mem} {c d : Nat → Nat}
    (h : Intrusive.Next n m c m1 d) (hn : n ≤ n2) : Intrusive.Next n2 m c m1 d :=
  ⟨h.1.bound_le hn, h.2⟩

theorem Intrusive.Next.of_assign_copy {n : Nat} {m m2 : Intrusive.Mem} {c r d : Nat → Nat}
    {self other self1 : IntrusivePtr} (hg : Intrusive.Good n m c) (hn : n + 1 < SIZE_MOD)
    (hk : ∀ x, c x = r x + self.refers x)
    (hop : IntrusivePtr.assign_copy DefaultDelete.Destroy m self other = some (self1, m2))
    (hk2 : ∀ x, d x = r x + self1.refers x) :
    Intrusive.Next (n + 1) m c m2 d := by
  unfold IntrusivePtr.assign_copy at hop
  cases hc : IntrusivePtr.ctor_copy m other with
  | none => simp [hc] at hop
  | some q =>
    obtain ⟨tmp, m1⟩ := q
    simp only [hc, IntrusivePtr.Swap, Option.map_eq_some', Prod.mk.injEq] at hop
    obtain ⟨mm, hd, hs, rfl⟩ := hop
    obtain ⟨g1, l1, _⟩ := Intrusive.Good.after_copy (d := fun x => c x + tmp.refers x)
      hg hn hc (fun _ => rfl)
    have hs2 : self1 = tmp := by cases tmp; exact hs.symm
    have hd2 : IntrusivePtr.dtor DefaultDelete.Destroy m1 self = some mm := by cases self; exact hd
    obtain ⟨g2, l2⟩ := Intrusive.Good.after_destructor (d := d) g1 (by omega)
      hd2 (fun x => by simp only [hk2, hk, hs2]; omega)
    refine ⟨g2, fun x => ?_⟩
    rw [l2 x, l1]
    have h1 := hk x
    have h2 := hk2 x
    rw [hs2] at h2
    by_cases hz : d x = 0
    · have : tmp.refers x = 0 := by omega
      simp only [this, Nat.add_zero]
    · simp only [hz, and_false]

theorem Intrusive.Next.of_assign_move {n : Nat} {m m1 : Intrusive.Mem} {c r d : Nat → Nat}
    {self other self1 other1 : IntrusivePtr} (hg : Intrusive.Good n m c) (hn : n < SIZE_MOD)
    (hk : ∀ x, c x = r x + self.refers x + other.refers x)
    (hop : IntrusivePtr.assign_move DefaultDelete.Destroy m self other = some (self1, other1, m1))
    (hk2 : ∀ x, d x = r x + self1.refers x + other1.refers x) :
    Intrusive.Next n m c m1 d := by
  simp only [IntrusivePtr.assign_move, IntrusivePtr.ctor_move, IntrusivePtr.Swap,
    Option.map_eq_some', Prod.mk.injEq] at hop
  obtain ⟨mm, hd, hs, ho, rfl⟩ := hop
  have hs2 : self1 = other := by cases other; exact hs.symm
  have hd2 : IntrusivePtr.dtor DefaultDelete.Destroy m self = some mm := by cases self; exact hd
  subst ho
  exact Intrusive.Good.after_destructor (d := d) hg hn hd2
    (fun x => by simp only [hk2, hk, hs2, IntrusivePtr.refers_null]; omega)

theorem IntrusivePtr.destructor_null (D : Intrusive.Deleter) (m : Intrusive.Mem) :
    IntrusivePtr.dtor D m ⟨none⟩ = some m := by
  simp [IntrusivePtr.dtor]

theorem IntrusivePtr.assign_move_self_id (D : Intrusive.Deleter) (m : Intrusive.Mem)
    (self : IntrusivePtr) : IntrusivePtr.assign_move_self D m self = some (self, m) := by
  simp [IntrusivePtr.assign_move_self, IntrusivePtr.ctor_move, IntrusivePtr.Swap,
    IntrusivePtr.destructor_null]

theorem Intrusive.Next.of_Reset {n : Nat} {m m1 : Intrusive.Mem} {c r d : Nat → Nat}
    {self self1 : IntrusivePtr} (hg : Intrusive.Good n m c) (hn : n < SIZE_MOD)
    (hk : ∀ x, c x = r x + self.refers x)
    (hop : IntrusivePtr.Reset DefaultDelete.Destroy m self = some (self1, m1))
    (hk2 : ∀ x, d x = r x + self1.refers x) :
    Intrusive.Next n m c m1 d := by
  simp only [IntrusivePtr.Reset, IntrusivePtr.ctor_default, IntrusivePtr.Swap,
    Option.map_eq_some', Prod.mk.injEq] at hop
  obtain ⟨mm, hd, hs, rfl⟩ := hop
  have hd2 : IntrusivePtr.dtor DefaultDelete.Destroy m self = some mm := by cases self; exact hd
  subst hs
  exact Intrusive.Good.after_destructor (d := d) hg hn hd2
    (fun x => by simp only [hk2, hk, IntrusivePtr.refers_null]; omega)

theorem Intrusive.Next.of_Reset_ptr {n : Nat} {m m2 : Intrusive.Mem} {c r d : Nat → Nat}
    {self self1 : IntrusivePtr} {p : Option Nat} (hg : Intrusive.Good n m c)
    (hn : n + 1 < SIZE_MOD) (hk : ∀ x, c x = r x + self.refers x)
    (hop : IntrusivePtr.Reset_ptr DefaultDelete.Destroy m self p = some (self1, m2))
    (hk2 : ∀ x, d x = r x + self1.refers x) :
    Intrusive.Next (n + 1) m c m2 d := by
  unfold IntrusivePtr.Reset_ptr at hop
  cases hc : IntrusivePtr.ctor_ptr m p with
  | none => simp [hc] at hop
  | some q =>
    obtain ⟨tmp, m1⟩ := q
    simp only [hc, IntrusivePtr.Swap, Option.map_eq_some', Prod.mk.injEq] at hop
    obtain ⟨mm, hd, hs, rfl⟩ := hop
    obtain ⟨g1, l1⟩ := Intrusive.Good.after_ctor_ptr (d := fun x => c x + tmp.refers x)
      hg hn hc (fun _ => rfl)
    have hs2 : self1 = tmp := by cases tmp; exact hs.symm
    have hd2 : IntrusivePtr.dtor DefaultDelete.Destroy m1 self = some mm := by cases self; exact hd
    obtain ⟨g2, l2⟩ := Intrusive.Good.after_destructor (d := d) g1 (by omega)
      hd2 (fun x => by simp only [hk2, hk, hs2]; omega)
    refine ⟨g2, fun x => ?_⟩
    rw [l2 x, l1]
    have h1 := hk x
    have h2 := hk2 x
    rw [hs2] at h2
    by_cases hz : d x = 0
    · have : tmp.refers x = 0 := by omega
      simp only [this, Nat.add_zero]
    · simp only [hz, and_false]

/-! ## The intrusive pointer: one operation of a program -/

theorem Intrusive.State.refs_push (s : Intrusive.State) (h : IntrusivePtr) (m1 : Intrusive.Mem)
    (x : Nat) : (s.push h m1).refs x = s.refs x + h.refers x :=
  tally_append _ _ _

theorem Intrusive.step_ok_construct {n : Nat} {s s2 : Intrusive.State} {op : Intrusive.Op}
    (hg : s.good n) (hn : n + 1 < SIZE_MOD) (hstep : Intrusive.step s op = some s2)
    (hop : op = .make_intrusive ∨ op = .ctor_default ∨ op = .ctor_nullptr ∨
      (∃ p, op = .ctor_ptr p) ∨ (∃ j, op = .copy j) ∨ (∃ j, op = .copy_conv j)) :
    Intrusive.StepOk n s s2 := by
  rcases hop with rfl | rfl | rfl | ⟨p, rfl⟩ | ⟨j, rfl⟩ | ⟨j, rfl⟩
  · simp only [Intrusive.step, MakeIntrusive_eq, Option.some.injEq] at hstep
    subst hstep
    exact Intrusive.Next.of_log_eq
      (Intrusive.Good.after_MakeIntrusive hg (fun x => Intrusive.State.refs_push s _ _ x)) rfl
      (fun x => by rw [Intrusive.State.refs_push]; omega)
  · simp only [Intrusive.step, Option.some.injEq] at hstep
    subst hstep
    have e : ∀ x, (s.push IntrusivePtr.ctor_default s.mem).refs x = s.refs x := fun x => by
      rw [Intrusive.State.refs_push]; exact Nat.add_zero _
    exact Intrusive.Next.of_log_eq ((Intrusive.Good.count_congr hg e).bound_le (Nat.le_succ n)) rfl
      (fun x => by rw [e])
  · simp only [Intrusive.step, Option.some.injEq] at hstep
    subst hstep
    have e : ∀ x, (s.push IntrusivePtr.ctor_nullptr s.mem).refs x = s.refs x := fun x => by
      rw [Intrusive.State.refs_push]; exact Nat.add_zero _
    exact Intrusive.Next.of_log_eq ((Intrusive.Good.count_congr hg e).bound_le (Nat.le_succ n)) rfl
      (fun x => by rw [e])
  · simp only [Intrusive.step] at hstep
    cases hc : IntrusivePtr.ctor_ptr s.mem p with
    | none => simp [hc] at hstep
    | some q =>
      obtain ⟨h, m1⟩ := q
      simp only [hc, Option.some.injEq] at hstep
      subst hstep
      obtain ⟨g1, l1⟩ := Intrusive.Good.after_ctor_ptr hg hn hc
        (fun x => Intrusive.State.refs_push s h m1 x)
      exact Intrusive.Next.of_log_eq g1 l1 (fun x => by rw [Intrusive.State.refs_push]; omega)
  · simp only [Intrusive.step] at hstep
    cases hj : s.handleAt j with
    | none => simp [hj] at hstep
    | some other =>
      cases hc : IntrusivePtr.ctor_copy s.mem other with
      | none => simp [hj, hc] at hstep
      | some q =>
        obtain ⟨h, m1⟩ := q
        simp only [hj, hc, Option.some.injEq] at hstep
        subst hstep
        obtain ⟨g1, l1, _⟩ := Intrusive.Good.after_copy hg hn hc
          (fun x => Intrusive.State.refs_push s h m1 x)
        exact Intrusive.Next.of_log_eq g1 l1 (fun x => by rw [Intrusive.State.refs_push]; omega)
  · simp only [Intrusive.step] at hstep
    cases hj : s.handleAt j with
    | none => simp [hj] at hstep
    | some other =>
      simp only [hj, IntrusivePtr.copy_conv_eq_copy] at hstep
      cases hc : IntrusivePtr.ctor_copy s.mem other with
      | none => simp [hj, hc] at hstep
      | some q =>
        obtain ⟨h, m1⟩ := q
        simp only [hj, hc, Option.some.injEq] at hstep
        subst hstep
        obtain ⟨g1, l1, _⟩ := Intrusive.Good.after_copy hg hn hc
          (fun x => Intrusive.State.refs_push s h m1 x)
        exact Intrusive.Next.of_log_eq g1 l1 (fun x => by rw [Intrusive.State.refs_push]; omega)

theorem IntrusivePtr.mk_ptr (h : IntrusivePtr) : IntrusivePtr.mk h.ptr_ = h := rfl

theorem Intrusive.step_ok_move {n : Nat} {s s2 : Intrusive.State} {op : Intrusive.Op}
    (hg : s.good n) (hstep : Intrusive.step s op = some s2)
    (hop : (∃ j, op = .move j) ∨ (∃ j, op = .move_conv j) ∨ (∃ i j, op = .swap i j)) :
    Intrusive.StepOk n s s2 := by
  rcases hop with ⟨j, rfl⟩ | ⟨j, rfl⟩ | ⟨i, j, rfl⟩
  · simp only [Intrusive.step] at hstep
    cases hj : s.handleAt j with
    | none => simp [hj] at hstep
    | some other =>
      simp only [hj, IntrusivePtr.ctor_move, Option.some.injEq] at hstep
      subst hstep
      have e : ∀ x, tally (IntrusivePtr.refers x)
          (s.handles.set j (some ⟨none⟩) ++ [some ⟨other.ptr_⟩]) = s.refs x := fun x => by
        have h1 := tally_set_none (IntrusivePtr.refers x) hj
        have h2 := tally_set_some (IntrusivePtr.refers x) hj ⟨none⟩
        rw [tally_append, h2, IntrusivePtr.refers_null, IntrusivePtr.mk_ptr]
        unfold Intrusive.State.refs
        omega
      exact Intrusive.Next.of_log_eq ((Intrusive.Good.count_congr hg e).bound_le (Nat.le_succ n)) rfl
        (fun x => Nat.le_of_eq (e x).symm)
  · simp only [Intrusive.step] at hstep
    cases hj : s.handleAt j with
    | none => simp [hj] at hstep
    | some other =>
      simp only [hj, IntrusivePtr.ctor_move_conv, Option.some.injEq] at hstep
      subst hstep
      have e : ∀ x, tally (IntrusivePtr.refers x)
          (s.handles.set j (some ⟨none⟩) ++ [some ⟨other.ptr_⟩]) = s.refs x := fun x => by
        have h1 := tally_set_none (IntrusivePtr.refers x) hj
        have h2 := tally_set_some (IntrusivePtr.refers x) hj ⟨none⟩
        rw [tally_append, h2, IntrusivePtr.refers_null, IntrusivePtr.mk_ptr]
        unfold Intrusive.State.refs
        omega
      exact Intrusive.Next.of_log_eq ((Intrusive.Good.count_congr hg e).bound_le (Nat.le_succ n)) rfl
        (fun x => Nat.le_of_eq (e x).symm)
  · simp only [Intrusive.step] at hstep
    cases hi : s.handleAt i with
    | none => simp [hi] at hstep
    | some self =>
      cases hj : s.handleAt j with
      | none => simp [hi, hj] at hstep
      | some other =>
        simp only [hi, hj, IntrusivePtr.Swap, IntrusivePtr.mk_ptr, Option.some.injEq] at hstep
        subst hstep
        have hji : (s.handles.set i (some other)).getD j none =
            some (if i = j then other else other) := by
          rw [getD_set _ _ _ _ (getD_lt hi)]
          by_cases hij : i = j
          · simp [hij]
          · simp only [hij, if_false]; exact hj
        simp only [ite_self] at hji
        have e : ∀ x, tally (IntrusivePtr.refers x)
            ((s.handles.set i (some other)).set j (some self)) = s.refs x := fun x => by
          have h1 := tally_set_none (IntrusivePtr.refers x) hi
          have h2 := tally_set_some (IntrusivePtr.refers x) hi other
          have h3 := tally_set_none (IntrusivePtr.refers x) hji
          have h4 := tally_set_some (IntrusivePtr.refers x) hji self
          unfold Intrusive.State.refs
          omega
        exact Intrusive.Next.of_log_eq ((Intrusive.Good.count_congr hg e).bound_le (Nat.le_succ n)) rfl
          (fun x => Nat.le_of_eq (e x).symm)

theorem Intrusive.step_ok_modify {n : Nat} {s s2 : Intrusive.State} {op : Intrusive.Op}
    (hg : s.good n) (hn : n + 1 < SIZE_MOD) (hstep : Intrusive.step s op = some s2)
    (hop : (∃ i j, op = .assign_copy i j) ∨ (∃ i j, op = .assign_move i j) ∨
      (∃ i, op = .reset i) ∨ (∃ i p, op = .reset_ptr i p) ∨ (∃ i, op = .dtor i)) :
    Intrusive.StepOk n s s2 := by
  rcases hop with ⟨i, j, rfl⟩ | ⟨i, j, rfl⟩ | ⟨i, rfl⟩ | ⟨i, p, rfl⟩ | ⟨i, rfl⟩
  · simp only [Intrusive.step] at hstep
    cases hi : s.handleAt i with
    | none => simp [hi] at hstep
    | some self =>
      cases hj : s.handleAt j with
      | none => simp [hi, hj] at hstep
      | some other =>
        cases hc : IntrusivePtr.assign_copy DefaultDelete.Destroy s.mem self other with
        | none => simp [hi, hj, hc] at hstep
        | some q =>
          obtain ⟨self1, m1⟩ := q
          simp only [hi, hj, hc, Option.some.injEq] at hstep
          subst hstep
          exact Intrusive.Next.of_assign_copy hg hn
            (fun x => tally_set_none (IntrusivePtr.refers x) hi) hc
            (fun x => tally_set_some (IntrusivePtr.refers x) hi self1)
  · simp only [Intrusive.step] at hstep
    cases hi : s.handleAt i with
    | none => simp [hi] at hstep
    | some self =>
      cases hj : s.handleAt j with
      | none => simp [hi, hj] at hstep
      | some other =>
        simp only [hi, hj] at hstep
        by_cases hij : i = j
        · simp only [hij, if_true, IntrusivePtr.assign_move_self_id, Option.some.injEq] at hstep
          subst hstep
          subst hij
          have e : ∀ x, tally (IntrusivePtr.refers x) (s.handles.set i (some self)) = s.refs x :=
            fun x => by
              have h1 := tally_set_none (IntrusivePtr.refers x) hi
              have h2 := tally_set_some (IntrusivePtr.refers x) hi self
              unfold Intrusive.State.refs
              omega
          exact Intrusive.Next.of_log_eq ((Intrusive.Good.count_congr hg e).bound_le (Nat.le_succ n)) rfl
            (fun x => Nat.le_of_eq (e x).symm)
        · simp only [hij, if_false] at hstep
          cases hc : IntrusivePtr.assign_move DefaultDelete.Destroy s.mem self other with
          | none => simp [hc] at hstep
          | some q =>
            obtain ⟨self1, other1, m1⟩ := q
            simp only [hc, Option.some.injEq] at hstep
            subst hstep
            have hji : (s.handles.set j (some other1)).getD i none = some self := by
              rw [getD_set _ _ _ _ (getD_lt hj), if_neg (fun e => hij e.symm)]
              exact hi
            refine Intrusive.Next.next_bound_le (Intrusive.Next.of_assign_move
              (r := fun x => tally (IntrusivePtr.refers x) ((s.handles.set j none).set i none))
              hg (by omega) (fun x => ?_) hc (fun x => ?_)) (Nat.le_succ n)
            · have hji0 : (s.handles.set j none).getD i none = some self := by
                rw [getD_set _ _ _ _ (getD_lt hj), if_neg (fun e => hij e.symm)]
                exact hi
              have h1 := tally_set_none (IntrusivePtr.refers x) hj
              have h2 := tally_set_none (IntrusivePtr.refers x) hji0
              unfold Intrusive.State.refs
              beta_reduce
              omega
            · have hji0 : (s.handles.set j none).getD i none = some self := by
                rw [getD_set _ _ _ _ (getD_lt hj), if_neg (fun e => hij e.symm)]
                exact hi
              have h1 := tally_set_some (IntrusivePtr.refers x) hj other1
              have h2 := tally_set_none (IntrusivePtr.refers x) hji0
              have h3 := tally_set_none (IntrusivePtr.refers x) hji
              have h4 := tally_set_some (IntrusivePtr.refers x) hji self1
              have h5 := tally_set_none (IntrusivePtr.refers x) hj
              have hcomm : ((s.handles.set j (some other1)).set i none) =
                  ((s.handles.set i none).set j (some other1)) :=
                List.set_comm _ _ _ (fun e => hij e.symm)
              have hcomm0 : ((s.handles.set j none).set i none) =
                  ((s.handles.set i none).set j none) :=
                List.set_comm _ _ _ (fun e => hij e.symm)
              have hij0 : (s.handles.set i none).getD j none = some other := by
                rw [getD_set _ _ _ _ (getD_lt hi), if_neg hij]
                exact hj
              have h6 := tally_set_some (IntrusivePtr.refers x) hij0 other1
              show tally (IntrusivePtr.refers x)
                ((s.handles.set j (some other1)).set i (some self1)) = _
              rw [h4, hcomm, h6, hcomm0]
              beta_reduce
              omega
  · simp only [Intrusive.step] at hstep
    cases hi : s.handleAt i with
    | none => simp [hi] at hstep
    | some self =>
      cases hc : IntrusivePtr.Reset DefaultDelete.Destroy s.mem self with
      | none => simp [hi, hc] at hstep
      | some q =>
        obtain ⟨self1, m1⟩ := q
        simp only [hi, hc, Option.some.injEq] at hstep
        subst hstep
        exact Intrusive.Next.next_bound_le (Intrusive.Next.of_Reset hg (by omega)
          (fun x => tally_set_none (IntrusivePtr.refers x) hi) hc
          (fun x => tally_set_some (IntrusivePtr.refers x) hi self1)) (Nat.le_succ n)
  · simp only [Intrusive.step] at hstep
    cases hi : s.handleAt i with
    | none => simp [hi] at hstep
    | some self =>
      cases hc : IntrusivePtr.Reset_ptr DefaultDelete.Destroy s.mem self p with
      | none => simp [hi, hc] at hstep
      | some q =>
        obtain ⟨self1, m1⟩ := q
        simp only [hi, hc, Option.some.injEq] at hstep
        subst hstep
        exact Intrusive.Next.of_Reset_ptr hg hn
          (fun x => tally_set_none (IntrusivePtr.refers x) hi) hc
          (fun x => tally_set_some (IntrusivePtr.refers x) hi self1)
  · simp only [Intrusive.step] at hstep
    cases hi : s.handleAt i with
    | none => simp [hi] at hstep
    | some self =>
      cases hc : IntrusivePtr.dtor DefaultDelete.Destroy s.mem self with
      | none => simp [hi, hc] at hstep
      | some m1 =>
        simp only [hi, hc, Option.some.injEq] at hstep
        subst hstep
        exact Intrusive.Next.next_bound_le (Intrusive.Good.after_destructor hg (by omega) hc
          (fun x => tally_set_none (IntrusivePtr.refers x) hi)) (Nat.le_succ n)

theorem Intrusive.step_ok {n : Nat} {s s2 : Intrusive.State} (op : Intrusive.Op)
    (hg : s.good n) (hn : n + 1 < SIZE_MOD) (hstep : Intrusive.step s op = some s2) :
    Intrusive.StepOk n s s2 := by
  cases op with
  | make_intrusive => exact Intrusive.step_ok_construct hg hn hstep (Or.inl rfl)
  | ctor_default => exact Intrusive.step_ok_construct hg hn hstep (Or.inr (Or.inl rfl))
  | ctor_nullptr =>
    exact Intrusive.step_ok_construct hg hn hstep (Or.inr (Or.inr (Or.inl rfl)))
  | ctor_ptr p =>
    exact Intrusive.step_ok_construct hg hn hstep (Or.inr (Or.inr (Or.inr (Or.inl ⟨p, rfl⟩))))
  | copy j =>
    exact Intrusive.step_ok_construct hg hn hstep
      (Or.inr (Or.inr (Or.inr (Or.inr (Or.inl ⟨j, rfl⟩)))))
  | copy_conv j =>
    exact Intrusive.step_ok_construct hg hn hstep
      (Or.inr (Or.inr (Or.inr (Or.inr (Or.inr ⟨j, rfl⟩)))))
  | move j => exact Intrusive.step_ok_move hg hstep (Or.inl ⟨j, rfl⟩)
  | move_conv j => exact Intrusive.step_ok_move hg hstep (Or.inr (Or.inl ⟨j, rfl⟩))
  | swap i j => exact Intrusive.step_ok_move hg hstep (Or.inr (Or.inr ⟨i, j, rfl⟩))
  | assign_copy i j => exact Intrusive.step_ok_modify hg hn hstep (Or.inl ⟨i, j, rfl⟩)
  | assign_move i j =>
    exact Intrusive.step_ok_modify hg hn hstep (Or.inr (Or.inl ⟨i, j, rfl⟩))
  | reset i => exact Intrusive.step_ok_modify hg hn hstep (Or.inr (Or.inr (Or.inl ⟨i, rfl⟩)))
  | reset_ptr i p =>
    exact Intrusive.step_ok_modify hg hn hstep
      (Or.inr (Or.inr (Or.inr (Or.inl ⟨i, p, rfl⟩))))
  | dtor i =>
    exact Intrusive.step_ok_modify hg hn hstep (Or.inr (Or.inr (Or.inr (Or.inr ⟨i, rfl⟩))))

theorem Intrusive.State.init_ok : Intrusive.State.init.good 0 := by
  refine ⟨fun a => Nat.le_refl 0, fun a o h => ?_, fun a _ => ⟨rfl, ?_⟩⟩
  · simp [Intrusive.State.init, Intrusive.Mem.object] at h
  · simp [Intrusive.State.init, Intrusive.destroys]

theorem Intrusive.run_ok {n : Nat} (ops : List Intrusive.Op) {s s2 : Intrusive.State}
    (hg : s.good n) (hn : n + ops.length < SIZE_MOD)
    (hrun : Intrusive.run ops s = some s2) : s2.good (n + ops.length) := by
  induction ops generalizing n s with
  | nil =>
    simp only [Intrusive.run, Option.some.injEq] at hrun
    subst hrun
    exact hg
  | cons op ops ih =>
    simp only [Intrusive.run] at hrun
    cases h1 : Intrusive.step s op with
    | none => simp [h1] at hrun
    | some s1 =>
      simp only [h1] at hrun
      simp only [List.length_cons] at hn ⊢
      have g1 := (Intrusive.step_ok op hg (by omega) h1).1
      have := ih g1 (by omega) hrun
      have e : n + (ops.length + 1) = n + 1 + ops.length := by omega
      rw [e]; exact this

/-! ## The intrusive pointer: the operations of a program are defined -/

/-- A live handle of a good state is null or points to a live object. -/
theorem Intrusive.State.handle_alive {n : Nat} {s : Intrusive.State} (hg : s.good n) {i : Nat}
    {h : IntrusivePtr} (hi : s.handleAt i = some h) (a : Nat) (ha : h.ptr_ = some a) :
    ∃ o, s.mem.object a = some o := by
  cases ho : s.mem.object a with
  | some o => exact ⟨o, rfl⟩
  | none =>
    have h0 := (hg.2.2 a ho).1
    have h1 := tally_set_none (IntrusivePtr.refers a) hi
    have h2 : h.refers a = 1 := by simp [IntrusivePtr.refers, ha]
    unfold Intrusive.State.refs at h0
    omega

theorem RefCounted.IncRef_alive {m : Intrusive.Mem} {a : Nat} {o : RefCounted}
    (ho : m.object a = some o) (v : RefCounted) (lg : List Intrusive.Event) (x : Nat)
    (o2 : RefCounted) (hx : m.object x = some o2) :
    ∃ o1, (Intrusive.Mem.mk (m.objects.set a (some v)) lg).object x = some o1 := by
  rw [Intrusive.Mem.object_set m a x _ _ (Intrusive.Mem.object_lt ho)]
  by_cases hax : a = x
  · simp [hax]
  · simp only [hax, if_false]; exact ⟨o2, hx⟩

theorem IntrusivePtr.ctor_copy_defined {m : Intrusive.Mem} {h : IntrusivePtr}
    (hh : ∀ a, h.ptr_ = some a → ∃ o, m.object a = some o) :
    ∃ m1, IntrusivePtr.ctor_copy m h = some (h, m1) ∧
      ∀ a o, m.object a = some o → ∃ o1, m1.object a = some o1 := by
  obtain ⟨p⟩ := h
  cases p with
  | none =>
    exact ⟨m, by simp [IntrusivePtr.ctor_copy, IntrusivePtr.toBool, IntrusivePtr.UseCount,
      IntrusivePtr.Get], fun a o ho => ⟨o, ho⟩⟩
  | some a =>
    obtain ⟨o, ho⟩ := hh a rfl
    by_cases hz : o.counter_.RefCount = 0
    · exact ⟨m, by simp [IntrusivePtr.ctor_copy, IntrusivePtr.toBool, IntrusivePtr.UseCount,
        IntrusivePtr.Get, RefCounted.RefCount, ho, hz], fun a o ho => ⟨o, ho⟩⟩
    · exact ⟨⟨m.objects.set a (some ⟨o.counter_.IncRef.1⟩), m.log⟩,
        by simp [IntrusivePtr.ctor_copy, IntrusivePtr.toBool,
          IntrusivePtr.UseCount, IntrusivePtr.Get, RefCounted.RefCount, ho, hz,
          RefCounted.IncRef_eq ho],
        RefCounted.IncRef_alive ho _ _⟩

theorem IntrusivePtr.ctor_ptr_defined {m : Intrusive.Mem} {p : Option Nat}
    (hp : m.alive p = true) :
    ∃ m1, IntrusivePtr.ctor_ptr m p = some (⟨p⟩, m1) ∧
      ∀ a o, m.object a = some o → ∃ o1, m1.object a = some o1 := by
  cases p with
  | none => simp [Intrusive.Mem.alive] at hp
  | some a =>
    simp only [Intrusive.Mem.alive, Option.isSome_iff_exists] at hp
    obtain ⟨o, ho⟩ := hp
    exact ⟨⟨m.objects.set a (some ⟨o.counter_.IncRef.1⟩), m.log⟩,
      by simp [IntrusivePtr.ctor_ptr, RefCounted.IncRef_eq ho],
      RefCounted.IncRef_alive ho _ _⟩

theorem IntrusivePtr.dtor_defined {m : Intrusive.Mem} {h : IntrusivePtr}
    (hh : ∀ a, h.ptr_ = some a → ∃ o, m.object a = some o) :
    ∃ m1, IntrusivePtr.dtor DefaultDelete.Destroy m h = some m1 := by
  cases hd : IntrusivePtr.dtor DefaultDelete.Destroy m h with
  | some m1 => exact ⟨m1, rfl⟩
  | none =>
    exfalso
    obtain ⟨p⟩ := h
    cases p with
    | none => simp [IntrusivePtr.destructor_null] at hd
    | some a =>
      obtain ⟨o, ho⟩ := hh a rfl
      have ho2 : ∀ lg, (Intrusive.Mem.mk m.objects lg).object a = some o := fun _ => ho
      by_cases hle : o.counter_.RefCount ≤ 1
      · simp [IntrusivePtr.dtor, RefCounted.DecRef, ho, hle, DefaultDelete.Destroy, ho2] at hd
      · simp [IntrusivePtr.dtor, RefCounted.DecRef, ho, hle] at hd

theorem Intrusive.step_defined {n : Nat} {s : Intrusive.State} (op : Intrusive.Op)
    (hg : s.good n) (hok : op.ok s = true) : ∃ s2, Intrusive.step s op = some s2 := by
  cases hs : Intrusive.step s op with
  | some s2 => exact ⟨s2, rfl⟩
  | none =>
    exfalso
    cases op with
    | make_intrusive => simp [Intrusive.step, MakeIntrusive_eq] at hs
    | ctor_default => simp [Intrusive.step] at hs
    | ctor_nullptr => simp [Intrusive.step] at hs
    | ctor_ptr p =>
      obtain ⟨m1, h1, _⟩ := IntrusivePtr.ctor_ptr_defined (m := s.mem) (p := p) hok
      simp [Intrusive.step, h1] at hs
    | copy j =>
      simp only [Intrusive.Op.ok, Option.isSome_iff_exists] at hok
      obtain ⟨other, hj⟩ := hok
      obtain ⟨m1, h1, _⟩ := IntrusivePtr.ctor_copy_defined (Intrusive.State.handle_alive hg hj)
      simp [Intrusive.step, hj, h1] at hs
    | copy_conv j =>
      simp only [Intrusive.Op.ok, Option.isSome_iff_exists] at hok
      obtain ⟨other, hj⟩ := hok
      obtain ⟨m1, h1, _⟩ := IntrusivePtr.ctor_copy_defined (Intrusive.State.handle_alive hg hj)
      simp [Intrusive.step, hj, IntrusivePtr.copy_conv_eq_copy, h1] at hs
    | move j =>
      simp only [Intrusive.Op.ok, Option.isSome_iff_exists] at hok
      obtain ⟨other, hj⟩ := hok
      simp [Intrusive.step, hj] at hs
    | move_conv j =>
      simp only [Intrusive.Op.ok, Option.isSome_iff_exists] at hok
      obtain ⟨other, hj⟩ := hok
      simp [Intrusive.step, hj] at hs
    | swap i j =>
      simp only [Intrusive.Op.ok, Bool.and_eq_true, Option.isSome_iff_exists] at hok
      obtain ⟨⟨self, hi⟩, other, hj⟩ := hok
      simp [Intrusive.step, hi, hj] at hs
    | assign_copy i j =>
      simp only [Intrusive.Op.ok, Bool.and_eq_true, Option.isSome_iff_exists] at hok
      obtain ⟨⟨self, hi⟩, other, hj⟩ := hok
      obtain ⟨m1, h1, k1⟩ := IntrusivePtr.ctor_copy_defined (Intrusive.State.handle_alive hg hj)
      obtain ⟨m2, h2⟩ := IntrusivePtr.dtor_defined (m := m1) (h := self) (fun a ha => by
        obtain ⟨o, ho⟩ := Intrusive.State.handle_alive hg hi a ha
        exact k1 a o ho)
      simp [Intrusive.step, hi, hj, IntrusivePtr.assign_copy, h1, IntrusivePtr.Swap,
        IntrusivePtr.mk_ptr, h2] at hs
    | assign_move i j =>
      simp only [Intrusive.Op.ok, Bool.and_eq_true, Option.isSome_iff_exists] at hok
      obtain ⟨⟨self, hi⟩, other, hj⟩ := hok
      by_cases hij : i = j
      · subst hij
        simp [Intrusive.step, hi, IntrusivePtr.assign_move_self_id] at hs
      · obtain ⟨m2, h2⟩ := IntrusivePtr.dtor_defined (Intrusive.State.handle_alive hg hi)
        simp [Intrusive.step, hi, hj, hij, IntrusivePtr.assign_move, IntrusivePtr.ctor_move,
          IntrusivePtr.Swap, IntrusivePtr.mk_ptr, h2] at hs
    | reset i =>
      simp only [Intrusive.Op.ok, Option.isSome_iff_exists] at hok
      obtain ⟨self, hi⟩ := hok
      obtain ⟨m2, h2⟩ := IntrusivePtr.dtor_defined (Intrusive.State.handle_alive hg hi)
      simp [Intrusive.step, hi, IntrusivePtr.Reset, IntrusivePtr.Swap, IntrusivePtr.mk_ptr,
        h2] at hs
    | reset_ptr i p =>
      simp only [Intrusive.Op.ok, Bool.and_eq_true, Option.isSome_iff_exists] at hok
      obtain ⟨⟨self, hi⟩, hp⟩ := hok
      obtain ⟨m1, h1, k1⟩ := IntrusivePtr.ctor_ptr_defined (m := s.mem) (p := p) hp
      obtain ⟨m2, h2⟩ := IntrusivePtr.dtor_defined (m := m1) (h := self) (fun a ha => by
        obtain ⟨o, ho⟩ := Intrusive.State.handle_alive hg hi a ha
        exact k1 a o ho)
      simp [Intrusive.step, hi, IntrusivePtr.Reset_ptr, h1, IntrusivePtr.Swap,
        IntrusivePtr.mk_ptr, h2] at hs
    | dtor i =>
      simp only [Intrusive.Op.ok, Option.isSome_iff_exists] at hok
      obtain ⟨self, hi⟩ := hok
      obtain ⟨m2, h2⟩ := IntrusivePtr.dtor_defined (Intrusive.State.handle_alive hg hi)
      simp [Intrusive.step, hi, h2] at hs

/-! ## C21: `Destroy` is called exactly once, by the last handle -/

/-- C21: take any program of fewer than `SIZE_MOD - 1` operations on
`IntrusivePtr` variables (`MakeIntrusive`, the constructors, copy, move,
assignment, `Reset`, `Swap`, destruction) that has run from the empty state
to a state `s`, and any further operation `op` that names live variables and
passes, if any, a raw pointer to a live object. Then `op` is defined, and for
every object `a`: `Destroy` has been called on `a` at most once; it is called
in this step exactly when `a` had a handle before the step and has none after
it; it was never called while `a` has a handle; and once an object that was
created has no handle left, it has been called exactly once. -/
theorem C21_destroy_exactly_once (ops : List Intrusive.Op) (s : Intrusive.State)
    (hrun : Intrusive.run ops Intrusive.State.init = some s)
    (hlen : ops.length + 1 < SIZE_MOD) (op : Intrusive.Op) (hok : op.ok s = true) :
    ∃ s2, Intrusive.step s op = some s2 ∧ ∀ a,
      Intrusive.destroys s2.mem.log a ≤ 1 ∧
      (Intrusive.destroys s2.mem.log a = Intrusive.destroys s.mem.log a + 1 ↔
        1 ≤ s.refs a ∧ s2.refs a = 0) ∧
      (1 ≤ s2.refs a → Intrusive.destroys s2.mem.log a = 0) ∧
      (a < s2.mem.objects.length → s2.refs a = 0 →
        Intrusive.destroys s2.mem.log a = 1) := by
  have hg := Intrusive.run_ok (n := 0) ops Intrusive.State.init_ok (by omega) hrun
  rw [Nat.zero_add] at hg
  obtain ⟨s2, hstep⟩ := Intrusive.step_defined op hg hok
  obtain ⟨g2, l2⟩ := Intrusive.step_ok op hg hlen hstep
  refine ⟨s2, hstep, fun a => ?_⟩
  have hl := l2 a
  cases ho : s2.mem.object a with
  | some o =>
    obtain ⟨_, h1, h0⟩ := g2.2.1 a o ho
    refine ⟨by omega, ?_, fun _ => h0, fun _ hz => by omega⟩
    have hne : ¬ (1 ≤ s.refs a ∧ s2.refs a = 0) := by omega
    rw [if_neg hne] at hl
    exact ⟨fun h => by omega, fun h => absurd h hne⟩
  | none =>
    obtain ⟨h0, h1⟩ := g2.2.2 a ho
    refine ⟨by rw [h1]; split <;> omega, ?_, fun h => by omega, fun hlt _ => by
      rw [h1, if_pos hlt]⟩
    by_cases hc : 1 ≤ s.refs a ∧ s2.refs a = 0
    · rw [if_pos hc] at hl
      exact ⟨fun _ => hc, fun _ => hl⟩
    · rw [if_neg hc] at hl
      exact ⟨fun h => by omega, fun h => absurd h hc⟩

/-- Witness for C21: after `MakeIntrusive`, a copy and the destruction of the
first handle, the destruction of the copy. -/
theorem C21_destroy_exactly_once_witness :
    ∃ s2, Intrusive.step ⟨⟨[some ⟨⟨1⟩⟩], []⟩, [none, some ⟨some 0⟩]⟩ (Intrusive.Op.dtor 1) =
        some s2 ∧ ∀ a,
      Intrusive.destroys s2.mem.log a ≤ 1 ∧
      (Intrusive.destroys s2.mem.log a =
          Intrusive.destroys
            (Intrusive.State.mk ⟨[some ⟨⟨1⟩⟩], []⟩ [none, some ⟨some 0⟩]).mem.log a + 1 ↔
        1 ≤ (Intrusive.State.mk ⟨[some ⟨⟨1⟩⟩], []⟩ [none, some ⟨some 0⟩]).refs a ∧
          s2.refs a = 0) ∧
      (1 ≤ s2.refs a → Intrusive.destroys s2.mem.log a = 0) ∧
      (a < s2.mem.objects.length → s2.refs a = 0 →
        Intrusive.destroys s2.mem.log a = 1) :=
  C21_destroy_exactly_once
    [Intrusive.Op.make_intrusive, Intrusive.Op.copy 0, Intrusive.Op.dtor 0]
    ⟨⟨[some ⟨⟨1⟩⟩], []⟩, [none, some ⟨some 0⟩]⟩ (by decide) (by decide)
    (Intrusive.Op.dtor 1) (by decide)

/-! ## C28: `RefCounted::DecRef` -/

/-- C28 fails at the last reference. On an object whose counter is 1, with a
deleter that keeps the object (as a pool does), `DecRef` calls `Destroy` while
the object reports `RefCount() == 1` and returns without `counter_.DecRef()`:
the counter still reports 1 although no reference is left. The stale count
shows at the next use of the object: a new handle takes the counter to 2, and
when that handle, the only one, dies, `DecRef` finds 2, lowers the counter to 1
and does not call `Destroy`. The comments of the source on `DecRef` and
`RefCount` say `Decrease reference counter` and `the number of strong
references`. -/
theorem C28_last_dec_ref_keeps_the_count :
    RefCounted.DecRef (fun m _ => some m) ⟨[some ⟨⟨1⟩⟩], []⟩ (some 0) =
      some ⟨[some ⟨⟨1⟩⟩], [Intrusive.Event.Destroy 0 1]⟩ ∧
    RefCounted.RefCount ⟨[some ⟨⟨1⟩⟩], [Intrusive.Event.Destroy 0 1]⟩ (some 0) = some 1 ∧
    ¬ (RefCounted.RefCount ⟨[some ⟨⟨1⟩⟩], [Intrusive.Event.Destroy 0 1]⟩ (some 0) =
        some (1 - 1)) ∧
    RefCounted.IncRef ⟨[some ⟨⟨1⟩⟩], [Intrusive.Event.Destroy 0 1]⟩ (some 0) =
      some ⟨[some ⟨⟨2⟩⟩], [Intrusive.Event.Destroy 0 1]⟩ ∧
    RefCounted.DecRef (fun m _ => some m) ⟨[some ⟨⟨2⟩⟩], [Intrusive.Event.Destroy 0 1]⟩
        (some 0) =
      some ⟨[some ⟨⟨1⟩⟩], [Intrusive.Event.Destroy 0 1]⟩ := by
  refine ⟨by decide, by decide, by decide, by decide, by decide⟩

/-- The two branches of `DecRef`, for every deleter and every live object
whose `RefCount()` is `n ≥ 1`: when `n ≥ 2`, `DecRef` leaves the counter at `n - 1` and calls no
`Destroy`; when `n = 1`, `DecRef` is the call of `Destroy` on the object, made
on the heap as it is, so that the object reports `RefCount() == 1` to the
deleter, and the counter is not decremented by `DecRef`. -/
theorem dec_ref_branches (Destroy : Intrusive.Deleter) (m : Intrusive.Mem) (a : Nat)
    (o : RefCounted) (ho : m.object a = some o) (h1 : 1 ≤ o.counter_.RefCount)
    (hlt : o.counter_.RefCount < SIZE_MOD) :
    (2 ≤ o.counter_.RefCount →
      ∃ m1, RefCounted.DecRef Destroy m (some a) = some m1 ∧
        RefCounted.RefCount m1 (some a) = some (o.counter_.RefCount - 1) ∧
        m1.log = m.log ∧ ∀ x, x ≠ a → m1.object x = m.object x) ∧
    (o.counter_.RefCount = 1 →
      RefCounted.DecRef Destroy m (some a) =
          Destroy ⟨m.objects, m.log ++ [Intrusive.Event.Destroy a 1]⟩ a ∧
        RefCounted.RefCount ⟨m.objects, m.log ++ [Intrusive.Event.Destroy a 1]⟩ (some a) =
          some 1) := by
  have hlen := Intrusive.Mem.object_lt ho
  refine ⟨fun h2 => ?_, fun he => ?_⟩
  · have hle : ¬ o.counter_.RefCount ≤ 1 := by omega
    have hv : o.counter_.DecRef.1 = ⟨o.counter_.count_ - 1⟩ :=
      SimpleCounter.DecRef_val (n := o.counter_.count_) h1 (Nat.le_refl _) hlt
    refine ⟨⟨m.objects.set a (some ⟨o.counter_.DecRef.1⟩), m.log⟩, ?_, ?_, rfl, fun x hx => ?_⟩
    · simp only [RefCounted.DecRef, ho, hle, if_false]
    · simp only [RefCounted.RefCount, Intrusive.Mem.object_set m a a _ _ hlen, if_true,
        Option.map_some', hv, SimpleCounter.RefCount]
    · rw [Intrusive.Mem.object_set m a x _ _ hlen, if_neg (fun e => hx e.symm)]
  · have ho2 : (Intrusive.Mem.mk m.objects
        (m.log ++ [Intrusive.Event.Destroy a 1])).object a = some o := ho
    refine ⟨?_, ?_⟩
    · simp only [RefCounted.DecRef, ho, he, Nat.le_refl, if_true]
    · simp only [RefCounted.RefCount, ho2, Option.map_some', he]

/-- An object with counter 2, and an object with counter 1 and the default
deleter. -/
theorem dec_ref_branches_example :
    (∃ m1, RefCounted.DecRef DefaultDelete.Destroy ⟨[some ⟨⟨2⟩⟩], []⟩ (some 0) = some m1 ∧
        RefCounted.RefCount m1 (some 0) = some (2 - 1) ∧
        m1.log = [] ∧ ∀ x, x ≠ 0 → m1.object x = (Intrusive.Mem.mk [some ⟨⟨2⟩⟩] []).object x) ∧
    (RefCounted.DecRef DefaultDelete.Destroy ⟨[some ⟨⟨1⟩⟩], []⟩ (some 0) =
        DefaultDelete.Destroy ⟨[some ⟨⟨1⟩⟩], [] ++ [Intrusive.Event.Destroy 0 1]⟩ 0 ∧
      RefCounted.RefCount ⟨[some ⟨⟨1⟩⟩], [] ++ [Intrusive.Event.Destroy 0 1]⟩ (some 0) =
        some 1) :=
  ⟨(dec_ref_branches DefaultDelete.Destroy ⟨[some ⟨⟨2⟩⟩], []⟩ 0 ⟨⟨2⟩⟩ rfl (by decide)
      (by decide)).1 (by decide),
    (dec_ref_branches DefaultDelete.Destroy ⟨[some ⟨⟨1⟩⟩], []⟩ 0 ⟨⟨1⟩⟩ rfl (by decide)
      (by decide)).2 rfl⟩

/-! ## C29: `IntrusivePtr(T*)` and `Reset(T*)` with a null pointer -/

/-- The constructor from a non-null pointer to a live object: the counter of
the object grows by one, nothing else changes. -/
theorem IntrusivePtr.ctor_ptr_some {m : Intrusive.Mem} {a : Nat} {o : RefCounted}
    (ho : m.object a = some o) (hlt : o.counter_.RefCount + 1 < SIZE_MOD) :
    IntrusivePtr.ctor_ptr m (some a) =
      some (⟨some a⟩, ⟨m.objects.set a (some ⟨⟨o.counter_.RefCount + 1⟩⟩), m.log⟩) := by
  have hv : o.counter_.IncRef.1 = ⟨o.counter_.count_ + 1⟩ :=
    SimpleCounter.IncRef_val (n := o.counter_.count_) (Nat.le_refl _) hlt
  simp only [IntrusivePtr.ctor_ptr, RefCounted.IncRef_eq ho, Option.map_some', hv,
    SimpleCounter.RefCount]

/-- C29, the code at the failing input: `IntrusivePtr(T* ptr)` calls
`ptr_->IncRef()` without testing `ptr`, so with a null pointer the constructor
and `Reset(T*)`, which runs it, call a member function through a null pointer:
the behaviour is undefined on every heap, for every deleter and every handle;
no empty handle is produced. -/
theorem C29_null_pointer_is_dereferenced (Destroy : Intrusive.Deleter) (m : Intrusive.Mem)
    (self : IntrusivePtr) :
    IntrusivePtr.ctor_ptr m none = none ∧
    IntrusivePtr.Reset_ptr Destroy m self none = none ∧
    Intrusive.run [Intrusive.Op.make_intrusive, Intrusive.Op.reset_ptr 0 none]
      Intrusive.State.init = none := by
  refine ⟨rfl, rfl, by decide⟩

/-! ## C22: the unique pointer keeps a single owner across transfers -/

theorem Unique.calls_append {Deleter : Type} (lg : List (Unique.Call Deleter)) (d : Deleter)
    (p : Option Nat) (a : Nat) :
    Unique.calls (lg ++ [⟨d, p⟩]) a = Unique.calls lg a + if p = some a then 1 else 0 := by
  unfold Unique.calls
  rw [List.filter_append, List.length_append]
  by_cases h : p = some a <;> simp [List.filter, h]

/-- C22: for every `UniquePtr` `u` holding the pointer `p`, with any deleter
and after any earlier deleter calls `lg`: `u.Release()` returns `p`,
move-constructing `v` from `u` gives `v.Get() == p`; either way `u.Get()` is
`nullptr` afterwards and the log of deleter calls is unchanged. Afterwards the
destructor of the new owner `v` is one call of its deleter, on `p`; the
destructor of `u` is a call on `nullptr`; so after both destructors, in either
order, the number of deleter calls on any object `a` has grown by one when `p`
is the address `a` and is unchanged otherwise. The same holds when the pointer
returned by `Release` is given to a new `UniquePtr`. -/
theorem C22_unique_transfer {Deleter : Type} (u : UniquePtr Deleter)
    (lg : List (Unique.Call Deleter)) (dflt : Deleter) :
    (UniquePtr.Release lg u).1 = u.Get ∧
    (UniquePtr.Release lg u).2.1.Get = none ∧
    (UniquePtr.Release lg u).2.2 = lg ∧
    (UniquePtr.ctor_move lg u).1.Get = u.Get ∧
    (UniquePtr.ctor_move lg u).2.1.Get = none ∧
    (UniquePtr.ctor_move lg u).2.2 = lg ∧
    UniquePtr.dtor lg (UniquePtr.ctor_move lg u).1 = lg ++ [⟨u.GetDeleter, u.Get⟩] ∧
    UniquePtr.dtor lg (UniquePtr.ctor_move lg u).2.1 = lg ++ [⟨u.GetDeleter, none⟩] ∧
    (∀ a, Unique.calls
        (UniquePtr.dtor (UniquePtr.dtor lg (UniquePtr.ctor_move lg u).1)
          (UniquePtr.ctor_move lg u).2.1) a =
      Unique.calls lg a + if u.Get = some a then 1 else 0) ∧
    (∀ a, Unique.calls
        (UniquePtr.dtor (UniquePtr.dtor lg (UniquePtr.ctor_move lg u).2.1)
          (UniquePtr.ctor_move lg u).1) a =
      Unique.calls lg a + if u.Get = some a then 1 else 0) ∧
    (∀ a, Unique.calls
        (UniquePtr.dtor (UniquePtr.dtor lg (UniquePtr.Release lg u).2.1)
          (UniquePtr.ctor_ptr dflt (UniquePtr.Release lg u).1)) a =
      Unique.calls lg a + if u.Get = some a then 1 else 0) := by
  refine ⟨rfl, rfl, rfl, rfl, rfl, rfl, rfl, rfl, fun a => ?_, fun a => ?_, fun a => ?_⟩
  · simp only [UniquePtr.dtor, UniquePtr.ctor_move, UniquePtr.Release, UniquePtr.Get,
      UniquePtr.GetDeleter, CompressedPair.GetFirst, CompressedPair.GetSecond,
      Unique.calls_append, reduceCtorEq, if_false, Nat.add_zero, Nat.zero_add]
  · simp only [UniquePtr.dtor, UniquePtr.ctor_move, UniquePtr.Release, UniquePtr.Get,
      UniquePtr.GetDeleter, CompressedPair.GetFirst, CompressedPair.GetSecond,
      Unique.calls_append, reduceCtorEq, if_false, Nat.add_zero, Nat.zero_add]
  · simp only [UniquePtr.dtor, UniquePtr.ctor_ptr, UniquePtr.Release, UniquePtr.Get,
      UniquePtr.GetDeleter, CompressedPair.GetFirst, CompressedPair.GetSecond,
      Unique.calls_append, reduceCtorEq, if_false, Nat.add_zero, Nat.zero_add]

/-! ## C26: self-assignment -/

theorem BaseBlock.DecShared_IncShared {blk : BaseBlock} (h : blk.counter_shared_ < SIZE_MOD) :
    blk.IncShared.DecShared = blk := by
  have hpos : 0 < SIZE_MOD := Nat.lt_of_le_of_lt (Nat.zero_le _) h
  have e : (SIZE_MOD - 1 + (blk.counter_shared_ + 1) % SIZE_MOD) % SIZE_MOD =
      blk.counter_shared_ := by
    by_cases hc : blk.counter_shared_ + 1 < SIZE_MOD
    · rw [Nat.mod_eq_of_lt hc]
      have e2 : SIZE_MOD - 1 + (blk.counter_shared_ + 1) = blk.counter_shared_ + SIZE_MOD := by
        omega
      rw [e2, Nat.add_mod_right]
      exact Nat.mod_eq_of_lt h
    · have e2 : blk.counter_shared_ + 1 = SIZE_MOD := by omega
      rw [e2, Nat.mod_self, Nat.add_zero]
      rw [Nat.mod_eq_of_lt (by omega)]
      omega
  cases blk with
  | mk s w k =>
    simp only [BaseBlock.IncShared, BaseBlock.DecShared] at e ⊢
    rw [e]

/-- Copy assignment of a handle to itself, on any heap where a non-empty handle
refers to an allocated block with a strong count of at least 1: the temporary
raises the count, its destructor lowers it again, and the handle and the heap
are as before. -/
theorem SharedPtr.assign_copy_self {m : Mem} {h : SharedPtr}
    (hh : h.toBool = true → ∃ b blk, h.block_ = some b ∧ m.block b = some blk ∧
      1 ≤ blk.counter_shared_ ∧ blk.counter_shared_ < SIZE_MOD) :
    SharedPtr.assign_copy m h h = some (h, m) := by
  obtain ⟨bl, p⟩ := h
  by_cases hp : p = Ptr.null
  · subst hp
    simp [SharedPtr.assign_copy, SharedPtr.ctor_copy_null, SharedPtr.Swap, SharedPtr.dtor_null]
  · obtain ⟨b, blk, hb, hblk, h1, h2⟩ := hh ((SharedPtr.toBool_iff _).2 hp)
    simp only at hb
    subst hb
    have hblk1 : (Mem.mk (m.blocks.set b (some blk.IncShared)) m.log).block b =
        some blk.IncShared := Mem.block_set_self _ _ hblk
    have hne : ¬ blk.counter_shared_ = 0 := by omega
    have hm : Mem.mk (m.blocks.set b (some blk)) m.log = m := by
      have := set_getD_self m.blocks b blk hblk
      cases m with
      | mk bs lg => simp only at this ⊢; rw [this]
    simp only [SharedPtr.assign_copy, SharedPtr.ctor_copy_eq hp hblk, SharedPtr.Swap,
      SharedPtr.dtor_eq hp hblk1, BaseBlock.DecShared_IncShared h2, hne, if_false,
      List.set_set, hm, Option.map_some']

/-- C26: in every state reached from the empty program state by fewer than
`SIZE_MOD` public operations without undefined behaviour, and for every live
SharedPtr `h` (empty, sole owner, or one of several owners): `h = h` and
`h = std::move(h)` both give back the same handle and the same heap (every
block with the same strong and weak count, the same log of destructions, so
nothing was destroyed or deleted), and the program state after either
assignment is the state before it. -/
theorem C26_self_assignment (ops : List Op) (s : State)
    (hrun : run ops State.init = some s) (hlen : ops.length < SIZE_MOD)
    (i : Nat) (h : SharedPtr) (hi : s.sharedAt i = some h) :
    SharedPtr.assign_copy s.mem h h = some (h, s.mem) ∧
    SharedPtr.assign_move_self s.mem h = some (h, s.mem) ∧
    step s (Op.shared_assign_copy i i) = some s ∧
    step s (Op.shared_assign_move i i) = some s := by
  have hg := run_good (n := 0) ops State.init_good (by omega) hrun
  rw [Nat.zero_add] at hg
  have hc : SharedPtr.assign_copy s.mem h h = some (h, s.mem) := by
    refine SharedPtr.assign_copy_self (fun hb => ?_)
    have hpos := owners_pos hi hb
    cases hbl : h.block_ with
    | none =>
      rw [hbl, hg.2.1] at hpos
      exact absurd hpos (Nat.lt_irrefl 0)
    | some b =>
      rw [hbl] at hpos
      obtain ⟨blk, h1, h2⟩ := hg.2.2 b hpos
      exact ⟨b, blk, rfl, h1, by omega, Nat.lt_of_le_of_lt (hg.1 b blk h1) hlen⟩
  have hm : SharedPtr.assign_move_self s.mem h = some (h, s.mem) := by
    cases h with
    | mk bl p =>
      simp [SharedPtr.assign_move_self, SharedPtr.ctor_move, SharedPtr.Swap,
        SharedPtr.dtor_null]
  have hs : (⟨s.mem, s.shared.set i (some h), s.weak⟩ : State) = s := by
    have := set_getD_self s.shared i h hi
    cases s with
    | mk m sh wk => simp only at this ⊢; rw [this]
  refine ⟨hc, hm, ?_, ?_⟩
  · simp only [step, hi, hc, hs]
  · simp only [step, hi, hm, if_true, hs]

/-- Witness for C26: the sole owner made by `MakeShared`. -/
theorem C26_self_assignment_witness :
    SharedPtr.assign_copy (Mem.mk [some ⟨1, 0, BlockKind.ControlBlock2⟩] [])
        ⟨some 0, Ptr.storage 0⟩ ⟨some 0, Ptr.storage 0⟩ =
      some (⟨some 0, Ptr.storage 0⟩, Mem.mk [some ⟨1, 0, BlockKind.ControlBlock2⟩] []) ∧
    SharedPtr.assign_move_self (Mem.mk [some ⟨1, 0, BlockKind.ControlBlock2⟩] [])
        ⟨some 0, Ptr.storage 0⟩ =
      some (⟨some 0, Ptr.storage 0⟩, Mem.mk [some ⟨1, 0, BlockKind.ControlBlock2⟩] []) ∧
    step ⟨⟨[some ⟨1, 0, BlockKind.ControlBlock2⟩], []⟩, [some ⟨some 0, Ptr.storage 0⟩], []⟩
        (Op.shared_assign_copy 0 0) =
      some ⟨⟨[some ⟨1, 0, BlockKind.ControlBlock2⟩], []⟩, [some ⟨some 0, Ptr.storage 0⟩], []⟩ ∧
    step ⟨⟨[some ⟨1, 0, BlockKind.ControlBlock2⟩], []⟩, [some ⟨some 0, Ptr.storage 0⟩], []⟩
        (Op.shared_assign_move 0 0) =
      some ⟨⟨[some ⟨1, 0, BlockKind.ControlBlock2⟩], []⟩, [some ⟨some 0, Ptr.storage 0⟩], []⟩ :=
  C26_self_assignment [Op.make_shared]
    ⟨⟨[some ⟨1, 0, BlockKind.ControlBlock2⟩], []⟩, [some ⟨some 0, Ptr.storage 0⟩], []⟩
    (by decide) (by decide) 0 ⟨some 0, Ptr.storage 0⟩ (by decide)

/-! ## C25: copies of an empty handle of a type with the capability -/

theorem SharedPtr.install_null (g : Heap) (bl : Option Nat) :
    SharedPtr.install g ⟨bl, Ptr.null⟩ = none := by
  simp [SharedPtr.install]

/-- C25, the code at the failing input: for a pointee with the capability the
copy constructor, the move constructor, their converting forms and both
assignments run `ptr_->weak_this_ = *this;` without testing `ptr_`; from a
source whose pointer is null (an empty SharedPtr, whatever its block) the
member is reached through a null pointer, the behaviour is undefined on every
heap and no empty handle is produced. -/
theorem C25_empty_source_is_dereferenced (g : Heap) (bl : Option Nat) (self : SharedPtr) :
    SharedPtr.ctor_copy_esft g ⟨bl, Ptr.null⟩ = none ∧
    SharedPtr.ctor_move_esft g ⟨bl, Ptr.null⟩ = none ∧
    SharedPtr.ctor_copy_conv_esft g ⟨bl, Ptr.null⟩ = none ∧
    SharedPtr.ctor_move_conv_esft g ⟨bl, Ptr.null⟩ = none ∧
    SharedPtr.assign_copy_esft g self ⟨bl, Ptr.null⟩ = none ∧
    SharedPtr.assign_move_esft g self ⟨bl, Ptr.null⟩ = none ∧
    SharedPtr.ctor_copy_esft g SharedPtr.ctor_default = none := by
  have h1 : SharedPtr.ctor_copy_esft g ⟨bl, Ptr.null⟩ = none := by
    simp [SharedPtr.ctor_copy_esft, SharedPtr.ctor_copy_null, SharedPtr.install_null]
  have h2 : SharedPtr.ctor_move_esft g ⟨bl, Ptr.null⟩ = none := by
    simp [SharedPtr.ctor_move_esft, SharedPtr.ctor_move, SharedPtr.Swap,
      SharedPtr.install_null]
  refine ⟨h1, h2, ?_, ?_, ?_, ?_, ?_⟩
  · simp [SharedPtr.ctor_copy_conv_esft, SharedPtr.ctor_copy_conv_eq_ctor_copy,
      SharedPtr.ctor_copy_null, SharedPtr.install_null]
  · simp [SharedPtr.ctor_move_conv_esft, SharedPtr.ctor_move_conv, SharedPtr.install_null]
  · simp [SharedPtr.assign_copy_esft, h1]
  · simp [SharedPtr.assign_move_esft, h2]
  · simp [SharedPtr.ctor_copy_esft, SharedPtr.ctor_default, SharedPtr.ctor_copy_null,
      SharedPtr.install_null]

/-! ## C24: re-installation of `weak_this_` on copy -/

theorem BaseBlock.DecWeak_IncWeak {blk : BaseBlock} (h : blk.counter_weak_ + 1 < SIZE_MOD) :
    blk.IncWeak.DecWeak = blk := by
  have e : (SIZE_MOD - 1 + (blk.counter_weak_ + 1) % SIZE_MOD) % SIZE_MOD =
      blk.counter_weak_ := by
    rw [Nat.mod_eq_of_lt h]
    have e2 : SIZE_MOD - 1 + (blk.counter_weak_ + 1) = blk.counter_weak_ + SIZE_MOD := by
      omega
    rw [e2, Nat.add_mod_right]
    exact Nat.mod_eq_of_lt (by omega)
  cases blk with
  | mk s w k =>
    simp only [BaseBlock.IncWeak, BaseBlock.DecWeak] at e ⊢
    rw [e]

/-- Installing `weak_this_` from a handle on the block that `weak_this_`
already refers to, when the strong count is not 0: the temporary raises the
weak count, the destructor of the old member lowers it again, nothing is
deleted, and the member holds the pair of the handle. -/
theorem SharedPtr.install_same {m : Mem} {f : Ptr → Option EnableSharedFromThis}
    {b : Nat} {blk : BaseBlock} {p r : Ptr} (hp : p ≠ Ptr.null)
    (hobj : f p = some ⟨⟨some b, r⟩⟩) (hblk : m.block b = some blk)
    (hs : blk.counter_shared_ ≠ 0) (hw : blk.counter_weak_ + 1 < SIZE_MOD) :
    SharedPtr.install ⟨m, f⟩ ⟨some b, p⟩ =
      some (Heap.setObject m f p (some ⟨⟨some b, p⟩⟩)) := by
  have h1 : (Mem.mk (m.blocks.set b (some blk.IncWeak)) m.log).block b = some blk.IncWeak :=
    Mem.block_set_self _ _ hblk
  have hd := WeakPtr.weak_dtor_eq r h1
  rw [BaseBlock.DecWeak_IncWeak hw] at hd
  simp only [hs, false_and, if_false, List.set_set] at hd
  rw [set_getD_self m.blocks b blk hblk] at hd
  simp only [SharedPtr.install, hp, if_false, hobj, WeakPtr.ctor_shared_eq p hblk,
    WeakPtr.assign_move, WeakPtr.ctor_move, WeakPtr.Swap, hd, WeakPtr.weak_dtor_none,
    Option.map_some']

/-- C24 fails as stated: after `a = MakeShared<E>()`, `b = MakeShared<E>()` and
the aliasing handle `h(b, a.Get())` (block of `b`, pointer to the object of
`a`), `h` is a non-empty handle to an object with the capability whose
`weak_this_` refers to block 0; copy-constructing from `h` leaves `weak_this_`
referring to block 1, raises the weak count of block 1 from 1 to 2 and lowers
the weak count of block 0 from 1 to 0. -/
theorem C24_reinstall_counterexample :
    ((MakeShared_esft ⟨⟨[], []⟩, fun _ => none⟩).bind fun r1 =>
      (MakeShared_esft r1.2).bind fun r2 =>
        (SharedPtr.ctor_alias r2.2.mem r2.1 r1.1.ptr_).map fun r3 =>
          (r3.1, r3.1.toBool, r2.2.objects r3.1.ptr_, r3.2.block 0, r3.2.block 1)) =
      some (⟨some 1, Ptr.storage 0⟩, true, some ⟨⟨some 0, Ptr.storage 0⟩⟩,
        some ⟨1, 1, BlockKind.ControlBlock2⟩, some ⟨2, 1, BlockKind.ControlBlock2⟩) ∧
    ((MakeShared_esft ⟨⟨[], []⟩, fun _ => none⟩).bind fun r1 =>
      (MakeShared_esft r1.2).bind fun r2 =>
        (SharedPtr.ctor_alias r2.2.mem r2.1 r1.1.ptr_).bind fun r3 =>
          (SharedPtr.ctor_copy_esft ⟨r3.2, r2.2.objects⟩ r3.1).map fun r4 =>
            (r4.1, r4.2.objects r3.1.ptr_, r4.2.mem.block 0, r4.2.mem.block 1)) =
      some (⟨some 1, Ptr.storage 0⟩, some ⟨⟨some 1, Ptr.storage 0⟩⟩,
        some ⟨1, 0, BlockKind.ControlBlock2⟩, some ⟨3, 2, BlockKind.ControlBlock2⟩) ∧
    (WeakPtr.mk (some 1) (Ptr.storage 0)).block_ ≠ (WeakPtr.mk (some 0) (Ptr.storage 0)).block_ ∧
    (BaseBlock.mk 3 2 BlockKind.ControlBlock2).counter_weak_ ≠
      (BaseBlock.mk 2 1 BlockKind.ControlBlock2).counter_weak_ := by
  refine ⟨by decide, by decide, by decide, by decide⟩

/-- C24, amended: for every non-empty SharedPtr `(b, p)` to an object with the
capability whose `weak_this_` already holds the pair `(b, p)`, on a heap where
block `b` is allocated and neither counter is at the top of `size_t`:
copy-constructing from the handle gives the handle `(b, p)`; the object's
`weak_this_` is the pair it was, no other object changes; the weak count of
the block is what it was, its strong count is one more; no other block
changes; nothing is logged, so neither the block nor an object was destroyed
by the temporaries. -/
theorem C24_reinstall (g : Heap) (b : Nat) (p : Ptr) (blk : BaseBlock) (hp : p ≠ Ptr.null)
    (hobj : g.objects p = some ⟨⟨some b, p⟩⟩) (hblk : g.mem.block b = some blk)
    (hs : blk.counter_shared_ + 1 < SIZE_MOD) (hw : blk.counter_weak_ + 1 < SIZE_MOD) :
    ∃ c g1, SharedPtr.ctor_copy_esft g ⟨some b, p⟩ = some (c, g1) ∧
      c = ⟨some b, p⟩ ∧
      (∀ q, g1.objects q = g.objects q) ∧
      g1.mem.block b = some ⟨blk.counter_shared_ + 1, blk.counter_weak_, blk.kind⟩ ∧
      (∀ b2, b2 ≠ b → g1.mem.block b2 = g.mem.block b2) ∧
      g1.mem.log = g.mem.log := by
  have hv : blk.IncShared = ⟨blk.counter_shared_ + 1, blk.counter_weak_, blk.kind⟩ := by
    simp only [BaseBlock.IncShared]
    rw [Nat.mod_eq_of_lt hs]
  have h1 : (Mem.mk (g.mem.blocks.set b (some blk.IncShared)) g.mem.log).block b =
      some blk.IncShared := Mem.block_set_self _ _ hblk
  have hi := SharedPtr.install_same (f := g.objects) (r := p) hp hobj h1
    (by rw [hv]; exact Nat.succ_ne_zero _) (by rw [hv]; exact hw)
  refine ⟨⟨some b, p⟩,
    Heap.setObject (Mem.mk (g.mem.blocks.set b (some blk.IncShared)) g.mem.log) g.objects p
      (some ⟨⟨some b, p⟩⟩), ?_, rfl, fun q => ?_, ?_, fun b2 hb2 => ?_, rfl⟩
  · simp only [SharedPtr.ctor_copy_esft, SharedPtr.ctor_copy_eq hp hblk, hi, Option.map_some']
  · simp only [Heap.setObject]
    by_cases hq : q = p
    · simp [hq, hobj]
    · simp [hq]
  · rw [← hv]; exact h1
  · show (Mem.mk (g.mem.blocks.set b (some blk.IncShared)) g.mem.log).block b2 = _
    rw [Mem.block_set _ _ _ _ _ (Mem.block_lt hblk), if_neg (fun e => hb2 e.symm)]

/-- Witness for C24: the handle returned by `MakeShared` for a type with the
capability. -/
theorem C24_reinstall_witness :
    ∃ c g1, SharedPtr.ctor_copy_esft
        ⟨⟨[some ⟨1, 1, BlockKind.ControlBlock2⟩], []⟩,
          fun q => if q = Ptr.storage 0 then some ⟨⟨some 0, Ptr.storage 0⟩⟩ else none⟩
        ⟨some 0, Ptr.storage 0⟩ = some (c, g1) ∧
      c = ⟨some 0, Ptr.storage 0⟩ ∧
      g1.mem.block 0 = some ⟨2, 1, BlockKind.ControlBlock2⟩ ∧ g1.mem.log = [] := by
  obtain ⟨c, g1, k1, k2, _, k4, _, k6⟩ := C24_reinstall
    ⟨⟨[some ⟨1, 1, BlockKind.ControlBlock2⟩], []⟩,
      fun q => if q = Ptr.storage 0 then some ⟨⟨some 0, Ptr.storage 0⟩⟩ else none⟩
    0 (Ptr.storage 0) ⟨1, 1, BlockKind.ControlBlock2⟩ (by decide) (by simp) rfl (by decide)
    (by decide)
  exact ⟨c, g1, k1, k2, k4, k6⟩

/-! ## C27: the single-counter version and the strong/weak version -/

theorem Mem.single_block (m : Mem) (b : Nat) :
    m.single.block b = (m.block b).map BaseBlock.single := by
  unfold Mem.single Shared.Mem.block Mem.block
  exact List.getD_map m.blocks none (Option.map BaseBlock.single)

theorem BaseBlock.single_IncShared (blk : BaseBlock) :
    blk.IncShared.single = blk.single.increment := rfl

theorem BaseBlock.single_DecShared (blk : BaseBlock) :
    blk.DecShared.single = blk.single.decrement := rfl

theorem BaseBlock.single_object (blk : BaseBlock) (b : Nat) :
    blk.single.object b = blk.object b := rfl

theorem Mem.single_set (m : Mem) (b : Nat) (x : Option BaseBlock) (lg : List Event) :
    (Mem.mk (m.blocks.set b x) lg).single =
      ⟨m.single.blocks.set b (x.map BaseBlock.single), lg.filterMap Event.single⟩ := by
  simp only [Mem.single, List.map_set]

theorem Mem.single_call_IncShared (m : Mem) (bl : Option Nat) :
    (m.IncShared bl).map Mem.single = m.single.call bl Shared.BaseBlock.increment := by
  cases bl with
  | none => rfl
  | some b =>
    cases hb : m.block b with
    | none => simp [Mem.IncShared, Mem.call, Shared.Mem.call, Mem.single_block, hb]
    | some blk =>
      simp only [Mem.IncShared, Mem.call, hb, Shared.Mem.call, Mem.single_block,
        Option.map_some', Mem.single_set, BaseBlock.single_IncShared]
      rfl

theorem Mem.noWeak_IncShared {m m1 : Mem} {bl : Option Nat} (hw : m.noWeak)
    (h : m.IncShared bl = some m1) : m1.noWeak := by
  cases bl with
  | none => simp [Mem.IncShared, Mem.call] at h
  | some b =>
    cases hb : m.block b with
    | none => simp [Mem.IncShared, Mem.call, hb] at h
    | some blk =>
      simp only [Mem.IncShared, Mem.call, hb, Option.some.injEq] at h
      subst h
      intro b2 blk2 h2
      rw [Mem.block_set _ _ _ _ _ (Mem.block_lt hb)] at h2
      by_cases hbb : b = b2
      · simp only [hbb, if_true, Option.some.injEq] at h2
        subst h2
        exact hw b blk hb
      · simp only [hbb, if_false] at h2
        exact hw b2 blk2 h2

theorem SharedPtr.single_toBool (h : SharedPtr) : h.single.toBool = h.toBool := rfl

theorem SharedPtr.single_ctor_copy (m : Mem) (h : SharedPtr) :
    (SharedPtr.ctor_copy m h).map (fun r => (r.1.single, r.2.single)) =
      Shared.SharedPtr.ctor_copy m.single h.single := by
  have hs := Mem.single_call_IncShared m h.block_
  unfold SharedPtr.ctor_copy Shared.SharedPtr.ctor_copy
  simp only [SharedPtr.single]
  by_cases hb : (SharedPtr.mk h.block_ h.ptr_).toBool = true
  · have hb2 : (Shared.SharedPtr.mk h.block_ h.ptr_).toBool = true := hb
    simp only [hb, hb2, if_true, ← hs, Option.map_map]
    rfl
  · have hb2 : ¬ (Shared.SharedPtr.mk h.block_ h.ptr_).toBool = true := hb
    simp only [hb, hb2, if_false, Option.map_some', Bool.false_eq_true]

theorem SharedPtr.noWeak_ctor_copy {m m1 : Mem} {h c : SharedPtr} (hw : m.noWeak)
    (hc : SharedPtr.ctor_copy m h = some (c, m1)) : m1.noWeak := by
  unfold SharedPtr.ctor_copy at hc
  by_cases hb : (SharedPtr.mk h.block_ h.ptr_).toBool = true
  · simp only [hb, if_true, Option.map_eq_some', Prod.mk.injEq] at hc
    obtain ⟨mm, hi, _, rfl⟩ := hc
    exact Mem.noWeak_IncShared hw hi
  · simp only [hb, if_false, Option.some.injEq, Prod.mk.injEq] at hc
    obtain ⟨_, rfl⟩ := hc
    exact hw

theorem SharedPtr.single_ctor_alias (m : Mem) (h : SharedPtr) (p : Ptr) :
    (SharedPtr.ctor_alias m h p).map (fun r => (r.1.single, r.2.single)) =
      Shared.SharedPtr.ctor_alias m.single h.single p := by
  have hs := Mem.single_call_IncShared m h.block_
  unfold SharedPtr.ctor_alias Shared.SharedPtr.ctor_alias
  simp only [SharedPtr.single]
  by_cases hb : (SharedPtr.mk h.block_ p).toBool = true
  · have hb2 : (Shared.SharedPtr.mk h.block_ p).toBool = true := hb
    simp only [hb, hb2, if_true, ← hs, Option.map_map]
    rfl
  · have hb2 : ¬ (Shared.SharedPtr.mk h.block_ p).toBool = true := hb
    simp only [hb, hb2, if_false, Option.map_some', Bool.false_eq_true]

theorem SharedPtr.noWeak_ctor_alias {m m1 : Mem} {h c : SharedPtr} {p : Ptr} (hw : m.noWeak)
    (hc : SharedPtr.ctor_alias m h p = some (c, m1)) : m1.noWeak := by
  unfold SharedPtr.ctor_alias at hc
  by_cases hb : (SharedPtr.mk h.block_ p).toBool = true
  · simp only [hb, if_true, Option.map_eq_some', Prod.mk.injEq] at hc
    obtain ⟨mm, hi, _, rfl⟩ := hc
    exact Mem.noWeak_IncShared hw hi
  · simp only [hb, if_false, Option.some.injEq, Prod.mk.injEq] at hc
    obtain ⟨_, rfl⟩ := hc
    exact hw

theorem Mem.noWeak_append {m : Mem} (hw : m.noWeak) (blk : BaseBlock)
    (h0 : blk.counter_weak_ = 0) (lg : List Event) :
    (Mem.mk (m.blocks ++ [some blk]) lg).noWeak := by
  intro b blk2 h2
  by_cases hlt : b < m.blocks.length
  · have e : (Mem.mk (m.blocks ++ [some blk]) lg).block b = m.block b :=
      getD_append_left _ _ _ hlt
    rw [e] at h2
    exact hw b blk2 h2
  · by_cases he : b = m.blocks.length
    · subst he
      have e : (Mem.mk (m.blocks ++ [some blk]) lg).block m.blocks.length = some blk :=
        getD_append_length _ _
      rw [e, Option.some.injEq] at h2
      subst h2
      exact h0
    · have hl := Mem.block_lt h2
      simp only [List.length_append, List.length_singleton] at hl
      omega

theorem SharedPtr.single_ctor_ptr (m : Mem) (p : Ptr) :
    (SharedPtr.ctor_ptr m p).map (fun r => (r.1.single, r.2.single)) =
      Shared.SharedPtr.ctor_ptr m.single p := by
  rw [SharedPtr.ctor_ptr_eq]
  simp [Shared.SharedPtr.ctor_ptr, Shared.Mem.new, Mem.single, SharedPtr.single,
    BaseBlock.single]

theorem single_MakeShared (m : Mem) :
    (MakeShared m).map (fun r => (r.1.single, r.2.single)) = Shared.MakeShared m.single := by
  rw [MakeShared_eq]
  simp [Shared.MakeShared, Shared.Mem.new, Mem.single, SharedPtr.single, BaseBlock.single]
theorem BaseBlock.DecShared_weak (blk : BaseBlock) :
    blk.DecShared.counter_weak_ = blk.counter_weak_ := rfl

theorem SharedPtr.single_dtor {m : Mem} (hw : m.noWeak) (h : SharedPtr) :
    (SharedPtr.dtor m h).map Mem.single = Shared.SharedPtr.dtor m.single h.single := by
  obtain ⟨bl, p⟩ := h
  by_cases hp : p = Ptr.null
  · subst hp
    rw [SharedPtr.dtor_null]
    simp [Shared.SharedPtr.dtor, SharedPtr.single, Shared.SharedPtr.toBool,
      Shared.SharedPtr.Get]
  · have hb : (Shared.SharedPtr.mk bl p).toBool = true := by
      simp [Shared.SharedPtr.toBool, Shared.SharedPtr.Get, hp]
    have hb1 : (SharedPtr.mk bl p).toBool = true := (SharedPtr.toBool_iff _).2 hp
    cases bl with
    | none =>
      simp [SharedPtr.dtor, hb1, Mem.DecShared, Mem.call, Shared.SharedPtr.dtor,
        SharedPtr.single, hb, Shared.Mem.call]
    | some b =>
      cases hblk : m.block b with
      | none =>
        simp [SharedPtr.dtor, hb1, Mem.DecShared, Mem.call, hblk, Shared.SharedPtr.dtor,
          SharedPtr.single, hb, Shared.Mem.call, Mem.single_block]
      | some blk =>
        have hlt := Mem.block_lt hblk
        have hlt2 : b < m.single.blocks.length := by
          simp only [Mem.single, List.length_map]; exact hlt
        have hw0 : blk.DecShared.counter_weak_ = 0 := hw b blk hblk
        have hg : (Shared.Mem.mk (m.single.blocks.set b (some blk.single.decrement))
            m.single.log).block b = some blk.single.decrement := by
          unfold Shared.Mem.block
          rw [getD_set _ _ _ _ hlt2]; simp
        rw [SharedPtr.dtor_eq hp hblk]
        simp only [Shared.SharedPtr.dtor, SharedPtr.single, hb, if_true, Shared.Mem.call,
          Mem.single_block, hblk, Option.map_some', Shared.Mem.GetCount, hg,
          Shared.BaseBlock.GetCount]
        have hc : blk.single.decrement.counter_ = blk.DecShared.counter_shared_ := rfl
        rw [hc]
        by_cases hz : blk.DecShared.counter_shared_ = 0
        · simp only [hz, hw0, if_true, Option.map_some', Shared.Mem.delete, hg,
            List.set_set, Mem.single_set, Option.map_none', List.filterMap_append]
          rfl
        · simp only [hz, if_false, Option.map_some', Mem.single_set,
            BaseBlock.single_DecShared]
          rfl

theorem SharedPtr.noWeak_dtor {m m1 : Mem} {h : SharedPtr} (hw : m.noWeak)
    (hd : SharedPtr.dtor m h = some m1) : m1.noWeak := by
  obtain ⟨bl, p⟩ := h
  by_cases hp : p = Ptr.null
  · subst hp
    rw [SharedPtr.dtor_null, Option.some.injEq] at hd
    subst hd; exact hw
  · have hb1 : (SharedPtr.mk bl p).toBool = true := (SharedPtr.toBool_iff _).2 hp
    cases bl with
    | none => simp [SharedPtr.dtor, hb1, Mem.DecShared, Mem.call] at hd
    | some b =>
      cases hblk : m.block b with
      | none => simp [SharedPtr.dtor, hb1, Mem.DecShared, Mem.call, hblk] at hd
      | some blk =>
        have hlt := Mem.block_lt hblk
        rw [SharedPtr.dtor_eq hp hblk] at hd
        have key : ∀ (x : Option BaseBlock) (lg : List Event),
            (∀ y, x = some y → y.counter_weak_ = 0) →
            (Mem.mk (m.blocks.set b x) lg).noWeak := by
          intro x lg hx b2 blk2 h2
          rw [Mem.block_set _ _ _ _ _ hlt] at h2
          by_cases hbb : b = b2
          · simp only [hbb, if_true] at h2
            exact hx blk2 h2
          · simp only [hbb, if_false] at h2
            exact hw b2 blk2 h2
        have hw0 : blk.DecShared.counter_weak_ = 0 := hw b blk hblk
        by_cases hz : blk.DecShared.counter_shared_ = 0
        · simp only [hz, hw0, if_true, Option.some.injEq] at hd
          subst hd
          exact key none _ (fun y hy => by cases hy)
        · simp only [hz, if_false, Option.some.injEq] at hd
          subst hd
          exact key _ _ (fun y hy => by
            rw [Option.some.injEq] at hy; subst hy; exact hw0)
theorem SharedPtr.single_assign_copy {m : Mem} (hw : m.noWeak) (self other : SharedPtr) :
    (SharedPtr.assign_copy m self other).map (fun r => (r.1.single, r.2.single)) =
        Shared.SharedPtr.assign_copy m.single self.single other.single ∧
      ∀ r, SharedPtr.assign_copy m self other = some r → r.2.noWeak := by
  have hc := SharedPtr.single_ctor_copy m other
  unfold SharedPtr.assign_copy Shared.SharedPtr.assign_copy
  cases hcc : SharedPtr.ctor_copy m other with
  | none =>
    rw [hcc] at hc
    simp only [Option.map_none'] at hc
    simp [← hc]
  | some q =>
    obtain ⟨tmp, m1⟩ := q
    rw [hcc] at hc
    simp only [Option.map_some'] at hc
    have hw1 := SharedPtr.noWeak_ctor_copy hw hcc
    have hd := SharedPtr.single_dtor hw1 (SharedPtr.Swap tmp self).1
    rw [← hc]
    simp only [SharedPtr.Swap, Shared.SharedPtr.Swap, SharedPtr.single] at hd ⊢
    refine ⟨?_, fun r hr => ?_⟩
    · rw [← hd]
      simp only [Option.map_map]
      rfl
    · simp only [Option.map_eq_some'] at hr
      obtain ⟨mm, hmm, rfl⟩ := hr
      exact SharedPtr.noWeak_dtor hw1 hmm

theorem SharedPtr.single_assign_move {m : Mem} (hw : m.noWeak) (self other : SharedPtr) :
    (SharedPtr.assign_move m self other).map (fun r => (r.1.single, r.2.1.single, r.2.2.single)) =
        Shared.SharedPtr.assign_move m.single self.single other.single ∧
      ∀ r, SharedPtr.assign_move m self other = some r → r.2.2.noWeak := by
  have hd := SharedPtr.single_dtor hw self
  simp only [SharedPtr.assign_move, Shared.SharedPtr.assign_move, SharedPtr.ctor_move,
    Shared.SharedPtr.ctor_move, SharedPtr.Swap, Shared.SharedPtr.Swap, SharedPtr.single] at hd ⊢
  refine ⟨?_, fun r hr => ?_⟩
  · rw [← hd]
    simp only [Option.map_map]
    rfl
  · simp only [Option.map_eq_some'] at hr
    obtain ⟨mm, hmm, rfl⟩ := hr
    exact SharedPtr.noWeak_dtor hw hmm

theorem SharedPtr.single_assign_move_self (m : Mem) (self : SharedPtr) :
    SharedPtr.assign_move_self m self = some (self, m) ∧
      Shared.SharedPtr.assign_move_self m.single self.single = some (self.single, m.single) := by
  constructor
  · cases self with
    | mk bl p =>
      simp [SharedPtr.assign_move_self, SharedPtr.ctor_move, SharedPtr.Swap,
        SharedPtr.dtor_null]
  · simp [Shared.SharedPtr.assign_move_self, Shared.SharedPtr.ctor_move,
      Shared.SharedPtr.Swap, Shared.SharedPtr.dtor, Shared.SharedPtr.toBool,
      Shared.SharedPtr.Get, SharedPtr.single]

theorem SharedPtr.single_Reset {m : Mem} (hw : m.noWeak) (self : SharedPtr) :
    (SharedPtr.Reset m self).map (fun r => (r.1.single, r.2.single)) =
        Shared.SharedPtr.Reset m.single self.single ∧
      ∀ r, SharedPtr.Reset m self = some r → r.2.noWeak := by
  have hd := SharedPtr.single_dtor hw self
  simp only [SharedPtr.Reset, Shared.SharedPtr.Reset, SharedPtr.ctor_default,
    Shared.SharedPtr.ctor_default, SharedPtr.Swap, Shared.SharedPtr.Swap,
    SharedPtr.single] at hd ⊢
  refine ⟨?_, fun r hr => ?_⟩
  · rw [← hd]
    simp only [Option.map_map]
    rfl
  · simp only [Option.map_eq_some'] at hr
    obtain ⟨mm, hmm, rfl⟩ := hr
    exact SharedPtr.noWeak_dtor hw hmm

theorem SharedPtr.single_Reset_ptr {m : Mem} (hw : m.noWeak) (self : SharedPtr) (p : Ptr) :
    (SharedPtr.Reset_ptr m self p).map (fun r => (r.1.single, r.2.single)) =
        Shared.SharedPtr.Reset_ptr m.single self.single p ∧
      ∀ r, SharedPtr.Reset_ptr m self p = some r → r.2.noWeak := by
  have hc := SharedPtr.single_ctor_ptr m p
  unfold SharedPtr.Reset_ptr Shared.SharedPtr.Reset_ptr
  rw [SharedPtr.ctor_ptr_eq] at hc ⊢
  simp only [Option.map_some'] at hc
  have hw1 : (Mem.mk (m.blocks ++ [some ⟨1, 0, BlockKind.ControlBlock1 p⟩]) m.log).noWeak :=
    Mem.noWeak_append hw _ rfl _
  have hd := SharedPtr.single_dtor hw1 self
  rw [← hc]
  simp only [SharedPtr.Swap, Shared.SharedPtr.Swap, SharedPtr.single] at hd ⊢
  refine ⟨?_, fun r hr => ?_⟩
  · rw [← hd]
    simp only [Option.map_map]
    rfl
  · simp only [Option.map_eq_some'] at hr
    obtain ⟨mm, hmm, rfl⟩ := hr
    exact SharedPtr.noWeak_dtor hw1 hmm
theorem State.single_sharedAt (s : State) (j : Nat) :
    s.single.sharedAt j = (s.sharedAt j).map SharedPtr.single := by
  unfold State.single Shared.State.sharedAt State.sharedAt
  exact List.getD_map s.shared none (Option.map SharedPtr.single)

theorem State.single_mem (s : State) : s.single.mem = s.mem.single := rfl

theorem State.single_push (s : State) (h : SharedPtr) (m1 : Mem) :
    (s.pushShared h m1).single = s.single.pushShared h.single m1.single := by
  simp [State.single, State.pushShared, Shared.State.pushShared]

theorem State.single_set_slot (m1 : Mem) (l : List (Option SharedPtr)) (w : List (Option WeakPtr))
    (i : Nat) (x : Option SharedPtr) :
    (State.mk m1 (l.set i x) w).single =
      ⟨m1.single, (l.map (Option.map SharedPtr.single)).set i (x.map SharedPtr.single)⟩ := by
  simp [State.single, List.map_set]

theorem State.noWeak_push {s : State} (hw : s.noWeak) (h : SharedPtr) {m1 : Mem}
    (h1 : m1.noWeak) : (s.pushShared h m1).noWeak := ⟨hw.1, h1⟩


theorem Shared.SharedPtr.single_copy_conv (m : Shared.Mem) (other : Shared.SharedPtr) :
    Shared.SharedPtr.ctor_copy_conv m other = Shared.SharedPtr.ctor_copy m other := rfl
theorem step_single {s : State} (hw : s.noWeak) (op : Shared.Op) :
    (step s (Op.ofShared op)).map State.single = Shared.step s.single op ∧
      ∀ s2, step s (Op.ofShared op) = some s2 → s2.noWeak := by
  cases op with
  | shared_default =>
    refine ⟨?_, fun s2 h => ?_⟩
    · simp only [Op.ofShared, step, Shared.step, Option.map_some', State.single_push]
      rfl
    · simp only [Op.ofShared, step, Option.some.injEq] at h
      subst h
      exact State.noWeak_push hw _ hw.2
  | shared_nullptr =>
    refine ⟨?_, fun s2 h => ?_⟩
    · simp only [Op.ofShared, step, Shared.step, Option.map_some', State.single_push]
      rfl
    · simp only [Op.ofShared, step, Option.some.injEq] at h
      subst h
      exact State.noWeak_push hw _ hw.2
  | shared_ptr p =>
    simp only [Op.ofShared, step, Shared.step]
    have hnw : ∀ r, SharedPtr.ctor_ptr s.mem p = some r → r.2.noWeak := fun r hr => by
      rw [SharedPtr.ctor_ptr_eq, Option.some.injEq] at hr
      subst hr
      exact Mem.noWeak_append hw.2 _ rfl _
    have hcase : True := trivial
    have hxy := SharedPtr.single_ctor_ptr s.mem p
    cases hc : SharedPtr.ctor_ptr s.mem p with
    | none =>
      rw [hc] at hxy
      simp only [Option.map_none'] at hxy
      simp only [State.single_mem, ← hxy]
      exact ⟨rfl, fun s2 h => by cases h⟩
    | some q =>
      obtain ⟨h1, m1⟩ := q
      rw [hc] at hxy
      simp only [Option.map_some'] at hxy
      simp only [State.single_mem, ← hxy]
      refine ⟨?_, fun s2 h => ?_⟩
      · simp only [Option.map_some', State.single_push]
      · simp only [Option.some.injEq] at h
        subst h
        exact State.noWeak_push hw _ (hnw _ hc)
  | make_shared =>
    simp only [Op.ofShared, step, Shared.step]
    have hnw : ∀ r, MakeShared s.mem = some r → r.2.noWeak := fun r hr => by
      rw [MakeShared_eq, Option.some.injEq] at hr
      subst hr
      exact Mem.noWeak_append hw.2 _ rfl _
    have hcase : True := trivial
    have hxy := single_MakeShared s.mem
    cases hc : MakeShared s.mem with
    | none =>
      rw [hc] at hxy
      simp only [Option.map_none'] at hxy
      simp only [State.single_mem, ← hxy]
      exact ⟨rfl, fun s2 h => by cases h⟩
    | some q =>
      obtain ⟨h1, m1⟩ := q
      rw [hc] at hxy
      simp only [Option.map_some'] at hxy
      simp only [State.single_mem, ← hxy]
      refine ⟨?_, fun s2 h => ?_⟩
      · simp only [Option.map_some', State.single_push]
      · simp only [Option.some.injEq] at h
        subst h
        exact State.noWeak_push hw _ (hnw _ hc)
  | shared_copy j =>
    simp only [Op.ofShared, step, Shared.step, State.single_sharedAt]
    cases hj : s.sharedAt j with
    | none => exact ⟨rfl, fun s2 h => by cases h⟩
    | some other =>
      simp only [Option.map_some']
      have hxy := SharedPtr.single_ctor_copy s.mem other
      cases hc : SharedPtr.ctor_copy s.mem other with
      | none =>
        rw [hc] at hxy
        simp only [Option.map_none'] at hxy
        simp only [State.single_mem, ← hxy]
        exact ⟨rfl, fun s2 h => by cases h⟩
      | some q =>
        obtain ⟨h1, m1⟩ := q
        rw [hc] at hxy
        simp only [Option.map_some'] at hxy
        simp only [State.single_mem, ← hxy]
        refine ⟨?_, fun s2 h => ?_⟩
        · simp only [Option.map_some', State.single_push]
        · simp only [Option.some.injEq] at h
          subst h
          exact State.noWeak_push hw _ (SharedPtr.noWeak_ctor_copy hw.2 hc)
  | shared_copy_conv j =>
    simp only [Op.ofShared, step, Shared.step, State.single_sharedAt,
      SharedPtr.ctor_copy_conv_eq_ctor_copy, Shared.SharedPtr.single_copy_conv]
    cases hj : s.sharedAt j with
    | none => exact ⟨rfl, fun s2 h => by cases h⟩
    | some other =>
      simp only [Option.map_some']
      have hxy := SharedPtr.single_ctor_copy s.mem other
      cases hc : SharedPtr.ctor_copy s.mem other with
      | none =>
        rw [hc] at hxy
        simp only [Option.map_none'] at hxy
        simp only [State.single_mem, ← hxy]
        exact ⟨rfl, fun s2 h => by cases h⟩
      | some q =>
        obtain ⟨h1, m1⟩ := q
        rw [hc] at hxy
        simp only [Option.map_some'] at hxy
        simp only [State.single_mem, ← hxy]
        refine ⟨?_, fun s2 h => ?_⟩
        · simp only [Option.map_some', State.single_push]
        · simp only [Option.some.injEq] at h
          subst h
          exact State.noWeak_push hw _ (SharedPtr.noWeak_ctor_copy hw.2 hc)
  | shared_alias j p =>
    simp only [Op.ofShared, step, Shared.step, State.single_sharedAt]
    cases hj : s.sharedAt j with
    | none => exact ⟨rfl, fun s2 h => by cases h⟩
    | some other =>
      simp only [Option.map_some']
      have hxy := SharedPtr.single_ctor_alias s.mem other p
      cases hc : SharedPtr.ctor_alias s.mem other p with
      | none =>
        rw [hc] at hxy
        simp only [Option.map_none'] at hxy
        simp only [State.single_mem, ← hxy]
        exact ⟨rfl, fun s2 h => by cases h⟩
      | some q =>
        obtain ⟨h1, m1⟩ := q
        rw [hc] at hxy
        simp only [Option.map_some'] at hxy
        simp only [State.single_mem, ← hxy]
        refine ⟨?_, fun s2 h => ?_⟩
        · simp only [Option.map_some', State.single_push]
        · simp only [Option.some.injEq] at h
          subst h
          exact State.noWeak_push hw _ (SharedPtr.noWeak_ctor_alias hw.2 hc)
  | shared_move j =>
    simp only [Op.ofShared, step, Shared.step, State.single_sharedAt]
    cases hj : s.sharedAt j with
    | none => exact ⟨rfl, fun s2 h => by cases h⟩
    | some other =>
      refine ⟨?_, fun s2 h => ?_⟩
      · simp [State.single, SharedPtr.ctor_move, Shared.SharedPtr.ctor_move, SharedPtr.Swap,
          Shared.SharedPtr.Swap, SharedPtr.single, List.map_set]
      · simp only [Option.some.injEq] at h
        subst h
        exact ⟨hw.1, hw.2⟩
  | shared_move_conv j =>
    simp only [Op.ofShared, step, Shared.step, State.single_sharedAt]
    cases hj : s.sharedAt j with
    | none => exact ⟨rfl, fun s2 h => by cases h⟩
    | some other =>
      refine ⟨?_, fun s2 h => ?_⟩
      · simp [State.single, SharedPtr.ctor_move_conv, Shared.SharedPtr.ctor_move_conv,
          SharedPtr.single, List.map_set]
      · simp only [Option.some.injEq] at h
        subst h
        exact ⟨hw.1, hw.2⟩
  | shared_swap i j =>
    simp only [Op.ofShared, step, Shared.step, State.single_sharedAt]
    cases hi : s.sharedAt i with
    | none => exact ⟨rfl, fun s2 h => by cases h⟩
    | some self =>
      cases hj : s.sharedAt j with
      | none => exact ⟨rfl, fun s2 h => by cases h⟩
      | some other =>
        refine ⟨?_, fun s2 h => ?_⟩
        · simp [State.single, SharedPtr.Swap, Shared.SharedPtr.Swap, SharedPtr.single,
            List.map_set]
        · simp only [Option.some.injEq] at h
          subst h
          exact ⟨hw.1, hw.2⟩
  | shared_assign_copy i j =>
    simp only [Op.ofShared, step, Shared.step, State.single_sharedAt]
    cases hi : s.sharedAt i with
    | none => exact ⟨rfl, fun s2 h => by cases h⟩
    | some self =>
      cases hj : s.sharedAt j with
      | none => exact ⟨rfl, fun s2 h => by cases h⟩
      | some other =>
        simp only [Option.map_some']
        obtain ⟨hxy, hnw⟩ := SharedPtr.single_assign_copy hw.2 self other
        cases hc : SharedPtr.assign_copy s.mem self other with
        | none =>
          rw [hc] at hxy
          simp only [Option.map_none'] at hxy
          simp only [State.single_mem, ← hxy]
          exact ⟨rfl, fun s2 h => by cases h⟩
        | some q =>
          obtain ⟨h1, m1⟩ := q
          rw [hc] at hxy
          simp only [Option.map_some'] at hxy
          simp only [State.single_mem, ← hxy]
          refine ⟨?_, fun s2 h => ?_⟩
          · simp only [Option.map_some', State.single_set_slot]
            rfl
          · simp only [Option.some.injEq] at h
            subst h
            exact ⟨hw.1, hnw _ hc⟩
  | shared_assign_move i j =>
    simp only [Op.ofShared, step, Shared.step, State.single_sharedAt]
    cases hi : s.sharedAt i with
    | none => exact ⟨rfl, fun s2 h => by cases h⟩
    | some self =>
      cases hj : s.sharedAt j with
      | none => exact ⟨rfl, fun s2 h => by cases h⟩
      | some other =>
        by_cases hij : i = j
        · simp only [Option.map_some', hij, if_true,
            (SharedPtr.single_assign_move_self s.mem self).1,
            (SharedPtr.single_assign_move_self s.mem self).2, State.single_mem]
          refine ⟨?_, fun s2 h => ?_⟩
          · simp only [Option.map_some', State.single_set_slot]
            rfl
          · simp only [Option.some.injEq] at h
            subst h
            exact ⟨hw.1, hw.2⟩
        · simp only [Option.map_some', hij, if_false]
          obtain ⟨h1, h2⟩ := SharedPtr.single_assign_move hw.2 self other
          cases hc : SharedPtr.assign_move s.mem self other with
          | none =>
            rw [hc] at h1
            simp only [Option.map_none'] at h1
            simp only [State.single_mem, ← h1]
            exact ⟨rfl, fun s2 h => by cases h⟩
          | some q =>
            obtain ⟨self1, other1, m1⟩ := q
            rw [hc] at h1
            simp only [Option.map_some'] at h1
            simp only [State.single_mem, ← h1]
            refine ⟨?_, fun s2 h => ?_⟩
            · simp [State.single, List.map_set]
            · simp only [Option.some.injEq] at h
              subst h
              exact ⟨hw.1, h2 _ hc⟩
  | shared_reset i =>
    simp only [Op.ofShared, step, Shared.step, State.single_sharedAt]
    cases hi : s.sharedAt i with
    | none => exact ⟨rfl, fun s2 h => by cases h⟩
    | some self =>
      simp only [Option.map_some']
      obtain ⟨hxy, hnw⟩ := SharedPtr.single_Reset hw.2 self
      cases hc : SharedPtr.Reset s.mem self with
      | none =>
        rw [hc] at hxy
        simp only [Option.map_none'] at hxy
        simp only [State.single_mem, ← hxy]
        exact ⟨rfl, fun s2 h => by cases h⟩
      | some q =>
        obtain ⟨h1, m1⟩ := q
        rw [hc] at hxy
        simp only [Option.map_some'] at hxy
        simp only [State.single_mem, ← hxy]
        refine ⟨?_, fun s2 h => ?_⟩
        · simp only [Option.map_some', State.single_set_slot]
          rfl
        · simp only [Option.some.injEq] at h
          subst h
          exact ⟨hw.1, hnw _ hc⟩
  | shared_reset_ptr i p =>
    simp only [Op.ofShared, step, Shared.step, State.single_sharedAt]
    cases hi : s.sharedAt i with
    | none => exact ⟨rfl, fun s2 h => by cases h⟩
    | some self =>
      simp only [Option.map_some']
      obtain ⟨hxy, hnw⟩ := SharedPtr.single_Reset_ptr hw.2 self p
      cases hc : SharedPtr.Reset_ptr s.mem self p with
      | none =>
        rw [hc] at hxy
        simp only [Option.map_none'] at hxy
        simp only [State.single_mem, ← hxy]
        exact ⟨rfl, fun s2 h => by cases h⟩
      | some q =>
        obtain ⟨h1, m1⟩ := q
        rw [hc] at hxy
        simp only [Option.map_some'] at hxy
        simp only [State.single_mem, ← hxy]
        refine ⟨?_, fun s2 h => ?_⟩
        · simp only [Option.map_some', State.single_set_slot]
          rfl
        · simp only [Option.some.injEq] at h
          subst h
          exact ⟨hw.1, hnw _ hc⟩
  | shared_dtor i =>
    simp only [Op.ofShared, step, Shared.step, State.single_sharedAt]
    cases hi : s.sharedAt i with
    | none => exact ⟨rfl, fun s2 h => by cases h⟩
    | some self =>
      simp only [Option.map_some', State.single_mem]
      have hd := SharedPtr.single_dtor hw.2 self
      cases hc : SharedPtr.dtor s.mem self with
      | none =>
        rw [hc] at hd
        simp only [Option.map_none'] at hd
        simp only [← hd]
        exact ⟨rfl, fun s2 h => by cases h⟩
      | some m1 =>
        rw [hc] at hd
        simp only [Option.map_some'] at hd
        simp only [← hd]
        refine ⟨?_, fun s2 h => ?_⟩
        · simp [State.single, List.map_set]
        · simp only [Option.some.injEq] at h
          subst h
          exact ⟨hw.1, SharedPtr.noWeak_dtor hw.2 hc⟩
theorem run_single (ops : List Shared.Op) {s : State} (hw : s.noWeak) :
    (run (ops.map Op.ofShared) s).map State.single = Shared.run ops s.single := by
  induction ops generalizing s with
  | nil => rfl
  | cons op ops ih =>
    obtain ⟨h1, h2⟩ := step_single hw op
    simp only [List.map_cons, run, Shared.run]
    cases hs : step s (Op.ofShared op) with
    | none =>
      rw [hs] at h1
      simp only [Option.map_none'] at h1
      simp only [← h1]
      rfl
    | some s1 =>
      rw [hs] at h1
      simp only [Option.map_some'] at h1
      simp only [← h1]
      exact ih (h2 s1 hs)

theorem SharedPtr.single_UseCount (m : Mem) (h : SharedPtr) :
    h.single.UseCount m.single = h.UseCount m := by
  unfold Shared.SharedPtr.UseCount SharedPtr.UseCount
  rw [SharedPtr.single_toBool]
  by_cases hb : h.toBool = true
  · simp only [hb, Bool.not_true, Bool.false_eq_true, if_false, SharedPtr.single]
    cases hbl : h.block_ with
    | none => rfl
    | some b =>
      simp only [Shared.Mem.GetCount, Mem.GetShared, Mem.deref, Mem.single_block,
        Option.map_map]
      rfl
  · simp [hb]

theorem State.single_observe (s : State) : s.single.observe = s.observe := by
  unfold Shared.State.observe State.observe
  refine Prod.ext ?_ ?_
  · simp only [State.single, List.map_map]
    refine List.map_congr_left (fun x _ => ?_)
    cases x with
    | none => rfl
    | some h =>
      simp only [Function.comp, Option.map_some']
      rw [SharedPtr.single_UseCount]
      rfl
  · simp only [State.single, Mem.single, List.map_filterMap]
    congr 1
    funext e
    cases e <;> rfl

theorem State.init_noWeak : State.init.noWeak :=
  ⟨rfl, fun b blk h => by simp [State.init, Mem.block] at h⟩

/-- C27: run any program of SharedPtr operations (construction from a raw
pointer, `MakeShared`, the default and `nullptr` constructors, copy, move,
their converting forms, the aliasing constructor, copy and move assignment,
`Reset`, `Reset(T*)`, `Swap`, destruction) on the single-counter version of
`src/shared/shared.h` and on the strong/weak version of `src/weak/shared.h`,
both from the empty state. After every number `k` of steps the two runs are
either both undefined or both defined, and then every variable is dead in both
or reports the same `Get()` and the same `UseCount()` in both, and the objects
destroyed so far are the same in the same order: each object is destroyed at
the same step. -/
theorem C27_single_counter_equivalent (ops : List Shared.Op) (k : Nat) :
    (Shared.run (ops.take k) Shared.State.init).map Shared.State.observe =
      (run ((ops.map Op.ofShared).take k) State.init).map State.observe := by
  have h := run_single (ops.take k) State.init_noWeak
  rw [← List.map_take]
  have e : State.init.single = Shared.State.init := rfl
  rw [e] at h
  rw [← h, Option.map_map]
  congr 1
  funext s
  exact State.single_observe s

/-! ## C23: exact counts. The value of a counter after each heap update -/

theorem Mem.strongVal_set (m : Mem) (b x : Nat) (v : Option BaseBlock) (lg : List Event)
    (hb : b < m.blocks.length) :
    (Mem.mk (m.blocks.set b v) lg).strongVal x =
      if b = x then (v.map BaseBlock.GetShared).getD 0 else m.strongVal x := by
  unfold Mem.strongVal
  rw [Mem.block_set _ _ _ _ _ hb]
  by_cases h : b = x <;> simp [h]

theorem Mem.weakVal_set (m : Mem) (b x : Nat) (v : Option BaseBlock) (lg : List Event)
    (hb : b < m.blocks.length) :
    (Mem.mk (m.blocks.set b v) lg).weakVal x =
      if b = x then (v.map BaseBlock.GetWeak).getD 0 else m.weakVal x := by
  unfold Mem.weakVal
  rw [Mem.block_set _ _ _ _ _ hb]
  by_cases h : b = x <;> simp [h]

theorem Mem.block_append_new (m : Mem) (blk : BaseBlock) (lg : List Event) (x : Nat) :
    (Mem.mk (m.blocks ++ [some blk]) lg).block x =
      if x = m.blocks.length then some blk else m.block x := by
  by_cases hx : x = m.blocks.length
  · subst hx; simp only [if_true]; exact getD_append_length _ _
  · simp only [hx, if_false]
    by_cases hlt : x < m.blocks.length
    · exact getD_append_left _ _ _ hlt
    · simp only [Mem.block, List.getD_eq_getElem?_getD]
      rw [List.getElem?_eq_none (by simp; omega), List.getElem?_eq_none (by omega)]

theorem Mem.strongVal_length (m : Mem) : m.strongVal m.blocks.length = 0 := by
  simp [Mem.strongVal, Mem.block_length_none]

theorem Mem.weakVal_length (m : Mem) : m.weakVal m.blocks.length = 0 := by
  simp [Mem.weakVal, Mem.block_length_none]

theorem Mem.strongVal_append (m : Mem) (blk : BaseBlock) (lg : List Event) (x : Nat) :
    (Mem.mk (m.blocks ++ [some blk]) lg).strongVal x =
      m.strongVal x + if x = m.blocks.length then blk.counter_shared_ else 0 := by
  unfold Mem.strongVal
  rw [Mem.block_append_new]
  by_cases hx : x = m.blocks.length
  · subst hx; simp [Mem.block_length_none, BaseBlock.GetShared]
  · simp [hx]

theorem Mem.weakVal_append (m : Mem) (blk : BaseBlock) (lg : List Event) (x : Nat) :
    (Mem.mk (m.blocks ++ [some blk]) lg).weakVal x =
      m.weakVal x + if x = m.blocks.length then blk.counter_weak_ else 0 := by
  unfold Mem.weakVal
  rw [Mem.block_append_new]
  by_cases hx : x = m.blocks.length
  · subst hx; simp [Mem.block_length_none, BaseBlock.GetWeak]
  · simp [hx]

theorem Mem.call_eq_some {m m1 : Mem} {bl : Option Nat} {f : BaseBlock → BaseBlock}
    (h : m.call bl f = some m1) :
    ∃ b blk, bl = some b ∧ m.block b = some blk ∧
      m1 = ⟨m.blocks.set b (some (f blk)), m.log⟩ := by
  cases bl with
  | none => simp [Mem.call] at h
  | some b =>
    cases hb : m.block b with
    | none => simp [Mem.call, hb] at h
    | some blk =>
      simp only [Mem.call, hb, Option.some.injEq] at h
      exact ⟨b, blk, rfl, hb, h.symm⟩

theorem Mem.strongVal_of_block {m : Mem} {b : Nat} {blk : BaseBlock} (h : m.block b = some blk) :
    m.strongVal b = blk.counter_shared_ := by
  simp [Mem.strongVal, h, BaseBlock.GetShared]

theorem Mem.weakVal_of_block {m : Mem} {b : Nat} {blk : BaseBlock} (h : m.block b = some blk) :
    m.weakVal b = blk.counter_weak_ := by
  simp [Mem.weakVal, h, BaseBlock.GetWeak]

/-- `IncShared` through a block reference: the strong count of that block
grows by one, every weak count stays. -/
theorem Mem.IncShared_vals {m m1 : Mem} {bl : Option Nat} (h : m.IncShared bl = some m1) :
    ∃ b, bl = some b ∧ m1.log = m.log ∧ (∀ x, m1.weakVal x = m.weakVal x) ∧
      (m.strongVal b + 1 < SIZE_MOD →
        ∀ x, m1.strongVal x = m.strongVal x + if x = b then 1 else 0) := by
  obtain ⟨b, blk, rfl, hb, rfl⟩ := Mem.call_eq_some h
  have hlt := Mem.block_lt hb
  refine ⟨b, rfl, rfl, fun x => ?_, fun hs x => ?_⟩
  · rw [Mem.weakVal_set _ _ _ _ _ hlt]
    by_cases hx : b = x
    · subst hx; simp [Mem.weakVal_of_block hb, BaseBlock.IncShared, BaseBlock.GetWeak]
    · simp [hx]
  · rw [Mem.strongVal_set _ _ _ _ _ hlt]
    rw [Mem.strongVal_of_block hb] at hs
    by_cases hx : b = x
    · subst hx
      simp only [if_true, Mem.strongVal_of_block hb, BaseBlock.IncShared, Option.map_some',
        Option.getD_some, BaseBlock.GetShared]
      exact Nat.mod_eq_of_lt hs
    · have hx2 : ¬ x = b := fun e => hx e.symm
      simp [hx, hx2]

/-- `IncWeak` through a block reference: the weak count of that block grows by
one, every strong count stays. -/
theorem Mem.IncWeak_vals {m m1 : Mem} {bl : Option Nat} (h : m.IncWeak bl = some m1) :
    ∃ b, bl = some b ∧ m1.log = m.log ∧ (∀ x, m1.strongVal x = m.strongVal x) ∧
      (m.weakVal b + 1 < SIZE_MOD →
        ∀ x, m1.weakVal x = m.weakVal x + if x = b then 1 else 0) := by
  obtain ⟨b, blk, rfl, hb, rfl⟩ := Mem.call_eq_some h
  have hlt := Mem.block_lt hb
  refine ⟨b, rfl, rfl, fun x => ?_, fun hs x => ?_⟩
  · rw [Mem.strongVal_set _ _ _ _ _ hlt]
    by_cases hx : b = x
    · subst hx; simp [Mem.strongVal_of_block hb, BaseBlock.IncWeak, BaseBlock.GetShared]
    · simp [hx]
  · rw [Mem.weakVal_set _ _ _ _ _ hlt]
    rw [Mem.weakVal_of_block hb] at hs
    by_cases hx : b = x
    · subst hx
      simp only [if_true, Mem.weakVal_of_block hb, BaseBlock.IncWeak, Option.map_some',
        Option.getD_some, BaseBlock.GetWeak]
      exact Nat.mod_eq_of_lt hs
    · have hx2 : ¬ x = b := fun e => hx e.symm
      simp [hx, hx2]
theorem BaseBlock.DecWeak_val {blk : BaseBlock} (h0 : 1 ≤ blk.counter_weak_)
    (h2 : blk.counter_weak_ < SIZE_MOD) :
    blk.DecWeak.counter_weak_ = blk.counter_weak_ - 1 := by
  rw [BaseBlock.DecWeak_eq h0 h2]

/-- The destructor of a SharedPtr: every weak count stays (a block is deleted
only when its weak count is 0); with a non-null pointer the handle has a block
reference and the strong count of that block goes down by one. -/
theorem SharedPtr.dtor_vals {m m1 : Mem} {bl : Option Nat} {p : Ptr}
    (h : SharedPtr.dtor m ⟨bl, p⟩ = some m1) :
    (∀ x, m1.weakVal x = m.weakVal x) ∧
    (p = Ptr.null → m1 = m) ∧
    (p ≠ Ptr.null → ∃ b, bl = some b ∧
      (1 ≤ m.strongVal b → m.strongVal b < SIZE_MOD →
        ∀ x, m1.strongVal x + (if x = b then 1 else 0) = m.strongVal x)) := by
  by_cases hp : p = Ptr.null
  · subst hp
    rw [SharedPtr.dtor_null, Option.some.injEq] at h
    subst h
    exact ⟨fun _ => rfl, fun _ => rfl, fun hn => absurd rfl hn⟩
  · have hb1 : (SharedPtr.mk bl p).toBool = true := (SharedPtr.toBool_iff _).2 hp
    cases bl with
    | none => simp [SharedPtr.dtor, hb1, Mem.DecShared, Mem.call] at h
    | some b =>
      cases hblk : m.block b with
      | none => simp [SharedPtr.dtor, hb1, Mem.DecShared, Mem.call, hblk] at h
      | some blk =>
        have hlt := Mem.block_lt hblk
        rw [SharedPtr.dtor_eq hp hblk] at h
        have hsv := Mem.strongVal_of_block hblk
        have hwv := Mem.weakVal_of_block hblk
        have hdw : blk.DecShared.counter_weak_ = blk.counter_weak_ := rfl
        refine ⟨fun x => ?_, fun hn => absurd hn hp, fun _ => ⟨b, rfl, fun h1 h2 x => ?_⟩⟩
        · by_cases hz : blk.DecShared.counter_shared_ = 0
          · by_cases hw : blk.DecShared.counter_weak_ = 0
            · simp only [hz, hw, if_true, Option.some.injEq] at h
              subst h
              rw [Mem.weakVal_set _ _ _ _ _ hlt]
              by_cases hx : b = x
              · subst hx
                simp only [if_true, Option.map_none', Option.getD_none]
                rw [hwv, ← hdw, hw]
              · simp [hx]
            · simp only [hz, hw, if_true, if_false, Option.some.injEq] at h
              subst h
              rw [Mem.weakVal_set _ _ _ _ _ hlt]
              by_cases hx : b = x
              · subst hx
                simp only [if_true, Option.map_some', Option.getD_some, BaseBlock.GetWeak]
                rw [hwv, hdw]
              · simp [hx]
          · simp only [hz, if_false, Option.some.injEq] at h
            subst h
            rw [Mem.weakVal_set _ _ _ _ _ hlt]
            by_cases hx : b = x
            · subst hx
              simp only [if_true, Option.map_some', Option.getD_some, BaseBlock.GetWeak]
              rw [hwv, hdw]
            · simp [hx]
        · rw [hsv] at h1 h2
          have hv := BaseBlock.DecShared_val (n := blk.counter_shared_) h1 (Nat.le_refl _) h2
          by_cases hz : blk.DecShared.counter_shared_ = 0
          · by_cases hw : blk.DecShared.counter_weak_ = 0
            · simp only [hz, hw, if_true, Option.some.injEq] at h
              subst h
              rw [Mem.strongVal_set _ _ _ _ _ hlt]
              by_cases hx : b = x
              · subst hx
                simp only [if_true, Option.map_none', Option.getD_none]
                rw [hsv]; omega
              · have hx2 : ¬ x = b := fun e => hx e.symm
                simp [hx, hx2]
            · simp only [hz, hw, if_true, if_false, Option.some.injEq] at h
              subst h
              rw [Mem.strongVal_set _ _ _ _ _ hlt]
              by_cases hx : b = x
              · subst hx
                simp only [if_true, Option.map_some', Option.getD_some, BaseBlock.GetShared]
                rw [hsv]; omega
              · have hx2 : ¬ x = b := fun e => hx e.symm
                simp [hx, hx2]
          · simp only [hz, if_false, Option.some.injEq] at h
            subst h
            rw [Mem.strongVal_set _ _ _ _ _ hlt]
            by_cases hx : b = x
            · subst hx
              simp only [if_true, Option.map_some', Option.getD_some, BaseBlock.GetShared]
              rw [hsv]; omega
            · have hx2 : ¬ x = b := fun e => hx e.symm
              simp [hx, hx2]

/-- The destructor of a WeakPtr: every strong count stays (a block is deleted
only when its strong count is 0); with a block reference the weak count of
that block goes down by one. -/
theorem WeakPtr.weak_dtor_vals {m m1 : Mem} {bl : Option Nat} {p : Ptr}
    (h : WeakPtr.dtor m ⟨bl, p⟩ = some m1) :
    (∀ x, m1.strongVal x = m.strongVal x) ∧
    (bl = none → m1 = m) ∧
    (∀ b, bl = some b → 1 ≤ m.weakVal b → m.weakVal b < SIZE_MOD →
        ∀ x, m1.weakVal x + (if x = b then 1 else 0) = m.weakVal x) := by
  cases bl with
  | none =>
    rw [WeakPtr.weak_dtor_none, Option.some.injEq] at h
    subst h
    exact ⟨fun _ => rfl, fun _ => rfl, fun b hb => by cases hb⟩
  | some b =>
    cases hblk : m.block b with
    | none => simp [WeakPtr.dtor, Mem.DecWeak, Mem.call, hblk] at h
    | some blk =>
      have hlt := Mem.block_lt hblk
      rw [WeakPtr.weak_dtor_eq p hblk] at h
      have hsv := Mem.strongVal_of_block hblk
      have hwv := Mem.weakVal_of_block hblk
      have hds : blk.DecWeak.counter_shared_ = blk.counter_shared_ := rfl
      refine ⟨fun x => ?_, (fun hn => by cases hn), fun b2 hb2 h1 h2 x => ?_⟩
      · by_cases hz : blk.DecWeak.counter_shared_ = 0 ∧ blk.DecWeak.counter_weak_ = 0
        · simp only [hz, and_self, if_true, Option.some.injEq] at h
          subst h
          rw [Mem.strongVal_set _ _ _ _ _ hlt]
          by_cases hx : b = x
          · subst hx
            simp only [if_true, Option.map_none', Option.getD_none]
            rw [hsv, ← hds, hz.1]
          · simp [hx]
        · simp only [hz, if_false, Option.some.injEq] at h
          subst h
          rw [Mem.strongVal_set _ _ _ _ _ hlt]
          by_cases hx : b = x
          · subst hx
            simp only [if_true, Option.map_some', Option.getD_some, BaseBlock.GetShared]
            rw [hsv, hds]
          · simp [hx]
      · rw [Option.some.injEq] at hb2
        subst hb2
        rw [hwv] at h1 h2
        have hv := BaseBlock.DecWeak_val h1 h2
        by_cases hz : blk.DecWeak.counter_shared_ = 0 ∧ blk.DecWeak.counter_weak_ = 0
        · simp only [hz, and_self, if_true, Option.some.injEq] at h
          subst h
          rw [Mem.weakVal_set _ _ _ _ _ hlt]
          by_cases hx : b = x
          · subst hx
            simp only [if_true, Option.map_none', Option.getD_none]
            have := hz.2
            rw [hwv]; omega
          · have hx2 : ¬ x = b := fun e => hx e.symm
            simp [hx, hx2]
        · simp only [hz, if_false, Option.some.injEq] at h
          subst h
          rw [Mem.weakVal_set _ _ _ _ _ hlt]
          by_cases hx : b = x
          · subst hx
            simp only [if_true, Option.map_some', Option.getD_some, BaseBlock.GetWeak]
            rw [hwv]; omega
          · have hx2 : ¬ x = b := fun e => hx e.symm
            simp [hx, hx2]
/-! ## C23: the operations of one kind of handle leave the other counter alone -/

theorem SharedPtr.ctor_ptr_weakVal (m : Mem) (p : Ptr) (x : Nat) :
    (Mem.mk (m.blocks ++ [some ⟨1, 0, BlockKind.ControlBlock1 p⟩]) m.log).weakVal x =
      m.weakVal x := by
  rw [Mem.weakVal_append]; simp

theorem MakeShared_weakVal (m : Mem) (x : Nat) :
    (Mem.mk (m.blocks ++ [some ⟨1, 0, BlockKind.ControlBlock2⟩]) m.log).weakVal x =
      m.weakVal x := by
  rw [Mem.weakVal_append]; simp

theorem SharedPtr.ctor_copy_weakVal {m m1 : Mem} {other h : SharedPtr}
    (hc : SharedPtr.ctor_copy m other = some (h, m1)) (x : Nat) :
    m1.weakVal x = m.weakVal x := by
  unfold SharedPtr.ctor_copy at hc
  by_cases hb : (SharedPtr.mk other.block_ other.ptr_).toBool = true
  · simp only [hb, if_true, Option.map_eq_some', Prod.mk.injEq] at hc
    obtain ⟨mm, hi, _, rfl⟩ := hc
    obtain ⟨_, _, _, hw, _⟩ := Mem.IncShared_vals hi
    exact hw x
  · simp only [hb, if_false, Option.some.injEq, Prod.mk.injEq] at hc
    obtain ⟨_, rfl⟩ := hc
    rfl

theorem SharedPtr.ctor_alias_weakVal {m m1 : Mem} {other h : SharedPtr} {p : Ptr}
    (hc : SharedPtr.ctor_alias m other p = some (h, m1)) (x : Nat) :
    m1.weakVal x = m.weakVal x := by
  unfold SharedPtr.ctor_alias at hc
  by_cases hb : (SharedPtr.mk other.block_ p).toBool = true
  · simp only [hb, if_true, Option.map_eq_some', Prod.mk.injEq] at hc
    obtain ⟨mm, hi, _, rfl⟩ := hc
    obtain ⟨_, _, _, hw, _⟩ := Mem.IncShared_vals hi
    exact hw x
  · simp only [hb, if_false, Option.some.injEq, Prod.mk.injEq] at hc
    obtain ⟨_, rfl⟩ := hc
    rfl

/-- The promoting constructor, when it returns: the source has an allocated
block with a strong count that is not 0, the new handle is the pair of the
source, the heap is the old one after one `IncShared` on that block. When it
throws, the heap is the old one. -/
theorem SharedPtr.ctor_weak_cases {m : Mem} {w : WeakPtr} :
    (∀ h m1, SharedPtr.ctor_weak m w = Outcome.ok h m1 →
      h = ⟨w.block_, w.ptr_⟩ ∧ ∃ b, w.block_ = some b ∧ m.strongVal b ≠ 0 ∧
        m.IncShared (some b) = some m1) ∧
    (∀ e m1, SharedPtr.ctor_weak m w = Outcome.thrown e m1 → m1 = m) := by
  obtain ⟨bl, p⟩ := w
  cases bl with
  | none =>
    rw [SharedPtr.ctor_weak_none]
    exact ⟨(fun h m1 hh => by cases hh), (fun e m1 hh => by cases hh; rfl)⟩
  | some b =>
    cases hblk : m.block b with
    | none =>
      have : SharedPtr.ctor_weak m ⟨some b, p⟩ = Outcome.undefined := by
        simp [SharedPtr.ctor_weak, WeakPtr.Expired, WeakPtr.UseCount, Mem.GetShared,
          Mem.deref, hblk]
      rw [this]
      exact ⟨(fun h m1 hh => by cases hh), (fun e m1 hh => by cases hh)⟩
    | some blk =>
      by_cases hz : blk.counter_shared_ = 0
      · rw [SharedPtr.ctor_weak_zero p hblk hz]
        exact ⟨(fun h m1 hh => by cases hh), (fun e m1 hh => by cases hh; rfl)⟩
      · rw [SharedPtr.ctor_weak_pos p hblk hz]
        refine ⟨fun h m1 hh => ?_, (fun e m1 hh => by cases hh)⟩
        cases hh
        refine ⟨rfl, b, rfl, ?_, ?_⟩
        · rw [Mem.strongVal_of_block hblk]; exact hz
        · simp [Mem.IncShared, Mem.call, hblk]

/-- `Lock`, case by case: an empty handle and the old heap, or the result of
the promoting constructor. -/
theorem WeakPtr.Lock_cases {m : Mem} {w : WeakPtr} :
    (∀ h m1, WeakPtr.Lock m w = Outcome.ok h m1 →
      (h = SharedPtr.ctor_default ∧ m1 = m) ∨
      (h = ⟨w.block_, w.ptr_⟩ ∧ ∃ b, w.block_ = some b ∧ m.strongVal b ≠ 0 ∧
        m.IncShared (some b) = some m1)) ∧
    (∀ e m1, WeakPtr.Lock m w = Outcome.thrown e m1 → m1 = m) := by
  obtain ⟨bl, p⟩ := w
  cases bl with
  | none =>
    rw [WeakPtr.Lock_none]
    exact ⟨(fun h m1 hh => by cases hh; exact Or.inl ⟨rfl, rfl⟩), (fun e m1 hh => by cases hh)⟩
  | some b =>
    cases hblk : m.block b with
    | none =>
      have : WeakPtr.Lock m ⟨some b, p⟩ = Outcome.undefined := by
        simp [WeakPtr.Lock, WeakPtr.Expired, WeakPtr.UseCount, Mem.GetShared,
          Mem.deref, hblk]
      rw [this]
      exact ⟨(fun h m1 hh => by cases hh), (fun e m1 hh => by cases hh)⟩
    | some blk =>
      by_cases hz : blk.counter_shared_ = 0
      · rw [WeakPtr.Lock_zero p hblk hz]
        exact ⟨(fun h m1 hh => by cases hh; exact Or.inl ⟨rfl, rfl⟩),
          (fun e m1 hh => by cases hh)⟩
      · rw [WeakPtr.Lock_pos p hblk hz]
        refine ⟨fun h m1 hh => ?_, (fun e m1 hh => by cases hh)⟩
        cases hh
        refine Or.inr ⟨rfl, b, rfl, ?_, ?_⟩
        · rw [Mem.strongVal_of_block hblk]; exact hz
        · simp [Mem.IncShared, Mem.call, hblk]
theorem SharedPtr.dtor_weakVal {m m1 : Mem} {h : SharedPtr}
    (hd : SharedPtr.dtor m h = some m1) (x : Nat) : m1.weakVal x = m.weakVal x := by
  cases h with
  | mk bl p => exact (SharedPtr.dtor_vals hd).1 x

theorem SharedPtr.assign_copy_weakVal {m m2 : Mem} {self other self1 : SharedPtr}
    (hop : SharedPtr.assign_copy m self other = some (self1, m2)) (x : Nat) :
    m2.weakVal x = m.weakVal x := by
  unfold SharedPtr.assign_copy at hop
  cases hc : SharedPtr.ctor_copy m other with
  | none => simp [hc] at hop
  | some q =>
    obtain ⟨tmp, m1⟩ := q
    simp only [hc, Option.map_eq_some', Prod.mk.injEq] at hop
    obtain ⟨mm, hd, _, rfl⟩ := hop
    rw [SharedPtr.dtor_weakVal hd, SharedPtr.ctor_copy_weakVal hc]

theorem SharedPtr.assign_move_weakVal {m m1 : Mem} {self other self1 other1 : SharedPtr}
    (hop : SharedPtr.assign_move m self other = some (self1, other1, m1)) (x : Nat) :
    m1.weakVal x = m.weakVal x := by
  simp only [SharedPtr.assign_move, Option.map_eq_some', Prod.mk.injEq] at hop
  obtain ⟨mm, hd, _, _, rfl⟩ := hop
  exact SharedPtr.dtor_weakVal hd x

theorem SharedPtr.Reset_weakVal {m m1 : Mem} {self self1 : SharedPtr}
    (hop : SharedPtr.Reset m self = some (self1, m1)) (x : Nat) :
    m1.weakVal x = m.weakVal x := by
  simp only [SharedPtr.Reset, Option.map_eq_some', Prod.mk.injEq] at hop
  obtain ⟨mm, hd, _, rfl⟩ := hop
  exact SharedPtr.dtor_weakVal hd x

theorem SharedPtr.Reset_ptr_weakVal {m m2 : Mem} {self self1 : SharedPtr} {p : Ptr}
    (hop : SharedPtr.Reset_ptr m self p = some (self1, m2)) (x : Nat) :
    m2.weakVal x = m.weakVal x := by
  simp only [SharedPtr.Reset_ptr, SharedPtr.ctor_ptr_eq, Option.map_eq_some',
    Prod.mk.injEq] at hop
  obtain ⟨mm, hd, _, rfl⟩ := hop
  rw [SharedPtr.dtor_weakVal hd, SharedPtr.ctor_ptr_weakVal]

theorem SharedPtr.ctor_weak_weakVal {m m1 : Mem} {w : WeakPtr} {h : SharedPtr}
    (hop : SharedPtr.ctor_weak m w = Outcome.ok h m1) (x : Nat) :
    m1.weakVal x = m.weakVal x := by
  obtain ⟨_, b, _, _, hi⟩ := (SharedPtr.ctor_weak_cases (m := m) (w := w)).1 h m1 hop
  obtain ⟨_, _, _, hw, _⟩ := Mem.IncShared_vals hi
  exact hw x

theorem WeakPtr.Lock_weakVal {m m1 : Mem} {w : WeakPtr} {h : SharedPtr}
    (hop : WeakPtr.Lock m w = Outcome.ok h m1) (x : Nat) :
    m1.weakVal x = m.weakVal x := by
  rcases (WeakPtr.Lock_cases (m := m) (w := w)).1 h m1 hop with ⟨_, rfl⟩ | ⟨_, b, _, _, hi⟩
  · rfl
  · obtain ⟨_, _, _, hw, _⟩ := Mem.IncShared_vals hi
    exact hw x

/-- An operation that is not one of the WeakPtr operations that change weak
variables leaves the weak variables and every weak count as they are. -/
theorem step_shared_weak_frame {s s2 : State} {op : Op} (hstep : step s op = some s2)
    (hop : ∀ j, op ≠ Op.weak_copy j ∧ op ≠ Op.weak_move j ∧ op ≠ Op.weak_move_conv j ∧
      op ≠ Op.weak_shared j ∧ op ≠ Op.weak_reset j ∧ op ≠ Op.weak_dtor j ∧
      op ≠ Op.weak_default ∧ ∀ i, op ≠ Op.weak_assign_copy i j ∧
        op ≠ Op.weak_assign_move i j ∧ op ≠ Op.weak_swap i j) :
    s2.weak = s.weak ∧ ∀ x, s2.mem.weakVal x = s.mem.weakVal x := by
  cases op with
  | shared_default =>
    simp only [step, Option.some.injEq] at hstep
    subst hstep; exact ⟨rfl, fun _ => rfl⟩
  | shared_nullptr =>
    simp only [step, Option.some.injEq] at hstep
    subst hstep; exact ⟨rfl, fun _ => rfl⟩
  | shared_ptr p =>
    simp only [step, SharedPtr.ctor_ptr_eq, Option.some.injEq] at hstep
    subst hstep; exact ⟨rfl, fun x => SharedPtr.ctor_ptr_weakVal _ _ x⟩
  | make_shared =>
    simp only [step, MakeShared_eq, Option.some.injEq] at hstep
    subst hstep; exact ⟨rfl, fun x => MakeShared_weakVal _ x⟩
  | shared_copy j =>
    simp only [step] at hstep
    cases hj : s.sharedAt j with
    | none => simp [hj] at hstep
    | some other =>
      cases hc : SharedPtr.ctor_copy s.mem other with
      | none => simp [hj, hc] at hstep
      | some q =>
        obtain ⟨h, m1⟩ := q
        simp only [hj, hc, Option.some.injEq] at hstep
        subst hstep; exact ⟨rfl, fun x => SharedPtr.ctor_copy_weakVal hc x⟩
  | shared_copy_conv j =>
    simp only [step] at hstep
    cases hj : s.sharedAt j with
    | none => simp [hj] at hstep
    | some other =>
      simp only [hj, SharedPtr.ctor_copy_conv_eq_ctor_copy] at hstep
      cases hc : SharedPtr.ctor_copy s.mem other with
      | none => simp [hc] at hstep
      | some q =>
        obtain ⟨h, m1⟩ := q
        simp only [hc, Option.some.injEq] at hstep
        subst hstep; exact ⟨rfl, fun x => SharedPtr.ctor_copy_weakVal hc x⟩
  | shared_move j =>
    simp only [step] at hstep
    cases hj : s.sharedAt j with
    | none => simp [hj] at hstep
    | some other =>
      simp only [hj, Option.some.injEq] at hstep
      subst hstep; exact ⟨rfl, fun _ => rfl⟩
  | shared_move_conv j =>
    simp only [step] at hstep
    cases hj : s.sharedAt j with
    | none => simp [hj] at hstep
    | some other =>
      simp only [hj, Option.some.injEq] at hstep
      subst hstep; exact ⟨rfl, fun _ => rfl⟩
  | shared_alias j p =>
    simp only [step] at hstep
    cases hj : s.sharedAt j with
    | none => simp [hj] at hstep
    | some other =>
      cases hc : SharedPtr.ctor_alias s.mem other p with
      | none => simp [hj, hc] at hstep
      | some q =>
        obtain ⟨h, m1⟩ := q
        simp only [hj, hc, Option.some.injEq] at hstep
        subst hstep; exact ⟨rfl, fun x => SharedPtr.ctor_alias_weakVal hc x⟩
  | shared_weak w =>
    simp only [step] at hstep
    cases hw : s.weakAt w with
    | none => simp [hw] at hstep
    | some other =>
      cases hc : SharedPtr.ctor_weak s.mem other with
      | undefined => simp [hw, hc] at hstep
      | thrown e m1 =>
        simp only [hw, hc, Option.some.injEq] at hstep
        subst hstep
        have := (SharedPtr.ctor_weak_cases (m := s.mem) (w := other)).2 e m1 hc
        subst this
        exact ⟨rfl, fun _ => rfl⟩
      | ok h m1 =>
        simp only [hw, hc, Option.some.injEq] at hstep
        subst hstep; exact ⟨rfl, fun x => SharedPtr.ctor_weak_weakVal hc x⟩
  | shared_assign_copy i j =>
    simp only [step] at hstep
    cases hi : s.sharedAt i with
    | none => simp [hi] at hstep
    | some self =>
      cases hj : s.sharedAt j with
      | none => simp [hi, hj] at hstep
      | some other =>
        cases hc : SharedPtr.assign_copy s.mem self other with
        | none => simp [hi, hj, hc] at hstep
        | some q =>
          obtain ⟨self1, m1⟩ := q
          simp only [hi, hj, hc, Option.some.injEq] at hstep
          subst hstep; exact ⟨rfl, fun x => SharedPtr.assign_copy_weakVal hc x⟩
  | shared_assign_move i j =>
    simp only [step] at hstep
    cases hi : s.sharedAt i with
    | none => simp [hi] at hstep
    | some self =>
      cases hj : s.sharedAt j with
      | none => simp [hi, hj] at hstep
      | some other =>
        simp only [hi, hj] at hstep
        by_cases hij : i = j
        · simp only [hij, if_true] at hstep
          cases hc : SharedPtr.assign_move_self s.mem self with
          | none => simp [hc] at hstep
          | some q =>
            obtain ⟨self1, m1⟩ := q
            simp only [hc, Option.some.injEq] at hstep
            subst hstep
            obtain ⟨_, rfl⟩ := SharedPtr.assign_move_self_eq hc
            exact ⟨rfl, fun _ => rfl⟩
        · simp only [hij, if_false] at hstep
          cases hc : SharedPtr.assign_move s.mem self other with
          | none => simp [hc] at hstep
          | some q =>
            obtain ⟨self1, other1, m1⟩ := q
            simp only [hc, Option.some.injEq] at hstep
            subst hstep; exact ⟨rfl, fun x => SharedPtr.assign_move_weakVal hc x⟩
  | shared_reset i =>
    simp only [step] at hstep
    cases hi : s.sharedAt i with
    | none => simp [hi] at hstep
    | some self =>
      cases hc : SharedPtr.Reset s.mem self with
      | none => simp [hi, hc] at hstep
      | some q =>
        obtain ⟨self1, m1⟩ := q
        simp only [hi, hc, Option.some.injEq] at hstep
        subst hstep; exact ⟨rfl, fun x => SharedPtr.Reset_weakVal hc x⟩
  | shared_reset_ptr i p =>
    simp only [step] at hstep
    cases hi : s.sharedAt i with
    | none => simp [hi] at hstep
    | some self =>
      cases hc : SharedPtr.Reset_ptr s.mem self p with
      | none => simp [hi, hc] at hstep
      | some q =>
        obtain ⟨self1, m1⟩ := q
        simp only [hi, hc, Option.some.injEq] at hstep
        subst hstep; exact ⟨rfl, fun x => SharedPtr.Reset_ptr_weakVal hc x⟩
  | shared_swap i j =>
    simp only [step] at hstep
    cases hi : s.sharedAt i with
    | none => simp [hi] at hstep
    | some self =>
      cases hj : s.sharedAt j with
      | none => simp [hi, hj] at hstep
      | some other =>
        simp only [hi, hj, Option.some.injEq] at hstep
        subst hstep; exact ⟨rfl, fun _ => rfl⟩
  | shared_dtor i =>
    simp only [step] at hstep
    cases hi : s.sharedAt i with
    | none => simp [hi] at hstep
    | some self =>
      cases hc : SharedPtr.dtor s.mem self with
      | none => simp [hi, hc] at hstep
      | some m1 =>
        simp only [hi, hc, Option.some.injEq] at hstep
        subst hstep; exact ⟨rfl, fun x => SharedPtr.dtor_weakVal hc x⟩
  | weak_lock w =>
    simp only [step] at hstep
    cases hw : s.weakAt w with
    | none => simp [hw] at hstep
    | some other =>
      cases hc : WeakPtr.Lock s.mem other with
      | undefined => simp [hw, hc] at hstep
      | thrown e m1 =>
        simp only [hw, hc, Option.some.injEq] at hstep
        subst hstep
        have := (WeakPtr.Lock_cases (m := s.mem) (w := other)).2 e m1 hc
        subst this
        exact ⟨rfl, fun _ => rfl⟩
      | ok h m1 =>
        simp only [hw, hc, Option.some.injEq] at hstep
        subst hstep; exact ⟨rfl, fun x => WeakPtr.Lock_weakVal hc x⟩
  | weak_default => exact absurd rfl (hop 0).2.2.2.2.2.2.1
  | weak_copy j => exact absurd rfl (hop j).1
  | weak_move j => exact absurd rfl (hop j).2.1
  | weak_move_conv j => exact absurd rfl (hop j).2.2.1
  | weak_shared j => exact absurd rfl (hop j).2.2.2.1
  | weak_reset j => exact absurd rfl (hop j).2.2.2.2.1
  | weak_dtor j => exact absurd rfl (hop j).2.2.2.2.2.1
  | weak_assign_copy i j => exact absurd rfl ((hop j).2.2.2.2.2.2.2 i).1
  | weak_assign_move i j => exact absurd rfl ((hop j).2.2.2.2.2.2.2 i).2.1
  | weak_swap i j => exact absurd rfl ((hop j).2.2.2.2.2.2.2 i).2.2
/-! ## C23: the weak counts are exact -/

theorem WeakPtr.weak_refersTo_none (p : Ptr) (x : Nat) : (WeakPtr.mk none p).refersTo x = 0 := by
  simp [WeakPtr.refersTo]

theorem WeakPtr.weak_refersTo_some (b : Nat) (p : Ptr) (x : Nat) :
    (WeakPtr.mk (some b) p).refersTo x = if x = b then 1 else 0 := by
  simp only [WeakPtr.refersTo, Option.some.injEq]
  by_cases h : b = x
  · simp [h]
  · have h2 : ¬ x = b := fun e => h e.symm
    simp [h, h2]

theorem Counted.frame {n : Nat} {v v1 c : Nat → Nat} (hg : Counted n v c)
    (h : ∀ x, v1 x = v x) : Counted n v1 c :=
  ⟨hg.1, fun b => by rw [h, hg.2]⟩

theorem Counted.bound_mono {n n2 : Nat} {v c : Nat → Nat} (hg : Counted n v c) (hn : n ≤ n2) :
    Counted n2 v c :=
  ⟨fun b => Nat.le_trans (hg.1 b) hn, hg.2⟩

theorem Counted.same_count {n : Nat} {v c d : Nat → Nat} (hg : Counted n v c)
    (h : ∀ x, d x = c x) : Counted n v d := by
  have e : d = c := funext h
  rw [e]; exact hg

/-- A copy of a WeakPtr, from a WeakPtr or from a SharedPtr with the same
pair: the weak count of its block follows. -/
theorem Counted.weak_copy {n : Nat} {m m1 : Mem} {c d : Nat → Nat} {bl : Option Nat} {p : Ptr}
    {w : WeakPtr}
    (hg : Counted n m.weakVal c) (hn : n + 1 < SIZE_MOD)
    (hop : (if bl ≠ none then (m.IncWeak bl).map fun m1 => (WeakPtr.mk bl p, m1)
      else some (WeakPtr.mk bl p, m)) = some (w, m1))
    (hd : ∀ x, d x = c x + w.refersTo x) :
    Counted (n + 1) m1.weakVal d ∧ w = ⟨bl, p⟩ ∧ (∀ x, m1.strongVal x = m.strongVal x) ∧
      m1.log = m.log := by
  cases bl with
  | none =>
    simp only [ne_eq, not_true_eq_false, if_false, Option.some.injEq, Prod.mk.injEq] at hop
    obtain ⟨rfl, rfl⟩ := hop
    refine ⟨⟨fun b => ?_, fun b => ?_⟩, rfl, fun _ => rfl, rfl⟩
    · have := hg.1 b; rw [hd, WeakPtr.weak_refersTo_none]; omega
    · rw [hd, WeakPtr.weak_refersTo_none, hg.2]; rfl
  | some b =>
    simp only [ne_eq, reduceCtorEq, not_false_eq_true, if_true, Option.map_eq_some',
      Prod.mk.injEq] at hop
    obtain ⟨mm, hi, rfl, rfl⟩ := hop
    obtain ⟨b2, hb2, hl, hs, hw⟩ := Mem.IncWeak_vals hi
    rw [Option.some.injEq] at hb2
    subst hb2
    have hlt : m.weakVal b + 1 < SIZE_MOD := by
      have := hg.1 b; rw [hg.2]; omega
    refine ⟨⟨fun x => ?_, fun x => ?_⟩, rfl, hs, hl⟩
    · have := hg.1 x; rw [hd, WeakPtr.weak_refersTo_some]; split <;> omega
    · rw [hw hlt, hd, WeakPtr.weak_refersTo_some, hg.2]

theorem Counted.weak_dtor {n : Nat} {m m1 : Mem} {c d : Nat → Nat} {w : WeakPtr}
    (hg : Counted n m.weakVal c) (hn : n < SIZE_MOD)
    (hop : WeakPtr.dtor m w = some m1) (hd : ∀ x, c x = d x + w.refersTo x) :
    Counted n m1.weakVal d ∧ ∀ x, m1.strongVal x = m.strongVal x := by
  obtain ⟨bl, p⟩ := w
  obtain ⟨hs, h0, h1⟩ := WeakPtr.weak_dtor_vals hop
  refine ⟨?_, hs⟩
  cases bl with
  | none =>
    have := h0 rfl
    subst this
    refine ⟨fun x => ?_, fun x => ?_⟩
    · have := hg.1 x; have := hd x; omega
    · have := hd x; rw [WeakPtr.weak_refersTo_none] at this; rw [hg.2]; omega
  | some b =>
    have hcb := hd b
    rw [WeakPtr.weak_refersTo_some, if_pos rfl] at hcb
    have hv := h1 b rfl (by rw [hg.2]; omega) (by have := hg.1 b; rw [hg.2]; omega)
    refine ⟨fun x => ?_, fun x => ?_⟩
    · have := hg.1 x; have := hd x; omega
    · have e1 := hv x
      have e2 := hd x
      rw [WeakPtr.weak_refersTo_some] at e2
      rw [hg.2] at e1
      omega

theorem Counted.weak_assign_copy {n : Nat} {m m2 : Mem} {c r d : Nat → Nat}
    {self other self1 : WeakPtr} (hg : Counted n m.weakVal c) (hn : n + 1 < SIZE_MOD)
    (hk : ∀ x, c x = r x + self.refersTo x)
    (hop : WeakPtr.assign_copy m self other = some (self1, m2))
    (hk2 : ∀ x, d x = r x + self1.refersTo x) :
    Counted (n + 1) m2.weakVal d ∧ self1 = other ∧ ∀ x, m2.strongVal x = m.strongVal x := by
  unfold WeakPtr.assign_copy at hop
  cases hc : WeakPtr.ctor_copy m other with
  | none => simp [hc] at hop
  | some q =>
    obtain ⟨tmp, m1⟩ := q
    simp only [hc, WeakPtr.Swap, Option.map_eq_some', Prod.mk.injEq] at hop
    obtain ⟨mm, hd, hs, rfl⟩ := hop
    obtain ⟨g1, e1, s1, _⟩ := Counted.weak_copy (d := fun x => c x + tmp.refersTo x) hg hn hc
      (fun _ => rfl)
    have hs2 : self1 = tmp := by cases tmp; exact hs.symm
    have hd2 : WeakPtr.dtor m1 self = some mm := by cases self; exact hd
    obtain ⟨g2, s2⟩ := Counted.weak_dtor (d := d) g1 (by omega) hd2
      (fun x => by simp only [hk2, hk, hs2]; omega)
    exact ⟨g2, by rw [hs2, e1], fun x => by rw [s2, s1]⟩

theorem Counted.weak_assign_move {n : Nat} {m m1 : Mem} {c r d : Nat → Nat}
    {self other self1 other1 : WeakPtr} (hg : Counted n m.weakVal c) (hn : n < SIZE_MOD)
    (hk : ∀ x, c x = r x + self.refersTo x + other.refersTo x)
    (hop : WeakPtr.assign_move m self other = some (self1, other1, m1))
    (hk2 : ∀ x, d x = r x + self1.refersTo x + other1.refersTo x) :
    Counted n m1.weakVal d ∧ self1 = other ∧ other1 = ⟨none, Ptr.null⟩ ∧
      ∀ x, m1.strongVal x = m.strongVal x := by
  simp only [WeakPtr.assign_move, WeakPtr.ctor_move, WeakPtr.Swap, Option.map_eq_some',
    Prod.mk.injEq] at hop
  obtain ⟨mm, hd, hs, ho, rfl⟩ := hop
  have hs2 : self1 = other := by cases other; exact hs.symm
  have hd2 : WeakPtr.dtor m self = some mm := by cases self; exact hd
  subst ho
  obtain ⟨g2, s2⟩ := Counted.weak_dtor (d := d) hg hn hd2
    (fun x => by simp only [hk2, hk, hs2, WeakPtr.weak_refersTo_none]; omega)
  exact ⟨g2, hs2, rfl, s2⟩

theorem WeakPtr.weak_assign_move_self_id (m : Mem) (self : WeakPtr) :
    WeakPtr.assign_move_self m self = some (self, m) := by
  cases self with
  | mk bl p =>
    simp [WeakPtr.assign_move_self, WeakPtr.ctor_move, WeakPtr.Swap, WeakPtr.weak_dtor_none]

theorem Counted.weak_Reset {n : Nat} {m m1 : Mem} {c r d : Nat → Nat}
    {self self1 : WeakPtr} (hg : Counted n m.weakVal c) (hn : n < SIZE_MOD)
    (hk : ∀ x, c x = r x + self.refersTo x)
    (hop : WeakPtr.Reset m self = some (self1, m1))
    (hk2 : ∀ x, d x = r x + self1.refersTo x) :
    Counted n m1.weakVal d ∧ self1 = ⟨none, Ptr.null⟩ ∧
      ∀ x, m1.strongVal x = m.strongVal x := by
  simp only [WeakPtr.Reset, WeakPtr.ctor_default, WeakPtr.Swap, Option.map_eq_some',
    Prod.mk.injEq] at hop
  obtain ⟨mm, hd, hs, rfl⟩ := hop
  have hd2 : WeakPtr.dtor m self = some mm := by cases self; exact hd
  subst hs
  obtain ⟨g2, s2⟩ := Counted.weak_dtor (d := d) hg hn hd2
    (fun x => by simp only [hk2, hk, WeakPtr.weak_refersTo_none]; omega)
  exact ⟨g2, rfl, s2⟩
theorem WeakPtr.weak_mk_eta (w : WeakPtr) : WeakPtr.mk w.block_ w.ptr_ = w := rfl

theorem State.weakRefs_push (s : State) (w : WeakPtr) (m1 : Mem) (x : Nat) :
    (s.pushWeak w m1).weakRefs x = s.weakRefs x + w.refersTo x :=
  tally_append _ _ _

theorem step_exactWeak {n : Nat} {s s2 : State} (op : Op) (hg : s.exactWeak n)
    (hn : n + 1 < SIZE_MOD) (hstep : step s op = some s2) : s2.exactWeak (n + 1) := by
  by_cases hop : ∀ j, op ≠ Op.weak_copy j ∧ op ≠ Op.weak_move j ∧ op ≠ Op.weak_move_conv j ∧
      op ≠ Op.weak_shared j ∧ op ≠ Op.weak_reset j ∧ op ≠ Op.weak_dtor j ∧
      op ≠ Op.weak_default ∧ ∀ i, op ≠ Op.weak_assign_copy i j ∧
        op ≠ Op.weak_assign_move i j ∧ op ≠ Op.weak_swap i j
  · obtain ⟨hw, hv⟩ := step_shared_weak_frame hstep hop
    have e : s2.weakRefs = s.weakRefs := by
      funext x; unfold State.weakRefs; rw [hw]
    unfold State.exactWeak
    rw [e]
    exact (Counted.frame hg hv).bound_mono (Nat.le_succ n)
  · cases op with
    | weak_default =>
      simp only [step, Option.some.injEq] at hstep
      subst hstep
      refine (Counted.same_count hg (fun x => ?_)).bound_mono (Nat.le_succ n)
      rw [State.weakRefs_push]; exact Nat.add_zero _
    | weak_copy j =>
      simp only [step] at hstep
      cases hj : s.weakAt j with
      | none => simp [hj] at hstep
      | some other =>
        cases hc : WeakPtr.ctor_copy s.mem other with
        | none => simp [hj, hc] at hstep
        | some q =>
          obtain ⟨w, m1⟩ := q
          simp only [hj, hc, Option.some.injEq] at hstep
          subst hstep
          exact (Counted.weak_copy hg hn hc (fun x => State.weakRefs_push s w m1 x)).1
    | weak_shared j =>
      simp only [step] at hstep
      cases hj : s.sharedAt j with
      | none => simp [hj] at hstep
      | some other =>
        cases hc : WeakPtr.ctor_shared s.mem other with
        | none => simp [hj, hc] at hstep
        | some q =>
          obtain ⟨w, m1⟩ := q
          simp only [hj, hc, Option.some.injEq] at hstep
          subst hstep
          exact (Counted.weak_copy hg hn hc (fun x => State.weakRefs_push s w m1 x)).1
    | weak_move j =>
      simp only [step] at hstep
      cases hj : s.weakAt j with
      | none => simp [hj] at hstep
      | some other =>
        simp only [hj, WeakPtr.ctor_move, WeakPtr.Swap, Option.some.injEq] at hstep
        subst hstep
        refine (Counted.same_count hg (fun x => ?_)).bound_mono (Nat.le_succ n)
        have h1 := tally_set_none (WeakPtr.refersTo x) hj
        have h2 := tally_set_some (WeakPtr.refersTo x) hj ⟨none, Ptr.null⟩
        unfold State.weakRefs
        simp only
        rw [tally_append, h2, WeakPtr.weak_refersTo_none, WeakPtr.weak_mk_eta]
        omega
    | weak_move_conv j =>
      simp only [step] at hstep
      cases hj : s.weakAt j with
      | none => simp [hj] at hstep
      | some other =>
        simp only [hj, WeakPtr.ctor_move_conv, Option.some.injEq] at hstep
        subst hstep
        refine (Counted.same_count hg (fun x => ?_)).bound_mono (Nat.le_succ n)
        have h1 := tally_set_none (WeakPtr.refersTo x) hj
        have h2 := tally_set_some (WeakPtr.refersTo x) hj ⟨none, Ptr.null⟩
        unfold State.weakRefs
        simp only
        rw [tally_append, h2, WeakPtr.weak_refersTo_none, WeakPtr.weak_mk_eta]
        omega
    | weak_assign_copy i j =>
      simp only [step] at hstep
      cases hi : s.weakAt i with
      | none => simp [hi] at hstep
      | some self =>
        cases hj : s.weakAt j with
        | none => simp [hi, hj] at hstep
        | some other =>
          cases hc : WeakPtr.assign_copy s.mem self other with
          | none => simp [hi, hj, hc] at hstep
          | some q =>
            obtain ⟨self1, m1⟩ := q
            simp only [hi, hj, hc, Option.some.injEq] at hstep
            subst hstep
            exact (Counted.weak_assign_copy hg hn
              (fun x => tally_set_none (WeakPtr.refersTo x) hi) hc
              (fun x => tally_set_some (WeakPtr.refersTo x) hi self1)).1
    | weak_assign_move i j =>
      simp only [step] at hstep
      cases hi : s.weakAt i with
      | none => simp [hi] at hstep
      | some self =>
        cases hj : s.weakAt j with
        | none => simp [hi, hj] at hstep
        | some other =>
          simp only [hi, hj] at hstep
          by_cases hij : i = j
          · simp only [hij, if_true, WeakPtr.weak_assign_move_self_id, Option.some.injEq] at hstep
            subst hstep
            subst hij
            refine (Counted.same_count hg (fun x => ?_)).bound_mono (Nat.le_succ n)
            have h1 := tally_set_none (WeakPtr.refersTo x) hi
            have h2 := tally_set_some (WeakPtr.refersTo x) hi self
            unfold State.weakRefs
            simp only
            omega
          · simp only [hij, if_false] at hstep
            cases hc : WeakPtr.assign_move s.mem self other with
            | none => simp [hc] at hstep
            | some q =>
              obtain ⟨self1, other1, m1⟩ := q
              simp only [hc, Option.some.injEq] at hstep
              subst hstep
              have hji : (s.weak.set j (some other1)).getD i none = some self := by
                rw [getD_set _ _ _ _ (getD_lt hj), if_neg (fun e => hij e.symm)]
                exact hi
              have hji0 : (s.weak.set j none).getD i none = some self := by
                rw [getD_set _ _ _ _ (getD_lt hj), if_neg (fun e => hij e.symm)]
                exact hi
              have hij0 : (s.weak.set i none).getD j none = some other := by
                rw [getD_set _ _ _ _ (getD_lt hi), if_neg hij]
                exact hj
              have hcomm : ((s.weak.set j (some other1)).set i none) =
                  ((s.weak.set i none).set j (some other1)) :=
                List.set_comm _ _ _ (fun e => hij e.symm)
              have hcomm0 : ((s.weak.set j none).set i none) =
                  ((s.weak.set i none).set j none) :=
                List.set_comm _ _ _ (fun e => hij e.symm)
              refine Counted.bound_mono (Counted.weak_assign_move
                (r := fun x => tally (WeakPtr.refersTo x) ((s.weak.set j none).set i none))
                hg (by omega) (fun x => ?_) hc (fun x => ?_)).1 (Nat.le_succ n)
              · have h1 := tally_set_none (WeakPtr.refersTo x) hj
                have h2 := tally_set_none (WeakPtr.refersTo x) hji0
                unfold State.weakRefs
                beta_reduce
                omega
              · have h4 := tally_set_some (WeakPtr.refersTo x) hji self1
                have h6 := tally_set_some (WeakPtr.refersTo x) hij0 other1
                show tally (WeakPtr.refersTo x)
                  ((s.weak.set j (some other1)).set i (some self1)) = _
                rw [h4, hcomm, h6, hcomm0]
                beta_reduce
                omega
    | weak_reset i =>
      simp only [step] at hstep
      cases hi : s.weakAt i with
      | none => simp [hi] at hstep
      | some self =>
        cases hc : WeakPtr.Reset s.mem self with
        | none => simp [hi, hc] at hstep
        | some q =>
          obtain ⟨self1, m1⟩ := q
          simp only [hi, hc, Option.some.injEq] at hstep
          subst hstep
          exact Counted.bound_mono (Counted.weak_Reset hg (by omega)
            (fun x => tally_set_none (WeakPtr.refersTo x) hi) hc
            (fun x => tally_set_some (WeakPtr.refersTo x) hi self1)).1 (Nat.le_succ n)
    | weak_swap i j =>
      simp only [step] at hstep
      cases hi : s.weakAt i with
      | none => simp [hi] at hstep
      | some self =>
        cases hj : s.weakAt j with
        | none => simp [hi, hj] at hstep
        | some other =>
          simp only [hi, hj, WeakPtr.Swap, WeakPtr.weak_mk_eta, Option.some.injEq] at hstep
          subst hstep
          have hji : (s.weak.set i (some other)).getD j none =
              some (if i = j then other else other) := by
            rw [getD_set _ _ _ _ (getD_lt hi)]
            by_cases hij : i = j
            · simp [hij]
            · simp only [hij, if_false]; exact hj
          simp only [ite_self] at hji
          refine (Counted.same_count hg (fun x => ?_)).bound_mono (Nat.le_succ n)
          have h1 := tally_set_none (WeakPtr.refersTo x) hi
          have h2 := tally_set_some (WeakPtr.refersTo x) hi other
          have h3 := tally_set_none (WeakPtr.refersTo x) hji
          have h4 := tally_set_some (WeakPtr.refersTo x) hji self
          unfold State.weakRefs
          simp only
          omega
    | weak_dtor i =>
      simp only [step] at hstep
      cases hi : s.weakAt i with
      | none => simp [hi] at hstep
      | some self =>
        cases hc : WeakPtr.dtor s.mem self with
        | none => simp [hi, hc] at hstep
        | some m1 =>
          simp only [hi, hc, Option.some.injEq] at hstep
          subst hstep
          exact Counted.bound_mono (Counted.weak_dtor hg (by omega) hc
            (fun x => tally_set_none (WeakPtr.refersTo x) hi)).1 (Nat.le_succ n)
    | shared_default => exact absurd (fun j => by simp) hop
    | shared_nullptr => exact absurd (fun j => by simp) hop
    | shared_ptr p => exact absurd (fun j => by simp) hop
    | make_shared => exact absurd (fun j => by simp) hop
    | shared_copy k => exact absurd (fun j => by simp) hop
    | shared_move k => exact absurd (fun j => by simp) hop
    | shared_copy_conv k => exact absurd (fun j => by simp) hop
    | shared_move_conv k => exact absurd (fun j => by simp) hop
    | shared_alias k p => exact absurd (fun j => by simp) hop
    | shared_weak k => exact absurd (fun j => by simp) hop
    | shared_assign_copy k l => exact absurd (fun j => by simp) hop
    | shared_assign_move k l => exact absurd (fun j => by simp) hop
    | shared_reset k => exact absurd (fun j => by simp) hop
    | shared_reset_ptr k p => exact absurd (fun j => by simp) hop
    | shared_swap k l => exact absurd (fun j => by simp) hop
    | shared_dtor k => exact absurd (fun j => by simp) hop
    | weak_lock k => exact absurd (fun j => by simp) hop
/-! ## C23: the strong counts are exact when no raw pointer is null -/

theorem SharedPtr.refersTo_none (p : Ptr) (x : Nat) : (SharedPtr.mk none p).refersTo x = 0 := by
  simp [SharedPtr.refersTo]

theorem SharedPtr.refersTo_some (b : Nat) (p : Ptr) (x : Nat) :
    (SharedPtr.mk (some b) p).refersTo x = if x = b then 1 else 0 := by
  simp only [SharedPtr.refersTo, Option.some.injEq]
  by_cases h : b = x
  · simp [h]
  · have h2 : ¬ x = b := fun e => h e.symm
    simp [h, h2]

theorem SharedPtr.unsound_nonnull {bl : Option Nat} {p : Ptr} (hp : p ≠ Ptr.null) :
    (SharedPtr.mk bl p).unsound = 0 := by
  simp [SharedPtr.unsound, hp]

theorem SharedPtr.unsound_none (p : Ptr) : (SharedPtr.mk none p).unsound = 0 := by
  simp [SharedPtr.unsound]

theorem SharedPtr.sound_null {bl : Option Nat} (h : (SharedPtr.mk bl Ptr.null).unsound = 0) :
    bl = none := by
  cases bl with
  | none => rfl
  | some b => simp [SharedPtr.unsound] at h

theorem WeakPtr.weak_unsound_none (p : Ptr) : (WeakPtr.mk none p).unsound = 0 := by
  simp [WeakPtr.unsound]

theorem WeakPtr.unsound_of_shared (h : SharedPtr) :
    (WeakPtr.mk h.block_ h.ptr_).unsound = h.unsound := rfl

theorem SharedPtr.unsound_of_weak (w : WeakPtr) :
    (SharedPtr.mk w.block_ w.ptr_).unsound = w.unsound := rfl

theorem Counted.strong_inc {n : Nat} {m m1 : Mem} {c d : Nat → Nat} {b : Nat}
    (hg : Counted n m.strongVal c) (hn : n + 1 < SIZE_MOD)
    (hi : m.IncShared (some b) = some m1)
    (hd : ∀ x, d x = c x + if x = b then 1 else 0) :
    Counted (n + 1) m1.strongVal d := by
  obtain ⟨b2, hb2, _, _, hs⟩ := Mem.IncShared_vals hi
  rw [Option.some.injEq] at hb2
  subst hb2
  have hlt : m.strongVal b + 1 < SIZE_MOD := by
    have := hg.1 b; rw [hg.2]; omega
  refine ⟨fun x => ?_, fun x => ?_⟩
  · have := hg.1 x; rw [hd]; split <;> omega
  · rw [hs hlt, hd, hg.2]

/-- The copy constructor and the aliasing constructor: a handle with the block
reference `bl` and the pointer `p`, counted with `IncShared` when `p` is not
null. When a null `p` comes with no block reference, the strong count of the
block follows the handles. -/
theorem Counted.strong_copy {n : Nat} {m m1 : Mem} {c d : Nat → Nat} {bl : Option Nat}
    {p : Ptr} {h : SharedPtr} (hg : Counted n m.strongVal c) (hn : n + 1 < SIZE_MOD)
    (hs : (SharedPtr.mk bl p).unsound = 0)
    (hop : (if (SharedPtr.mk bl p).toBool = true then
        (m.IncShared bl).map fun m1 => (SharedPtr.mk bl p, m1)
      else some (SharedPtr.mk bl p, m)) = some (h, m1))
    (hd : ∀ x, d x = c x + h.refersTo x) :
    Counted (n + 1) m1.strongVal d ∧ h = ⟨bl, p⟩ := by
  by_cases hp : p = Ptr.null
  · subst hp
    have hbl := SharedPtr.sound_null hs
    subst hbl
    have hb : ¬ (SharedPtr.mk none Ptr.null).toBool = true := by
      simp [SharedPtr.toBool, SharedPtr.Get]
    simp only [hb, if_false, Option.some.injEq, Prod.mk.injEq] at hop
    obtain ⟨rfl, rfl⟩ := hop
    refine ⟨⟨fun x => ?_, fun x => ?_⟩, rfl⟩
    · have := hg.1 x; rw [hd, SharedPtr.refersTo_none]; omega
    · rw [hd, SharedPtr.refersTo_none, hg.2]; rfl
  · have hb : (SharedPtr.mk bl p).toBool = true := (SharedPtr.toBool_iff _).2 hp
    simp only [hb, if_true, Option.map_eq_some', Prod.mk.injEq] at hop
    obtain ⟨mm, hi, rfl, rfl⟩ := hop
    obtain ⟨b, hb2, _⟩ := Mem.IncShared_vals hi
    subst hb2
    exact ⟨Counted.strong_inc hg hn hi (fun x => by rw [hd, SharedPtr.refersTo_some]), rfl⟩

theorem Counted.strong_new {n : Nat} {m : Mem} {c d : Nat → Nat} (kind : BlockKind) (p : Ptr)
    (hg : Counted n m.strongVal c)
    (hd : ∀ x, d x = c x + (SharedPtr.mk (some m.blocks.length) p).refersTo x) :
    Counted (n + 1) (Mem.mk (m.blocks ++ [some ⟨1, 0, kind⟩]) m.log).strongVal d := by
  refine ⟨fun x => ?_, fun x => ?_⟩
  · have := hg.1 x; rw [hd, SharedPtr.refersTo_some]; split <;> omega
  · rw [Mem.strongVal_append, hd, SharedPtr.refersTo_some, hg.2]

theorem Counted.strong_dtor {n : Nat} {m m1 : Mem} {c d : Nat → Nat} {h : SharedPtr}
    (hg : Counted n m.strongVal c) (hn : n < SIZE_MOD) (hs : h.unsound = 0)
    (hop : SharedPtr.dtor m h = some m1) (hd : ∀ x, c x = d x + h.refersTo x) :
    Counted n m1.strongVal d := by
  obtain ⟨bl, p⟩ := h
  obtain ⟨_, h0, h1⟩ := SharedPtr.dtor_vals hop
  by_cases hp : p = Ptr.null
  · subst hp
    have hbl := SharedPtr.sound_null hs
    subst hbl
    have := h0 rfl
    subst this
    refine ⟨fun x => ?_, fun x => ?_⟩
    · have := hg.1 x; have := hd x; omega
    · have := hd x; rw [SharedPtr.refersTo_none] at this; rw [hg.2]; omega
  · obtain ⟨b, hb, hv⟩ := h1 hp
    subst hb
    have hcb := hd b
    rw [SharedPtr.refersTo_some, if_pos rfl] at hcb
    have hv2 := hv (by rw [hg.2]; omega) (by have := hg.1 b; rw [hg.2]; omega)
    refine ⟨fun x => ?_, fun x => ?_⟩
    · have := hg.1 x; have := hd x; omega
    · have e1 := hv2 x
      have e2 := hd x
      rw [SharedPtr.refersTo_some] at e2
      rw [hg.2] at e1
      omega

theorem Counted.strong_assign_copy {n : Nat} {m m2 : Mem} {c r d : Nat → Nat}
    {self other self1 : SharedPtr} (hg : Counted n m.strongVal c) (hn : n + 1 < SIZE_MOD)
    (hss : self.unsound = 0) (hso : other.unsound = 0)
    (hk : ∀ x, c x = r x + self.refersTo x)
    (hop : SharedPtr.assign_copy m self other = some (self1, m2))
    (hk2 : ∀ x, d x = r x + self1.refersTo x) :
    Counted (n + 1) m2.strongVal d ∧ self1 = other := by
  unfold SharedPtr.assign_copy at hop
  cases hc : SharedPtr.ctor_copy m other with
  | none => simp [hc] at hop
  | some q =>
    obtain ⟨tmp, m1⟩ := q
    simp only [hc, SharedPtr.Swap, Option.map_eq_some', Prod.mk.injEq] at hop
    obtain ⟨mm, hd, hs, rfl⟩ := hop
    obtain ⟨g1, e1⟩ := Counted.strong_copy (d := fun x => c x + tmp.refersTo x) hg hn hso hc
      (fun _ => rfl)
    have hs2 : self1 = tmp := by cases tmp; exact hs.symm
    have hd2 : SharedPtr.dtor m1 self = some mm := by cases self; exact hd
    have g2 := Counted.strong_dtor (d := d) g1 (by omega) hss hd2
      (fun x => by simp only [hk2, hk, hs2]; omega)
    exact ⟨g2, by rw [hs2, e1]⟩

theorem Counted.strong_assign_move {n : Nat} {m m1 : Mem} {c r d : Nat → Nat}
    {self other self1 other1 : SharedPtr} (hg : Counted n m.strongVal c) (hn : n < SIZE_MOD)
    (hss : self.unsound = 0)
    (hk : ∀ x, c x = r x + self.refersTo x + other.refersTo x)
    (hop : SharedPtr.assign_move m self other = some (self1, other1, m1))
    (hk2 : ∀ x, d x = r x + self1.refersTo x + other1.refersTo x) :
    Counted n m1.strongVal d ∧ self1 = other ∧ other1 = ⟨none, Ptr.null⟩ := by
  simp only [SharedPtr.assign_move, SharedPtr.ctor_move, SharedPtr.Swap, Option.map_eq_some',
    Prod.mk.injEq] at hop
  obtain ⟨mm, hd, hs, ho, rfl⟩ := hop
  have hs2 : self1 = other := by cases other; exact hs.symm
  have hd2 : SharedPtr.dtor m self = some mm := by cases self; exact hd
  subst ho
  have g2 := Counted.strong_dtor (d := d) hg hn hss hd2
    (fun x => by simp only [hk2, hk, hs2, SharedPtr.refersTo_none]; omega)
  exact ⟨g2, hs2, rfl⟩

theorem Counted.strong_Reset {n : Nat} {m m1 : Mem} {c r d : Nat → Nat}
    {self self1 : SharedPtr} (hg : Counted n m.strongVal c) (hn : n < SIZE_MOD)
    (hss : self.unsound = 0) (hk : ∀ x, c x = r x + self.refersTo x)
    (hop : SharedPtr.Reset m self = some (self1, m1))
    (hk2 : ∀ x, d x = r x + self1.refersTo x) :
    Counted n m1.strongVal d ∧ self1 = ⟨none, Ptr.null⟩ := by
  simp only [SharedPtr.Reset, SharedPtr.ctor_default, SharedPtr.Swap, Option.map_eq_some',
    Prod.mk.injEq] at hop
  obtain ⟨mm, hd, hs, rfl⟩ := hop
  have hd2 : SharedPtr.dtor m self = some mm := by cases self; exact hd
  subst hs
  have g2 := Counted.strong_dtor (d := d) hg hn hss hd2
    (fun x => by simp only [hk2, hk, SharedPtr.refersTo_none]; omega)
  exact ⟨g2, rfl⟩

theorem Counted.strong_Reset_ptr {n : Nat} {m m2 : Mem} {c r d : Nat → Nat}
    {self self1 : SharedPtr} {p : Ptr} (hg : Counted n m.strongVal c)
    (hn : n + 1 < SIZE_MOD) (hss : self.unsound = 0)
    (hk : ∀ x, c x = r x + self.refersTo x)
    (hop : SharedPtr.Reset_ptr m self p = some (self1, m2))
    (hk2 : ∀ x, d x = r x + self1.refersTo x) :
    Counted (n + 1) m2.strongVal d ∧ self1 = ⟨some m.blocks.length, p⟩ := by
  simp only [SharedPtr.Reset_ptr, SharedPtr.ctor_ptr_eq, SharedPtr.Swap, Option.map_eq_some',
    Prod.mk.injEq] at hop
  obtain ⟨mm, hd, hs, rfl⟩ := hop
  have hd2 : SharedPtr.dtor (Mem.mk (m.blocks ++ [some ⟨1, 0, BlockKind.ControlBlock1 p⟩]) m.log)
      self = some mm := by cases self; exact hd
  have g1 := Counted.strong_new
    (d := fun x => c x + (SharedPtr.mk (some m.blocks.length) p).refersTo x)
    (BlockKind.ControlBlock1 p) p hg (fun _ => rfl)
  subst hs
  have g2 := Counted.strong_dtor (d := d) g1 (by omega) hss hd2
    (fun x => by simp only [hk2, hk]; omega)
  exact ⟨g2, rfl⟩
theorem tally_zero_at {α : Type} (f : α → Nat) {l : List (Option α)} {i : Nat} {a : α}
    (h0 : tally f l = 0) (hi : l.getD i none = some a) : f a = 0 := by
  have := tally_set_none f hi
  omega

theorem tally_zero_set {α : Type} (f : α → Nat) {l : List (Option α)} {i : Nat} {a : α}
    (h0 : tally f l = 0) (hi : l.getD i none = some a) (x : α) (hx : f x = 0) :
    tally f (l.set i (some x)) = 0 := by
  have h1 := tally_set_none f hi
  have h2 := tally_set_some f hi x
  omega

theorem tally_zero_set_none {α : Type} (f : α → Nat) {l : List (Option α)} {i : Nat} {a : α}
    (h0 : tally f l = 0) (hi : l.getD i none = some a) :
    tally f (l.set i none) = 0 := by
  have h1 := tally_set_none f hi
  omega

theorem tally_zero_push {α : Type} (f : α → Nat) {l : List (Option α)} {x : α}
    (h0 : tally f l = 0) (hx : f x = 0) : tally f (l ++ [some x]) = 0 := by
  rw [tally_append]; omega

/-- The operations that change the WeakPtr variables leave the SharedPtr
variables and every strong count as they are, and keep every WeakPtr with a
null pointer free of a block reference. -/
theorem step_weak_strong_frame {n : Nat} {s s2 : State} {op : Op} (hw : s.exactWeak n)
    (hn : n + 1 < SIZE_MOD) (hss : tally SharedPtr.unsound s.shared = 0)
    (hsw : tally WeakPtr.unsound s.weak = 0) (hstep : step s op = some s2)
    (hop : ¬ ∀ j, op ≠ Op.weak_copy j ∧ op ≠ Op.weak_move j ∧ op ≠ Op.weak_move_conv j ∧
      op ≠ Op.weak_shared j ∧ op ≠ Op.weak_reset j ∧ op ≠ Op.weak_dtor j ∧
      op ≠ Op.weak_default ∧ ∀ i, op ≠ Op.weak_assign_copy i j ∧
        op ≠ Op.weak_assign_move i j ∧ op ≠ Op.weak_swap i j) :
    s2.shared = s.shared ∧ (∀ x, s2.mem.strongVal x = s.mem.strongVal x) ∧
      tally WeakPtr.unsound s2.weak = 0 := by
  cases op with
  | weak_default =>
    simp only [step, Option.some.injEq] at hstep
    subst hstep
    exact ⟨rfl, fun _ => rfl, tally_zero_push _ hsw (WeakPtr.weak_unsound_none _)⟩
  | weak_copy j =>
    simp only [step] at hstep
    cases hj : s.weakAt j with
    | none => simp [hj] at hstep
    | some other =>
      cases hc : WeakPtr.ctor_copy s.mem other with
      | none => simp [hj, hc] at hstep
      | some q =>
        obtain ⟨w, m1⟩ := q
        simp only [hj, hc, Option.some.injEq] at hstep
        subst hstep
        obtain ⟨_, e, hf, _⟩ := Counted.weak_copy hw hn hc
          (fun x => State.weakRefs_push s w m1 x)
        refine ⟨rfl, hf, tally_zero_push _ hsw ?_⟩
        rw [e]
        exact tally_zero_at _ hsw hj
  | weak_shared j =>
    simp only [step] at hstep
    cases hj : s.sharedAt j with
    | none => simp [hj] at hstep
    | some other =>
      cases hc : WeakPtr.ctor_shared s.mem other with
      | none => simp [hj, hc] at hstep
      | some q =>
        obtain ⟨w, m1⟩ := q
        simp only [hj, hc, Option.some.injEq] at hstep
        subst hstep
        obtain ⟨_, e, hf, _⟩ := Counted.weak_copy hw hn hc
          (fun x => State.weakRefs_push s w m1 x)
        refine ⟨rfl, hf, tally_zero_push _ hsw ?_⟩
        rw [e, WeakPtr.unsound_of_shared]
        exact tally_zero_at _ hss hj
  | weak_move j =>
    simp only [step] at hstep
    cases hj : s.weakAt j with
    | none => simp [hj] at hstep
    | some other =>
      simp only [hj, WeakPtr.ctor_move, WeakPtr.Swap, Option.some.injEq] at hstep
      subst hstep
      refine ⟨rfl, fun _ => rfl, tally_zero_push _ ?_ ?_⟩
      · exact tally_zero_set _ hsw hj _ (WeakPtr.weak_unsound_none _)
      · exact tally_zero_at _ hsw hj
  | weak_move_conv j =>
    simp only [step] at hstep
    cases hj : s.weakAt j with
    | none => simp [hj] at hstep
    | some other =>
      simp only [hj, WeakPtr.ctor_move_conv, Option.some.injEq] at hstep
      subst hstep
      refine ⟨rfl, fun _ => rfl, tally_zero_push _ ?_ ?_⟩
      · exact tally_zero_set _ hsw hj _ (WeakPtr.weak_unsound_none _)
      · exact tally_zero_at _ hsw hj
  | weak_assign_copy i j =>
    simp only [step] at hstep
    cases hi : s.weakAt i with
    | none => simp [hi] at hstep
    | some self =>
      cases hj : s.weakAt j with
      | none => simp [hi, hj] at hstep
      | some other =>
        cases hc : WeakPtr.assign_copy s.mem self other with
        | none => simp [hi, hj, hc] at hstep
        | some q =>
          obtain ⟨self1, m1⟩ := q
          simp only [hi, hj, hc, Option.some.injEq] at hstep
          subst hstep
          obtain ⟨_, e, hf⟩ := Counted.weak_assign_copy hw hn
            (fun x => tally_set_none (WeakPtr.refersTo x) hi) hc
            (fun x => tally_set_some (WeakPtr.refersTo x) hi self1)
          refine ⟨rfl, hf, tally_zero_set _ hsw hi _ ?_⟩
          rw [e]
          exact tally_zero_at _ hsw hj
  | weak_assign_move i j =>
    simp only [step] at hstep
    cases hi : s.weakAt i with
    | none => simp [hi] at hstep
    | some self =>
      cases hj : s.weakAt j with
      | none => simp [hi, hj] at hstep
      | some other =>
        simp only [hi, hj] at hstep
        by_cases hij : i = j
        · simp only [hij, if_true, WeakPtr.weak_assign_move_self_id, Option.some.injEq] at hstep
          subst hstep
          subst hij
          exact ⟨rfl, fun _ => rfl, tally_zero_set _ hsw hi _ (tally_zero_at _ hsw hi)⟩
        · simp only [hij, if_false] at hstep
          cases hc : WeakPtr.assign_move s.mem self other with
          | none => simp [hc] at hstep
          | some q =>
            obtain ⟨self1, other1, m1⟩ := q
            simp only [hc, Option.some.injEq] at hstep
            subst hstep
            have hji : (s.weak.set j (some other1)).getD i none = some self := by
              rw [getD_set _ _ _ _ (getD_lt hj), if_neg (fun e => hij e.symm)]
              exact hi
            have hji0 : (s.weak.set j none).getD i none = some self := by
              rw [getD_set _ _ _ _ (getD_lt hj), if_neg (fun e => hij e.symm)]
              exact hi
            have hij0 : (s.weak.set i none).getD j none = some other := by
              rw [getD_set _ _ _ _ (getD_lt hi), if_neg hij]
              exact hj
            have hcomm : ((s.weak.set j (some other1)).set i none) =
                ((s.weak.set i none).set j (some other1)) :=
              List.set_comm _ _ _ (fun e => hij e.symm)
            have hcomm0 : ((s.weak.set j none).set i none) =
                ((s.weak.set i none).set j none) :=
              List.set_comm _ _ _ (fun e => hij e.symm)
            obtain ⟨_, e1, e2, hf⟩ := Counted.weak_assign_move
              (r := fun x => tally (WeakPtr.refersTo x) ((s.weak.set j none).set i none))
              (d := fun x => tally (WeakPtr.refersTo x)
                ((s.weak.set j (some other1)).set i (some self1)))
              hw (by omega)
              (fun x => by
                have h1 := tally_set_none (WeakPtr.refersTo x) hj
                have h2 := tally_set_none (WeakPtr.refersTo x) hji0
                unfold State.weakRefs
                beta_reduce
                omega) hc
              (fun x => by
                have h4 := tally_set_some (WeakPtr.refersTo x) hji self1
                have h6 := tally_set_some (WeakPtr.refersTo x) hij0 other1
                beta_reduce
                rw [h4, hcomm, h6, hcomm0]
                omega)
            refine ⟨rfl, hf, ?_⟩
            have hz := tally_zero_set _ hsw hj other1 (by rw [e2]; exact WeakPtr.weak_unsound_none _)
            exact tally_zero_set _ hz hji self1 (by rw [e1]; exact tally_zero_at _ hsw hj)
  | weak_reset i =>
    simp only [step] at hstep
    cases hi : s.weakAt i with
    | none => simp [hi] at hstep
    | some self =>
      cases hc : WeakPtr.Reset s.mem self with
      | none => simp [hi, hc] at hstep
      | some q =>
        obtain ⟨self1, m1⟩ := q
        simp only [hi, hc, Option.some.injEq] at hstep
        subst hstep
        obtain ⟨_, e, hf⟩ := Counted.weak_Reset hw (by omega)
          (fun x => tally_set_none (WeakPtr.refersTo x) hi) hc
          (fun x => tally_set_some (WeakPtr.refersTo x) hi self1)
        exact ⟨rfl, hf, tally_zero_set _ hsw hi _ (by rw [e]; exact WeakPtr.weak_unsound_none _)⟩
  | weak_swap i j =>
    simp only [step] at hstep
    cases hi : s.weakAt i with
    | none => simp [hi] at hstep
    | some self =>
      cases hj : s.weakAt j with
      | none => simp [hi, hj] at hstep
      | some other =>
        simp only [hi, hj, WeakPtr.Swap, WeakPtr.weak_mk_eta, Option.some.injEq] at hstep
        subst hstep
        have hji : (s.weak.set i (some other)).getD j none =
            some (if i = j then other else other) := by
          rw [getD_set _ _ _ _ (getD_lt hi)]
          by_cases hij : i = j
          · simp [hij]
          · simp only [hij, if_false]; exact hj
        simp only [ite_self] at hji
        have hz := tally_zero_set _ hsw hi other (tally_zero_at _ hsw hj)
        exact ⟨rfl, fun _ => rfl, tally_zero_set _ hz hji self (tally_zero_at _ hsw hi)⟩
  | weak_dtor i =>
    simp only [step] at hstep
    cases hi : s.weakAt i with
    | none => simp [hi] at hstep
    | some self =>
      cases hc : WeakPtr.dtor s.mem self with
      | none => simp [hi, hc] at hstep
      | some m1 =>
        simp only [hi, hc, Option.some.injEq] at hstep
        subst hstep
        obtain ⟨_, hf⟩ := Counted.weak_dtor hw (by omega) hc
          (fun x => tally_set_none (WeakPtr.refersTo x) hi)
        exact ⟨rfl, hf, tally_zero_set_none _ hsw hi⟩
  | shared_default => exact absurd (fun j => by simp) hop
  | shared_nullptr => exact absurd (fun j => by simp) hop
  | shared_ptr p => exact absurd (fun j => by simp) hop
  | make_shared => exact absurd (fun j => by simp) hop
  | shared_copy k => exact absurd (fun j => by simp) hop
  | shared_move k => exact absurd (fun j => by simp) hop
  | shared_copy_conv k => exact absurd (fun j => by simp) hop
  | shared_move_conv k => exact absurd (fun j => by simp) hop
  | shared_alias k p => exact absurd (fun j => by simp) hop
  | shared_weak k => exact absurd (fun j => by simp) hop
  | shared_assign_copy k l => exact absurd (fun j => by simp) hop
  | shared_assign_move k l => exact absurd (fun j => by simp) hop
  | shared_reset k => exact absurd (fun j => by simp) hop
  | shared_reset_ptr k p => exact absurd (fun j => by simp) hop
  | shared_swap k l => exact absurd (fun j => by simp) hop
  | shared_dtor k => exact absurd (fun j => by simp) hop
  | weak_lock k => exact absurd (fun j => by simp) hop
theorem SharedPtr.mk_eta (h : SharedPtr) : SharedPtr.mk h.block_ h.ptr_ = h := rfl

theorem State.strongRefs_push (s : State) (h : SharedPtr) (m1 : Mem) (x : Nat) :
    (s.pushShared h m1).strongRefs x = s.strongRefs x + h.refersTo x :=
  tally_append _ _ _

/-- The SharedPtr operations, with no null raw pointer, keep every strong
count at the number of SharedPtr variables that reference the block, and keep
every SharedPtr with a null pointer free of a block reference. -/
theorem step_shared_exactStrong {n : Nat} {s s2 : State} {op : Op} (hg : s.exactStrong n)
    (hn : n + 1 < SIZE_MOD) (hnn : op.nonnull = true) (hstep : step s op = some s2)
    (hop : ∀ j, op ≠ Op.weak_copy j ∧ op ≠ Op.weak_move j ∧ op ≠ Op.weak_move_conv j ∧
      op ≠ Op.weak_shared j ∧ op ≠ Op.weak_reset j ∧ op ≠ Op.weak_dtor j ∧
      op ≠ Op.weak_default ∧ ∀ i, op ≠ Op.weak_assign_copy i j ∧
        op ≠ Op.weak_assign_move i j ∧ op ≠ Op.weak_swap i j) :
    tally SharedPtr.unsound s2.shared = 0 ∧ Counted (n + 1) s2.mem.strongVal s2.strongRefs := by
  obtain ⟨hss, hsw, hc⟩ := hg
  cases op with
  | shared_default =>
    simp only [step, Option.some.injEq] at hstep
    subst hstep
    refine ⟨tally_zero_push _ hss (SharedPtr.unsound_none _), ?_⟩
    refine (Counted.same_count hc (fun x => ?_)).bound_mono (Nat.le_succ n)
    rw [State.strongRefs_push]; exact Nat.add_zero _
  | shared_nullptr =>
    simp only [step, Option.some.injEq] at hstep
    subst hstep
    refine ⟨tally_zero_push _ hss (SharedPtr.unsound_none _), ?_⟩
    refine (Counted.same_count hc (fun x => ?_)).bound_mono (Nat.le_succ n)
    rw [State.strongRefs_push]; exact Nat.add_zero _
  | shared_ptr p =>
    have hp : p ≠ Ptr.null := by simpa [Op.nonnull] using hnn
    simp only [step, SharedPtr.ctor_ptr_eq, Option.some.injEq] at hstep
    subst hstep
    exact ⟨tally_zero_push _ hss (SharedPtr.unsound_nonnull hp),
      Counted.strong_new _ p hc (fun x => State.strongRefs_push s _ _ x)⟩
  | make_shared =>
    simp only [step, MakeShared_eq, Option.some.injEq] at hstep
    subst hstep
    exact ⟨tally_zero_push _ hss (SharedPtr.unsound_nonnull (by simp)),
      Counted.strong_new _ _ hc (fun x => State.strongRefs_push s _ _ x)⟩
  | shared_copy j =>
    simp only [step] at hstep
    cases hj : s.sharedAt j with
    | none => simp [hj] at hstep
    | some other =>
      cases hk : SharedPtr.ctor_copy s.mem other with
      | none => simp [hj, hk] at hstep
      | some q =>
        obtain ⟨h, m1⟩ := q
        simp only [hj, hk, Option.some.injEq] at hstep
        subst hstep
        have hso := tally_zero_at _ hss hj
        obtain ⟨g, e⟩ := Counted.strong_copy hc hn hso hk
          (fun x => State.strongRefs_push s h m1 x)
        exact ⟨tally_zero_push _ hss (by rw [e]; exact hso), g⟩
  | shared_copy_conv j =>
    simp only [step] at hstep
    cases hj : s.sharedAt j with
    | none => simp [hj] at hstep
    | some other =>
      cases hk : SharedPtr.ctor_copy_conv s.mem other with
      | none => simp [hj, hk] at hstep
      | some q =>
        obtain ⟨h, m1⟩ := q
        simp only [hj, hk, Option.some.injEq] at hstep
        subst hstep
        have hso := tally_zero_at _ hss hj
        obtain ⟨g, e⟩ := Counted.strong_copy hc hn hso hk
          (fun x => State.strongRefs_push s h m1 x)
        exact ⟨tally_zero_push _ hss (by rw [e]; exact hso), g⟩
  | shared_move j =>
    simp only [step] at hstep
    cases hj : s.sharedAt j with
    | none => simp [hj] at hstep
    | some other =>
      simp only [hj, SharedPtr.ctor_move, SharedPtr.Swap, Option.some.injEq] at hstep
      subst hstep
      refine ⟨tally_zero_push _ (tally_zero_set _ hss hj _ (SharedPtr.unsound_none _))
        (tally_zero_at _ hss hj), ?_⟩
      refine (Counted.same_count hc (fun x => ?_)).bound_mono (Nat.le_succ n)
      have h1 := tally_set_none (SharedPtr.refersTo x) hj
      have h2 := tally_set_some (SharedPtr.refersTo x) hj ⟨none, Ptr.null⟩
      unfold State.strongRefs
      simp only
      rw [tally_append, h2, SharedPtr.refersTo_none, SharedPtr.mk_eta]
      omega
  | shared_move_conv j =>
    simp only [step] at hstep
    cases hj : s.sharedAt j with
    | none => simp [hj] at hstep
    | some other =>
      simp only [hj, SharedPtr.ctor_move_conv, Option.some.injEq] at hstep
      subst hstep
      refine ⟨tally_zero_push _ (tally_zero_set _ hss hj _ (SharedPtr.unsound_none _))
        (tally_zero_at _ hss hj), ?_⟩
      refine (Counted.same_count hc (fun x => ?_)).bound_mono (Nat.le_succ n)
      have h1 := tally_set_none (SharedPtr.refersTo x) hj
      have h2 := tally_set_some (SharedPtr.refersTo x) hj ⟨none, Ptr.null⟩
      unfold State.strongRefs
      simp only
      rw [tally_append, h2, SharedPtr.refersTo_none, SharedPtr.mk_eta]
      omega
  | shared_alias j p =>
    have hp : p ≠ Ptr.null := by simpa [Op.nonnull] using hnn
    simp only [step] at hstep
    cases hj : s.sharedAt j with
    | none => simp [hj] at hstep
    | some other =>
      cases hk : SharedPtr.ctor_alias s.mem other p with
      | none => simp [hj, hk] at hstep
      | some q =>
        obtain ⟨h, m1⟩ := q
        simp only [hj, hk, Option.some.injEq] at hstep
        subst hstep
        obtain ⟨g, e⟩ := Counted.strong_copy hc hn (SharedPtr.unsound_nonnull hp) hk
          (fun x => State.strongRefs_push s h m1 x)
        exact ⟨tally_zero_push _ hss (by rw [e]; exact SharedPtr.unsound_nonnull hp), g⟩
  | shared_weak k =>
    simp only [step] at hstep
    cases hk : s.weakAt k with
    | none => simp [hk] at hstep
    | some w =>
      simp only [hk] at hstep
      cases ho : SharedPtr.ctor_weak s.mem w with
      | undefined => simp [ho] at hstep
      | thrown e m1 =>
        simp only [ho, Option.some.injEq] at hstep
        subst hstep
        have := SharedPtr.ctor_weak_cases.2 e m1 ho
        subst this
        exact ⟨hss, hc.bound_mono (Nat.le_succ n)⟩
      | ok h m1 =>
        simp only [ho, Option.some.injEq] at hstep
        subst hstep
        obtain ⟨e, b, hb, _, hi⟩ := SharedPtr.ctor_weak_cases.1 h m1 ho
        refine ⟨tally_zero_push _ hss ?_, Counted.strong_inc hc hn hi (fun x => ?_)⟩
        · rw [e, SharedPtr.unsound_of_weak]; exact tally_zero_at _ hsw hk
        · rw [State.strongRefs_push, e, hb, SharedPtr.refersTo_some]
  | weak_lock k =>
    simp only [step] at hstep
    cases hk : s.weakAt k with
    | none => simp [hk] at hstep
    | some w =>
      simp only [hk] at hstep
      cases ho : WeakPtr.Lock s.mem w with
      | undefined => simp [ho] at hstep
      | thrown e m1 =>
        simp only [ho, Option.some.injEq] at hstep
        subst hstep
        have := WeakPtr.Lock_cases.2 e m1 ho
        subst this
        exact ⟨hss, hc.bound_mono (Nat.le_succ n)⟩
      | ok h m1 =>
        simp only [ho, Option.some.injEq] at hstep
        subst hstep
        rcases WeakPtr.Lock_cases.1 h m1 ho with ⟨e, em⟩ | ⟨e, b, hb, _, hi⟩
        · subst e; subst em
          refine ⟨tally_zero_push _ hss (SharedPtr.unsound_none _), ?_⟩
          refine (Counted.same_count hc (fun x => ?_)).bound_mono (Nat.le_succ n)
          rw [State.strongRefs_push]; exact Nat.add_zero _
        · refine ⟨tally_zero_push _ hss ?_, Counted.strong_inc hc hn hi (fun x => ?_)⟩
          · rw [e, SharedPtr.unsound_of_weak]; exact tally_zero_at _ hsw hk
          · rw [State.strongRefs_push, e, hb, SharedPtr.refersTo_some]
  | shared_assign_copy i j =>
    simp only [step] at hstep
    cases hi : s.sharedAt i with
    | none => simp [hi] at hstep
    | some self =>
      cases hj : s.sharedAt j with
      | none => simp [hi, hj] at hstep
      | some other =>
        cases hk : SharedPtr.assign_copy s.mem self other with
        | none => simp [hi, hj, hk] at hstep
        | some q =>
          obtain ⟨self1, m1⟩ := q
          simp only [hi, hj, hk, Option.some.injEq] at hstep
          subst hstep
          obtain ⟨g, e⟩ := Counted.strong_assign_copy hc hn (tally_zero_at _ hss hi)
            (tally_zero_at _ hss hj)
            (fun x => tally_set_none (SharedPtr.refersTo x) hi) hk
            (fun x => tally_set_some (SharedPtr.refersTo x) hi self1)
          exact ⟨tally_zero_set _ hss hi _ (by rw [e]; exact tally_zero_at _ hss hj), g⟩
  | shared_assign_move i j =>
    simp only [step] at hstep
    cases hi : s.sharedAt i with
    | none => simp [hi] at hstep
    | some self =>
      cases hj : s.sharedAt j with
      | none => simp [hi, hj] at hstep
      | some other =>
        simp only [hi, hj] at hstep
        by_cases hij : i = j
        · simp only [hij, if_true] at hstep
          cases hk : SharedPtr.assign_move_self s.mem self with
          | none => simp [hk] at hstep
          | some q =>
            obtain ⟨self1, m1⟩ := q
            simp only [hk, Option.some.injEq] at hstep
            subst hstep
            obtain ⟨e1, e2⟩ := SharedPtr.assign_move_self_eq hk
            subst e1; subst e2; subst hij
            refine ⟨tally_zero_set _ hss hi _ (tally_zero_at _ hss hi), ?_⟩
            refine (Counted.same_count hc (fun x => ?_)).bound_mono (Nat.le_succ n)
            have h1 := tally_set_none (SharedPtr.refersTo x) hi
            have h2 := tally_set_some (SharedPtr.refersTo x) hi self1
            unfold State.strongRefs
            simp only
            omega
        · simp only [hij, if_false] at hstep
          cases hk : SharedPtr.assign_move s.mem self other with
          | none => simp [hk] at hstep
          | some q =>
            obtain ⟨self1, other1, m1⟩ := q
            simp only [hk, Option.some.injEq] at hstep
            subst hstep
            have hji : (s.shared.set j (some other1)).getD i none = some self := by
              rw [getD_set _ _ _ _ (getD_lt hj), if_neg (fun e => hij e.symm)]
              exact hi
            have hji0 : (s.shared.set j none).getD i none = some self := by
              rw [getD_set _ _ _ _ (getD_lt hj), if_neg (fun e => hij e.symm)]
              exact hi
            have hij0 : (s.shared.set i none).getD j none = some other := by
              rw [getD_set _ _ _ _ (getD_lt hi), if_neg hij]
              exact hj
            have hcomm : ((s.shared.set j (some other1)).set i none) =
                ((s.shared.set i none).set j (some other1)) :=
              List.set_comm _ _ _ (fun e => hij e.symm)
            have hcomm0 : ((s.shared.set j none).set i none) =
                ((s.shared.set i none).set j none) :=
              List.set_comm _ _ _ (fun e => hij e.symm)
            obtain ⟨g, e1, e2⟩ := Counted.strong_assign_move
              (r := fun x => tally (SharedPtr.refersTo x) ((s.shared.set j none).set i none))
              (d := fun x => tally (SharedPtr.refersTo x)
                ((s.shared.set j (some other1)).set i (some self1)))
              hc (by omega) (tally_zero_at _ hss hi)
              (fun x => by
                have h1 := tally_set_none (SharedPtr.refersTo x) hj
                have h2 := tally_set_none (SharedPtr.refersTo x) hji0
                unfold State.strongRefs
                beta_reduce
                omega) hk
              (fun x => by
                have h4 := tally_set_some (SharedPtr.refersTo x) hji self1
                have h6 := tally_set_some (SharedPtr.refersTo x) hij0 other1
                beta_reduce
                rw [h4, hcomm, h6, hcomm0]
                omega)
            have hz := tally_zero_set _ hss hj other1
              (by rw [e2]; exact SharedPtr.unsound_none _)
            exact ⟨tally_zero_set _ hz hji self1 (by rw [e1]; exact tally_zero_at _ hss hj),
              g.bound_mono (Nat.le_succ n)⟩
  | shared_reset i =>
    simp only [step] at hstep
    cases hi : s.sharedAt i with
    | none => simp [hi] at hstep
    | some self =>
      cases hk : SharedPtr.Reset s.mem self with
      | none => simp [hi, hk] at hstep
      | some q =>
        obtain ⟨self1, m1⟩ := q
        simp only [hi, hk, Option.some.injEq] at hstep
        subst hstep
        obtain ⟨g, e⟩ := Counted.strong_Reset hc (by omega) (tally_zero_at _ hss hi)
          (fun x => tally_set_none (SharedPtr.refersTo x) hi) hk
          (fun x => tally_set_some (SharedPtr.refersTo x) hi self1)
        exact ⟨tally_zero_set _ hss hi _ (by rw [e]; exact SharedPtr.unsound_none _),
          g.bound_mono (Nat.le_succ n)⟩
  | shared_reset_ptr i p =>
    have hp : p ≠ Ptr.null := by simpa [Op.nonnull] using hnn
    simp only [step] at hstep
    cases hi : s.sharedAt i with
    | none => simp [hi] at hstep
    | some self =>
      cases hk : SharedPtr.Reset_ptr s.mem self p with
      | none => simp [hi, hk] at hstep
      | some q =>
        obtain ⟨self1, m1⟩ := q
        simp only [hi, hk, Option.some.injEq] at hstep
        subst hstep
        obtain ⟨g, e⟩ := Counted.strong_Reset_ptr hc hn (tally_zero_at _ hss hi)
          (fun x => tally_set_none (SharedPtr.refersTo x) hi) hk
          (fun x => tally_set_some (SharedPtr.refersTo x) hi self1)
        exact ⟨tally_zero_set _ hss hi _ (by rw [e]; exact SharedPtr.unsound_nonnull hp), g⟩
  | shared_swap i j =>
    simp only [step] at hstep
    cases hi : s.sharedAt i with
    | none => simp [hi] at hstep
    | some self =>
      cases hj : s.sharedAt j with
      | none => simp [hi, hj] at hstep
      | some other =>
        simp only [hi, hj, SharedPtr.Swap, SharedPtr.mk_eta, Option.some.injEq] at hstep
        subst hstep
        have hji : (s.shared.set i (some other)).getD j none =
            some (if i = j then other else other) := by
          rw [getD_set _ _ _ _ (getD_lt hi)]
          by_cases hij : i = j
          · simp [hij]
          · simp only [hij, if_false]; exact hj
        simp only [ite_self] at hji
        have hz := tally_zero_set _ hss hi other (tally_zero_at _ hss hj)
        refine ⟨tally_zero_set _ hz hji self (tally_zero_at _ hss hi), ?_⟩
        refine (Counted.same_count hc (fun x => ?_)).bound_mono (Nat.le_succ n)
        have h1 := tally_set_none (SharedPtr.refersTo x) hi
        have h2 := tally_set_some (SharedPtr.refersTo x) hi other
        have h3 := tally_set_none (SharedPtr.refersTo x) hji
        have h4 := tally_set_some (SharedPtr.refersTo x) hji self
        unfold State.strongRefs
        simp only
        omega
  | shared_dtor i =>
    simp only [step] at hstep
    cases hi : s.sharedAt i with
    | none => simp [hi] at hstep
    | some self =>
      cases hk : SharedPtr.dtor s.mem self with
      | none => simp [hi, hk] at hstep
      | some m1 =>
        simp only [hi, hk, Option.some.injEq] at hstep
        subst hstep
        have g := Counted.strong_dtor hc (by omega) (tally_zero_at _ hss hi) hk
          (fun x => tally_set_none (SharedPtr.refersTo x) hi)
        exact ⟨tally_zero_set_none _ hss hi, g.bound_mono (Nat.le_succ n)⟩
  | weak_default => exact absurd rfl (hop 0).2.2.2.2.2.2.1
  | weak_copy k => exact absurd rfl (hop k).1
  | weak_move k => exact absurd rfl (hop k).2.1
  | weak_move_conv k => exact absurd rfl (hop k).2.2.1
  | weak_shared k => exact absurd rfl (hop k).2.2.2.1
  | weak_reset k => exact absurd rfl (hop k).2.2.2.2.1
  | weak_dtor k => exact absurd rfl (hop k).2.2.2.2.2.1
  | weak_assign_copy i k => exact absurd rfl ((hop k).2.2.2.2.2.2.2 i).1
  | weak_assign_move i k => exact absurd rfl ((hop k).2.2.2.2.2.2.2 i).2.1
  | weak_swap i k => exact absurd rfl ((hop k).2.2.2.2.2.2.2 i).2.2
/-! ## C23: both counts along a program -/

theorem State.init_exactWeak : State.init.exactWeak 0 :=
  ⟨fun _ => Nat.le_refl 0, fun _ => rfl⟩

theorem State.init_exactStrong : State.init.exactStrong 0 :=
  ⟨rfl, rfl, fun _ => Nat.le_refl 0, fun _ => rfl⟩

/-- One operation with no null raw pointer keeps both counts exact. -/
theorem step_exactStrong {n : Nat} {s s2 : State} (op : Op) (hw : s.exactWeak n)
    (hg : s.exactStrong n) (hn : n + 1 < SIZE_MOD) (hnn : op.nonnull = true)
    (hstep : step s op = some s2) : s2.exactStrong (n + 1) := by
  by_cases hop : ∀ j, op ≠ Op.weak_copy j ∧ op ≠ Op.weak_move j ∧ op ≠ Op.weak_move_conv j ∧
      op ≠ Op.weak_shared j ∧ op ≠ Op.weak_reset j ∧ op ≠ Op.weak_dtor j ∧
      op ≠ Op.weak_default ∧ ∀ i, op ≠ Op.weak_assign_copy i j ∧
        op ≠ Op.weak_assign_move i j ∧ op ≠ Op.weak_swap i j
  · obtain ⟨h1, h2⟩ := step_shared_exactStrong hg hn hnn hstep hop
    obtain ⟨e, _⟩ := step_shared_weak_frame hstep hop
    exact ⟨h1, by rw [e]; exact hg.2.1, h2⟩
  · obtain ⟨e, hf, h3⟩ := step_weak_strong_frame hw hn hg.1 hg.2.1 hstep hop
    refine ⟨by rw [e]; exact hg.1, h3, ?_⟩
    have e2 : s2.strongRefs = s.strongRefs := by
      funext x; unfold State.strongRefs; rw [e]
    rw [e2]
    exact (Counted.frame hg.2.2 hf).bound_mono (Nat.le_succ n)

theorem run_exactWeak : ∀ (ops : List Op) (n : Nat) (s s2 : State), s.exactWeak n →
    n + ops.length < SIZE_MOD → run ops s = some s2 → s2.exactWeak (n + ops.length)
  | [], n, s, s2, hg, _, hrun => by
    simp only [run, Option.some.injEq] at hrun
    subst hrun; exact hg
  | op :: ops, n, s, s2, hg, hn, hrun => by
    simp only [run] at hrun
    simp only [List.length_cons] at hn ⊢
    cases hs : step s op with
    | none => simp [hs] at hrun
    | some s1 =>
      simp only [hs] at hrun
      have h1 := step_exactWeak op hg (by omega) hs
      have h2 := run_exactWeak ops (n + 1) s1 s2 h1 (by omega) hrun
      have e : n + (ops.length + 1) = n + 1 + ops.length := by omega
      rw [e]; exact h2

theorem run_exactStrong : ∀ (ops : List Op) (n : Nat) (s s2 : State), s.exactWeak n →
    s.exactStrong n → n + ops.length < SIZE_MOD → (∀ op ∈ ops, op.nonnull = true) →
    run ops s = some s2 → s2.exactStrong (n + ops.length)
  | [], n, s, s2, _, hg, _, _, hrun => by
    simp only [run, Option.some.injEq] at hrun
    subst hrun; exact hg
  | op :: ops, n, s, s2, hw, hg, hn, hnn, hrun => by
    simp only [run] at hrun
    simp only [List.length_cons] at hn ⊢
    cases hs : step s op with
    | none => simp [hs] at hrun
    | some s1 =>
      simp only [hs] at hrun
      have w1 := step_exactWeak op hw (by omega) hs
      have h1 := step_exactStrong op hw hg (by omega) (hnn op (List.mem_cons_self _ _)) hs
      have h2 := run_exactStrong ops (n + 1) s1 s2 w1 h1 (by omega)
        (fun o ho => hnn o (List.mem_cons_of_mem _ ho)) hrun
      have e : n + (ops.length + 1) = n + 1 + ops.length := by omega
      rw [e]; exact h2

/-- The part of the counting invariant that the code keeps. In every state
reached by fewer than 2^64 public operations, the weak count of each allocated
control block is the number of live WeakPtr variables whose block reference is
that block; and when the program passes no null raw pointer to `SharedPtr(T*)`,
`Reset(T*)` and the aliasing constructor, the strong count is the number of
live SharedPtr variables whose block reference is that block. -/
theorem exact_counts (ops : List Op) (s : State) (hrun : run ops State.init = some s)
    (hlen : ops.length < SIZE_MOD) (b : Nat) (blk : BaseBlock)
    (hb : s.mem.block b = some blk) :
    blk.GetWeak = s.weakRefs b ∧
      ((∀ op ∈ ops, op.nonnull = true) → blk.GetShared = s.strongRefs b) := by
  have hw := run_exactWeak ops 0 State.init s State.init_exactWeak (by omega) hrun
  refine ⟨?_, fun hnn => ?_⟩
  · have := hw.2 b
    rw [Mem.weakVal_of_block hb] at this
    exact this
  · have hg := run_exactStrong ops 0 State.init s State.init_exactWeak State.init_exactStrong
      (by omega) hnn hrun
    have := hg.2.2.2 b
    rw [Mem.strongVal_of_block hb] at this
    exact this

/-- The exact counts after `a = MakeShared<T>(); b(a); WeakPtr<T> w(b);` and the
destruction of `a`. -/
theorem exact_counts_example :
    BaseBlock.GetWeak ⟨1, 1, BlockKind.ControlBlock2⟩ =
        State.weakRefs ⟨⟨[some ⟨1, 1, BlockKind.ControlBlock2⟩], []⟩,
          [none, some ⟨some 0, Ptr.storage 0⟩], [some ⟨some 0, Ptr.storage 0⟩]⟩ 0 ∧
      ((∀ op ∈ [Op.make_shared, Op.shared_copy 0, Op.weak_shared 1, Op.shared_dtor 0],
          op.nonnull = true) →
        BaseBlock.GetShared ⟨1, 1, BlockKind.ControlBlock2⟩ =
          State.strongRefs ⟨⟨[some ⟨1, 1, BlockKind.ControlBlock2⟩], []⟩,
            [none, some ⟨some 0, Ptr.storage 0⟩], [some ⟨some 0, Ptr.storage 0⟩]⟩ 0) :=
  exact_counts [Op.make_shared, Op.shared_copy 0, Op.weak_shared 1, Op.shared_dtor 0]
    ⟨⟨[some ⟨1, 1, BlockKind.ControlBlock2⟩], []⟩,
      [none, some ⟨some 0, Ptr.storage 0⟩], [some ⟨some 0, Ptr.storage 0⟩]⟩
    (by decide) (by decide) 0 ⟨1, 1, BlockKind.ControlBlock2⟩ (by decide)

/-! ## C23: a handle with a block and a null pointer is not counted -/

/-- C23 fails on a handle that holds a block and a null pointer. After
`T* p = nullptr; SharedPtr<T> a(p); SharedPtr<T> b(a);` both variables are live
with block reference 0 and the strong count of block 0 is 1: the copy
constructor tests `*this`, that is `ptr_`, before `IncShared`, while
`SharedPtr(T*)` counted the first handle without a test. The same happens
after `a = MakeShared<T>(); SharedPtr<T> b(a, nullptr);` with the aliasing
constructor. So the strong count is not the number of live SharedPtr
variables whose block reference is that block. -/
theorem C23_null_pointer_handle_not_counted :
    (∃ s, run [Op.shared_ptr Ptr.null, Op.shared_copy 0] State.init = some s ∧
      s.shared = [some ⟨some 0, Ptr.null⟩, some ⟨some 0, Ptr.null⟩] ∧
      s.mem.block 0 = some ⟨1, 0, BlockKind.ControlBlock1 Ptr.null⟩ ∧
      s.strongRefs 0 = 2 ∧
      ¬ ∀ b blk, s.mem.block b = some blk → blk.GetShared = s.strongRefs b) ∧
    (∃ s, run [Op.make_shared, Op.shared_alias 0 Ptr.null] State.init = some s ∧
      s.shared = [some ⟨some 0, Ptr.storage 0⟩, some ⟨some 0, Ptr.null⟩] ∧
      s.mem.block 0 = some ⟨1, 0, BlockKind.ControlBlock2⟩ ∧
      s.strongRefs 0 = 2 ∧
      ¬ ∀ b blk, s.mem.block b = some blk → blk.GetShared = s.strongRefs b) := by
  refine ⟨⟨⟨⟨[some ⟨1, 0, BlockKind.ControlBlock1 Ptr.null⟩], []⟩,
      [some ⟨some 0, Ptr.null⟩, some ⟨some 0, Ptr.null⟩], []⟩,
      by decide, rfl, by decide, by decide, fun h => ?_⟩,
    ⟨⟨⟨[some ⟨1, 0, BlockKind.ControlBlock2⟩], []⟩,
      [some ⟨some 0, Ptr.storage 0⟩, some ⟨some 0, Ptr.null⟩], []⟩,
      by decide, rfl, by decide, by decide, fun h => ?_⟩⟩
  · have := h 0 ⟨1, 0, BlockKind.ControlBlock1 Ptr.null⟩ (by decide)
    revert this; decide
  · have := h 0 ⟨1, 0, BlockKind.ControlBlock2⟩ (by decide)
    revert this; decide

/-! ## C7: the pointer of a handle and its block, in programs with no null raw pointer -/

/-- C7, amended. In every state reached from the empty program state by fewer
than `SIZE_MOD` public operations without undefined behaviour, a live
SharedPtr whose stored pointer is non-null has a non-null block reference, the
block is allocated and its strong count is at least 1. When the program
passes no null raw pointer to `SharedPtr(T*)`, to `Reset(T*)` and to the
aliasing constructor, the converse holds too: the stored pointer of a live
SharedPtr is non-null if and only if its block reference is non-null and the
strong count of that block is at least 1. -/
theorem C7_pointer_iff_block (ops : List Op) (s : State)
    (hrun : run ops State.init = some s) (hlen : ops.length < SIZE_MOD)
    (i : Nat) (h : SharedPtr) (hi : s.sharedAt i = some h) :
    (h.ptr_ ≠ Ptr.null →
      ∃ b blk, h.block_ = some b ∧ s.mem.block b = some blk ∧ 1 ≤ blk.counter_shared_) ∧
    ((∀ op ∈ ops, op.nonnull = true) →
      (h.ptr_ ≠ Ptr.null ↔
        ∃ b blk, h.block_ = some b ∧ s.mem.block b = some blk ∧ 1 ≤ blk.counter_shared_)) := by
  have hfwd : h.ptr_ ≠ Ptr.null →
      ∃ b blk, h.block_ = some b ∧ s.mem.block b = some blk ∧ 1 ≤ blk.counter_shared_ := by
    intro hp
    have hg := run_good (n := 0) ops State.init_good (by omega) hrun
    have hpos := owners_pos hi ((SharedPtr.toBool_iff h).2 hp)
    cases hb : h.block_ with
    | none =>
      rw [hb, hg.2.1] at hpos
      exact absurd hpos (Nat.lt_irrefl 0)
    | some b =>
      rw [hb] at hpos
      obtain ⟨blk, h1, h2⟩ := hg.2.2 b hpos
      exact ⟨b, blk, rfl, h1, Nat.le_trans hpos h2⟩
  refine ⟨hfwd, fun hnn => ⟨hfwd, ?_⟩⟩
  rintro ⟨b, blk, hb, _, _⟩ hp
  have hg := run_exactStrong ops 0 State.init s State.init_exactWeak State.init_exactStrong
    (by omega) hnn hrun
  have hz := tally_zero_at SharedPtr.unsound hg.1 hi
  obtain ⟨hbl, hpt⟩ := h
  simp only at hb hp
  subst hb; subst hp
  simp [SharedPtr.unsound] at hz

/-- Witness for C7: the handle returned by `MakeShared`. -/
theorem C7_pointer_iff_block_witness :
    (∃ b blk, (SharedPtr.mk (some 0) (Ptr.storage 0)).block_ = some b ∧
      (Mem.mk [some ⟨1, 0, BlockKind.ControlBlock2⟩] []).block b = some blk ∧
      1 ≤ blk.counter_shared_) ∧
    ((SharedPtr.mk (some 0) (Ptr.storage 0)).ptr_ ≠ Ptr.null ↔
      ∃ b blk, (SharedPtr.mk (some 0) (Ptr.storage 0)).block_ = some b ∧
        (Mem.mk [some ⟨1, 0, BlockKind.ControlBlock2⟩] []).block b = some blk ∧
        1 ≤ blk.counter_shared_) :=
  ⟨(C7_pointer_iff_block [Op.make_shared]
      ⟨⟨[some ⟨1, 0, BlockKind.ControlBlock2⟩], []⟩, [some ⟨some 0, Ptr.storage 0⟩], []⟩
      (by decide) (by decide) 0 ⟨some 0, Ptr.storage 0⟩ (by decide)).1 (by decide),
    (C7_pointer_iff_block [Op.make_shared]
      ⟨⟨[some ⟨1, 0, BlockKind.ControlBlock2⟩], []⟩, [some ⟨some 0, Ptr.storage 0⟩], []⟩
      (by decide) (by decide) 0 ⟨some 0, Ptr.storage 0⟩ (by decide)).2 (by decide)⟩

end SmartPointers
